import Mathlib

/-!
The bimap over two treaps: a pointer-level embedding.

The container of `tasks/bimap-Emgariko` keeps every pair in one `bimap_node`, which is an
element of two intrusive treaps at once (`map_element<Left, left_tag>` and
`map_element<Right, right_tag>`).  The embedding keeps the pointer structure of the source:

* `Ptr` is the address of a `map_element_base` sub-object: the sentinel `fake` of the treap
  of role `tag` inside bimap object `owner`, or the `tag`-role base of the node `node`;
* `Mem` maps every address to its link triple `(par, left, right)`;
* reading or writing through `nullptr` is a fault (`none`), and so is running a loop or a
  recursion for more steps than there are allocated nodes (which only cyclic links can cause).
-/

namespace details

/-- The two roles `left_tag` and `right_tag` of a node. -/
inductive Tag where
  | left_tag
  | right_tag
  deriving DecidableEq, Repr

/-- A `map_element_base*`. -/
inductive Ptr where
  | null
  | fake (tag : Tag) (owner : Nat)
  | elem (tag : Tag) (node : Nat)
  deriving DecidableEq, Repr

/-- The fields of `struct map_element_base`. -/
structure map_element_base where
  par : Ptr
  left : Ptr
  right : Ptr
  deriving DecidableEq, Repr

/-- The link triples of all `map_element_base` objects. -/
abbrev Mem := Ptr → map_element_base

/-- Read access `p->...`; a fault on `nullptr`. -/
def Mem.read (m : Mem) : Ptr → Option map_element_base
  | Ptr.null => none
  | Ptr.fake tag b => some (m (Ptr.fake tag b))
  | Ptr.elem tag n => some (m (Ptr.elem tag n))

/-- Write access to the whole triple of `*p`; a fault on `nullptr`. -/
def Mem.write (m : Mem) (p : Ptr) (e : map_element_base) : Option Mem :=
  match p with
  | Ptr.null => none
  | Ptr.fake tag b => some (Function.update m (Ptr.fake tag b) e)
  | Ptr.elem tag n => some (Function.update m (Ptr.elem tag n) e)

/-- The assignment `p->par = q`. -/
def Mem.set_par (m : Mem) (p q : Ptr) : Option Mem :=
  m.write p ⟨q, (m p).left, (m p).right⟩

/-- The assignment `p->left = q`. -/
def Mem.set_left (m : Mem) (p q : Ptr) : Option Mem :=
  m.write p ⟨(m p).par, q, (m p).right⟩

/-- The assignment `p->right = q`. -/
def Mem.set_right (m : Mem) (p q : Ptr) : Option Mem :=
  m.write p ⟨(m p).par, (m p).left, q⟩

/-- Source: `map_element_base::is_left_son`, `return par->left == this;`. -/
def map_element_base.is_left_son (m : Mem) (this : Ptr) : Option Bool :=
  (m.read this).bind fun e => (m.read e.par).bind fun pe => some (decide (pe.left = this))

/-- Source: `map_element_base::is_right_son`, `return par->right == this;`. -/
def map_element_base.is_right_son (m : Mem) (this : Ptr) : Option Bool :=
  (m.read this).bind fun e => (m.read e.par).bind fun pe => some (decide (pe.right = this))

/-- Source: `map_element_base::adopt`, `par = new_parent;`. -/
def map_element_base.adopt (m : Mem) (this new_parent : Ptr) : Option Mem :=
  m.set_par this new_parent

/-- The call `p->adopt(q)` guarded by `if (p != nullptr)`. -/
def adopt_if (m : Mem) (p q : Ptr) : Option Mem :=
  if p = Ptr.null then some m else map_element_base.adopt m p q

/-- What a member function of `treap<T, Tag, Comparator>` works with: the comparator base, the
address of its own sentinel (`Ptr.fake tag owner`), and the fields `val` and `prior` of the
`map_element<T, Tag>` part of every node. -/
structure treap (T : Type) where
  cmp : T → T → Bool
  tag : Tag
  owner : Nat
  val : Nat → T
  prior : Nat → Nat

variable {T : Type}

/-- Address of the member `fake`. -/
def treap.fake (t : treap T) : Ptr := Ptr.fake t.tag t.owner

/-- Source: `to_derived_ptr` followed by a member access; only an element of this treap's role is
a `map_element<T, Tag>`. -/
def treap.to_derived_ptr (t : treap T) : Ptr → Option Nat
  | Ptr.elem tag n => if tag = t.tag then some n else none
  | _ => none

/-- Reads `to_derived_ptr(p)->val`. -/
def treap.val_at (t : treap T) (p : Ptr) : Option T :=
  (t.to_derived_ptr p).map t.val

/-- Reads `to_derived_ptr(p)->prior`. -/
def treap.prior_at (t : treap T) (p : Ptr) : Option Nat :=
  (t.to_derived_ptr p).map t.prior

/-- Source: `treap::less`. -/
def treap.less (t : treap T) (a b : T) : Bool := t.cmp a b

/-- Source: `treap::greater`. -/
def treap.greater (t : treap T) (a b : T) : Bool := t.cmp b a

/-- Source: `treap::less_or_equal`. -/
def treap.less_or_equal (t : treap T) (a b : T) : Bool := !t.cmp b a

/-- Source: `treap::greater_or_equal`. -/
def treap.greater_or_equal (t : treap T) (a b : T) : Bool := !t.cmp a b

/-- Source: `treap::equal`. -/
def treap.equal (t : treap T) (a b : T) : Bool :=
  t.less_or_equal a b && t.greater_or_equal a b

/-- Source: `treap::empty`, `return fake.left == nullptr;`. -/
def treap.empty (t : treap T) (m : Mem) : Bool := decide ((m t.fake).left = Ptr.null)

/-- Source: `treap::find(T const& val, treap_element_t* node)`. -/
def treap.find_at (t : treap T) (m : Mem) (x : T) : Nat → Ptr → Option Ptr
  | 0, _ => none
  | fuel + 1, node =>
    if node = Ptr.null then some Ptr.null
    else
      (t.val_at node).bind fun v =>
      if t.less v x then treap.find_at t m x fuel (m node).right
      else if t.greater_or_equal x v then some node
      else treap.find_at t m x fuel (m node).left

/-- Source: `treap::find(T const& val)`. -/
def treap.find (t : treap T) (fuel : Nat) (m : Mem) (x : T) : Option Ptr :=
  t.find_at m x fuel (m t.fake).left

/-- Source: `treap::split`; the result is the memory after the call and the returned pair. -/
def treap.split (t : treap T) (x : T) : Nat → Mem → Ptr → Option (Mem × Ptr × Ptr)
  | 0, _, _ => none
  | fuel + 1, m, p =>
    if p = Ptr.null then some (m, Ptr.null, Ptr.null)
    else
      (t.val_at p).bind fun v =>
      if t.less v x then
        (treap.split t x fuel m (m p).right).bind fun tt =>
        (tt.1.set_right p tt.2.1).bind fun m1 =>
        (adopt_if m1 tt.2.2 Ptr.null).bind fun m2 =>
        (adopt_if m2 tt.2.1 p).bind fun m3 =>
        some (m3, p, tt.2.2)
      else
        (treap.split t x fuel m (m p).left).bind fun tt =>
        (tt.1.set_left p tt.2.2).bind fun m1 =>
        (adopt_if m1 tt.2.1 Ptr.null).bind fun m2 =>
        (adopt_if m2 tt.2.2 p).bind fun m3 =>
        some (m3, tt.2.1, p)

/-- Source: `treap::merge`; the result is the memory after the call and the returned root. -/
def treap.merge (t : treap T) : Nat → Mem → Ptr → Ptr → Option (Mem × Ptr)
  | 0, _, _, _ => none
  | fuel + 1, m, t1, t2 =>
    if t1 = Ptr.null then some (m, t2)
    else if t2 = Ptr.null then some (m, t1)
    else
      (t.prior_at t1).bind fun p1 =>
      (t.prior_at t2).bind fun p2 =>
      if p1 > p2 then
        (treap.merge t fuel m (m t1).right t2).bind fun r =>
        (r.1.set_right t1 r.2).bind fun m1 =>
        (adopt_if m1 r.2 t1).bind fun m2 =>
        some (m2, t1)
      else
        (treap.merge t fuel m t1 (m t2).left).bind fun r =>
        (r.1.set_left t2 r.2).bind fun m1 =>
        (adopt_if m1 r.2 t2).bind fun m2 =>
        some (m2, t2)

/-- Source: `treap::insert`. -/
def treap.insert (t : treap T) (fuel : Nat) (m : Mem) (node : Ptr) : Option (Mem × Ptr) :=
  (if t.empty m then m.set_left t.fake node
   else
     (t.val_at node).bind fun x =>
     (t.split x fuel m (m t.fake).left).bind fun s =>
     (t.merge fuel s.1 s.2.1 node).bind fun a =>
     (t.merge fuel a.1 a.2 s.2.2).bind fun b =>
     b.1.set_left t.fake b.2).bind fun m1 =>
  (map_element_base.adopt m1 (m1 t.fake).left t.fake).bind fun m2 =>
  some (m2, node)

/-- Source: `treap::erase(map_element_base* t)`. -/
def treap.erase (t : treap T) (fuel : Nat) (m : Mem) (p : Ptr) : Option Mem :=
  (m.read p).bind fun e =>
  (t.merge fuel m e.left e.right).bind fun r =>
  (if p = (r.1 t.fake).left then r.1.set_left t.fake r.2 else some r.1).bind fun m1 =>
  (adopt_if m1 r.2 (m1 p).par).bind fun m2 =>
  (map_element_base.is_right_son m2 p).bind fun rs =>
  (if rs then m2.set_right (m2 p).par r.2 else m2.set_left (m2 p).par r.2).bind fun m3 =>
  m3.write p ⟨Ptr.null, Ptr.null, Ptr.null⟩

/-- Source: `treap::min(map_element_base const* t)`, the loop `while (ptr->left != nullptr)`. -/
def treap.min_at (m : Mem) : Nat → Ptr → Option Ptr
  | 0, _ => none
  | fuel + 1, ptr =>
    (m.read ptr).bind fun e =>
    if e.left = Ptr.null then some ptr else treap.min_at m fuel e.left

/-- Source: `treap::min()`. -/
def treap.min (t : treap T) (fuel : Nat) (m : Mem) : Option Ptr :=
  treap.min_at m fuel t.fake

end details

namespace bimap
open details

/-- The loop `while (data->left) data = data->left;` of `operator++`. -/
def iterator.down_left (m : Mem) : Nat → Ptr → Option Ptr
  | 0, _ => none
  | fuel + 1, data =>
    (m.read data).bind fun e =>
    if e.left = Ptr.null then some data else iterator.down_left m fuel e.left

/-- The loop `while (data->is_right_son()) data = data->par;` of `operator++`. -/
def iterator.up_right (m : Mem) : Nat → Ptr → Option Ptr
  | 0, _ => none
  | fuel + 1, data =>
    (map_element_base.is_right_son m data).bind fun rs =>
    if rs then iterator.up_right m fuel (m data).par else some data

/-- Source: `bimap::iterator::operator++()`; an iterator is its member `data`. -/
def iterator.incr (m : Mem) (fuel : Nat) (data : Ptr) : Option Ptr :=
  (m.read data).bind fun e =>
  if e.right ≠ Ptr.null then iterator.down_left m fuel e.right
  else
    (map_element_base.is_left_son m data).bind fun ls =>
    if ls then some e.par
    else
      (map_element_base.is_right_son m data).bind fun rs =>
      if rs then
        (iterator.up_right m fuel data).bind fun d =>
        (m.read d).bind fun e1 => some e1.par
      else some data

/-- The role an iterator flips to (`other_tag`). -/
def other_tag : Tag → Tag
  | Tag.left_tag => Tag.right_tag
  | Tag.right_tag => Tag.left_tag

/-- Source: `bimap::iterator::flip` of an iterator of role `tag`: the sentinel (the only object
with `par == nullptr`) yields its `right` link, a node yields its base of the other role. -/
def iterator.flip (m : Mem) (tag : Tag) (data : Ptr) : Option Ptr :=
  (m.read data).bind fun e =>
  if e.par = Ptr.null then some e.right
  else
    match data with
    | Ptr.elem tag1 n => if tag1 = tag then some (Ptr.elem (other_tag tag) n) else none
    | _ => none

/-- The loop `for (it = first; it != last; ++it)`, returning the iterators it visits. -/
def iterator.range (m : Mem) (step : Nat) : Nat → Ptr → Ptr → Option (List Ptr)
  | 0, _, _ => none
  | fuel + 1, first, last =>
    if first = last then some []
    else
      (iterator.incr m step first).bind fun nxt =>
      (iterator.range m step fuel nxt last).bind fun rest => some (first :: rest)

/-- The state of the program: the link triples, the value and priority fields of the two
`map_element` parts of every `bimap_node`, the member `sz` of every bimap object, the number of
nodes handed out by `new` so far, and the generator `details::rnd` as the stream of its outputs
together with the number of outputs consumed.  A `size_t` counter of nodes is a `Nat`: an
increment follows the allocation of a node, which occupies storage of its own, so it cannot
wrap; a decrement at `0`, which `size_t` wraps around, is not modelled (it yields `0`) and
does not occur in a well-formed bimap, where the counter is the number of linked nodes. -/
structure Heap (L R : Type) where
  base : Mem
  lval : Nat → L
  lprior : Nat → Nat
  rval : Nat → R
  rprior : Nat → Nat
  sz : Nat → Nat
  next : Nat
  rnd : Nat → Nat
  drawn : Nat

variable {L R : Type}

/-- Bound on the length of any walk along acyclic links. -/
def Heap.fuel (h : Heap L R) : Nat := h.next + 2

/-- The member `left_treap` of the bimap object `b`. -/
def left_treap (cl : L → L → Bool) (h : Heap L R) (b : Nat) : treap L :=
  ⟨cl, Tag.left_tag, b, h.lval, h.lprior⟩

/-- The member `right_treap` of the bimap object `b`. -/
def right_treap (cr : R → R → Bool) (h : Heap L R) (b : Nat) : treap R :=
  ⟨cr, Tag.right_tag, b, h.rval, h.rprior⟩

/-- Source: the constructor `bimap(CompareLeft, CompareRight)` run on the storage of object
`b`: both sentinels are default constructed and then cross-linked, `sz` is `0`. -/
def ctor (h : Heap L R) (b : Nat) : Heap L R :=
  { h with
    base := Function.update
      (Function.update h.base (Ptr.fake Tag.left_tag b)
        ⟨Ptr.null, Ptr.null, Ptr.fake Tag.right_tag b⟩)
      (Ptr.fake Tag.right_tag b) ⟨Ptr.null, Ptr.null, Ptr.fake Tag.left_tag b⟩
    sz := Function.update h.sz b 0 }

/-- Source: `bimap::end_left`. -/
def end_left (b : Nat) : Ptr := Ptr.fake Tag.left_tag b

/-- Source: `bimap::end_right`. -/
def end_right (b : Nat) : Ptr := Ptr.fake Tag.right_tag b

/-- Source: `bimap::begin_left`. -/
def begin_left (h : Heap L R) (b : Nat) : Option Ptr :=
  treap.min_at h.base h.fuel (end_left b)

/-- Source: `bimap::begin_right`. -/
def begin_right (h : Heap L R) (b : Nat) : Option Ptr :=
  treap.min_at h.base h.fuel (end_right b)

/-- Source: `bimap::size`. -/
def size (h : Heap L R) (b : Nat) : Nat := h.sz b

/-- Source: `bimap::empty`. -/
def empty (h : Heap L R) (b : Nat) : Bool := decide (h.sz b = 0)

/-- Source: `iterator::operator*` of a left iterator. -/
def deref_left (h : Heap L R) : Ptr → Option L
  | Ptr.elem Tag.left_tag n => some (h.lval n)
  | _ => none

/-- Source: `iterator::operator*` of a right iterator. -/
def deref_right (h : Heap L R) : Ptr → Option R
  | Ptr.elem Tag.right_tag n => some (h.rval n)
  | _ => none

/-- Source: `bimap::find_left`. -/
def find_left (cl : L → L → Bool) (h : Heap L R) (b : Nat) (left : L) : Option Ptr :=
  ((left_treap cl h b).find h.fuel h.base left).bind fun ptr =>
  some (if ptr = Ptr.null then end_left b else ptr)

/-- Source: `bimap::find_right`. -/
def find_right (cr : R → R → Bool) (h : Heap L R) (b : Nat) (right : R) : Option Ptr :=
  ((right_treap cr h b).find h.fuel h.base right).bind fun ptr =>
  some (if ptr = Ptr.null then end_right b else ptr)

/-- The expression `new node_t(left, right)`: the left part is constructed first and draws
its priority first; all six links start as `nullptr`. -/
def new_node (h : Heap L R) (left : L) (right : R) : Heap L R :=
  { h with
    base := Function.update
      (Function.update h.base (Ptr.elem Tag.left_tag h.next) ⟨Ptr.null, Ptr.null, Ptr.null⟩)
      (Ptr.elem Tag.right_tag h.next) ⟨Ptr.null, Ptr.null, Ptr.null⟩
    lval := Function.update h.lval h.next left
    lprior := Function.update h.lprior h.next (h.rnd h.drawn % 2 ^ 32)
    rval := Function.update h.rval h.next right
    rprior := Function.update h.rprior h.next (h.rnd (h.drawn + 1) % 2 ^ 32)
    next := h.next + 1
    drawn := h.drawn + 2 }

/-- Source: `bimap::insert`; the result is the state after the call and the returned
iterator. -/
def insert (cl : L → L → Bool) (cr : R → R → Bool) (h : Heap L R) (b : Nat) (left : L)
    (right : R) : Option (Heap L R × Ptr) :=
  ((left_treap cl h b).find h.fuel h.base left).bind fun fl =>
  if fl ≠ Ptr.null then some (h, end_left b)
  else
    ((right_treap cr h b).find h.fuel h.base right).bind fun fr =>
    if fr ≠ Ptr.null then some (h, end_left b)
    else
      let h1 := new_node h left right
      ((left_treap cl h1 b).insert h1.fuel h1.base (Ptr.elem Tag.left_tag h.next)).bind fun a =>
      ((right_treap cr h1 b).insert h1.fuel a.1 (Ptr.elem Tag.right_tag h.next)).bind fun c =>
      some ({ h1 with base := c.1, sz := Function.update h1.sz b (h1.sz b + 1) }, a.2)

/-- Source: `left_base_double_downcast`, `right_base_double_downcast`, `left_base_downcast`
and `right_base_downcast`: the node an element address of role `tag` belongs to. -/
def double_downcast (tag : Tag) : Ptr → Option Nat
  | Ptr.elem tag1 n => if tag1 = tag then some n else none
  | _ => none

/-- Source: `bimap::erase_left(left_iterator)`. -/
def erase_left (cl : L → L → Bool) (cr : R → R → Bool) (h : Heap L R) (b : Nat) (it : Ptr) :
    Option (Heap L R × Ptr) :=
  (iterator.incr h.base h.fuel it).bind fun copy =>
  (double_downcast Tag.left_tag it).bind fun n =>
  ((left_treap cl h b).erase h.fuel h.base it).bind fun m1 =>
  ((right_treap cr h b).erase h.fuel m1 (Ptr.elem Tag.right_tag n)).bind fun m2 =>
  some ({ h with base := m2, sz := Function.update h.sz b (h.sz b - 1) }, copy)

/-- Source: `bimap::erase_right(right_iterator)`. -/
def erase_right (cl : L → L → Bool) (cr : R → R → Bool) (h : Heap L R) (b : Nat) (it : Ptr) :
    Option (Heap L R × Ptr) :=
  (iterator.incr h.base h.fuel it).bind fun copy =>
  (double_downcast Tag.right_tag it).bind fun n =>
  ((left_treap cl h b).erase h.fuel h.base (Ptr.elem Tag.left_tag n)).bind fun m1 =>
  ((right_treap cr h b).erase h.fuel m1 it).bind fun m2 =>
  some ({ h with base := m2, sz := Function.update h.sz b (h.sz b - 1) }, copy)

/-- Source: the loop `while (first != last) { erase_left(first++); }` of
`bimap::erase_left(left_iterator, left_iterator)`; `first++` steps `first` before the call
and passes the old position. -/
def erase_left_loop (cl : L → L → Bool) (cr : R → R → Bool) (b : Nat) :
    Nat → Heap L R → Ptr → Ptr → Option (Heap L R × Ptr)
  | 0, _, _, _ => none
  | fuel + 1, h, first, last =>
    if first = last then some (h, first)
    else
      (iterator.incr h.base h.fuel first).bind fun nxt =>
      (erase_left cl cr h b first).bind fun r => erase_left_loop cl cr b fuel r.1 nxt last

/-- Source: `bimap::erase_left(left_iterator first, left_iterator last)`. -/
def erase_left_range (cl : L → L → Bool) (cr : R → R → Bool) (h : Heap L R) (b : Nat)
    (first last : Ptr) : Option (Heap L R × Ptr) :=
  erase_left_loop cl cr b h.fuel h first last

/-- Source: the loop `while (first != last) { erase_right(first++); }` of
`bimap::erase_right(right_iterator, right_iterator)`. -/
def erase_right_loop (cl : L → L → Bool) (cr : R → R → Bool) (b : Nat) :
    Nat → Heap L R → Ptr → Ptr → Option (Heap L R × Ptr)
  | 0, _, _, _ => none
  | fuel + 1, h, first, last =>
    if first = last then some (h, first)
    else
      (iterator.incr h.base h.fuel first).bind fun nxt =>
      (erase_right cl cr h b first).bind fun r => erase_right_loop cl cr b fuel r.1 nxt last

/-- Source: `bimap::erase_right(right_iterator first, right_iterator last)`. -/
def erase_right_range (cl : L → L → Bool) (cr : R → R → Bool) (h : Heap L R) (b : Nat)
    (first last : Ptr) : Option (Heap L R × Ptr) :=
  erase_right_loop cl cr b h.fuel h first last

/-- Source: `bimap::erase_left(left_t const&)`. -/
def erase_left_key (cl : L → L → Bool) (cr : R → R → Bool) (h : Heap L R) (b : Nat)
    (left : L) : Option (Heap L R × Bool) :=
  (find_left cl h b left).bind fun it =>
  if it = end_left b then some (h, false)
  else (erase_left cl cr h b it).bind fun r => some (r.1, true)

/-- Source: `bimap::erase_right(right_t const&)`. -/
def erase_right_key (cl : L → L → Bool) (cr : R → R → Bool) (h : Heap L R) (b : Nat)
    (right : R) : Option (Heap L R × Bool) :=
  (find_right cr h b right).bind fun it =>
  if it = end_right b then some (h, false)
  else (erase_right cl cr h b it).bind fun r => some (r.1, true)

/-- Source: `bimap::at_left`; `Except.error` is the thrown `std::out_of_range`. -/
def at_left (cl : L → L → Bool) (h : Heap L R) (b : Nat) (key : L) :
    Option (Except String R) :=
  (find_left cl h b key).bind fun it =>
  if it ≠ end_left b then
    (iterator.flip h.base Tag.left_tag it).bind fun r =>
    (deref_right h r).bind fun v => some (Except.ok v)
  else some (Except.error "no such element")

/-- Source: `bimap::at_right`; `Except.error` is the thrown `std::out_of_range`. -/
def at_right (cr : R → R → Bool) (h : Heap L R) (b : Nat) (key : R) :
    Option (Except String L) :=
  (find_right cr h b key).bind fun it =>
  if it ≠ end_right b then
    (iterator.flip h.base Tag.right_tag it).bind fun l =>
    (deref_left h l).bind fun v => some (Except.ok v)
  else some (Except.error "no such element")

/-- Source: `bimap::at_left_or_default`; `default` is `right_t()`. -/
def at_left_or_default [Inhabited R] (cl : L → L → Bool) (cr : R → R → Bool) (h : Heap L R)
    (b : Nat) (key : L) : Option (Heap L R × R) :=
  (find_left cl h b key).bind fun lit =>
  if lit ≠ end_left b then
    (iterator.flip h.base Tag.left_tag lit).bind fun r =>
    (deref_right h r).bind fun v => some (h, v)
  else
    (find_right cr h b default).bind fun rit =>
    if rit ≠ end_right b then
      (iterator.flip h.base Tag.right_tag rit).bind fun lit1 =>
      ((left_treap cl h b).erase h.fuel h.base lit1).bind fun m1 =>
      (double_downcast Tag.left_tag lit1).bind fun n =>
      let h1 : Heap L R := { h with base := m1, lval := Function.update h.lval n key }
      ((left_treap cl h1 b).insert h1.fuel h1.base lit1).bind fun a =>
      let h2 : Heap L R := { h1 with base := a.1 }
      (deref_right h2 rit).bind fun v => some (h2, v)
    else
      (insert cl cr h b key default).bind fun a =>
      (iterator.flip a.1.base Tag.left_tag a.2).bind fun r =>
      (deref_right a.1 r).bind fun v => some (a.1, v)

/-- Source: `bimap::at_right_or_default`; `default` is `left_t()`. -/
def at_right_or_default [Inhabited L] (cl : L → L → Bool) (cr : R → R → Bool) (h : Heap L R)
    (b : Nat) (key : R) : Option (Heap L R × L) :=
  (find_right cr h b key).bind fun rit =>
  if rit ≠ end_right b then
    (iterator.flip h.base Tag.right_tag rit).bind fun l =>
    (deref_left h l).bind fun v => some (h, v)
  else
    (find_left cl h b default).bind fun lit =>
    if lit ≠ end_left b then
      (iterator.flip h.base Tag.left_tag lit).bind fun rit1 =>
      ((right_treap cr h b).erase h.fuel h.base rit1).bind fun m1 =>
      (double_downcast Tag.right_tag rit1).bind fun n =>
      let h1 : Heap L R := { h with base := m1, rval := Function.update h.rval n key }
      ((right_treap cr h1 b).insert h1.fuel h1.base rit1).bind fun a =>
      let h2 : Heap L R := { h1 with base := a.1 }
      (deref_left h2 lit).bind fun v => some (h2, v)
    else
      (insert cl cr h b default key).bind fun a =>
      (deref_left a.1 a.2).bind fun v => some (a.1, v)

/-- The iterators visited by `for (it = begin_left(); it != end_left(); ++it)`. -/
def left_range (h : Heap L R) (b : Nat) : Option (List Ptr) :=
  (begin_left h b).bind fun first => iterator.range h.base h.fuel h.fuel first (end_left b)

/-- The iterators visited by `for (it = begin_right(); it != end_right(); ++it)`. -/
def right_range (h : Heap L R) (b : Nat) : Option (List Ptr) :=
  (begin_right h b).bind fun first => iterator.range h.base h.fuel h.fuel first (end_right b)

/-- The pair `(*it, *it.flip())` seen through a left iterator. -/
def left_pair (h : Heap L R) (it : Ptr) : Option (L × R) :=
  (deref_left h it).bind fun l =>
  (iterator.flip h.base Tag.left_tag it).bind fun r =>
  (deref_right h r).bind fun v => some (l, v)

/-- The pair `(*it.flip(), *it)` seen through a right iterator. -/
def right_pair (h : Heap L R) (it : Ptr) : Option (L × R) :=
  (deref_right h it).bind fun r =>
  (iterator.flip h.base Tag.right_tag it).bind fun l =>
  (deref_left h l).bind fun v => some (v, r)

/-- The pairs in left order, read off by forward iteration. -/
def left_pairs (h : Heap L R) (b : Nat) : Option (List (L × R)) :=
  (left_range h b).bind fun its => its.mapM (left_pair h)

/-- The pairs in right order, read off by forward iteration. -/
def right_pairs (h : Heap L R) (b : Nat) : Option (List (L × R)) :=
  (right_range h b).bind fun its => its.mapM (right_pair h)

/-- A valid iterator range `[first, last)` of a sequence of positions `its` that ends at
`fin`: `first` and `last` are positions of the sequence or `fin`, `last` not before `first`. -/
def valid_range (its : List Ptr) (fin first last : Ptr) : Prop :=
  ∃ l1 l2 l3, its = l1 ++ l2 ++ l3 ∧ first = (l2 ++ l3).headD fin ∧ last = l3.headD fin

/-- A state with no object constructed yet. -/
def Heap.blank (lv : L) (rv : R) (rnd : Nat → Nat) : Heap L R :=
  ⟨fun _ => ⟨Ptr.null, Ptr.null, Ptr.null⟩, fun _ => lv, fun _ => 0, fun _ => rv, fun _ => 0,
    fun _ => 0, 0, rnd, 0⟩

end bimap

namespace details

/-- A binary tree of nodes, by node number. -/
inductive Shape where
  | nil
  | node (l : Shape) (n : Nat) (r : Shape)
  deriving DecidableEq, Repr

/-- In-order sequence of the node numbers. -/
def Shape.toList : Shape → List Nat
  | Shape.nil => []
  | Shape.node l n r => l.toList ++ n :: r.toList

/-- Number of nodes. -/
def Shape.size : Shape → Nat
  | Shape.nil => 0
  | Shape.node l _ r => l.size + 1 + r.size

/-- Address of the root element in role `tag`; `nullptr` for the empty tree. -/
def Shape.root (tag : Tag) : Shape → Ptr
  | Shape.nil => Ptr.null
  | Shape.node _ n _ => Ptr.elem tag n

/-- The links of role `tag` spell out the tree `t` below the parent address `q`: every node
points to the roots of its subtrees and to its parent. -/
def Linked (m : Mem) (tag : Tag) : Shape → Ptr → Prop
  | Shape.nil, _ => True
  | Shape.node l n r, q =>
    (m (Ptr.elem tag n)).par = q ∧ (m (Ptr.elem tag n)).left = l.root tag ∧
    (m (Ptr.elem tag n)).right = r.root tag ∧
    Linked m tag l (Ptr.elem tag n) ∧ Linked m tag r (Ptr.elem tag n)

/-- As `Linked`, with the parent link of the root left open (the state between a `split` or
`merge` and the caller's `adopt`). -/
def LinkedU (m : Mem) (tag : Tag) : Shape → Prop
  | Shape.nil => True
  | Shape.node l n r =>
    (m (Ptr.elem tag n)).left = l.root tag ∧ (m (Ptr.elem tag n)).right = r.root tag ∧
    Linked m tag l (Ptr.elem tag n) ∧ Linked m tag r (Ptr.elem tag n)

/-- The tree `treap::merge` builds from the trees of its two arguments. -/
def Shape.merge (prior : Nat → Nat) : Shape → Shape → Shape
  | Shape.nil, t2 => t2
  | Shape.node l1 n1 r1, Shape.nil => Shape.node l1 n1 r1
  | Shape.node l1 n1 r1, Shape.node l2 n2 r2 =>
    if prior n1 > prior n2 then Shape.node l1 n1 (Shape.merge prior r1 (Shape.node l2 n2 r2))
    else Shape.node (Shape.merge prior (Shape.node l1 n1 r1) l2) n2 r2
termination_by a b => a.size + b.size
decreasing_by
  all_goals simp_wf
  all_goals simp only [Shape.size]
  all_goals omega

/-- The two trees `treap::split` builds; `lt n` says that the key of node `n` is less than
the splitting key. -/
def Shape.split (lt : Nat → Bool) : Shape → Shape × Shape
  | Shape.nil => (Shape.nil, Shape.nil)
  | Shape.node l n r =>
    if lt n then (Shape.node l n (Shape.split lt r).1, (Shape.split lt r).2)
    else ((Shape.split lt l).1, Shape.node (Shape.split lt l).2 n r)

/-- The tree `treap::insert` builds for the new node `n`. -/
def Shape.insert (prior : Nat → Nat) (lt : Nat → Bool) (t : Shape) (n : Nat) : Shape :=
  match t with
  | Shape.nil => Shape.node Shape.nil n Shape.nil
  | t =>
    Shape.merge prior (Shape.merge prior (Shape.split lt t).1 (Shape.node Shape.nil n Shape.nil))
      (Shape.split lt t).2

/-- The tree `treap::erase(map_element_base*)` leaves when it unlinks node `n`. -/
def Shape.erase (prior : Nat → Nat) (n : Nat) : Shape → Shape
  | Shape.nil => Shape.nil
  | Shape.node l k r =>
    if k = n then Shape.merge prior l r
    else Shape.node (Shape.erase prior n l) k (Shape.erase prior n r)

/-- The address of the first element of a sequence of nodes, or `fin` when there is none. -/
def first_or (tag : Tag) (fin : Ptr) : List Nat → Ptr
  | [] => fin
  | x :: _ => Ptr.elem tag x

/-- Stepping with `operator++` from the first element of the sequence visits its elements in
order and then arrives at `fin`. -/
def Visits (m : Mem) (tag : Tag) (step : Nat) : List Nat → Ptr → Prop
  | [], _ => True
  | x :: rest, fin =>
    bimap.iterator.incr m step (Ptr.elem tag x) = some (first_or tag fin rest) ∧
      Visits m tag step rest fin

/-- The requirements on a comparator (the named requirement `Compare`): a strict weak order. -/
structure StrictWeakOrder (c : T → T → Bool) : Prop where
  irrefl : ∀ a, c a a = false
  trans : ∀ x y z, c x y = true → c y z = true → c x z = true
  weak : ∀ x y z, c x y = true → c x z = true ∨ c z y = true

/-- Equivalence of two keys under a comparator: neither is less than the other. -/
def equiv (c : T → T → Bool) (a b : T) : Bool := !c a b && !c b a

/-- The sentinel of `t` is intact and its tree is `tr`: the sentinel has no parent, its left
link is the root, the links below spell out `tr`, no node occurs twice, and the keys increase
strictly along the in-order sequence. -/
structure TreapInv (t : treap T) (m : Mem) (tr : Shape) : Prop where
  fake_par : (m t.fake).par = Ptr.null
  fake_left : (m t.fake).left = tr.root t.tag
  linked : Linked m t.tag tr t.fake
  nodup : tr.toList.Nodup
  sorted : tr.toList.Pairwise (fun i j => t.cmp (t.val i) (t.val j) = true)

end details

namespace bimap
open details

variable {L R : Type}

/-- Both treaps of the bimap object `b` are intact, with left tree `tl` and right tree `tr`,
the sentinels reference each other and all nodes of the trees are allocated. -/
structure Links (cl : L → L → Bool) (cr : R → R → Bool) (h : Heap L R) (b : Nat)
    (tl tr : Shape) : Prop where
  left_inv : TreapInv (left_treap cl h b) h.base tl
  right_inv : TreapInv (right_treap cr h b) h.base tr
  left_cross : (h.base (end_left b)).right = end_right b
  right_cross : (h.base (end_right b)).right = end_left b
  left_alloc : ∀ n ∈ tl.toList, n < h.next
  right_alloc : ∀ n ∈ tr.toList, n < h.next

/-- The bimap object `b` of state `h` is well formed, with left tree `tl` and right tree `tr`:
both treaps are intact, the two trees hold the same nodes and `sz` counts them. -/
structure Abs (cl : L → L → Bool) (cr : R → R → Bool) (h : Heap L R) (b : Nat)
    (tl tr : Shape) : Prop where
  links : Links cl cr h b tl tr
  same : tl.toList.Perm tr.toList
  count : h.sz b = tl.toList.length

/-- Well-formed bimap object. -/
def WF (cl : L → L → Bool) (cr : R → R → Bool) (h : Heap L R) (b : Nat) : Prop :=
  ∃ tl tr, Abs cl cr h b tl tr

/-- The states of the bimap object `b` after its construction and any sequence of calls of
`insert`, `erase_left`, `erase_right` (by iterator, by key or by range), `at_left_or_default`
and `at_right_or_default`; an iterator argument is a non-end iterator of `b`, a range argument
is a valid range of `b`. -/
inductive Reachable [Inhabited L] [Inhabited R] (cl : L → L → Bool) (cr : R → R → Bool)
    (b : Nat) : Heap L R → Prop where
  | ctor (h0 : Heap L R) : Reachable cl cr b (ctor h0 b)
  | insert {h h1 : Heap L R} {it : Ptr} (l : L) (r : R) : Reachable cl cr b h →
      insert cl cr h b l r = some (h1, it) → Reachable cl cr b h1
  | erase_left {h h1 : Heap L R} {its : List Ptr} {it nxt : Ptr} : Reachable cl cr b h →
      left_range h b = some its → it ∈ its →
      erase_left cl cr h b it = some (h1, nxt) → Reachable cl cr b h1
  | erase_right {h h1 : Heap L R} {its : List Ptr} {it nxt : Ptr} : Reachable cl cr b h →
      right_range h b = some its → it ∈ its →
      erase_right cl cr h b it = some (h1, nxt) → Reachable cl cr b h1
  | erase_left_key {h h1 : Heap L R} {found : Bool} (l : L) : Reachable cl cr b h →
      erase_left_key cl cr h b l = some (h1, found) → Reachable cl cr b h1
  | erase_right_key {h h1 : Heap L R} {found : Bool} (r : R) : Reachable cl cr b h →
      erase_right_key cl cr h b r = some (h1, found) → Reachable cl cr b h1
  | erase_left_range {h h1 : Heap L R} {its : List Ptr} {first last it : Ptr} :
      Reachable cl cr b h → left_range h b = some its →
      valid_range its (end_left b) first last →
      erase_left_range cl cr h b first last = some (h1, it) → Reachable cl cr b h1
  | erase_right_range {h h1 : Heap L R} {its : List Ptr} {first last it : Ptr} :
      Reachable cl cr b h → right_range h b = some its →
      valid_range its (end_right b) first last →
      erase_right_range cl cr h b first last = some (h1, it) → Reachable cl cr b h1
  | at_left_or_default {h h1 : Heap L R} {v : R} (key : L) : Reachable cl cr b h →
      at_left_or_default cl cr h b key = some (h1, v) → Reachable cl cr b h1
  | at_right_or_default {h h1 : Heap L R} {v : L} (key : R) : Reachable cl cr b h →
      at_right_or_default cl cr h b key = some (h1, v) → Reachable cl cr b h1

/-! ### A concrete instance: `bimap<int, int>` with `std::less` -/

/-- The comparator `std::less` on numbers. -/
def nat_less (a b : Nat) : Bool := decide (a < b)

/-- Some stream of generator outputs. -/
def demo_rnd (i : Nat) : Nat := (i * 7919 + 13) % 101

/-- A freshly constructed bimap object at address `0`. -/
def demo0 : Heap Nat Nat := ctor (Heap.blank 0 0 demo_rnd) 0

/-- The state after a call of `insert` on object `0`. -/
def demo_insert (h : Heap Nat Nat) (l r : Nat) : Heap Nat Nat :=
  match insert nat_less nat_less h 0 l r with
  | some p => p.1
  | none => h

/-- Object `0` after `insert(5, 50)`. -/
def demo1 : Heap Nat Nat := demo_insert demo0 5 50

/-- Object `0` after `insert(5, 50)` and `insert(3, 0)`. -/
def demo2 : Heap Nat Nat := demo_insert demo1 3 0

/-- Object `0` after `insert(5, 50)`, `insert(3, 0)` and `insert(9, 20)`. -/
def demo3 : Heap Nat Nat := demo_insert demo2 9 20

end bimap

namespace details

variable {T : Type}

/-- Source: the loop of `treap::bound`, with the candidate `possible_answer` and the cursor
`cur`. -/
def treap.bound_loop (t : treap T) (m : Mem) (x : T) (check_bound : T → T → Bool) :
    Nat → Ptr → Ptr → Option Ptr
  | 0, _, _ => none
  | fuel + 1, possible_answer, cur =>
    if cur = Ptr.null then some possible_answer
    else
      (t.val_at cur).bind fun v =>
      if check_bound x v then treap.bound_loop t m x check_bound fuel possible_answer (m cur).right
      else treap.bound_loop t m x check_bound fuel cur (m cur).left

/-- Source: `treap::bound`. -/
def treap.bound (t : treap T) (fuel : Nat) (m : Mem) (x : T) (check_bound : T → T → Bool) :
    Option Ptr :=
  t.bound_loop m x check_bound fuel t.fake (m t.fake).left

/-- Source: `treap::lower_bound`, `bound` with the check `greater(a, b)`. -/
def treap.lower_bound (t : treap T) (fuel : Nat) (m : Mem) (x : T) : Option Ptr :=
  t.bound fuel m x fun a b => t.greater a b

/-- Source: `treap::upper_bound`, `bound` with the check `greater_or_equal(a, b)`. -/
def treap.upper_bound (t : treap T) (fuel : Nat) (m : Mem) (x : T) : Option Ptr :=
  t.bound fuel m x fun a b => t.greater_or_equal a b

/-- The exchange `std::swap(p->right, q->right)`: the first value is saved, the second is
assigned to the first place, the saved one to the second place. -/
def Mem.swap_right (m : Mem) (p q : Ptr) : Option Mem :=
  (m.read p).bind fun ep =>
  (m.read q).bind fun eq =>
  (m.set_right p eq.right).bind fun m1 => m1.set_right q ep.right

/-- The exchange `std::swap(p->left, q->left)`. -/
def Mem.swap_left (m : Mem) (p q : Ptr) : Option Mem :=
  (m.read p).bind fun ep =>
  (m.read q).bind fun eq =>
  (m.set_left p eq.left).bind fun m1 => m1.set_left q ep.left

/-- Source: `treap::swap_fake(a, b)`. -/
def treap.swap_fake (m : Mem) (a b : Ptr) : Option Mem :=
  (m.swap_right a b).bind fun m1 =>
  (m1.swap_right (m1 a).right (m1 b).right).bind fun m2 =>
  (m2.swap_left a b).bind fun m3 =>
  (if (m3 a).left ≠ Ptr.null then m3.set_par (m3 a).left a else some m3).bind fun m4 =>
  if (m4 b).left ≠ Ptr.null then m4.set_par (m4 b).left b else some m4

/-- Source: `treap::swap`; the comparator objects are stateless, exchanging them changes
nothing. -/
def treap.swap (m : Mem) (tag : Tag) (this other : Nat) : Option Mem :=
  treap.swap_fake m (Ptr.fake tag this) (Ptr.fake tag other)

end details

namespace bimap
open details

variable {L R : Type}

/-- The loop `while (data->right) data = data->right;` of `operator--`. -/
def iterator.down_right (m : Mem) : Nat → Ptr → Option Ptr
  | 0, _ => none
  | fuel + 1, data =>
    (m.read data).bind fun e =>
    if e.right = Ptr.null then some data else iterator.down_right m fuel e.right

/-- The loop `while (data->is_left_son()) data = data->par;` of `operator--`. -/
def iterator.up_left (m : Mem) : Nat → Ptr → Option Ptr
  | 0, _ => none
  | fuel + 1, data =>
    (map_element_base.is_left_son m data).bind fun ls =>
    if ls then iterator.up_left m fuel (m data).par else some data

/-- Source: `bimap::iterator::operator--()`. -/
def iterator.decr (m : Mem) (fuel : Nat) (data : Ptr) : Option Ptr :=
  (m.read data).bind fun e =>
  if e.left ≠ Ptr.null then iterator.down_right m fuel e.left
  else
    (map_element_base.is_right_son m data).bind fun rs =>
    if rs then some e.par
    else
      (iterator.up_left m fuel data).bind fun d =>
      (m.read d).bind fun e1 => some e1.par

/-- The iterator after `k` applications of `operator++`. -/
def iterator.advance (m : Mem) (fuel : Nat) : Nat → Ptr → Option Ptr
  | 0, it => some it
  | k + 1, it => (iterator.incr m fuel it).bind (iterator.advance m fuel k)

/-- The iterator after `k` applications of `operator--`. -/
def iterator.retreat (m : Mem) (fuel : Nat) : Nat → Ptr → Option Ptr
  | 0, it => some it
  | k + 1, it => (iterator.decr m fuel it).bind (iterator.retreat m fuel k)

/-- Source: `bimap::lower_bound_left`. -/
def lower_bound_left (cl : L → L → Bool) (h : Heap L R) (b : Nat) (left : L) : Option Ptr :=
  (left_treap cl h b).lower_bound h.fuel h.base left

/-- Source: `bimap::upper_bound_left`. -/
def upper_bound_left (cl : L → L → Bool) (h : Heap L R) (b : Nat) (left : L) : Option Ptr :=
  (left_treap cl h b).upper_bound h.fuel h.base left

/-- Source: `bimap::lower_bound_right`. -/
def lower_bound_right (cr : R → R → Bool) (h : Heap L R) (b : Nat) (right : R) : Option Ptr :=
  (right_treap cr h b).lower_bound h.fuel h.base right

/-- Source: `bimap::upper_bound_right`. -/
def upper_bound_right (cr : R → R → Bool) (h : Heap L R) (b : Nat) (right : R) : Option Ptr :=
  (right_treap cr h b).upper_bound h.fuel h.base right

/-- Source: the loop of `operator==(bimap const& a, bimap const& b)` with the cursors `a_lit`,
`b_lit` and the bound `a_end`; the right values are compared only when the left values are
equal (`&&`). -/
def eq_loop (cl : L → L → Bool) (cr : R → R → Bool) (h : Heap L R) (a : Nat) :
    Nat → Ptr → Ptr → Ptr → Option Bool
  | 0, _, _, _ => none
  | fuel + 1, a_lit, b_lit, a_end =>
    if a_lit = a_end then some true
    else
      (deref_left h a_lit).bind fun la =>
      (deref_left h b_lit).bind fun lb =>
      (if (left_treap cl h a).equal la lb then
        (iterator.flip h.base Tag.left_tag a_lit).bind fun fa =>
        (deref_right h fa).bind fun ra =>
        (iterator.flip h.base Tag.left_tag b_lit).bind fun fb =>
        (deref_right h fb).bind fun rb => some ((right_treap cr h a).equal ra rb)
       else some false).bind fun same =>
      if same then
        (iterator.incr h.base h.fuel a_lit).bind fun a1 =>
        (iterator.incr h.base h.fuel b_lit).bind fun b1 => eq_loop cl cr h a fuel a1 b1 a_end
      else some false

/-- Source: `operator==(bimap const& a, bimap const& b)`. -/
def op_eq (cl : L → L → Bool) (cr : R → R → Bool) (h : Heap L R) (a b : Nat) : Option Bool :=
  if h.sz a ≠ h.sz b then some false
  else
    (begin_left h a).bind fun a_lit =>
    (begin_left h b).bind fun b_lit => eq_loop cl cr h a h.fuel a_lit b_lit (end_left a)

/-- Source: `operator!=(bimap const& a, bimap const& b)`, `return !(a == b);`. -/
def op_ne (cl : L → L → Bool) (cr : R → R → Bool) (h : Heap L R) (a b : Nat) : Option Bool :=
  (op_eq cl cr h a b).map fun r => !r

/-- Source: `bimap::swap`. -/
def swap (h : Heap L R) (this other : Nat) : Option (Heap L R) :=
  (treap.swap h.base Tag.left_tag this other).bind fun m1 =>
  (treap.swap m1 Tag.right_tag this other).bind fun m2 =>
  some { h with
    base := m2
    sz := Function.update (Function.update h.sz this (h.sz other)) other (h.sz this) }

/-- Source: the loop of the copy constructor `bimap(bimap const& other)`:
`for (lit = other.begin_left(); lit != other.end_left(); ++lit) insert(*lit, *lit.flip());`
from the position `lit` on. -/
def copy_loop (cl : L → L → Bool) (cr : R → R → Bool) (this other : Nat) :
    Nat → Heap L R → Ptr → Option (Heap L R)
  | 0, _, _ => none
  | fuel + 1, h, lit =>
    if lit = end_left other then some h
    else
      (deref_left h lit).bind fun l =>
      (iterator.flip h.base Tag.left_tag lit).bind fun f =>
      (deref_right h f).bind fun r =>
      (insert cl cr h this l r).bind fun a =>
      (iterator.incr a.1.base a.1.fuel lit).bind fun nxt =>
      copy_loop cl cr this other fuel a.1 nxt

/-- Source: the copy constructor `bimap(bimap const& other)` run on the storage of object
`this`. -/
def copy_ctor (cl : L → L → Bool) (cr : R → R → Bool) (h : Heap L R) (this other : Nat) :
    Option (Heap L R) :=
  (begin_left (ctor h this) other).bind fun lit =>
  copy_loop cl cr this other (ctor h this).fuel (ctor h this) lit

/-- Source: `bimap::operator=(bimap&& other)`; the arguments of the range erase are
`begin_left()` and `end_left()` of `*this`, taken after the exchange. -/
def move_assign (cl : L → L → Bool) (cr : R → R → Bool) (h : Heap L R) (this other : Nat) :
    Option (Heap L R) :=
  if this = other then some h
  else
    (swap h this other).bind fun h1 =>
    (begin_left h1 this).bind fun first =>
    (erase_left_range cl cr h1 other first (end_left this)).bind fun r => some r.1

/-- Object `0` after `insert(5, 50)`, `insert(3, 0)`, `insert(9, 20)` and `insert(0, 70)`. -/
def demo4 : Heap Nat Nat := demo_insert demo3 0 70

end bimap

namespace details

/-- The address of the first element of a sequence of nodes, or the outcome `pre` when there
is none. -/
def first_opt (tag : Tag) (pre : Option Ptr) : List Nat → Option Ptr
  | [] => pre
  | x :: _ => some (Ptr.elem tag x)

/-- Stepping with `operator--` from the first element of the sequence (nodes listed against
the iteration order) visits its elements in order and then has the outcome `pre`: an address,
or a fault. -/
def VisitsBack (m : Mem) (tag : Tag) (step : Nat) : List Nat → Option Ptr → Prop
  | [], _ => True
  | x :: rest, pre =>
    bimap.iterator.decr m step (Ptr.elem tag x) = first_opt tag pre rest ∧
      VisitsBack m tag step rest pre

end details

namespace bimap
open details

variable {L R : Type}

/-- The state `h1` agrees with the state `h` on everything that is not part of the objects
`objs` and their nodes `own`: the sentinels and counters of the other objects, and the links
and values of the other nodes allocated in `h`. -/
structure Outside (h h1 : Heap L R) (objs : List Nat) (own : List Nat) : Prop where
  fake : ∀ tag c, c ∉ objs → h1.base (Ptr.fake tag c) = h.base (Ptr.fake tag c)
  elem : ∀ tag k, k ∉ own → k < h.next → h1.base (Ptr.elem tag k) = h.base (Ptr.elem tag k)
  lval : ∀ k, k ∉ own → k < h.next → h1.lval k = h.lval k
  rval : ∀ k, k ∉ own → k < h.next → h1.rval k = h.rval k
  sz : ∀ c, c ∉ objs → h1.sz c = h.sz c
  next : h.next ≤ h1.next

/-- A call on the bimap object `b` that leads from the state `h` to the state `h1`: `insert`,
`erase_left`, `erase_right` (by iterator, by key or by range), `at_left_or_default` or
`at_right_or_default`; an iterator argument is a non-end iterator of `b`, a range argument is
a valid range of `b`. -/
inductive Op [Inhabited L] [Inhabited R] (cl : L → L → Bool) (cr : R → R → Bool) (b : Nat) :
    Heap L R → Heap L R → Prop where
  | insert {h h1 : Heap L R} {it : Ptr} (l : L) (r : R) :
      insert cl cr h b l r = some (h1, it) → Op cl cr b h h1
  | erase_left {h h1 : Heap L R} {its : List Ptr} {it nxt : Ptr} :
      left_range h b = some its → it ∈ its →
      erase_left cl cr h b it = some (h1, nxt) → Op cl cr b h h1
  | erase_right {h h1 : Heap L R} {its : List Ptr} {it nxt : Ptr} :
      right_range h b = some its → it ∈ its →
      erase_right cl cr h b it = some (h1, nxt) → Op cl cr b h h1
  | erase_left_key {h h1 : Heap L R} {found : Bool} (l : L) :
      erase_left_key cl cr h b l = some (h1, found) → Op cl cr b h h1
  | erase_right_key {h h1 : Heap L R} {found : Bool} (r : R) :
      erase_right_key cl cr h b r = some (h1, found) → Op cl cr b h h1
  | erase_left_range {h h1 : Heap L R} {its : List Ptr} {first last it : Ptr} :
      left_range h b = some its → valid_range its (end_left b) first last →
      erase_left_range cl cr h b first last = some (h1, it) → Op cl cr b h h1
  | erase_right_range {h h1 : Heap L R} {its : List Ptr} {first last it : Ptr} :
      right_range h b = some its → valid_range its (end_right b) first last →
      erase_right_range cl cr h b first last = some (h1, it) → Op cl cr b h h1
  | at_left_or_default {h h1 : Heap L R} {v : R} (key : L) :
      at_left_or_default cl cr h b key = some (h1, v) → Op cl cr b h h1
  | at_right_or_default {h h1 : Heap L R} {v : L} (key : R) :
      at_right_or_default cl cr h b key = some (h1, v) → Op cl cr b h h1

/-- The bimap objects `objs` of the state `h` are well formed and no node belongs to two of
them. -/
def Sys (cl : L → L → Bool) (cr : R → R → Bool) (h : Heap L R) (objs : List Nat) : Prop :=
  ∃ tls trs : Nat → Shape, (∀ b ∈ objs, Abs cl cr h b (tls b) (trs b)) ∧
    ∀ a ∈ objs, ∀ b ∈ objs, a ≠ b → ∀ k ∈ (tls a).toList, k ∉ (tls b).toList

/-- The states of a program with several bimap objects, together with the list of the
objects constructed so far: an object is default constructed or copy constructed from an
existing object on storage of its own, and the existing objects are called (`Op`) or
exchanged with `swap`. -/
inductive SysReachable [Inhabited L] [Inhabited R] (cl : L → L → Bool) (cr : R → R → Bool) :
    Heap L R → List Nat → Prop where
  | init (h0 : Heap L R) : SysReachable cl cr h0 []
  | ctor {h : Heap L R} {objs : List Nat} (b : Nat) : SysReachable cl cr h objs → b ∉ objs →
      SysReachable cl cr (ctor h b) (b :: objs)
  | copy_ctor {h h1 : Heap L R} {objs : List Nat} (b o : Nat) : SysReachable cl cr h objs →
      b ∉ objs → o ∈ objs → copy_ctor cl cr h b o = some h1 →
      SysReachable cl cr h1 (b :: objs)
  | op {h h1 : Heap L R} {objs : List Nat} (b : Nat) : SysReachable cl cr h objs →
      b ∈ objs → Op cl cr b h h1 → SysReachable cl cr h1 objs
  | swap {h h1 : Heap L R} {objs : List Nat} (a b : Nat) : SysReachable cl cr h objs →
      a ∈ objs → b ∈ objs → swap h a b = some h1 → SysReachable cl cr h1 objs

/-! ### A concrete instance with two objects -/

/-- Two freshly constructed bimap objects at the addresses `0` and `1`. -/
def duo0 : Heap Nat Nat := ctor (ctor (Heap.blank 0 0 demo_rnd) 0) 1

/-- The state after a call of `insert` on object `b`. -/
def demo_insert_at (h : Heap Nat Nat) (b l r : Nat) : Heap Nat Nat :=
  match insert nat_less nat_less h b l r with
  | some p => p.1
  | none => h

/-- Object `0` holds `(1, 10)`, object `1` is empty. -/
def duo1 : Heap Nat Nat := demo_insert_at duo0 0 1 10

/-- Object `0` holds `(1, 10)` and `(2, 20)`, object `1` is empty. -/
def duo2 : Heap Nat Nat := demo_insert_at duo1 0 2 20

/-- Object `0` holds `(1, 10)` and `(2, 20)`, object `1` holds `(5, 50)`. -/
def duo3 : Heap Nat Nat := demo_insert_at duo2 1 5 50

/-- The state after `swap` of the objects `0` and `1` of `duo3`. -/
def duo_swap : Heap Nat Nat :=
  match swap duo3 0 1 with
  | some h => h
  | none => duo3

/-- The state after the construction of object `2` as a copy of object `0` of `duo3`. -/
def duo_copy : Heap Nat Nat :=
  match copy_ctor nat_less nat_less duo3 2 0 with
  | some h => h
  | none => duo3

end bimap

namespace details

variable {T : Type}

/-- Source: the move constructor `treap(treap&& other) { swap(other); }` run on the storage
of the treap of role `tag` in object `this`: the member `fake` is default constructed (all
three links `nullptr`), then `swap` is called. -/
def treap.move_ctor (m : Mem) (tag : Tag) (this other : Nat) : Option Mem :=
  (m.write (Ptr.fake tag this) ⟨Ptr.null, Ptr.null, Ptr.null⟩).bind fun m0 =>
  treap.swap m0 tag this other

/-- The calls `insert(node)` for the nodes of a list, one after the other. -/
def treap.insert_all (t : treap T) (fuel : Nat) : Mem → List Nat → Option Mem
  | m, [] => some m
  | m, n :: ns =>
    (t.insert fuel m (Ptr.elem t.tag n)).bind fun r => treap.insert_all t fuel r.1 ns

/-- The root of the tree, if there is one, has a priority of at most `bound`. -/
def Shape.prior_le (prior : Nat → Nat) (bound : Nat) : Shape → Prop
  | Shape.nil => True
  | Shape.node _ k _ => prior k ≤ bound

/-- The max-heap property on priorities: the priority of every node that has a parent is at
most the priority of the parent. -/
def HeapOrd (prior : Nat → Nat) : Shape → Prop
  | Shape.nil => True
  | Shape.node l n r =>
    l.prior_le prior (prior n) ∧ r.prior_le prior (prior n) ∧ HeapOrd prior l ∧
      HeapOrd prior r

/-- Consistent links of the treap `t` with the nodes `nodes`, read off the memory: the
sentinel has no parent, the node the sentinel points to points back to the sentinel, and the
children of every node point back to the node. -/
def links_consistent (t : treap T) (m : Mem) (nodes : List Nat) : Prop :=
  (m t.fake).par = Ptr.null ∧
  ((m t.fake).left ≠ Ptr.null → (m (m t.fake).left).par = t.fake) ∧
  ∀ k ∈ nodes,
    ((m (Ptr.elem t.tag k)).left ≠ Ptr.null →
      (m (m (Ptr.elem t.tag k)).left).par = Ptr.elem t.tag k) ∧
    ((m (Ptr.elem t.tag k)).right ≠ Ptr.null →
      (m (m (Ptr.elem t.tag k)).right).par = Ptr.elem t.tag k)

end details

namespace bimap
open details

variable {L R : Type}

/-- Source: the move constructor `bimap(bimap&& other)` run on the storage of object `this`:
`sz(other.sz)`, then the two treaps are move constructed, the left one first. -/
def move_ctor (h : Heap L R) (this other : Nat) : Option (Heap L R) :=
  (treap.move_ctor h.base Tag.left_tag this other).bind fun m1 =>
  (treap.move_ctor m1 Tag.right_tag this other).bind fun m2 =>
  some { h with base := m2, sz := Function.update h.sz this (h.sz other) }

/-- The cursors `lrem` (left) and `rrem` (right) of the bimap `b` are as usable in the state
`h1` as they were in the state `h`: they are the iterators of `b` in `h1` in iteration order,
each denotes the pair it denoted (`*c`, `*c.flip()` and `c.flip()` itself are the same), and
`++` and `--` step along `lrem` and along `rrem`, the end iterator following the last
position. -/
def cursors_kept (h h1 : Heap L R) (b : Nat) (lrem rrem : List Ptr) : Prop :=
  left_range h1 b = some lrem ∧ right_range h1 b = some rrem ∧
  (∀ c ∈ lrem,
    iterator.flip h1.base Tag.left_tag c = iterator.flip h.base Tag.left_tag c ∧
    ∃ p, left_pair h c = some p ∧ left_pair h1 c = some p ∧ deref_left h1 c = some p.1 ∧
      (iterator.flip h1.base Tag.left_tag c).bind (deref_right h1) = some p.2) ∧
  (∀ c ∈ rrem,
    iterator.flip h1.base Tag.right_tag c = iterator.flip h.base Tag.right_tag c ∧
    ∃ p, right_pair h c = some p ∧ right_pair h1 c = some p ∧ deref_right h1 c = some p.2 ∧
      (iterator.flip h1.base Tag.right_tag c).bind (deref_left h1) = some p.1) ∧
  (∀ j, j < lrem.length →
    iterator.incr h1.base h1.fuel (lrem.getD j (end_left b))
      = some (lrem.getD (j + 1) (end_left b)) ∧
    iterator.decr h1.base h1.fuel (lrem.getD (j + 1) (end_left b))
      = some (lrem.getD j (end_left b))) ∧
  (∀ j, j < rrem.length →
    iterator.incr h1.base h1.fuel (rrem.getD j (end_right b))
      = some (rrem.getD (j + 1) (end_right b)) ∧
    iterator.decr h1.base h1.fuel (rrem.getD (j + 1) (end_right b))
      = some (rrem.getD j (end_right b)))

/-- The bimap holding `(3, 0)`, `(5, 50)`, `(9, 20)` after `new node_t(7, 70)`: node `3` is
allocated and not linked. -/
def demo3_fresh : Heap Nat Nat := new_node demo3 7 70

/-- An empty bimap object `0` and three allocated nodes `0`, `1`, `2` that are not linked,
with the left keys `5`, `3`, `9`. -/
def trio : Heap Nat Nat := new_node (new_node (new_node demo0 5 50) 3 0) 9 20

end bimap

namespace details

variable {T : Type}

end details

/-! ## shared_ptr and weak_ptr: the control block and the handles

Source: `src/tasks/shared-ptr-Emgariko/shared-ptr.h` and `shared-ptr.cpp`. Control blocks
live in a free store and are named by their addresses; a handle is a value with a
`block_ptr` (null or the address of a block) and a `ptr`. An access to a block that is not
allocated (never allocated, or freed by `delete this`) is a fault, `none`. The counters are
`size_t`: increments and decrements wrap modulo `2^64`. -/

namespace shared_ptr_details

/-- The number of values of `size_t` (64 bits). -/
def size_mod : Nat := 18446744073709551616

/-- Source: `x++` on a `size_t`. -/
def size_incr (x : Nat) : Nat := (x + 1) % size_mod

/-- Source: `--x` on a `size_t`. -/
def size_decr (x : Nat) : Nat := (x + size_mod - 1) % size_mod

/-- Source: the data members `strong_ref`, `weak_ref` of `control_block`. -/
structure control_block where
  strong_ref : Nat
  weak_ref : Nat
deriving DecidableEq

/-- The free store: the allocated control blocks by address and the address the next `new`
returns, with two records that the code does not keep: how many times `delete_data()` ran
on the block at an address, and how many times the block at an address was freed by
`delete this`. -/
structure Store where
  blocks : Nat → Option control_block
  next : Nat
  data_deleted : Nat → Nat
  block_freed : Nat → Nat

/-- A free store in which nothing has been allocated. -/
def Store.empty : Store :=
  { blocks := fun _ => none, next := 0, data_deleted := fun _ => 0, block_freed := fun _ => 0 }

/-- The store with the block at `a` replaced by `cb`; `none` frees the address. -/
def Store.write (s : Store) (a : Nat) (cb : Option control_block) : Store :=
  { s with blocks := Function.update s.blocks a cb }

/-- Source: `control_block::inc_strong`: `strong_ref++; weak_ref++;`. -/
def control_block.inc_strong (s : Store) (a : Nat) : Option Store :=
  (s.blocks a).map fun cb =>
    s.write a (some
      { strong_ref := size_incr cb.strong_ref, weak_ref := size_incr cb.weak_ref })

/-- Source: `control_block::inc_weak`: `weak_ref++;`. -/
def control_block.inc_weak (s : Store) (a : Nat) : Option Store :=
  (s.blocks a).map fun cb =>
    s.write a (some { cb with weak_ref := size_incr cb.weak_ref })

/-- Source: the `delete this` of `control_block::dec_weak`: the block is freed. -/
def control_block.delete_this (s : Store) (a : Nat) : Store :=
  { s.write a none with block_freed := Function.update s.block_freed a (s.block_freed a + 1) }

/-- Source: `control_block::dec_weak`: `--weak_ref; if (weak_ref == 0) delete this;`. -/
def control_block.dec_weak (s : Store) (a : Nat) : Option Store :=
  (s.blocks a).map fun cb =>
    if size_decr cb.weak_ref = 0 then control_block.delete_this s a
    else s.write a (some { cb with weak_ref := size_decr cb.weak_ref })

/-- Source: `ptr_block::delete_data` (the deleter is applied to `ptr`) and
`obj_block::delete_data` (the destructor of the object in the block runs): the managed
object is destroyed. -/
def control_block.delete_data (s : Store) (a : Nat) : Store :=
  { s with data_deleted := Function.update s.data_deleted a (s.data_deleted a + 1) }

/-- Source: `control_block::dec_strong`:
`--strong_ref; if (strong_ref == 0) delete_data(); dec_weak();`. -/
def control_block.dec_strong (s : Store) (a : Nat) : Option Store :=
  (s.blocks a).bind fun cb =>
    if size_decr cb.strong_ref = 0 then
      control_block.dec_weak
        (control_block.delete_data
          (s.write a (some { cb with strong_ref := size_decr cb.strong_ref }))
          a) a
    else
      control_block.dec_weak
        (s.write a (some { cb with strong_ref := size_decr cb.strong_ref })) a

/-- Source: the allocation of `new ptr_block<T_, D>(ptr, deleter)` and of
`new obj_block<T>(args...)`: a block with both counters 0 at the next address. -/
def Store.alloc (s : Store) : Store :=
  { blocks := Function.update s.blocks s.next (some { strong_ref := 0, weak_ref := 0 }),
    next := s.next + 1, data_deleted := s.data_deleted, block_freed := s.block_freed }

/-- Source: `new ptr_block<T_, D>(ptr, deleter)` and `new obj_block<T>(args...)`: a block
is allocated and its constructor calls `inc_strong()`. The result is the new store and the
address of the block. -/
def control_block.create (s : Store) : Option (Store × Nat) :=
  (control_block.inc_strong s.alloc s.next).map fun s1 => (s1, s.next)

end shared_ptr_details

/-- Source: the data members of `shared_ptr<T>`; both are null by default. -/
structure shared_ptr where
  block_ptr : Option Nat := none
  ptr : Option Nat := none
deriving DecidableEq

/-- Source: the data members of `weak_ptr<T>`; both are null by default. -/
structure weak_ptr where
  block_ptr : Option Nat := none
  ptr : Option Nat := none
deriving DecidableEq

namespace shared_ptr

open shared_ptr_details

/-- Source: `shared_ptr::inc`: `if (block_ptr) block_ptr->inc_strong();`. -/
def inc (s : Store) (x : shared_ptr) : Option Store :=
  match x.block_ptr with
  | none => some s
  | some a => control_block.inc_strong s a

/-- Source: `shared_ptr()`. -/
def ctor_default : shared_ptr := {}

/-- Source: `explicit shared_ptr(T_* ptr, D&& deleter)`: a new `ptr_block` for `ptr`. -/
def ctor_ptr (s : Store) (p : Nat) : Option (Store × shared_ptr) :=
  (control_block.create s).map fun r => (r.1, { block_ptr := some r.2, ptr := some p })

/-- Source: `make_shared<T>(args...)`: a new `obj_block`, and the private constructor
`shared_ptr(control_block, control_block->get())`, which does not count. The object lies in
the block, so its address is given by the address of the block. -/
def make_shared (s : Store) : Option (Store × shared_ptr) :=
  (control_block.create s).map fun r => (r.1, { block_ptr := some r.2, ptr := some r.2 })

/-- Source: `shared_ptr(const shared_ptr& other)`: the members are copied, then `inc()`. -/
def copy_ctor (s : Store) (other : shared_ptr) : Option (Store × shared_ptr) :=
  (inc s { block_ptr := other.block_ptr, ptr := other.ptr }).map fun s1 =>
    (s1, { block_ptr := other.block_ptr, ptr := other.ptr })

/-- Source: `shared_ptr::use_count`: `block_ptr ? block_ptr->strong_ref : 0`. -/
def use_count (s : Store) (x : shared_ptr) : Option Nat :=
  match x.block_ptr with
  | none => some 0
  | some a => (s.blocks a).map fun cb => cb.strong_ref

/-- Source: `~shared_ptr()`: `if (block_ptr) block_ptr->dec_strong();`. -/
def dtor (s : Store) (x : shared_ptr) : Option Store :=
  match x.block_ptr with
  | none => some s
  | some a => control_block.dec_strong s a

end shared_ptr

namespace weak_ptr

open shared_ptr_details

/-- Source: `weak_ptr::inc`: `if (block_ptr) block_ptr->inc_weak();`. -/
def inc (s : Store) (w : weak_ptr) : Option Store :=
  match w.block_ptr with
  | none => some s
  | some a => control_block.inc_weak s a

/-- Source: `weak_ptr()`. -/
def ctor_default : weak_ptr := {}

/-- Source: `weak_ptr(const shared_ptr<T>& other)`: the members are copied, then `inc()`. -/
def ctor_shared (s : Store) (other : shared_ptr) : Option (Store × weak_ptr) :=
  (inc s { block_ptr := other.block_ptr, ptr := other.ptr }).map fun s1 =>
    (s1, { block_ptr := other.block_ptr, ptr := other.ptr })

/-- Source: `weak_ptr(const weak_ptr<T>& other)`: the members are copied, then `inc()`. -/
def copy_ctor (s : Store) (other : weak_ptr) : Option (Store × weak_ptr) :=
  (inc s { block_ptr := other.block_ptr, ptr := other.ptr }).map fun s1 =>
    (s1, { block_ptr := other.block_ptr, ptr := other.ptr })

/-- Source: `weak_ptr::lock`:
`if (!block_ptr || block_ptr->strong_ref == 0) return shared_ptr<T>();` and otherwise
`block_ptr->inc_strong(); return shared_ptr<T>(block_ptr, ptr);`. -/
def lock (s : Store) (w : weak_ptr) : Option (Store × shared_ptr) :=
  match w.block_ptr with
  | none => some (s, shared_ptr.ctor_default)
  | some a =>
    (s.blocks a).bind fun cb =>
      if cb.strong_ref = 0 then some (s, shared_ptr.ctor_default)
      else (control_block.inc_strong s a).map fun s1 =>
        (s1, { block_ptr := some a, ptr := w.ptr })

/-- Source: `~weak_ptr()`: `if (block_ptr) block_ptr->dec_weak();`. -/
def dtor (s : Store) (w : weak_ptr) : Option Store :=
  match w.block_ptr with
  | none => some s
  | some a => control_block.dec_weak s a

end weak_ptr

namespace shared_ptr_details

/-- A program state: the free store and the live handles, as values. -/
structure Prog where
  store : Store
  shared : List shared_ptr
  weak : List weak_ptr

/-- The state before anything is created. -/
def Prog.init : Prog := { store := Store.empty, shared := [], weak := [] }

/-- The number of live `shared_ptr` handles whose block is the one at `a`. -/
def Prog.shared_count (s : Prog) (a : Nat) : Nat :=
  s.shared.countP fun x => decide (x.block_ptr = some a)

/-- The number of live `weak_ptr` handles whose block is the one at `a`. -/
def Prog.weak_count (s : Prog) (a : Nat) : Nat :=
  s.weak.countP fun w => decide (w.block_ptr = some a)

/-- There is room for one more handle: a handle occupies at least one byte of a 64-bit
address space, so fewer than `2^64` handles are alive at a time. -/
def Prog.room (s : Prog) : Prop := s.shared.length + s.weak.length + 1 < size_mod

instance (s : Prog) : Decidable s.room := by
  unfold Prog.room
  exact inferInstance

/-- A new handle made by `shared_ptr(T_* ptr)`. -/
def Prog.ctor_ptr (s : Prog) (p : Nat) : Option Prog :=
  (shared_ptr.ctor_ptr s.store p).map fun r => { s with store := r.1, shared := r.2 :: s.shared }

/-- A new handle made by `make_shared`. -/
def Prog.make_shared (s : Prog) : Option Prog :=
  (shared_ptr.make_shared s.store).map fun r => { s with store := r.1, shared := r.2 :: s.shared }

/-- A new handle made by the copy constructor of `shared_ptr` from the live handle `x`. -/
def Prog.copy_shared (s : Prog) (x : shared_ptr) : Option Prog :=
  (shared_ptr.copy_ctor s.store x).map fun r =>
    { s with store := r.1, shared := r.2 :: s.shared }

/-- The live `shared_ptr` handle `x` is destroyed. -/
def Prog.destroy_shared (s : Prog) (x : shared_ptr) : Option Prog :=
  (shared_ptr.dtor s.store x).map fun st => { s with store := st, shared := s.shared.erase x }

/-- A new handle made by `weak_ptr(const shared_ptr&)` from the live handle `x`. -/
def Prog.weak_of_shared (s : Prog) (x : shared_ptr) : Option Prog :=
  (weak_ptr.ctor_shared s.store x).map fun r => { s with store := r.1, weak := r.2 :: s.weak }

/-- A new handle made by the copy constructor of `weak_ptr` from the live handle `w`. -/
def Prog.copy_weak (s : Prog) (w : weak_ptr) : Option Prog :=
  (weak_ptr.copy_ctor s.store w).map fun r => { s with store := r.1, weak := r.2 :: s.weak }

/-- The handle returned by `lock()` on the live handle `w` becomes a live handle. -/
def Prog.lock (s : Prog) (w : weak_ptr) : Option Prog :=
  (weak_ptr.lock s.store w).map fun r => { s with store := r.1, shared := r.2 :: s.shared }

/-- The live `weak_ptr` handle `w` is destroyed. -/
def Prog.destroy_weak (s : Prog) (w : weak_ptr) : Option Prog :=
  (weak_ptr.dtor s.store w).map fun st => { s with store := st, weak := s.weak.erase w }

/-- One step of a program: a handle is created (default-constructed, from a pointer, by
`make_shared`), copied (`shared_ptr` from `shared_ptr`, `weak_ptr` from `shared_ptr` or
from `weak_ptr`), locked, or destroyed. The handle copied, locked or destroyed is a live
one. -/
inductive Step : Prog → Prog → Prop where
  | shared_default (s : Prog) :
      s.room → Step s { s with shared := shared_ptr.ctor_default :: s.shared }
  | weak_default (s : Prog) :
      s.room → Step s { s with weak := weak_ptr.ctor_default :: s.weak }
  | ctor_ptr {s s1 : Prog} (p : Nat) : s.room → s.ctor_ptr p = some s1 → Step s s1
  | make_shared {s s1 : Prog} : s.room → s.make_shared = some s1 → Step s s1
  | copy_shared {s s1 : Prog} (x : shared_ptr) :
      s.room → x ∈ s.shared → s.copy_shared x = some s1 → Step s s1
  | destroy_shared {s s1 : Prog} (x : shared_ptr) :
      x ∈ s.shared → s.destroy_shared x = some s1 → Step s s1
  | weak_of_shared {s s1 : Prog} (x : shared_ptr) :
      s.room → x ∈ s.shared → s.weak_of_shared x = some s1 → Step s s1
  | copy_weak {s s1 : Prog} (w : weak_ptr) :
      s.room → w ∈ s.weak → s.copy_weak w = some s1 → Step s s1
  | lock {s s1 : Prog} (w : weak_ptr) :
      s.room → w ∈ s.weak → s.lock w = some s1 → Step s s1
  | destroy_weak {s s1 : Prog} (w : weak_ptr) :
      w ∈ s.weak → s.destroy_weak w = some s1 → Step s s1

/-- The states reached from the initial one by creating, copying, locking and destroying
handles. -/
inductive Reach : Prog → Prop where
  | init : Reach Prog.init
  | step {s s1 : Prog} : Reach s → Step s s1 → Reach s1

/-- The counting invariant of a program state. Fewer than `2^64` handles are alive. A block
that is allocated has `strong_ref` equal to the number of live `shared_ptr` handles on it
and `weak_ref`, which is not 0, equal to the number of live handles on it of both kinds; its
object has been destroyed once if `strong_ref` is 0 and not at all otherwise, and the block
has not been freed. At an address without a block no handle is alive; if a block was
allocated there, its object has been destroyed once and it has been freed once. -/
structure Counted (s : Prog) : Prop where
  bound : s.shared.length + s.weak.length < size_mod
  live : ∀ a cb, s.store.blocks a = some cb →
    a < s.store.next ∧ cb.strong_ref = s.shared_count a ∧
    cb.weak_ref = s.shared_count a + s.weak_count a ∧ 0 < cb.weak_ref ∧
    s.store.data_deleted a = (if s.shared_count a = 0 then 1 else 0) ∧
    s.store.block_freed a = 0
  dead : ∀ a, s.store.blocks a = none →
    s.shared_count a = 0 ∧ s.weak_count a = 0 ∧
    s.store.data_deleted a = (if a < s.store.next then 1 else 0) ∧
    s.store.block_freed a = (if a < s.store.next then 1 else 0)

/-- What a step keeps: addresses are handed out in increasing order, the two records only
grow, and a block allocated by the step has a live `shared_ptr` handle after it. -/
structure Grows (s s1 : Prog) : Prop where
  next : s.store.next ≤ s1.store.next
  data_deleted : ∀ a, s.store.data_deleted a ≤ s1.store.data_deleted a
  block_freed : ∀ a, s.store.block_freed a ≤ s1.store.block_freed a
  fresh : ∀ a, s.store.next ≤ a → a < s1.store.next → 0 < s1.shared_count a

/-- A state for illustration: one block made by `shared_ptr(T_* ptr)`. -/
def sp_demo1 : Prog := (Prog.init.ctor_ptr 7).getD Prog.init

/-- The handle of `sp_demo1`. -/
def sp_handle : shared_ptr := { block_ptr := some 0, ptr := some 7 }

/-- The weak handle made from `sp_handle`. -/
def sp_weak : weak_ptr := { block_ptr := some 0, ptr := some 7 }

/-- A second `shared_ptr` copied from the first. -/
def sp_demo2 : Prog := (sp_demo1.copy_shared sp_handle).getD sp_demo1

/-- A `weak_ptr` made from a `shared_ptr`. -/
def sp_demo3 : Prog := (sp_demo2.weak_of_shared sp_handle).getD sp_demo2

/-- One of the two `shared_ptr` handles is destroyed. -/
def sp_demo4 : Prog := (sp_demo3.destroy_shared sp_handle).getD sp_demo3

/-- The other `shared_ptr` handle is destroyed too: only the `weak_ptr` is left. -/
def sp_demo5 : Prog := (sp_demo4.destroy_shared sp_handle).getD sp_demo4

end shared_ptr_details

/-! ## variant: copy assignment and move assignment

Source: `src/tasks/variant-Emgariko/variant.h`, `variant_helpers.h`, `variant_storage.h`.
A `variant<Ts...>` is its member `ind` and the object alive in its union, given by the
index of the alternative and a value; values of all alternatives are natural numbers and
copying or moving one never throws. An evaluation ends with a result, with the exception
`bad_variant_access`, or in undefined behaviour. -/

/-- Source: `variant_npos = -1` as a `size_t`. -/
def variant_npos : Nat := 18446744073709551615

namespace details

/-- The ways an evaluation ends without a result: the exception `bad_variant_access`; the
subscript `matrix[i]` on a `std::array` of `size` entries with `size ≤ i`; the read of a
union member that is not alive. -/
inductive Fault where
  | bad_variant_access
  | out_of_bounds (size i : Nat)
  | inactive_member
deriving DecidableEq

/-- What the code uses of the alternative types `Ts...`: their number `sizeof...(Ts)` and,
by index, `std::is_nothrow_copy_constructible_v` and `std::is_nothrow_move_constructible_v`. -/
structure Alternatives where
  size : Nat
  nothrow_copy_constructible : Nat → Bool
  nothrow_move_constructible : Nat → Bool

/-- Source: `details::fmatrix_index<F, V>` for one variant: an array of `sizeof...(Ts)`
entries; the entry `i` invokes the visitor with `std::integral_constant<size_t, i>`, so it
is given by `i`. -/
def fmatrix_index (ts : Alternatives) : List Nat := List.range ts.size

/-- Source: `details::at` with one index, which is `details::at_impl(matrix, i)`:
`matrix[i]`, without a bounds check. -/
def at_impl {α : Type} (matrix : List α) (i : Nat) : Except Fault α :=
  match matrix[i]? with
  | some e => Except.ok e
  | none => Except.error (Fault.out_of_bounds matrix.length i)

end details

/-- Source: `variant_storage::ind` and `variant_storage::val`. -/
structure variant where
  ind : Nat
  val : Option (Nat × Nat)
deriving DecidableEq

namespace variant

open details

/-- Source: `variant::index`. -/
def index (v : variant) : Nat := v.ind

/-- Source: `variant::valueless_by_exception`: `index() == variant_npos`. -/
def valueless_by_exception (v : variant) : Bool := v.index == variant_npos

/-- Source: `variant::make_valueless`: `this->ind = variant_npos`. -/
def make_valueless (v : variant) : variant := { v with ind := variant_npos }

end variant

namespace details

/-- Source: `details::visit_index(vis, v)`:
`at(fmatrix_index<F, V>, v.index())(std::forward<F>(vis))`. -/
def visit_index {β : Type} (ts : Alternatives) (vis : Nat → Except Fault β) (v : variant) :
    Except Fault β :=
  (at_impl (fmatrix_index ts) v.index).bind vis

end details

namespace variant

open details

/-- Source: `get<N>(v)`: `v.val.get(in_place_index<N>)` when `N == v.index()`, and
`bad_variant_access` otherwise. -/
def get (N : Nat) (v : variant) : Except Fault Nat :=
  if N = v.index then
    match v.val with
    | some (i, x) => if i = N then Except.ok x else Except.error Fault.inactive_member
    | none => Except.error Fault.inactive_member
  else Except.error Fault.bad_variant_access

/-- Source: `variant_storage::destroy_internal_value`: when `ind != variant_npos`, the
alternative `ind` is destroyed through `visit_index`. -/
def destroy_internal_value (ts : Alternatives) (v : variant) : Except Fault variant :=
  if v.ind ≠ variant_npos then
    visit_index ts (fun _ => Except.ok { v with val := none }) v
  else Except.ok v

/-- Source: `variant_storage::construct_internal_value(in_place_index<N>, x)`: the
alternative `N` is constructed in the storage and `ind = N`. -/
def construct_internal_value (N x : Nat) (_v : variant) : variant :=
  { ind := N, val := some (N, x) }

/-- Source: `variant::emplace<N>(x)`:
`destroy_internal_value(); make_valueless(); construct_internal_value(in_place_index<N>, x)`. -/
def emplace (ts : Alternatives) (N x : Nat) (v : variant) : Except Fault variant :=
  (v.destroy_internal_value ts).bind fun v1 =>
    Except.ok (v1.make_valueless.construct_internal_value N x)

/-- Source: `variant(const variant& other)` (lines 40 to 51): the storage starts
uninitialized with `ind` at its default `variant_npos`. -/
def copy_ctor (ts : Alternatives) (other : variant) : Except Fault variant :=
  if !other.valueless_by_exception then
    visit_index ts
      (fun i => (get i other).bind fun x =>
        Except.ok (construct_internal_value i x { ind := variant_npos, val := none }))
      other
  else Except.ok (make_valueless { ind := variant_npos, val := none })

/-- Source: `variant::operator=(variant&& other)` (lines 107 to 129); the result is the
state of `*this`. -/
def move_assign (ts : Alternatives) (v other : variant) : Except Fault variant :=
  if other.valueless_by_exception then
    if v.valueless_by_exception then Except.ok v
    else (v.destroy_internal_value ts).bind fun v1 => Except.ok v1.make_valueless
  else
    visit_index ts
      (fun i =>
        if v.index = i then
          (get i other).bind fun x => (get i v).bind fun _ => Except.ok { v with val := some (i, x) }
        else (get i other).bind fun x => v.emplace ts i x)
      other

/-- Source: the call of `details::visit_index` in `variant::operator=(const variant& other)`
(lines 66 to 80), which follows the test of `other.valueless_by_exception()`. -/
def copy_assign_visit (ts : Alternatives) (v other : variant) : Except Fault variant :=
  visit_index ts
    (fun i =>
      if v.index = i then
        (get i other).bind fun x => (get i v).bind fun _ => Except.ok { v with val := some (i, x) }
      else if ts.nothrow_copy_constructible i || !ts.nothrow_move_constructible i then
        (get i other).bind fun x => v.emplace ts i x
      else (copy_ctor ts other).bind fun tmp => v.move_assign ts tmp)
    other

/-- Source: `variant::operator=(const variant& other)` (lines 57 to 82); the result is the
state of `*this`. When `other` is valueless and `*this` is not, the branch
`destroy_internal_value(); make_valueless();` does not return: control goes on to the call
of `details::visit_index`. -/
def copy_assign (ts : Alternatives) (v other : variant) : Except Fault variant :=
  if other.valueless_by_exception then
    if v.valueless_by_exception then Except.ok v
    else
      (v.destroy_internal_value ts).bind fun v1 => copy_assign_visit ts v1.make_valueless other
  else copy_assign_visit ts v other

end variant

namespace variant

/-- Alternatives for illustration: `variant<A, B>` with two alternative types. -/
def demo_alternatives : details.Alternatives :=
  { size := 2, nothrow_copy_constructible := fun _ => true,
    nothrow_move_constructible := fun _ => true }

/-- A variant that holds its alternative 0 with the value 5. -/
def demo_holding : variant := { ind := 0, val := some (0, 5) }

/-- A variant that is valueless by exception. -/
def demo_valueless : variant := { ind := variant_npos, val := none }

end variant

/-! ## Priorities that tie

Source: `src/tasks/bimap-Emgariko/treap.h`. The member `prior` is a `uint32_t` set from
`rnd()`, an output of `std::mt19937`, so two nodes can have the same priority; `merge`
tests `t1->prior > t2->prior` and makes `t2` the root when the two priorities are equal. -/

namespace details

/-- A memory in which every link is `nullptr`. -/
def Mem.blank : Mem := fun _ => ⟨Ptr.null, Ptr.null, Ptr.null⟩

end details

namespace details

variable {T : Type}

/-! ## Memory access -/

@[simp] theorem Mem.read_elem (m : Mem) (tag : Tag) (n : Nat) :
    m.read (Ptr.elem tag n) = some (m (Ptr.elem tag n)) := rfl

@[simp] theorem Mem.read_fake (m : Mem) (tag : Tag) (b : Nat) :
    m.read (Ptr.fake tag b) = some (m (Ptr.fake tag b)) := rfl

@[simp] theorem Mem.read_null (m : Mem) : m.read Ptr.null = none := rfl

theorem Mem.read_of_ne (m : Mem) {p : Ptr} (hp : p ≠ Ptr.null) : m.read p = some (m p) := by
  cases p with
  | null => exact absurd rfl hp
  | fake _ _ => rfl
  | elem _ _ => rfl

theorem Mem.write_of_ne (m : Mem) {p : Ptr} (hp : p ≠ Ptr.null) (e : map_element_base) :
    m.write p e = some (Function.update m p e) := by
  cases p with
  | null => exact absurd rfl hp
  | fake _ _ => rfl
  | elem _ _ => rfl

theorem adopt_if_null (m : Mem) (q : Ptr) : adopt_if m Ptr.null q = some m := by
  simp [adopt_if]

theorem adopt_if_of_ne (m : Mem) {p : Ptr} (hp : p ≠ Ptr.null) (q : Ptr) :
    adopt_if m p q = some (Function.update m p ⟨q, (m p).left, (m p).right⟩) := by
  simp [adopt_if, hp, map_element_base.adopt, Mem.set_par, Mem.write_of_ne]

/-! ## Trees -/

@[simp] theorem Shape.root_nil (tag : Tag) : Shape.nil.root tag = Ptr.null := rfl

@[simp] theorem Shape.root_node (tag : Tag) (l r : Shape) (n : Nat) :
    (Shape.node l n r).root tag = Ptr.elem tag n := rfl

theorem Shape.root_eq_null {tag : Tag} {t : Shape} : t.root tag = Ptr.null ↔ t = Shape.nil := by
  cases t <;> simp [Shape.root]

theorem Shape.root_mem {tag : Tag} {t : Shape} {k : Nat} (h : t.root tag = Ptr.elem tag k) :
    k ∈ t.toList := by
  cases t with
  | nil => simp [Shape.root] at h
  | node l n r =>
    simp only [Shape.root, Ptr.elem.injEq, true_and] at h
    simp [Shape.toList, h]

theorem Shape.root_cases (tag : Tag) (t : Shape) :
    t.root tag = Ptr.null ∨ ∃ k ∈ t.toList, t.root tag = Ptr.elem tag k := by
  cases t with
  | nil => exact Or.inl rfl
  | node l n r => exact Or.inr ⟨n, by simp [Shape.toList], rfl⟩

theorem Shape.length_toList (t : Shape) : t.toList.length = t.size := by
  induction t with
  | nil => rfl
  | node l n r ihl ihr => simp [Shape.toList, Shape.size, ihl, ihr]; omega

theorem Shape.toList_merge (prior : Nat → Nat) (a b : Shape) :
    (Shape.merge prior a b).toList = a.toList ++ b.toList := by
  induction a, b using Shape.merge.induct prior with
  | case1 t2 => simp [Shape.merge, Shape.toList]
  | case2 l1 n1 r1 => simp [Shape.merge, Shape.toList]
  | case3 l1 n1 r1 l2 n2 r2 h ih =>
    rw [Shape.merge, if_pos h]
    simp [Shape.toList, ih]
  | case4 l1 n1 r1 l2 n2 r2 h ih =>
    rw [Shape.merge, if_neg h]
    simp [Shape.toList, ih]

theorem Shape.toList_split (lt : Nat → Bool) (t : Shape) :
    (Shape.split lt t).1.toList ++ (Shape.split lt t).2.toList = t.toList := by
  induction t with
  | nil => rfl
  | node l n r ihl ihr =>
    by_cases h : lt n = true
    · simp [Shape.split, h, Shape.toList, ihr]
    · simp [Shape.split, h, Shape.toList, ← ihl]

theorem Shape.size_split (lt : Nat → Bool) (t : Shape) :
    (Shape.split lt t).1.size + (Shape.split lt t).2.size = t.size := by
  rw [← Shape.length_toList, ← Shape.length_toList, ← Shape.length_toList, ← List.length_append,
    Shape.toList_split]

/-! ## Links -/

theorem Linked.transfer {m m1 : Mem} {tag : Tag} : ∀ (t : Shape) (q : Ptr),
    (∀ k ∈ t.toList, m1 (Ptr.elem tag k) = m (Ptr.elem tag k)) →
    Linked m tag t q → Linked m1 tag t q
  | Shape.nil, _, _, _ => trivial
  | Shape.node l n r, q, hf, ⟨hp, hl, hr, hL, hR⟩ => by
    have hn : m1 (Ptr.elem tag n) = m (Ptr.elem tag n) := hf n (by simp [Shape.toList])
    refine ⟨hn ▸ hp, hn ▸ hl, hn ▸ hr, ?_, ?_⟩
    · exact Linked.transfer l _ (fun k hk => hf k (by simp [Shape.toList, hk])) hL
    · exact Linked.transfer r _ (fun k hk => hf k (by simp [Shape.toList, hk])) hR

theorem LinkedU.transfer_open {m m1 : Mem} {tag : Tag} : ∀ (t : Shape),
    (∀ k ∈ t.toList, m1 (Ptr.elem tag k) = m (Ptr.elem tag k)) →
    LinkedU m tag t → LinkedU m1 tag t
  | Shape.nil, _, _ => trivial
  | Shape.node l n r, hf, ⟨hl, hr, hL, hR⟩ => by
    have hn : m1 (Ptr.elem tag n) = m (Ptr.elem tag n) := hf n (by simp [Shape.toList])
    refine ⟨hn ▸ hl, hn ▸ hr, ?_, ?_⟩
    · exact Linked.transfer l _ (fun k hk => hf k (by simp [Shape.toList, hk])) hL
    · exact Linked.transfer r _ (fun k hk => hf k (by simp [Shape.toList, hk])) hR

theorem Linked.toU {m : Mem} {tag : Tag} : ∀ {t : Shape} {q : Ptr},
    Linked m tag t q → LinkedU m tag t
  | Shape.nil, _, _ => trivial
  | Shape.node _ _ _, _, ⟨_, hl, hr, hL, hR⟩ => ⟨hl, hr, hL, hR⟩

/-- Setting the parent link of the root of an open tree closes it. -/
theorem LinkedU.adopt {m : Mem} {tag : Tag} (t : Shape) (q : Ptr) (hU : LinkedU m tag t)
    (hnd : t.toList.Nodup) :
    ∃ m1, adopt_if m (t.root tag) q = some m1 ∧ Linked m1 tag t q ∧
      (∀ p, p ≠ t.root tag → m1 p = m p) ∧
      (m1 (t.root tag)).left = (m (t.root tag)).left ∧
      (m1 (t.root tag)).right = (m (t.root tag)).right ∧
      (∀ p, (∀ k ∈ t.toList, p ≠ Ptr.elem tag k) → m1 p = m p) := by
  cases t with
  | nil => exact ⟨m, adopt_if_null m q, trivial, fun _ _ => rfl, rfl, rfl, fun _ _ => rfl⟩
  | node l n r =>
    obtain ⟨hl, hr, hL, hR⟩ := hU
    have hnl : n ∉ l.toList := by
      intro hmem
      simp only [Shape.toList] at hnd
      exact (List.nodup_append.1 hnd).2.2 hmem (by simp)
    have hnr : n ∉ r.toList := by
      intro hmem
      simp only [Shape.toList] at hnd
      exact (List.nodup_cons.1 (List.nodup_append.1 hnd).2.1).1 hmem
    refine ⟨_, adopt_if_of_ne m (by simp) q, ?_, ?_, ?_, ?_, ?_⟩
    · refine ⟨by simp, by simpa using hl, by simpa using hr, ?_, ?_⟩
      · refine Linked.transfer l _ (fun k hk => ?_) hL
        have : k ≠ n := fun e => hnl (e ▸ hk)
        simp [Function.update, this]
      · refine Linked.transfer r _ (fun k hk => ?_) hR
        have : k ≠ n := fun e => hnr (e ▸ hk)
        simp [Function.update, this]
    · intro p hp
      simp only [Shape.root] at hp
      simp [Function.update, hp]
    · simp
    · simp
    · intro p hp
      have := hp n (by simp [Shape.toList])
      simp [Function.update, this]

end details

namespace details

variable {T : Type}

@[simp] theorem treap.prior_at_elem (t : treap T) (n : Nat) :
    t.prior_at (Ptr.elem t.tag n) = some (t.prior n) := by
  simp [treap.prior_at, treap.to_derived_ptr]

@[simp] theorem treap.val_at_elem (t : treap T) (n : Nat) :
    t.val_at (Ptr.elem t.tag n) = some (t.val n) := by
  simp [treap.val_at, treap.to_derived_ptr]

theorem nodup_node {l r : Shape} {n : Nat} (h : (Shape.node l n r).toList.Nodup) :
    l.toList.Nodup ∧ r.toList.Nodup ∧ n ∉ l.toList ∧ n ∉ r.toList ∧
      (∀ k ∈ l.toList, k ∉ r.toList) := by
  simp only [Shape.toList] at h
  have h1 := List.nodup_append.1 h
  have h2 := List.nodup_cons.1 h1.2.1
  refine ⟨h1.1, h2.2, fun hm => h1.2.2 hm (by simp), h2.1, fun k hk hk2 => ?_⟩
  exact h1.2.2 hk (by simp [hk2])

/-- `treap::merge` on two disjoint open trees returns the root of `Shape.merge`, links it up
and touches no other element. -/
theorem merge_spec (t : treap T) : ∀ (fuel : Nat) (a b : Shape) (m : Mem),
    LinkedU m t.tag a → LinkedU m t.tag b → (a.toList ++ b.toList).Nodup →
    a.size + b.size < fuel →
    ∃ m1, t.merge fuel m (a.root t.tag) (b.root t.tag)
        = some (m1, (Shape.merge t.prior a b).root t.tag) ∧
      LinkedU m1 t.tag (Shape.merge t.prior a b) ∧
      (∀ p, (∀ k ∈ a.toList ++ b.toList, p ≠ Ptr.elem t.tag k) → m1 p = m p) := by
  intro fuel
  induction fuel with
  | zero => intro a b m _ _ _ h; omega
  | succ fuel ih =>
    intro a b m ha hb hnd hsz
    cases a with
    | nil =>
      refine ⟨m, ?_, ?_, fun _ _ => rfl⟩
      · simp [treap.merge, Shape.merge]
      · simpa [Shape.merge] using hb
    | node l1 n1 r1 =>
      cases b with
      | nil =>
        refine ⟨m, ?_, ?_, fun _ _ => rfl⟩
        · simp [treap.merge, Shape.merge]
        · simpa [Shape.merge] using ha
      | node l2 n2 r2 =>
        obtain ⟨hal, har, haL, haR⟩ := ha
        obtain ⟨hbl, hbr, hbL, hbR⟩ := hb
        have hnd1 := (List.nodup_append.1 hnd).1
        have hnd2 := (List.nodup_append.1 hnd).2.1
        have hdisj := (List.nodup_append.1 hnd).2.2
        obtain ⟨hl1, hr1, hn1l, hn1r, hlr1⟩ := nodup_node hnd1
        obtain ⟨hl2, hr2, hn2l, hn2r, hlr2⟩ := nodup_node hnd2
        by_cases hp : t.prior n1 > t.prior n2
        · -- the root of the first tree stays on top
          have hnd' : (r1.toList ++ (Shape.node l2 n2 r2).toList).Nodup := by
            refine List.nodup_append.2 ⟨hr1, hnd2, fun x hx hx2 => hdisj ?_ hx2⟩
            simp [Shape.toList, hx]
          obtain ⟨m1, hm1, hU1, hf1⟩ := ih r1 (Shape.node l2 n2 r2) m haR.toU
            ⟨hbl, hbr, hbL, hbR⟩ hnd' (by simp only [Shape.size] at hsz ⊢; omega)
          set res := Shape.merge t.prior r1 (Shape.node l2 n2 r2) with hres
          have hresl : res.toList = r1.toList ++ (Shape.node l2 n2 r2).toList :=
            Shape.toList_merge _ _ _
          have hn1res : n1 ∉ res.toList := by
            rw [hresl]
            intro hmem
            rcases List.mem_append.1 hmem with h | h
            · exact hn1r h
            · exact hdisj (by simp [Shape.toList]) h
          have hm1n1 : m1 (Ptr.elem t.tag n1) = m (Ptr.elem t.tag n1) := by
            apply hf1
            intro k hk e
            simp only [Ptr.elem.injEq, true_and] at e
            exact hn1res (hresl ▸ e ▸ hk)
          set m2 := Function.update m1 (Ptr.elem t.tag n1)
            ⟨(m1 (Ptr.elem t.tag n1)).par, (m1 (Ptr.elem t.tag n1)).left, res.root t.tag⟩
            with hm2
          have hU2 : LinkedU m2 t.tag res := by
            refine LinkedU.transfer_open res (fun k hk => ?_) hU1
            have : k ≠ n1 := fun e => hn1res (e ▸ hk)
            simp [hm2, Function.update, this]
          obtain ⟨m3, hm3, hL3, hf3, -, -⟩ := LinkedU.adopt res (Ptr.elem t.tag n1) hU2
            (hresl ▸ hnd')
          have hrootne : Ptr.elem t.tag n1 ≠ res.root t.tag := by
            intro e
            exact hn1res (Shape.root_mem e.symm)
          refine ⟨m3, ?_, ?_, ?_⟩
          · simp only [Shape.root_node] at hm1
            simp only [treap.merge, Shape.root_node, reduceCtorEq, if_false,
              treap.prior_at_elem, Option.some_bind, hp, if_true, har, hm1, Mem.set_right,
              Mem.write, ← hm2, hm3]
            rw [Shape.merge, if_pos hp]
            rfl
          · rw [Shape.merge, if_pos hp]
            have e3 : m3 (Ptr.elem t.tag n1) = m2 (Ptr.elem t.tag n1) := hf3 _ hrootne
            refine ⟨?_, ?_, ?_, hL3⟩
            · rw [e3]; simp [hm2, hm1n1, hal]
            · rw [e3]; simp [hm2]
            · refine Linked.transfer l1 _ (fun k hk => ?_) haL
              have hk1 : k ≠ n1 := fun e => hn1l (e ▸ hk)
              have hkres : k ∉ res.toList := by
                rw [hresl]
                intro hmem
                rcases List.mem_append.1 hmem with h | h
                · exact hlr1 k hk h
                · exact hdisj (by simp [Shape.toList, hk]) h
              have hne : Ptr.elem t.tag k ≠ res.root t.tag := fun e =>
                hkres (Shape.root_mem e.symm)
              rw [hf3 _ hne]
              simp only [hm2, Function.update, Ptr.elem.injEq, true_and, hk1, dite_false]
              apply hf1
              intro k2 hk2 e
              simp only [Ptr.elem.injEq, true_and] at e
              exact hkres (hresl ▸ e ▸ hk2)
          · intro p hpne
            have hne : p ≠ res.root t.tag := by
              intro e
              rcases Shape.root_cases t.tag res with h | ⟨k, hk, h⟩
              · rw [Shape.root_eq_null] at h
                rw [h] at hresl
                simp [Shape.toList] at hresl
              · rw [hresl] at hk
                refine hpne k ?_ (e.trans h)
                rcases List.mem_append.1 hk with h | h
                · simp [Shape.toList, h]
                · exact List.mem_append_right _ h
            have hne1 : p ≠ Ptr.elem t.tag n1 := hpne n1 (by simp [Shape.toList])
            rw [hf3 _ hne]
            simp only [hm2, Function.update, hne1, dite_false]
            apply hf1
            intro k hk
            refine hpne k ?_
            rcases List.mem_append.1 hk with h | h
            · simp [Shape.toList, h]
            · exact List.mem_append_right _ h
        · -- the root of the second tree goes on top
          have hnd' : ((Shape.node l1 n1 r1).toList ++ l2.toList).Nodup := by
            refine List.nodup_append.2 ⟨hnd1, hl2, fun x hx hx2 => hdisj hx ?_⟩
            simp [Shape.toList, hx2]
          obtain ⟨m1, hm1, hU1, hf1⟩ := ih (Shape.node l1 n1 r1) l2 m
            ⟨hal, har, haL, haR⟩ hbL.toU hnd' (by simp only [Shape.size] at hsz ⊢; omega)
          set res := Shape.merge t.prior (Shape.node l1 n1 r1) l2 with hres
          have hresl : res.toList = (Shape.node l1 n1 r1).toList ++ l2.toList :=
            Shape.toList_merge _ _ _
          have hn2res : n2 ∉ res.toList := by
            rw [hresl]
            intro hmem
            rcases List.mem_append.1 hmem with h | h
            · exact hdisj h (by simp [Shape.toList])
            · exact hn2l h
          have hm1n2 : m1 (Ptr.elem t.tag n2) = m (Ptr.elem t.tag n2) := by
            apply hf1
            intro k hk e
            simp only [Ptr.elem.injEq, true_and] at e
            exact hn2res (hresl ▸ e ▸ hk)
          set m2 := Function.update m1 (Ptr.elem t.tag n2)
            ⟨(m1 (Ptr.elem t.tag n2)).par, res.root t.tag, (m1 (Ptr.elem t.tag n2)).right⟩
            with hm2
          have hU2 : LinkedU m2 t.tag res := by
            refine LinkedU.transfer_open res (fun k hk => ?_) hU1
            have : k ≠ n2 := fun e => hn2res (e ▸ hk)
            simp [hm2, Function.update, this]
          obtain ⟨m3, hm3, hL3, hf3, -, -⟩ := LinkedU.adopt res (Ptr.elem t.tag n2) hU2
            (hresl ▸ hnd')
          have hrootne : Ptr.elem t.tag n2 ≠ res.root t.tag := by
            intro e
            exact hn2res (Shape.root_mem e.symm)
          refine ⟨m3, ?_, ?_, ?_⟩
          · simp only [Shape.root_node] at hm1
            simp only [treap.merge, Shape.root_node, reduceCtorEq, if_false,
              treap.prior_at_elem, Option.some_bind, hp, hbl, hm1, Mem.set_left,
              Mem.write, ← hm2, hm3]
            rw [Shape.merge, if_neg hp]
            rfl
          · rw [Shape.merge, if_neg hp]
            have e3 : m3 (Ptr.elem t.tag n2) = m2 (Ptr.elem t.tag n2) := hf3 _ hrootne
            refine ⟨?_, ?_, hL3, ?_⟩
            · rw [e3]; simp [hm2]
            · rw [e3]; simp [hm2, hm1n2, hbr]
            · refine Linked.transfer r2 _ (fun k hk => ?_) hbR
              have hk2 : k ≠ n2 := fun e => hn2r (e ▸ hk)
              have hkres : k ∉ res.toList := by
                rw [hresl]
                intro hmem
                rcases List.mem_append.1 hmem with h | h
                · exact hdisj h (by simp [Shape.toList, hk])
                · exact hlr2 k h hk
              have hne : Ptr.elem t.tag k ≠ res.root t.tag := fun e =>
                hkres (Shape.root_mem e.symm)
              rw [hf3 _ hne]
              simp only [hm2, Function.update, Ptr.elem.injEq, true_and, hk2, dite_false]
              apply hf1
              intro k3 hk3 e
              simp only [Ptr.elem.injEq, true_and] at e
              exact hkres (hresl ▸ e ▸ hk3)
          · intro p hpne
            have hne : p ≠ res.root t.tag := by
              intro e
              rcases Shape.root_cases t.tag res with h | ⟨k, hk, h⟩
              · rw [Shape.root_eq_null] at h
                rw [h] at hresl
                simp [Shape.toList] at hresl
              · rw [hresl] at hk
                refine hpne k ?_ (e.trans h)
                rcases List.mem_append.1 hk with h | h
                · exact List.mem_append_left _ h
                · simp [Shape.toList, h]
            have hne2 : p ≠ Ptr.elem t.tag n2 := hpne n2 (by simp [Shape.toList])
            rw [hf3 _ hne]
            simp only [hm2, Function.update, hne2, dite_false]
            apply hf1
            intro k hk
            refine hpne k ?_
            rcases List.mem_append.1 hk with h | h
            · exact List.mem_append_left _ h
            · simp [Shape.toList, h]

end details

namespace details

variable {T : Type}

/-- `treap::split` on an open tree returns the roots of `Shape.split`, links both trees up and
touches no other element. -/
theorem split_spec (t : treap T) (x : T) : ∀ (fuel : Nat) (a : Shape) (m : Mem),
    LinkedU m t.tag a → a.toList.Nodup → a.size < fuel →
    ∃ m1, t.split x fuel m (a.root t.tag)
        = some (m1, (Shape.split (fun n => t.cmp (t.val n) x) a).1.root t.tag,
            (Shape.split (fun n => t.cmp (t.val n) x) a).2.root t.tag) ∧
      LinkedU m1 t.tag (Shape.split (fun n => t.cmp (t.val n) x) a).1 ∧
      LinkedU m1 t.tag (Shape.split (fun n => t.cmp (t.val n) x) a).2 ∧
      (∀ p, (∀ k ∈ a.toList, p ≠ Ptr.elem t.tag k) → m1 p = m p) := by
  intro fuel
  induction fuel with
  | zero => intro a m _ _ h; omega
  | succ fuel ih =>
    intro a m ha hnd hsz
    cases a with
    | nil =>
      exact ⟨m, by simp [treap.split, Shape.split], trivial, trivial, fun _ _ => rfl⟩
    | node l n r =>
      obtain ⟨hal, har, haL, haR⟩ := ha
      obtain ⟨hl, hr, hnl, hnr, hlr⟩ := nodup_node hnd
      by_cases hlt : t.cmp (t.val n) x = true
      · -- the root goes to the first tree together with its left subtree
        obtain ⟨m1, hm1, hU1, hV1, hf1⟩ := ih r m haR.toU hr
          (by simp only [Shape.size] at hsz ⊢; omega)
        set ra := (Shape.split (fun n => t.cmp (t.val n) x) r).1 with hra
        set rb := (Shape.split (fun n => t.cmp (t.val n) x) r).2 with hrb
        have hsplit : ra.toList ++ rb.toList = r.toList := Shape.toList_split _ _
        have hndab : (ra.toList ++ rb.toList).Nodup := hsplit ▸ hr
        have hnda := (List.nodup_append.1 hndab).1
        have hndb := (List.nodup_append.1 hndab).2.1
        have hdisj := (List.nodup_append.1 hndab).2.2
        have ha_sub : ∀ k ∈ ra.toList, k ∈ r.toList := fun k hk =>
          hsplit ▸ List.mem_append_left _ hk
        have hb_sub : ∀ k ∈ rb.toList, k ∈ r.toList := fun k hk =>
          hsplit ▸ List.mem_append_right _ hk
        set m2 := Function.update m1 (Ptr.elem t.tag n)
          ⟨(m1 (Ptr.elem t.tag n)).par, (m1 (Ptr.elem t.tag n)).left, ra.root t.tag⟩ with hm2
        have hm1n : m1 (Ptr.elem t.tag n) = m (Ptr.elem t.tag n) := by
          apply hf1
          intro k hk e
          simp only [Ptr.elem.injEq, true_and] at e
          exact hnr (e ▸ hk)
        have hm2k : ∀ k, k ≠ n → m2 (Ptr.elem t.tag k) = m1 (Ptr.elem t.tag k) := by
          intro k hk
          simp [hm2, Function.update, hk]
        have hV2 : LinkedU m2 t.tag rb :=
          LinkedU.transfer_open rb (fun k hk => hm2k k (fun e => hnr (e ▸ hb_sub k hk))) hV1
        have hU2 : LinkedU m2 t.tag ra :=
          LinkedU.transfer_open ra (fun k hk => hm2k k (fun e => hnr (e ▸ ha_sub k hk))) hU1
        obtain ⟨m3, hm3, hL3, -, -, -, hf3⟩ := LinkedU.adopt rb Ptr.null hV2 hndb
        have hU3 : LinkedU m3 t.tag ra := by
          refine LinkedU.transfer_open ra (fun k hk => hf3 _ fun k2 hk2 e => ?_) hU2
          simp only [Ptr.elem.injEq, true_and] at e
          exact hdisj hk (e ▸ hk2)
        obtain ⟨m4, hm4, hL4, -, -, -, hf4⟩ := LinkedU.adopt ra (Ptr.elem t.tag n) hU3 hnda
        have hm4n : m4 (Ptr.elem t.tag n) = m2 (Ptr.elem t.tag n) := by
          rw [hf4 _ fun k hk e => ?_, hf3 _ fun k hk e => ?_]
          · simp only [Ptr.elem.injEq, true_and] at e
            exact hnr (e ▸ hb_sub k hk)
          · simp only [Ptr.elem.injEq, true_and] at e
            exact hnr (e ▸ ha_sub k hk)
        refine ⟨m4, ?_, ?_, ?_, ?_⟩
        · simp only [Shape.root_node] at hm1 ⊢
          simp only [treap.split, reduceCtorEq, if_false, treap.val_at_elem, Option.some_bind,
            treap.less, hlt, if_true, har, hm1, Mem.set_right, Mem.write, ← hm2, hm3, hm4]
          simp [Shape.split, hlt, ← hra, ← hrb]
        · simp only [Shape.split, hlt, if_true]
          refine ⟨?_, ?_, ?_, hL4⟩
          · rw [hm4n]; simp [hm2, hm1n, hal]
          · rw [hm4n]; simp [hm2]
          · refine Linked.transfer l _ (fun k hk => ?_) haL
            have hkr : k ∉ r.toList := hlr k hk
            rw [hf4 _ fun k2 hk2 e => ?_, hf3 _ fun k2 hk2 e => ?_,
              hm2k k (fun e => hnl (e ▸ hk))]
            · apply hf1
              intro k2 hk2 e
              simp only [Ptr.elem.injEq, true_and] at e
              exact hkr (e ▸ hk2)
            · simp only [Ptr.elem.injEq, true_and] at e
              exact hkr (e ▸ hb_sub k2 hk2)
            · simp only [Ptr.elem.injEq, true_and] at e
              exact hkr (e ▸ ha_sub k2 hk2)
        · simp only [Shape.split, hlt, if_true]
          refine LinkedU.transfer_open rb (fun k hk => hf4 _ fun k2 hk2 e => ?_) hL3.toU
          simp only [Ptr.elem.injEq, true_and] at e
          exact hdisj hk2 (e ▸ hk)
        · intro p hp
          have hpn : p ≠ Ptr.elem t.tag n := hp n (by simp [Shape.toList])
          have hpr : ∀ k ∈ r.toList, p ≠ Ptr.elem t.tag k := fun k hk =>
            hp k (by simp [Shape.toList, hk])
          rw [hf4 _ fun k hk => hpr k (ha_sub k hk), hf3 _ fun k hk => hpr k (hb_sub k hk)]
          simp only [hm2, Function.update, hpn, dite_false]
          exact hf1 _ hpr
      · -- the root goes to the second tree together with its right subtree
        obtain ⟨m1, hm1, hU1, hV1, hf1⟩ := ih l m haL.toU hl
          (by simp only [Shape.size] at hsz ⊢; omega)
        set la := (Shape.split (fun n => t.cmp (t.val n) x) l).1 with hla
        set lb := (Shape.split (fun n => t.cmp (t.val n) x) l).2 with hlb
        have hsplit : la.toList ++ lb.toList = l.toList := Shape.toList_split _ _
        have hndab : (la.toList ++ lb.toList).Nodup := hsplit ▸ hl
        have hnda := (List.nodup_append.1 hndab).1
        have hndb := (List.nodup_append.1 hndab).2.1
        have hdisj := (List.nodup_append.1 hndab).2.2
        have ha_sub : ∀ k ∈ la.toList, k ∈ l.toList := fun k hk =>
          hsplit ▸ List.mem_append_left _ hk
        have hb_sub : ∀ k ∈ lb.toList, k ∈ l.toList := fun k hk =>
          hsplit ▸ List.mem_append_right _ hk
        set m2 := Function.update m1 (Ptr.elem t.tag n)
          ⟨(m1 (Ptr.elem t.tag n)).par, lb.root t.tag, (m1 (Ptr.elem t.tag n)).right⟩ with hm2
        have hm1n : m1 (Ptr.elem t.tag n) = m (Ptr.elem t.tag n) := by
          apply hf1
          intro k hk e
          simp only [Ptr.elem.injEq, true_and] at e
          exact hnl (e ▸ hk)
        have hm2k : ∀ k, k ≠ n → m2 (Ptr.elem t.tag k) = m1 (Ptr.elem t.tag k) := by
          intro k hk
          simp [hm2, Function.update, hk]
        have hV2 : LinkedU m2 t.tag lb :=
          LinkedU.transfer_open lb (fun k hk => hm2k k (fun e => hnl (e ▸ hb_sub k hk))) hV1
        have hU2 : LinkedU m2 t.tag la :=
          LinkedU.transfer_open la (fun k hk => hm2k k (fun e => hnl (e ▸ ha_sub k hk))) hU1
        obtain ⟨m3, hm3, hL3, -, -, -, hf3⟩ := LinkedU.adopt la Ptr.null hU2 hnda
        have hV3 : LinkedU m3 t.tag lb := by
          refine LinkedU.transfer_open lb (fun k hk => hf3 _ fun k2 hk2 e => ?_) hV2
          simp only [Ptr.elem.injEq, true_and] at e
          exact hdisj hk2 (e ▸ hk)
        obtain ⟨m4, hm4, hL4, -, -, -, hf4⟩ := LinkedU.adopt lb (Ptr.elem t.tag n) hV3 hndb
        have hm4n : m4 (Ptr.elem t.tag n) = m2 (Ptr.elem t.tag n) := by
          rw [hf4 _ fun k hk e => ?_, hf3 _ fun k hk e => ?_]
          · simp only [Ptr.elem.injEq, true_and] at e
            exact hnl (e ▸ ha_sub k hk)
          · simp only [Ptr.elem.injEq, true_and] at e
            exact hnl (e ▸ hb_sub k hk)
        have hlt' : t.cmp (t.val n) x = false := by simpa using hlt
        refine ⟨m4, ?_, ?_, ?_, ?_⟩
        · simp only [Shape.root_node] at hm1 ⊢
          simp only [treap.split, reduceCtorEq, if_false, treap.val_at_elem, Option.some_bind,
            treap.less, hlt', Bool.false_eq_true, hal, hm1, Mem.set_left, Mem.write, ← hm2,
            hm3, hm4]
          simp [Shape.split, hlt', ← hla, ← hlb]
        · simp only [Shape.split, hlt', Bool.false_eq_true, if_false]
          refine LinkedU.transfer_open la (fun k hk => hf4 _ fun k2 hk2 e => ?_) hL3.toU
          simp only [Ptr.elem.injEq, true_and] at e
          exact hdisj hk (e ▸ hk2)
        · simp only [Shape.split, hlt', Bool.false_eq_true, if_false]
          refine ⟨?_, ?_, hL4, ?_⟩
          · rw [hm4n]; simp [hm2]
          · rw [hm4n]; simp [hm2, hm1n, har]
          · refine Linked.transfer r _ (fun k hk => ?_) haR
            have hkl : k ∉ l.toList := fun h => hlr k h hk
            rw [hf4 _ fun k2 hk2 e => ?_, hf3 _ fun k2 hk2 e => ?_,
              hm2k k (fun e => hnr (e ▸ hk))]
            · apply hf1
              intro k2 hk2 e
              simp only [Ptr.elem.injEq, true_and] at e
              exact hkl (e ▸ hk2)
            · simp only [Ptr.elem.injEq, true_and] at e
              exact hkl (e ▸ ha_sub k2 hk2)
            · simp only [Ptr.elem.injEq, true_and] at e
              exact hkl (e ▸ hb_sub k2 hk2)
        · intro p hp
          have hpn : p ≠ Ptr.elem t.tag n := hp n (by simp [Shape.toList])
          have hpl : ∀ k ∈ l.toList, p ≠ Ptr.elem t.tag k := fun k hk =>
            hp k (by simp [Shape.toList, hk])
          rw [hf4 _ fun k hk => hpl k (hb_sub k hk), hf3 _ fun k hk => hpl k (ha_sub k hk)]
          simp only [hm2, Function.update, hpn, dite_false]
          exact hf1 _ hpl

end details

namespace details

variable {T : Type}

/-! ## Order of the keys -/

theorem Shape.insert_eq (prior : Nat → Nat) (lt : Nat → Bool) (t : Shape) (n : Nat) :
    Shape.insert prior lt t n =
      Shape.merge prior (Shape.merge prior (Shape.split lt t).1 (Shape.node Shape.nil n Shape.nil))
        (Shape.split lt t).2 := by
  cases t with
  | nil => simp [Shape.insert, Shape.split, Shape.merge]
  | node l k r => simp [Shape.insert]

theorem Shape.toList_insert (prior : Nat → Nat) (lt : Nat → Bool) (t : Shape) (n : Nat) :
    (Shape.insert prior lt t n).toList =
      (Shape.split lt t).1.toList ++ n :: (Shape.split lt t).2.toList := by
  rw [Shape.insert_eq, Shape.toList_merge, Shape.toList_merge]
  simp [Shape.toList]

theorem Shape.erase_of_not_mem (prior : Nat → Nat) (n : Nat) : ∀ (t : Shape),
    n ∉ t.toList → Shape.erase prior n t = t
  | Shape.nil, _ => rfl
  | Shape.node l k r, h => by
    simp only [Shape.toList, List.mem_append, List.mem_cons, not_or] at h
    have hk : k ≠ n := fun e => h.2.1 e.symm
    simp [Shape.erase, hk, Shape.erase_of_not_mem prior n l h.1,
      Shape.erase_of_not_mem prior n r h.2.2]

theorem Shape.toList_erase (prior : Nat → Nat) (n : Nat) : ∀ (t : Shape),
    t.toList.Nodup → (Shape.erase prior n t).toList = t.toList.erase n
  | Shape.nil, _ => rfl
  | Shape.node l k r, h => by
    obtain ⟨hl, hr, hkl, hkr, hlr⟩ := nodup_node h
    by_cases hk : k = n
    · subst hk
      simp only [Shape.erase, if_true, Shape.toList_merge, Shape.toList]
      rw [List.erase_append_right _ hkl]
      simp
    · simp only [Shape.erase, hk, if_false, Shape.toList, Shape.toList_erase prior n l hl,
        Shape.toList_erase prior n r hr]
      by_cases hn : n ∈ l.toList
      · rw [List.erase_append_left _ hn, List.erase_of_not_mem (hlr n hn)]
      · rw [List.erase_append_right _ hn, List.erase_of_not_mem hn]
        rw [List.erase_cons_tail (by simpa using hk)]

/-- In a search tree the first tree of a split holds keys below the splitting key, the second
holds the others. -/
theorem Shape.split_keys {key : Nat → T} {c : T → T → Bool} (hc : StrictWeakOrder c) (x : T) :
    ∀ (t : Shape), t.toList.Pairwise (fun i j => c (key i) (key j) = true) →
      (∀ k ∈ (Shape.split (fun n => c (key n) x) t).1.toList, c (key k) x = true) ∧
      (∀ k ∈ (Shape.split (fun n => c (key n) x) t).2.toList, c (key k) x = false)
  | Shape.nil, _ => by simp [Shape.split, Shape.toList]
  | Shape.node l n r, h => by
    simp only [Shape.toList, List.pairwise_append, List.pairwise_cons, List.mem_cons] at h
    obtain ⟨hl, ⟨hnr, hr⟩, hlr⟩ := h
    by_cases hlt : c (key n) x = true
    · have ih := Shape.split_keys hc x r hr
      simp only [Shape.split, hlt, if_true, Shape.toList, List.mem_append, List.mem_cons]
      refine ⟨fun k hk => ?_, ih.2⟩
      rcases hk with hk | rfl | hk
      · exact hc.trans _ _ _ (hlr k hk n (Or.inl rfl)) hlt
      · exact hlt
      · exact ih.1 k hk
    · have ih := Shape.split_keys hc x l hl
      simp only [Shape.split, hlt, if_false, Shape.toList, List.mem_append, List.mem_cons]
      refine ⟨ih.1, fun k hk => ?_⟩
      rcases hk with hk | rfl | hk
      · exact ih.2 k hk
      · simpa using hlt
      · cases hkx : c (key k) x with
        | false => rfl
        | true => exact absurd (hc.trans _ _ _ (hnr k hk) hkx) hlt

/-- Inserting a node whose key is equivalent to no key of a search tree keeps the in-order
sequence strictly increasing. -/
theorem Shape.insert_sorted {key : Nat → T} {c : T → T → Bool} (hc : StrictWeakOrder c)
    (prior : Nat → Nat) (t : Shape) (n : Nat)
    (hs : t.toList.Pairwise (fun i j => c (key i) (key j) = true))
    (hne : ∀ k ∈ t.toList, equiv c (key k) (key n) = false) :
    (Shape.insert prior (fun k => c (key k) (key n)) t n).toList.Pairwise
      (fun i j => c (key i) (key j) = true) := by
  rw [Shape.toList_insert]
  have hk := Shape.split_keys hc (key n) t hs
  have hsp := Shape.toList_split (fun k => c (key k) (key n)) t
  rw [← hsp] at hs hne
  rw [List.pairwise_append] at hs ⊢
  refine ⟨hs.1, List.pairwise_cons.2 ⟨fun k hkm => ?_, hs.2.1⟩, fun a ha b hb => ?_⟩
  · have h1 := hk.2 k hkm
    have h2 := hne k (List.mem_append_right _ hkm)
    simp only [equiv, h1, Bool.not_false, Bool.true_and, Bool.not_eq_false'] at h2
    exact h2
  · rcases List.mem_cons.1 hb with rfl | hb
    · exact hk.1 a ha
    · exact hs.2.2 a ha b hb

theorem Shape.erase_sorted {key : Nat → T} {c : T → T → Bool} (prior : Nat → Nat) (t : Shape)
    (n : Nat) (hnd : t.toList.Nodup)
    (hs : t.toList.Pairwise (fun i j => c (key i) (key j) = true)) :
    (Shape.erase prior n t).toList.Pairwise (fun i j => c (key i) (key j) = true) := by
  rw [Shape.toList_erase prior n t hnd]
  exact hs.sublist (List.erase_sublist _ _)

/-- At most one key of a search tree is equivalent to a given key. -/
theorem sorted_equiv_unique {key : Nat → T} {c : T → T → Bool} (hc : StrictWeakOrder c)
    {l : List Nat} (hs : l.Pairwise (fun i j => c (key i) (key j) = true)) {x : T}
    {i j : Nat} (hi : i ∈ l) (hj : j ∈ l) (hix : equiv c (key i) x = true)
    (hjx : equiv c (key j) x = true) : i = j := by
  by_contra hne
  simp only [equiv, Bool.and_eq_true, Bool.not_eq_true'] at hix hjx
  have key1 : ∀ a b, c (key a) (key b) = true → equiv c (key a) x = true →
      equiv c (key b) x = true → False := by
    intro a b hab ha hb
    simp only [equiv, Bool.and_eq_true, Bool.not_eq_true'] at ha hb
    rcases hc.weak _ _ x hab with h | h
    · rw [ha.1] at h; exact Bool.false_ne_true h
    · rw [hb.2] at h; exact Bool.false_ne_true h
  have hix' : equiv c (key i) x = true := by simp [equiv, hix]
  have hjx' : equiv c (key j) x = true := by simp [equiv, hjx]
  induction l with
  | nil => simp at hi
  | cons a l ih =>
    rw [List.pairwise_cons] at hs
    rcases List.mem_cons.1 hi with rfl | hi'
    · rcases List.mem_cons.1 hj with rfl | hj'
      · exact hne rfl
      · exact key1 _ _ (hs.1 j hj') hix' hjx'
    · rcases List.mem_cons.1 hj with rfl | hj'
      · exact key1 _ _ (hs.1 i hi') hjx' hix'
      · exact ih hs.2 hi' hj'

/-! ## `find` -/

/-- `treap::find` on a search tree returns a node with an equivalent key when there is one and
`nullptr` otherwise. -/
theorem find_spec (t : treap T) (hc : StrictWeakOrder t.cmp) (x : T) (m : Mem) :
    ∀ (fuel : Nat) (tr : Shape) (q : Ptr), Linked m t.tag tr q →
    tr.toList.Pairwise (fun i j => t.cmp (t.val i) (t.val j) = true) → tr.size < fuel →
    (t.find_at m x fuel (tr.root t.tag) = some Ptr.null ∧
        ∀ k ∈ tr.toList, equiv t.cmp (t.val k) x = false) ∨
      ∃ k ∈ tr.toList, t.find_at m x fuel (tr.root t.tag) = some (Ptr.elem t.tag k) ∧
        equiv t.cmp (t.val k) x = true := by
  intro fuel
  induction fuel with
  | zero => intro tr q _ _ h; omega
  | succ fuel ih =>
    intro tr q hL hs hsz
    cases tr with
    | nil => exact Or.inl ⟨by simp [treap.find_at], by simp [Shape.toList]⟩
    | node l n r =>
      obtain ⟨-, hl, hr, hLl, hLr⟩ := hL
      simp only [Shape.toList, List.pairwise_append, List.pairwise_cons, List.mem_cons] at hs
      obtain ⟨hsl, ⟨hnr, hsr⟩, hlr⟩ := hs
      simp only [Shape.size] at hsz
      by_cases h1 : t.cmp (t.val n) x = true
      · -- continue in the right subtree
        have hstep : t.find_at m x (fuel + 1) (Ptr.elem t.tag n)
            = t.find_at m x fuel (r.root t.tag) := by
          simp [treap.find_at, treap.less, h1, hr]
        have hleft : ∀ k ∈ l.toList, equiv t.cmp (t.val k) x = false := by
          intro k hk
          have := hc.trans _ _ _ (hlr k hk n (Or.inl rfl)) h1
          simp [equiv, this]
        have hn : equiv t.cmp (t.val n) x = false := by simp [equiv, h1]
        rcases ih r _ hLr hsr (by omega) with ⟨hf, hno⟩ | ⟨k, hk, hf, he⟩
        · refine Or.inl ⟨by rw [Shape.root_node, hstep, hf], fun k hk => ?_⟩
          simp only [Shape.toList, List.mem_append, List.mem_cons] at hk
          rcases hk with hk | rfl | hk
          · exact hleft k hk
          · exact hn
          · exact hno k hk
        · exact Or.inr ⟨k, by simp [Shape.toList, hk], by rw [Shape.root_node, hstep, hf], he⟩
      · have h1' : t.cmp (t.val n) x = false := by simpa using h1
        by_cases h2 : t.cmp x (t.val n) = true
        · -- continue in the left subtree
          have hstep : t.find_at m x (fuel + 1) (Ptr.elem t.tag n)
              = t.find_at m x fuel (l.root t.tag) := by
            simp [treap.find_at, treap.less, treap.greater_or_equal, h1', h2, hl]
          have hright : ∀ k ∈ r.toList, equiv t.cmp (t.val k) x = false := by
            intro k hk
            have := hc.trans _ _ _ h2 (hnr k hk)
            simp [equiv, this]
          have hn : equiv t.cmp (t.val n) x = false := by simp [equiv, h2]
          rcases ih l _ hLl hsl (by omega) with ⟨hf, hno⟩ | ⟨k, hk, hf, he⟩
          · refine Or.inl ⟨by rw [Shape.root_node, hstep, hf], fun k hk => ?_⟩
            simp only [Shape.toList, List.mem_append, List.mem_cons] at hk
            rcases hk with hk | rfl | hk
            · exact hno k hk
            · exact hn
            · exact hright k hk
          · exact Or.inr ⟨k, by simp [Shape.toList, hk], by rw [Shape.root_node, hstep, hf], he⟩
        · -- found
          have h2' : t.cmp x (t.val n) = false := by simpa using h2
          refine Or.inr ⟨n, by simp [Shape.toList], ?_, by simp [equiv, h1', h2']⟩
          simp [treap.find_at, treap.less, treap.greater_or_equal, h1', h2']

end details

namespace details

variable {T : Type}

theorem treap.fake_ne_elem (t : treap T) (tag : Tag) (k : Nat) : t.fake ≠ Ptr.elem tag k := by
  simp [treap.fake]

theorem treap.fake_ne_null (t : treap T) : t.fake ≠ Ptr.null := by
  simp [treap.fake]

theorem adopt_eq_adopt_if (m : Mem) {p : Ptr} (hp : p ≠ Ptr.null) (q : Ptr) :
    map_element_base.adopt m p q = adopt_if m p q := by
  simp [adopt_if, hp]

/-- `treap::insert` of a fresh element links up `Shape.insert` below the sentinel. -/
theorem insert_links (t : treap T) (fuel : Nat) (m : Mem) (tr : Shape) (n : Nat)
    (hfl : (m t.fake).left = tr.root t.tag) (hL : Linked m t.tag tr t.fake)
    (hnd : tr.toList.Nodup) (hn : n ∉ tr.toList)
    (hnl : (m (Ptr.elem t.tag n)).left = Ptr.null)
    (hnr : (m (Ptr.elem t.tag n)).right = Ptr.null)
    (hsz : tr.size + 1 < fuel) :
    ∃ m1, t.insert fuel m (Ptr.elem t.tag n) = some (m1, Ptr.elem t.tag n) ∧
      (m1 t.fake).left
        = (Shape.insert t.prior (fun k => t.cmp (t.val k) (t.val n)) tr n).root t.tag ∧
      (m1 t.fake).par = (m t.fake).par ∧ (m1 t.fake).right = (m t.fake).right ∧
      Linked m1 t.tag (Shape.insert t.prior (fun k => t.cmp (t.val k) (t.val n)) tr n) t.fake ∧
      (∀ p, p ≠ t.fake → (∀ k ∈ n :: tr.toList, p ≠ Ptr.elem t.tag k) → m1 p = m p) := by
  have hfe := t.fake_ne_elem
  have hfn := t.fake_ne_null
  by_cases hem : tr = Shape.nil
  · subst hem
    simp only [Shape.root_nil] at hfl
    set ma := Function.update m t.fake ⟨(m t.fake).par, Ptr.elem t.tag n, (m t.fake).right⟩
      with hma
    set mb := Function.update ma (Ptr.elem t.tag n)
      ⟨t.fake, (ma (Ptr.elem t.tag n)).left, (ma (Ptr.elem t.tag n)).right⟩ with hmb
    have hman : ma (Ptr.elem t.tag n) = m (Ptr.elem t.tag n) := by
      simp [hma, Function.update, (hfe t.tag n).symm]
    refine ⟨mb, ?_, ?_, ?_, ?_, ?_, ?_⟩
    · simp only [treap.insert, treap.empty, hfl, decide_True, if_true, Mem.set_left,
        Mem.write_of_ne m hfn, Option.some_bind, ← hma,
        map_element_base.adopt, Mem.set_par]
      have : (ma t.fake).left = Ptr.elem t.tag n := by simp [hma]
      rw [this, Mem.write_of_ne _ (by simp)]
      rfl
    · simp [hmb, hma, Function.update, hfe, Shape.insert]
    · simp [hmb, hma, Function.update, hfe]
    · simp [hmb, hma, Function.update, hfe]
    · simp only [Shape.insert]
      refine ⟨by simp [hmb], ?_, ?_, trivial, trivial⟩
      · simp [hmb, hman, hnl]
      · simp [hmb, hman, hnr]
    · intro p hp hk
      have := hk n (by simp)
      simp [hmb, hma, Function.update, hp, this]
  · have hroot : tr.root t.tag ≠ Ptr.null := fun e => hem (Shape.root_eq_null.1 e)
    rw [Shape.insert_eq]
    obtain ⟨m1, hm1, hU1, hV1, hf1⟩ := split_spec t (t.val n) fuel tr m hL.toU hnd (by omega)
    set sa := (Shape.split (fun k => t.cmp (t.val k) (t.val n)) tr).1 with hsa
    set sb := (Shape.split (fun k => t.cmp (t.val k) (t.val n)) tr).2 with hsb
    have hsplit : sa.toList ++ sb.toList = tr.toList := Shape.toList_split _ _
    have hsize : sa.size + sb.size = tr.size := Shape.size_split _ _
    have hndab : (sa.toList ++ sb.toList).Nodup := hsplit ▸ hnd
    have hna : n ∉ sa.toList := fun h => hn (hsplit ▸ List.mem_append_left _ h)
    have hnb : n ∉ sb.toList := fun h => hn (hsplit ▸ List.mem_append_right _ h)
    have hm1n : m1 (Ptr.elem t.tag n) = m (Ptr.elem t.tag n) := by
      apply hf1
      intro k hk e
      simp only [Ptr.elem.injEq, true_and] at e
      exact hn (e ▸ hk)
    have hS : LinkedU m1 t.tag (Shape.node Shape.nil n Shape.nil) :=
      ⟨by rw [hm1n, hnl]; rfl, by rw [hm1n, hnr]; rfl, trivial, trivial⟩
    have hnd2 : (sa.toList ++ (Shape.node Shape.nil n Shape.nil).toList).Nodup := by
      refine List.nodup_append.2 ⟨(List.nodup_append.1 hndab).1, by simp [Shape.toList], ?_⟩
      intro x hx hx2
      simp only [Shape.toList, List.nil_append, List.mem_singleton] at hx2
      exact hna (hx2 ▸ hx)
    obtain ⟨m2, hm2, hU2, hf2⟩ := merge_spec t fuel sa (Shape.node Shape.nil n Shape.nil) m1 hU1
      hS hnd2 (by simp only [Shape.size]; omega)
    set ab := Shape.merge t.prior sa (Shape.node Shape.nil n Shape.nil) with hab
    have habl : ab.toList = sa.toList ++ [n] := by
      rw [hab, Shape.toList_merge]; simp [Shape.toList]
    have habs : ab.size = sa.size + 1 := by
      rw [← Shape.length_toList, habl, List.length_append, Shape.length_toList]; rfl
    have hV2 : LinkedU m2 t.tag sb := by
      refine LinkedU.transfer_open sb (fun k hk => hf2 _ fun k2 hk2 e => ?_) hV1
      simp only [Ptr.elem.injEq, true_and] at e
      subst e
      simp only [Shape.toList, List.nil_append, List.mem_append, List.mem_singleton] at hk2
      rcases hk2 with h | h
      · exact (List.nodup_append.1 hndab).2.2 h hk
      · exact hnb (h ▸ hk)
    have hnd3 : (ab.toList ++ sb.toList).Nodup := by
      rw [habl, List.append_assoc]
      refine List.nodup_append.2 ⟨(List.nodup_append.1 hndab).1, ?_, ?_⟩
      · simpa using ⟨hnb, (List.nodup_append.1 hndab).2.1⟩
      · intro x hx hx2
        rcases List.mem_append.1 hx2 with h | h
        · simp only [List.mem_singleton] at h
          exact hna (h ▸ hx)
        · exact (List.nodup_append.1 hndab).2.2 hx h
    obtain ⟨m3, hm3, hU3, hf3⟩ := merge_spec t fuel ab sb m2 hU2 hV2 hnd3 (by omega)
    set res := Shape.merge t.prior ab sb with hres
    have hresl : res.toList = sa.toList ++ n :: sb.toList := by
      rw [hres, Shape.toList_merge, habl]; simp
    have hresne : res.root t.tag ≠ Ptr.null := by
      intro e
      rw [Shape.root_eq_null] at e
      rw [e] at hresl
      simp [Shape.toList] at hresl
    set m4 := Function.update m3 t.fake ⟨(m3 t.fake).par, res.root t.tag, (m3 t.fake).right⟩
      with hm4
    have hU4 : LinkedU m4 t.tag res := by
      refine LinkedU.transfer_open res (fun k hk => ?_) hU3
      simp [hm4, Function.update, (hfe t.tag k).symm]
    obtain ⟨m5, hm5, hL5, -, -, -, hf5⟩ := LinkedU.adopt res t.fake hU4
      (by rw [hres, Shape.toList_merge]; exact hnd3)
    have hmem : ∀ k, k ∈ res.toList ↔ k = n ∨ k ∈ tr.toList := by
      intro k
      rw [hresl, ← hsplit]
      simp only [List.mem_append, List.mem_cons]
      tauto
    have hfake3 : m3 t.fake = m t.fake := by
      rw [hf3 _ fun k _ => hfe t.tag k, hf2 _ fun k _ => hfe t.tag k,
        hf1 _ fun k _ => hfe t.tag k]
    have hfake5 : m5 t.fake = m4 t.fake := hf5 _ fun k _ => hfe t.tag k
    refine ⟨m5, ?_, ?_, ?_, ?_, hL5, ?_⟩
    · have hroot' : ¬ (m t.fake).left = Ptr.null := hfl ▸ hroot
      simp only [Shape.root_node] at hm2
      simp only [treap.insert, treap.empty, hroot', hroot, decide_False, Bool.false_eq_true, if_false,
        treap.val_at_elem, Option.some_bind, hfl, hm1, hm2, hm3, Mem.set_left,
        Mem.write_of_ne _ hfn, ← hm4]
      have : (m4 t.fake).left = res.root t.tag := by simp [hm4]
      simp only [this, adopt_eq_adopt_if _ hresne, hm5, Option.some_bind]
    · rw [hfake5]; simp [hm4]
    · rw [hfake5]; simp [hm4, hfake3]
    · rw [hfake5]; simp [hm4, hfake3]
    · intro p hp hk
      have hk' : ∀ k ∈ res.toList, p ≠ Ptr.elem t.tag k := fun k hkm =>
        hk k (by rcases (hmem k).1 hkm with h | h <;> simp [h])
      rw [hf5 _ hk']
      simp only [hm4, Function.update, hp, dite_false]
      rw [hf3 _ fun k hkm => hk k ?_, hf2 _ fun k hkm => hk k ?_, hf1 _ fun k hkm => hk k ?_]
      · simp [hkm]
      · simp only [Shape.toList, List.nil_append, List.mem_append, List.mem_singleton] at hkm
        rcases hkm with h | h
        · exact List.mem_cons_of_mem _ (hsplit ▸ List.mem_append_left _ h)
        · simp [h]
      · rw [habl] at hkm
        simp only [List.mem_append, List.mem_singleton] at hkm
        rcases hkm with (h | h) | h
        · exact List.mem_cons_of_mem _ (hsplit ▸ List.mem_append_left _ h)
        · simp [h]
        · exact List.mem_cons_of_mem _ (hsplit ▸ List.mem_append_right _ h)

end details

namespace details

variable {T : Type}

/-- `treap::erase(map_element_base*)` inside a subtree: the subtree below `q` becomes
`Shape.erase`, the link of `q` that led to the subtree follows its new root, the erased element
is cleared and nothing else changes.  `left` tells whether the subtree hangs on the left or on
the right link of `q`. -/
theorem erase_links (t : treap T) (n : Nat) (fuel : Nat) : ∀ (tr : Shape) (q : Ptr) (m : Mem)
    (left : Bool), Linked m t.tag tr q → tr.toList.Nodup → n ∈ tr.toList → tr.size < fuel →
    q ≠ Ptr.null → (∀ k ∈ tr.toList, q ≠ Ptr.elem t.tag k) →
    (if left = true then (m q).left = tr.root t.tag ∧ (m q).right ≠ Ptr.elem t.tag n
      else (m q).right = tr.root t.tag) →
    ((m t.fake).left = Ptr.elem t.tag n →
      q = t.fake ∧ tr.root t.tag = Ptr.elem t.tag n ∧ left = true) →
    ∃ m1, t.erase fuel m (Ptr.elem t.tag n) = some m1 ∧
      Linked m1 t.tag (Shape.erase t.prior n tr) q ∧
      m1 (Ptr.elem t.tag n) = ⟨Ptr.null, Ptr.null, Ptr.null⟩ ∧
      (∀ p, p ≠ q → (∀ k ∈ tr.toList, p ≠ Ptr.elem t.tag k) → m1 p = m p) ∧
      m1 q = (if left = true
        then ⟨(m q).par, (Shape.erase t.prior n tr).root t.tag, (m q).right⟩
        else ⟨(m q).par, (m q).left, (Shape.erase t.prior n tr).root t.tag⟩) := by
  intro tr
  induction tr with
  | nil => intro q m left _ _ hn; simp [Shape.toList] at hn
  | node l k r ihl ihr =>
    intro q m left hL hnd hn hsz hq hqk hside hfake
    obtain ⟨hp, hl, hr, hLl, hLr⟩ := hL
    obtain ⟨hndl, hndr, hkl, hkr, hlr⟩ := nodup_node hnd
    simp only [Shape.size] at hsz
    by_cases hk : k = n
    · -- the erased element is the root of this subtree
      subst hk
      have hndlr : (l.toList ++ r.toList).Nodup :=
        List.nodup_append.2 ⟨hndl, hndr, fun x hx hx2 => hlr x hx hx2⟩
      obtain ⟨m1, hm1, hU1, hf1⟩ := merge_spec t fuel l r m hLl.toU hLr.toU hndlr (by omega)
      set res := Shape.merge t.prior l r with hres
      have hresl : res.toList = l.toList ++ r.toList := Shape.toList_merge _ _ _
      have hsub : ∀ x ∈ res.toList, x ∈ (Shape.node l k r).toList := by
        intro x hx
        rw [hresl] at hx
        simp only [Shape.toList, List.mem_append, List.mem_cons]
        rcases List.mem_append.1 hx with h | h
        · exact Or.inl h
        · exact Or.inr (Or.inr h)
      have hkres : k ∉ res.toList := by
        rw [hresl]
        intro h
        rcases List.mem_append.1 h with h | h
        · exact hkl h
        · exact hkr h
      have hm1k : m1 (Ptr.elem t.tag k) = m (Ptr.elem t.tag k) := by
        apply hf1
        intro x hx e
        simp only [Ptr.elem.injEq, true_and] at e
        exact hkres (hresl ▸ e ▸ hx)
      have hm1q : m1 q = m q := hf1 _ fun x hx => hqk x (hsub x (hresl ▸ hx))
      have hm1f : m1 t.fake = m t.fake := hf1 _ fun x _ => t.fake_ne_elem _ _
      have hqne : q ≠ Ptr.elem t.tag k := hqk k (by simp [Shape.toList])
      have hqres : ∀ x ∈ res.toList, q ≠ Ptr.elem t.tag x := fun x hx => hqk x (hsub x hx)
      have hkne : ∀ x ∈ res.toList, Ptr.elem t.tag k ≠ Ptr.elem t.tag x := by
        intro x hx e
        simp only [Ptr.elem.injEq, true_and] at e
        exact hkres (e ▸ hx)
      have hfres : ∀ x ∈ res.toList, t.fake ≠ Ptr.elem t.tag x := fun x _ =>
        t.fake_ne_elem _ _
      have hndres : res.toList.Nodup := hresl ▸ hndlr
      have herase : Shape.erase t.prior k (Shape.node l k r) = res := by
        simp [Shape.erase, hres]
      rw [herase]
      cases left with
      | true =>
        simp only [if_true, Shape.root_node] at hside ⊢
        obtain ⟨hql, hqr⟩ := hside
        -- the assignment to `fake.left`, taken only when the element is the root
        set mA := Function.update m1 q ⟨(m1 q).par, res.root t.tag, (m1 q).right⟩ with hmA
        by_cases hroot : (m t.fake).left = Ptr.elem t.tag k
        · obtain ⟨hqf, -, -⟩ := hfake hroot
          subst hqf
          have hUA : LinkedU mA t.tag res := by
            refine LinkedU.transfer_open res (fun x hx => ?_) hU1
            simp [hmA, Function.update, (hqres x hx).symm]
          obtain ⟨mB, hmB, hLB, -, -, -, hfB⟩ := LinkedU.adopt res t.fake hUA hndres
          have hBk : mB (Ptr.elem t.tag k) = m (Ptr.elem t.tag k) := by
            rw [hfB _ hkne]
            simp [hmA, Function.update, hqne.symm, hm1k]
          have hBq : mB t.fake = mA t.fake := hfB _ hqres
          set mC := Function.update mB t.fake ⟨(mB t.fake).par, res.root t.tag, (mB t.fake).right⟩ with hmC
          refine ⟨Function.update mC (Ptr.elem t.tag k) ⟨Ptr.null, Ptr.null, Ptr.null⟩,
            ?_, ?_, ?_, ?_, ?_⟩
          · have hcond : Ptr.elem t.tag k = (m1 t.fake).left := by rw [hm1f, hroot]
            have hAk : (mA (Ptr.elem t.tag k)).par = t.fake := by
              simp [hmA, Function.update, hqne.symm, hm1k, hp]
            have hrs : map_element_base.is_right_son mB (Ptr.elem t.tag k) = some false := by
              simp only [map_element_base.is_right_son, Mem.read_elem, Option.some_bind, hBk,
                hp, Mem.read_of_ne _ hq, hBq]
              simp [hmA, hm1q, hqr]
            simp only [treap.erase, Mem.read_elem, Option.some_bind, hl, hr, hm1, ← hcond,
              if_true, Mem.set_left, Mem.write_of_ne _ t.fake_ne_null, ← hmA, hAk, hmB,
              hrs, Bool.false_eq_true, if_false, hBk, hp, ← hmC]
            rfl
          · refine Linked.transfer res _ (fun x hx => ?_) hLB
            simp [hmC, Function.update, (hkne x hx).symm, (hqres x hx).symm]
          · simp
          · intro p hpq hpk
            have hpk' : p ≠ Ptr.elem t.tag k := hpk k (by simp [Shape.toList])
            simp only [Function.update, hpk', hmC, hpq, dite_false]
            rw [hfB _ fun x hx => hpk x (hsub x hx)]
            simp only [hmA, Function.update, hpq, dite_false]
            exact hf1 _ fun x hx => hpk x (hsub x (hresl ▸ hx))
          · simp [Function.update, hqne, hmC, hBq, hmA, hm1q]
        · have hUA : LinkedU m1 t.tag res := hU1
          obtain ⟨mB, hmB, hLB, -, -, -, hfB⟩ := LinkedU.adopt res q hUA hndres
          have hBk : mB (Ptr.elem t.tag k) = m (Ptr.elem t.tag k) := by
            rw [hfB _ hkne, hm1k]
          have hBq : mB q = m q := by rw [hfB _ hqres, hm1q]
          set mC := Function.update mB q ⟨(mB q).par, res.root t.tag, (mB q).right⟩ with hmC
          refine ⟨Function.update mC (Ptr.elem t.tag k) ⟨Ptr.null, Ptr.null, Ptr.null⟩,
            ?_, ?_, ?_, ?_, ?_⟩
          · have hcond : ¬ Ptr.elem t.tag k = (m1 t.fake).left := by
              rw [hm1f]; exact fun e => hroot e.symm
            have hrs : map_element_base.is_right_son mB (Ptr.elem t.tag k) = some false := by
              simp only [map_element_base.is_right_son, Mem.read_elem, Option.some_bind, hBk,
                hp, Mem.read_of_ne _ hq, hBq]
              simp [hqr]
            simp only [treap.erase, Mem.read_elem, Option.some_bind, hl, hr, hm1, hcond,
              if_false, hm1k, hp, hmB, hrs, Bool.false_eq_true, hBk, Mem.set_left,
              Mem.write_of_ne _ hq, ← hmC]
            rfl
          · refine Linked.transfer res _ (fun x hx => ?_) hLB
            simp [hmC, Function.update, (hkne x hx).symm, (hqres x hx).symm]
          · simp
          · intro p hpq hpk
            have hpk' : p ≠ Ptr.elem t.tag k := hpk k (by simp [Shape.toList])
            simp only [Function.update, hpk', hmC, hpq, dite_false]
            rw [hfB _ fun x hx => hpk x (hsub x hx)]
            exact hf1 _ fun x hx => hpk x (hsub x (hresl ▸ hx))
          · simp [Function.update, hqne, hmC, hBq]
      | false =>
        simp only [Bool.false_eq_true, if_false, Shape.root_node] at hside ⊢
        have hroot : ¬ (m t.fake).left = Ptr.elem t.tag k := by
          intro e
          have := (hfake e).2.2
          exact Bool.false_ne_true this
        obtain ⟨mB, hmB, hLB, -, -, -, hfB⟩ := LinkedU.adopt res q hU1 hndres
        have hBk : mB (Ptr.elem t.tag k) = m (Ptr.elem t.tag k) := by
          rw [hfB _ hkne, hm1k]
        have hBq : mB q = m q := by rw [hfB _ hqres, hm1q]
        set mC := Function.update mB q ⟨(mB q).par, (mB q).left, res.root t.tag⟩ with hmC
        refine ⟨Function.update mC (Ptr.elem t.tag k) ⟨Ptr.null, Ptr.null, Ptr.null⟩,
          ?_, ?_, ?_, ?_, ?_⟩
        · have hcond : ¬ Ptr.elem t.tag k = (m1 t.fake).left := by
            rw [hm1f]; exact fun e => hroot e.symm
          have hrs : map_element_base.is_right_son mB (Ptr.elem t.tag k) = some true := by
            simp only [map_element_base.is_right_son, Mem.read_elem, Option.some_bind, hBk,
              hp, Mem.read_of_ne _ hq, hBq]
            simp [hside]
          simp only [treap.erase, Mem.read_elem, Option.some_bind, hl, hr, hm1, hcond,
            if_false, hm1k, hp, hmB, hrs, if_true, hBk, Mem.set_right,
            Mem.write_of_ne _ hq, ← hmC]
          rfl
        · refine Linked.transfer res _ (fun x hx => ?_) hLB
          simp [hmC, Function.update, (hkne x hx).symm, (hqres x hx).symm]
        · simp
        · intro p hpq hpk
          have hpk' : p ≠ Ptr.elem t.tag k := hpk k (by simp [Shape.toList])
          simp only [Function.update, hpk', hmC, hpq, dite_false]
          rw [hfB _ fun x hx => hpk x (hsub x hx)]
          exact hf1 _ fun x hx => hpk x (hsub x (hresl ▸ hx))
        · simp [Function.update, hqne, hmC, hBq]
    · -- the erased element lies in one of the subtrees
      have hfk : ¬ (m t.fake).left = Ptr.elem t.tag n := by
        intro e
        have := (hfake e).2.1
        simp only [Shape.root_node, Ptr.elem.injEq, true_and] at this
        exact hk this
      have hqne : q ≠ Ptr.elem t.tag k := hqk k (by simp [Shape.toList])
      simp only [Shape.toList, List.mem_append, List.mem_cons] at hn
      have hnk : n ≠ k := fun e => hk e.symm
      rcases hn with hn | hn | hn
      · have hnr : n ∉ r.toList := hlr n hn
        have hrn : (m (Ptr.elem t.tag k)).right ≠ Ptr.elem t.tag n := by
          rw [hr]
          intro e
          exact hnr (Shape.root_mem e)
        obtain ⟨m1, hm1, hL1, hc1, hf1, hq1⟩ := ihl (Ptr.elem t.tag k) m true hLl hndl hn
          (by omega) (by simp) (fun x hx e => by
            simp only [Ptr.elem.injEq, true_and] at e
            exact hkl (e ▸ hx)) (by simp [hl, hrn]) (fun e => absurd e hfk)
        simp only [if_true] at hq1
        have herase : Shape.erase t.prior n (Shape.node l k r)
            = Shape.node (Shape.erase t.prior n l) k r := by
          simp [Shape.erase, hk, Shape.erase_of_not_mem t.prior n r hnr]
        rw [herase]
        have hm1q : m1 q = m q := by
          refine hf1 q hqne fun x hx => hqk x ?_
          simp [Shape.toList, hx]
        refine ⟨m1, hm1, ?_, hc1, ?_, ?_⟩
        · refine ⟨by rw [hq1]; exact hp, by rw [hq1], by rw [hq1]; exact hr, hL1, ?_⟩
          refine Linked.transfer r _ (fun x hx => hf1 _ ?_ fun y hy e => ?_) hLr
          · intro e
            simp only [Ptr.elem.injEq, true_and] at e
            exact hkr (e ▸ hx)
          · simp only [Ptr.elem.injEq, true_and] at e
            exact hlr y hy (e ▸ hx)
        · intro p hpq hpk
          refine hf1 p (hpk k (by simp [Shape.toList])) fun x hx => hpk x ?_
          simp [Shape.toList, hx]
        · rw [hm1q]
          cases left with
          | true => simp only [if_true, Shape.root_node] at hside ⊢; rw [← hside.1]
          | false =>
            simp only [Bool.false_eq_true, if_false, Shape.root_node] at hside ⊢
            rw [← hside]
      · exact absurd hn hnk
      · have hnl : n ∉ l.toList := fun h => hlr n h hn
        obtain ⟨m1, hm1, hL1, hc1, hf1, hq1⟩ := ihr (Ptr.elem t.tag k) m false hLr hndr hn
          (by omega) (by simp) (fun x hx e => by
            simp only [Ptr.elem.injEq, true_and] at e
            exact hkr (e ▸ hx)) (by simp [hr]) (fun e => absurd e hfk)
        simp only [Bool.false_eq_true, if_false] at hq1
        have herase : Shape.erase t.prior n (Shape.node l k r)
            = Shape.node l k (Shape.erase t.prior n r) := by
          simp [Shape.erase, hk, Shape.erase_of_not_mem t.prior n l hnl]
        rw [herase]
        have hm1q : m1 q = m q := by
          refine hf1 q hqne fun x hx => hqk x ?_
          simp [Shape.toList, hx]
        refine ⟨m1, hm1, ?_, hc1, ?_, ?_⟩
        · refine ⟨by rw [hq1]; exact hp, by rw [hq1]; exact hl, by rw [hq1], ?_, hL1⟩
          refine Linked.transfer l _ (fun x hx => hf1 _ ?_ fun y hy e => ?_) hLl
          · intro e
            simp only [Ptr.elem.injEq, true_and] at e
            exact hkl (e ▸ hx)
          · simp only [Ptr.elem.injEq, true_and] at e
            exact hlr x hx (e ▸ hy)
        · intro p hpq hpk
          refine hf1 p (hpk k (by simp [Shape.toList])) fun x hx => hpk x ?_
          simp [Shape.toList, hx]
        · rw [hm1q]
          cases left with
          | true => simp only [if_true, Shape.root_node] at hside ⊢; rw [← hside.1]
          | false =>
            simp only [Bool.false_eq_true, if_false, Shape.root_node] at hside ⊢
            rw [← hside]

end details

namespace details

open bimap

/-! ## Walking the links -/

theorem first_or_append (tag : Tag) (fin : Ptr) (l1 l2 : List Nat) :
    first_or tag fin (l1 ++ l2) = first_or tag (first_or tag fin l2) l1 := by
  cases l1 <;> rfl

theorem Visits.append {m : Mem} {tag : Tag} {step : Nat} {fin : Ptr} {l1 l2 : List Nat}
    (h1 : Visits m tag step l1 (first_or tag fin l2)) (h2 : Visits m tag step l2 fin) :
    Visits m tag step (l1 ++ l2) fin := by
  induction l1 with
  | nil => exact h2
  | cons x l1 ih =>
    rw [List.cons_append]
    refine ⟨?_, ih h1.2⟩
    rw [first_or_append]
    exact h1.1

theorem down_left_first {m : Mem} {tag : Tag} : ∀ (fuel : Nat) (t : Shape) (q : Ptr),
    Linked m tag t q → t.size < fuel + 1 → ∀ x, t.toList.head? = some x →
    iterator.down_left m fuel (t.root tag) = some (Ptr.elem tag x) := by
  intro fuel
  induction fuel with
  | zero =>
    intro t q _ hsz x hx
    cases t with
    | nil => simp [Shape.toList] at hx
    | node l n r => simp only [Shape.size] at hsz; omega
  | succ fuel ih =>
    intro t q hL hsz x hx
    cases t with
    | nil => simp [Shape.toList] at hx
    | node l n r =>
      obtain ⟨-, hl, -, hLl, -⟩ := hL
      simp only [Shape.size] at hsz
      cases l with
      | nil =>
        simp only [Shape.toList, List.nil_append, List.head?_cons, Option.some.injEq] at hx
        subst hx
        simp [iterator.down_left, hl]
      | node l1 n1 r1 =>
        have hne : (Shape.node l1 n1 r1).toList ≠ [] := by simp [Shape.toList]
        have hx' : (Shape.node l1 n1 r1).toList.head? = some x := by
          rw [Shape.toList, List.head?_append_of_ne_nil _ hne] at hx
          exact hx
        have := ih (Shape.node l1 n1 r1) _ hLl (by omega) x hx'
        simp only [Shape.root_node] at this
        simp [iterator.down_left, hl, this]

theorem min_at_first {m : Mem} {tag : Tag} : ∀ (fuel : Nat) (t : Shape) (q : Ptr),
    Linked m tag t q → t.size < fuel + 1 → ∀ x, t.toList.head? = some x →
    treap.min_at m fuel (t.root tag) = some (Ptr.elem tag x) := by
  intro fuel
  induction fuel with
  | zero =>
    intro t q _ hsz x hx
    cases t with
    | nil => simp [Shape.toList] at hx
    | node l n r => simp only [Shape.size] at hsz; omega
  | succ fuel ih =>
    intro t q hL hsz x hx
    cases t with
    | nil => simp [Shape.toList] at hx
    | node l n r =>
      obtain ⟨-, hl, -, hLl, -⟩ := hL
      simp only [Shape.size] at hsz
      cases l with
      | nil =>
        simp only [Shape.toList, List.nil_append, List.head?_cons, Option.some.injEq] at hx
        subst hx
        simp [treap.min_at, hl]
      | node l1 n1 r1 =>
        have hne : (Shape.node l1 n1 r1).toList ≠ [] := by simp [Shape.toList]
        have hx' : (Shape.node l1 n1 r1).toList.head? = some x := by
          rw [Shape.toList, List.head?_append_of_ne_nil _ hne] at hx
          exact hx
        have := ih (Shape.node l1 n1 r1) _ hLl (by omega) x hx'
        simp only [Shape.root_node] at this
        simp [treap.min_at, hl, this]

theorem first_or_toList_eq (tag : Tag) (fin : Ptr) (t : Shape) (h : t ≠ Shape.nil) :
    ∃ x, t.toList.head? = some x ∧ first_or tag fin t.toList = Ptr.elem tag x := by
  cases t with
  | nil => exact absurd rfl h
  | node l n r =>
    cases hl : l.toList with
    | nil => exact ⟨n, by simp [Shape.toList, hl], by simp [Shape.toList, hl, first_or]⟩
    | cons x rest => exact ⟨x, by simp [Shape.toList, hl], by simp [Shape.toList, hl, first_or]⟩

/-- Stepping through a subtree: `operator++` visits its nodes in order and then leaves it for
`fin`, the place the climb along right-son links from its root ends at. -/
theorem visits_subtree {m : Mem} {tag : Tag} (step : Nat) : ∀ (t : Shape) (q fin : Ptr)
    (f0 : Nat), Linked m tag t q → t.toList.Nodup → q ≠ Ptr.null →
    ((m q).left = t.root tag ∧ (m q).right ≠ t.root tag ∨
      (m q).right = t.root tag ∧ (m q).left ≠ t.root tag) →
    (∀ f, f0 ≤ f → ((iterator.up_right m f (t.root tag)).bind fun d =>
      (m.read d).bind fun e => some e.par) = some fin) →
    f0 + t.size ≤ step →
    Visits m tag step t.toList fin := by
  intro t
  induction t with
  | nil => intro q fin f0 _ _ _ _ _ _; trivial
  | node l n r ihl ihr =>
    intro q fin f0 hL hnd hq hson hex hstep
    obtain ⟨hp, hl, hr, hLl, hLr⟩ := hL
    obtain ⟨hndl, hndr, hnl, hnr, hlr⟩ := nodup_node hnd
    simp only [Shape.size] at hstep
    simp only [Shape.root_node] at hson hex
    have hlr_root : l.root tag = r.root tag → l = Shape.nil ∧ r = Shape.nil := by
      intro e
      rcases Shape.root_cases tag l with h | ⟨x, hx, h⟩
      · exact ⟨Shape.root_eq_null.1 h, Shape.root_eq_null.1 (e ▸ h)⟩
      · exact absurd (Shape.root_mem (e ▸ h)) (hlr x hx)
    -- the left subtree is left for the root
    have hVl : Visits m tag step l.toList (Ptr.elem tag n) := by
      by_cases hl0 : l = Shape.nil
      · subst hl0; trivial
      · have hlne : l.root tag ≠ Ptr.null := fun e => hl0 (Shape.root_eq_null.1 e)
        refine ihl (Ptr.elem tag n) (Ptr.elem tag n) 1 hLl hndl (by simp) ?_ ?_ (by omega)
        · refine Or.inl ⟨hl, ?_⟩
          rw [hr]
          exact fun e => hl0 (hlr_root e.symm).1
        · intro f hf
          obtain ⟨f1, rfl⟩ : ∃ f1, f = f1 + 1 := ⟨f - 1, by omega⟩
          have hpl : (m (l.root tag)).par = Ptr.elem tag n := by
            cases l with
            | nil => exact absurd rfl hl0
            | node l1 n1 r1 => exact hLl.1
          have hrs : map_element_base.is_right_son m (l.root tag) = some false := by
            simp only [map_element_base.is_right_son, Mem.read_of_ne _ hlne, Option.some_bind,
              hpl, Mem.read_elem, hr]
            simp only [Option.some.injEq, decide_eq_false_iff_not]
            exact fun e => hl0 (hlr_root e.symm).1
          simp [iterator.up_right, hrs, Mem.read_of_ne _ hlne, hpl]
    -- the root and the right subtree
    have hVr : Visits m tag step (n :: r.toList) fin := by
      by_cases hr0 : r = Shape.nil
      · subst hr0
        refine ⟨?_, trivial⟩
        simp only [Shape.toList, first_or]
        simp only [Shape.root_nil] at hr
        rcases hson with ⟨hql, hqr⟩ | ⟨hqr, hql⟩
        · have hls : map_element_base.is_left_son m (Ptr.elem tag n) = some true := by
            simp [map_element_base.is_left_son, hp, Mem.read_of_ne _ hq, hql]
          have hrs : map_element_base.is_right_son m (Ptr.elem tag n) = some false := by
            simp [map_element_base.is_right_son, hp, Mem.read_of_ne _ hq, hqr]
          have := hex (f0 + 1) (by omega)
          simp only [iterator.up_right, hrs, Option.some_bind, Bool.false_eq_true, if_false,
            Mem.read_elem, hp, Option.some.injEq] at this
          simp [iterator.incr, hr, hls, hp, this]
        · have hls : map_element_base.is_left_son m (Ptr.elem tag n) = some false := by
            simp [map_element_base.is_left_son, hp, Mem.read_of_ne _ hq, hql]
          have hrs : map_element_base.is_right_son m (Ptr.elem tag n) = some true := by
            simp [map_element_base.is_right_son, hp, Mem.read_of_ne _ hq, hqr]
          have := hex step (by omega)
          simp only [iterator.incr, Mem.read_elem, Option.some_bind, hr, ne_eq,
            not_true_eq_false, if_false, hls, Bool.false_eq_true, hrs, if_true]
          exact this
      · have hrne : r.root tag ≠ Ptr.null := fun e => hr0 (Shape.root_eq_null.1 e)
        obtain ⟨x, hx, hfx⟩ := first_or_toList_eq tag fin r hr0
        refine ⟨?_, ?_⟩
        · rw [hfx]
          have := down_left_first step r _ hLr (by omega) x hx
          simp [iterator.incr, hr, hrne, this]
        · refine ihr (Ptr.elem tag n) fin (f0 + 1) hLr hndr (by simp) ?_ ?_ (by omega)
          · refine Or.inr ⟨hr, ?_⟩
            rw [hl]
            exact fun e => hr0 (hlr_root e).2
          · intro f hf
            obtain ⟨f1, rfl⟩ : ∃ f1, f = f1 + 1 := ⟨f - 1, by omega⟩
            have hpr : (m (r.root tag)).par = Ptr.elem tag n := by
              cases r with
              | nil => exact absurd rfl hr0
              | node l1 n1 r1 => exact hLr.1
            have hrs : map_element_base.is_right_son m (r.root tag) = some true := by
              simp [map_element_base.is_right_son, Mem.read_of_ne _ hrne, hpr, hr]
            have := hex f1 (by omega)
            simp only [iterator.up_right, hrs, Option.some_bind, if_true, hpr]
            exact this
    have := @Visits.append m tag step fin l.toList (n :: r.toList) hVl hVr
    exact this

/-- The loop `for (it = first; it != last; ++it)` over a visited sequence. -/
theorem range_of_visits {m : Mem} {tag : Tag} {step : Nat} {fin : Ptr} :
    ∀ (l : List Nat) (fuel : Nat), Visits m tag step l fin →
    (∀ x ∈ l, Ptr.elem tag x ≠ fin) → l.length < fuel →
    iterator.range m step fuel (first_or tag fin l) fin = some (l.map (Ptr.elem tag))
  | [], fuel, _, _, hlen => by
    obtain ⟨f1, rfl⟩ : ∃ f1, fuel = f1 + 1 := ⟨fuel - 1, by simp at hlen; omega⟩
    simp [iterator.range, first_or]
  | x :: rest, fuel, hV, hne, hlen => by
    obtain ⟨f1, rfl⟩ : ∃ f1, fuel = f1 + 1 := ⟨fuel - 1, by simp at hlen; omega⟩
    have ih := range_of_visits rest f1 hV.2 (fun y hy => hne y (List.mem_cons_of_mem _ hy))
      (by simp at hlen; omega)
    have hx : Ptr.elem tag x ≠ fin := hne x (by simp)
    have h0 : first_or tag fin (x :: rest) = Ptr.elem tag x := rfl
    rw [h0]
    simp only [iterator.range, hx, if_false, hV.1, Option.some_bind, ih, List.map_cons]

end details

namespace details

open bimap

variable {T : Type}

/-! ## One treap -/

theorem Shape.mem_insert (prior : Nat → Nat) (lt : Nat → Bool) (t : Shape) (n k : Nat) :
    k ∈ (Shape.insert prior lt t n).toList ↔ k = n ∨ k ∈ t.toList := by
  rw [Shape.toList_insert, ← Shape.toList_split lt t]
  simp only [List.mem_append, List.mem_cons]
  tauto

theorem Shape.insert_perm (prior : Nat → Nat) (lt : Nat → Bool) (t : Shape) (n : Nat) :
    (Shape.insert prior lt t n).toList.Perm (n :: t.toList) := by
  rw [Shape.toList_insert]
  conv => rhs; rw [← Shape.toList_split lt t]
  exact List.perm_middle

theorem Shape.insert_nodup (prior : Nat → Nat) (lt : Nat → Bool) (t : Shape) (n : Nat)
    (hnd : t.toList.Nodup) (hn : n ∉ t.toList) : (Shape.insert prior lt t n).toList.Nodup :=
  (Shape.insert_perm prior lt t n).nodup_iff.2 (List.nodup_cons.2 ⟨hn, hnd⟩)

theorem Shape.erase_nodup (prior : Nat → Nat) (t : Shape) (n : Nat) (hnd : t.toList.Nodup) :
    (Shape.erase prior n t).toList.Nodup := by
  rw [Shape.toList_erase prior n t hnd]
  exact hnd.erase n

theorem Linked.par_ne_null {m : Mem} {tag : Tag} : ∀ (t : Shape) (q : Ptr),
    Linked m tag t q → q ≠ Ptr.null → ∀ k ∈ t.toList, (m (Ptr.elem tag k)).par ≠ Ptr.null
  | Shape.nil, _, _, _, k, hk => by simp [Shape.toList] at hk
  | Shape.node l n r, q, ⟨hp, _, _, hL, hR⟩, hq, k, hk => by
    simp only [Shape.toList, List.mem_append, List.mem_cons] at hk
    rcases hk with hk | rfl | hk
    · exact Linked.par_ne_null l _ hL (by simp) k hk
    · rw [hp]; exact hq
    · exact Linked.par_ne_null r _ hR (by simp) k hk

/-- The invariant of a treap depends only on its own sentinel and on the links and keys of its
own nodes. -/
theorem TreapInv.transfer_inv {t t1 : treap T} {m m1 : Mem} {tr : Shape} (hI : TreapInv t m tr)
    (hcmp : t1.cmp = t.cmp) (htag : t1.tag = t.tag) (hown : t1.owner = t.owner)
    (hval : ∀ k ∈ tr.toList, t1.val k = t.val k) (hfake : m1 t.fake = m t.fake)
    (hmem : ∀ k ∈ tr.toList, m1 (Ptr.elem t.tag k) = m (Ptr.elem t.tag k)) :
    TreapInv t1 m1 tr := by
  have hf : t1.fake = t.fake := by simp [treap.fake, htag, hown]
  refine ⟨?_, ?_, ?_, hI.nodup, ?_⟩
  · rw [hf, hfake]; exact hI.fake_par
  · rw [hf, hfake, htag]; exact hI.fake_left
  · rw [hf, htag]; exact Linked.transfer tr _ hmem hI.linked
  · refine hI.sorted.imp_of_mem ?_
    intro a b ha hb hab
    rw [hcmp, hval a ha, hval b hb]
    exact hab

theorem TreapInv.find {t : treap T} {m : Mem} {tr : Shape} (hI : TreapInv t m tr)
    (hc : StrictWeakOrder t.cmp) (x : T) (fuel : Nat) (hsz : tr.size < fuel) :
    (t.find fuel m x = some Ptr.null ∧ ∀ k ∈ tr.toList, equiv t.cmp (t.val k) x = false) ∨
      ∃ k ∈ tr.toList, t.find fuel m x = some (Ptr.elem t.tag k) ∧
        equiv t.cmp (t.val k) x = true := by
  have := find_spec t hc x m fuel tr _ hI.linked hI.sorted hsz
  simpa only [treap.find, hI.fake_left] using this

theorem TreapInv.insert_inv {t : treap T} {m : Mem} {tr : Shape} (hI : TreapInv t m tr)
    (hc : StrictWeakOrder t.cmp) (n : Nat) (fuel : Nat) (hn : n ∉ tr.toList)
    (hnl : (m (Ptr.elem t.tag n)).left = Ptr.null)
    (hnr : (m (Ptr.elem t.tag n)).right = Ptr.null)
    (hkey : ∀ k ∈ tr.toList, equiv t.cmp (t.val k) (t.val n) = false)
    (hsz : tr.size + 1 < fuel) :
    ∃ m1, t.insert fuel m (Ptr.elem t.tag n) = some (m1, Ptr.elem t.tag n) ∧
      TreapInv t m1 (Shape.insert t.prior (fun k => t.cmp (t.val k) (t.val n)) tr n) ∧
      (m1 t.fake).right = (m t.fake).right ∧
      (∀ p, p ≠ t.fake → (∀ k ∈ n :: tr.toList, p ≠ Ptr.elem t.tag k) → m1 p = m p) := by
  obtain ⟨m1, h1, h2, h3, h4, h5, h6⟩ :=
    insert_links t fuel m tr n hI.fake_left hI.linked hI.nodup hn hnl hnr hsz
  refine ⟨m1, h1, ⟨?_, h2, h5, ?_, ?_⟩, h4, h6⟩
  · rw [h3]; exact hI.fake_par
  · exact Shape.insert_nodup _ _ _ _ hI.nodup hn
  · exact Shape.insert_sorted hc t.prior tr n hI.sorted hkey

theorem TreapInv.erase {t : treap T} {m : Mem} {tr : Shape} (hI : TreapInv t m tr)
    (n : Nat) (fuel : Nat) (hn : n ∈ tr.toList)
    (hright : (m t.fake).right ≠ Ptr.elem t.tag n) (hsz : tr.size < fuel) :
    ∃ m1, t.erase fuel m (Ptr.elem t.tag n) = some m1 ∧
      TreapInv t m1 (Shape.erase t.prior n tr) ∧
      m1 (Ptr.elem t.tag n) = ⟨Ptr.null, Ptr.null, Ptr.null⟩ ∧
      (m1 t.fake).right = (m t.fake).right ∧
      (∀ p, p ≠ t.fake → (∀ k ∈ tr.toList, p ≠ Ptr.elem t.tag k) → m1 p = m p) := by
  obtain ⟨m1, h1, h2, h3, h4, h5⟩ := erase_links t n fuel tr t.fake m true hI.linked hI.nodup
    hn hsz t.fake_ne_null (fun k _ => t.fake_ne_elem _ _) (by simp [hI.fake_left, hright])
    (fun e => ⟨rfl, by rw [← hI.fake_left, e], rfl⟩)
  simp only [if_true] at h5
  refine ⟨m1, h1, ⟨?_, ?_, h2, ?_, ?_⟩, h3, ?_, h4⟩
  · rw [h5]; exact hI.fake_par
  · rw [h5]
  · exact Shape.erase_nodup _ _ _ hI.nodup
  · exact Shape.erase_sorted _ _ _ hI.nodup hI.sorted
  · rw [h5]

/-- Forward iteration over a treap visits the nodes of its tree in order. -/
theorem TreapInv.visits {t : treap T} {m : Mem} {tr : Shape} (hI : TreapInv t m tr)
    (hright : ∀ k, (m t.fake).right ≠ Ptr.elem t.tag k) (step : Nat)
    (hstep : tr.size + 1 ≤ step) : Visits m t.tag step tr.toList t.fake := by
  by_cases h0 : tr = Shape.nil
  · subst h0; trivial
  · have hne : tr.root t.tag ≠ Ptr.null := fun e => h0 (Shape.root_eq_null.1 e)
    have hroot : ∃ k, tr.root t.tag = Ptr.elem t.tag k := by
      cases tr with
      | nil => exact absurd rfl h0
      | node l n r => exact ⟨n, rfl⟩
    obtain ⟨k, hk⟩ := hroot
    have hpar : (m (tr.root t.tag)).par = t.fake := by
      cases tr with
      | nil => exact absurd rfl h0
      | node l n r => exact hI.linked.1
    refine visits_subtree step tr t.fake t.fake 1 hI.linked hI.nodup t.fake_ne_null ?_ ?_
      (by omega)
    · refine Or.inl ⟨hI.fake_left, ?_⟩
      rw [hk]; exact hright k
    · intro f hf
      obtain ⟨f1, rfl⟩ : ∃ f1, f = f1 + 1 := ⟨f - 1, by omega⟩
      have hrs : map_element_base.is_right_son m (tr.root t.tag) = some false := by
        simp only [map_element_base.is_right_son, Mem.read_of_ne _ hne, Option.some_bind,
          hpar, Mem.read_of_ne _ t.fake_ne_null, Option.some.injEq, decide_eq_false_iff_not]
        rw [hk]; exact hright k
      simp [iterator.up_right, hrs, Mem.read_of_ne _ hne, hpar]

theorem TreapInv.min {t : treap T} {m : Mem} {tr : Shape} (hI : TreapInv t m tr)
    (fuel : Nat) (hsz : tr.size + 1 < fuel) :
    treap.min_at m fuel t.fake = some (first_or t.tag t.fake tr.toList) := by
  obtain ⟨f1, rfl⟩ : ∃ f1, fuel = f1 + 1 := ⟨fuel - 1, by omega⟩
  by_cases h0 : tr = Shape.nil
  · subst h0
    have := hI.fake_left
    simp only [Shape.root_nil] at this
    simp [treap.min_at, Mem.read_of_ne _ t.fake_ne_null, this, Shape.toList, first_or]
  · have hne : tr.root t.tag ≠ Ptr.null := fun e => h0 (Shape.root_eq_null.1 e)
    obtain ⟨x, hx, hfx⟩ := first_or_toList_eq t.tag t.fake tr h0
    have := min_at_first f1 tr _ hI.linked (by omega) x hx
    simp [treap.min_at, Mem.read_of_ne _ t.fake_ne_null, hI.fake_left, hne, this, hfx]

/-- The loop from `min()` to the sentinel returns the nodes of the tree in order. -/
theorem TreapInv.range {t : treap T} {m : Mem} {tr : Shape} (hI : TreapInv t m tr)
    (hright : ∀ k, (m t.fake).right ≠ Ptr.elem t.tag k) (fuel : Nat)
    (hsz : tr.size + 1 < fuel) :
    ((treap.min_at m fuel t.fake).bind fun first =>
      iterator.range m fuel fuel first t.fake) = some (tr.toList.map (Ptr.elem t.tag)) := by
  rw [hI.min fuel hsz, Option.some_bind]
  exact range_of_visits tr.toList fuel (hI.visits hright fuel (by omega))
    (fun x _ => (t.fake_ne_elem _ _).symm) (by rw [Shape.length_toList]; omega)

end details

namespace bimap

open details

variable {L R : Type} {cl : L → L → Bool} {cr : R → R → Bool}

/-! ## The two treaps of a bimap -/

theorem length_le_of_lt {l : List Nat} {N : Nat} (hnd : l.Nodup) (h : ∀ n ∈ l, n < N) :
    l.length ≤ N := by
  have h1 : l.toFinset ⊆ Finset.range N := by
    intro x hx
    rw [List.mem_toFinset] at hx
    exact Finset.mem_range.2 (h x hx)
  have h2 := Finset.card_le_card h1
  rwa [List.toFinset_card_of_nodup hnd, Finset.card_range] at h2

theorem left_fake (h : Heap L R) (b : Nat) : (left_treap cl h b).fake = end_left b := rfl

theorem right_fake (h : Heap L R) (b : Nat) : (right_treap cr h b).fake = end_right b := rfl

theorem Links.left_size {h : Heap L R} {b : Nat} {tl tr : Shape} (hA : Links cl cr h b tl tr) :
    tl.size ≤ h.next := by
  rw [← Shape.length_toList]
  exact length_le_of_lt hA.left_inv.nodup hA.left_alloc

theorem Links.right_size {h : Heap L R} {b : Nat} {tl tr : Shape}
    (hA : Links cl cr h b tl tr) : tr.size ≤ h.next := by
  rw [← Shape.length_toList]
  exact length_le_of_lt hA.right_inv.nodup hA.right_alloc

/-- Links are untouched by a change of `sz`, of the priorities or of the generator. -/
theorem Links.transfer_links {h h1 : Heap L R} {b : Nat} {tl tr : Shape} (hA : Links cl cr h b tl tr)
    (hbase : h1.base = h.base) (hl : h1.lval = h.lval) (hr : h1.rval = h.rval)
    (hn : h.next ≤ h1.next) : Links cl cr h1 b tl tr := by
  refine ⟨?_, ?_, ?_, ?_, ?_, ?_⟩
  · exact hA.left_inv.transfer_inv rfl rfl rfl (fun k _ => by simp [left_treap, hl])
      (by rw [hbase]) (fun k _ => by rw [hbase])
  · exact hA.right_inv.transfer_inv rfl rfl rfl (fun k _ => by simp [right_treap, hr])
      (by rw [hbase]) (fun k _ => by rw [hbase])
  · rw [hbase]; exact hA.left_cross
  · rw [hbase]; exact hA.right_cross
  · exact fun n hn1 => lt_of_lt_of_le (hA.left_alloc n hn1) hn
  · exact fun n hn1 => lt_of_lt_of_le (hA.right_alloc n hn1) hn

/-- Unlinking a node from the left treap. -/
theorem Links.left_erase {h : Heap L R} {b : Nat} {tl tr : Shape} (hA : Links cl cr h b tl tr)
    (n : Nat) (hn : n ∈ tl.toList) :
    ∃ m1, (left_treap cl h b).erase h.fuel h.base (Ptr.elem Tag.left_tag n) = some m1 ∧
      Links cl cr { h with base := m1 } b (Shape.erase h.lprior n tl) tr ∧
      m1 (Ptr.elem Tag.left_tag n) = ⟨Ptr.null, Ptr.null, Ptr.null⟩ ∧
      (∀ p, p ≠ end_left b → (∀ k ∈ tl.toList, p ≠ Ptr.elem Tag.left_tag k) →
        m1 p = h.base p) := by
  have hsz := hA.left_size
  obtain ⟨m1, h1, h2, h3, h4, h5⟩ := hA.left_inv.erase n h.fuel hn
    (by rw [left_fake, hA.left_cross]; simp [end_right]) (by simp only [Heap.fuel]; omega)
  refine ⟨m1, h1, ⟨h2, ?_, ?_, ?_, ?_, hA.right_alloc⟩, h3, h5⟩
  · refine hA.right_inv.transfer_inv rfl rfl rfl (fun _ _ => rfl) ?_ ?_
    · exact h5 _ (by simp [treap.fake, left_treap, right_treap])
        (fun k _ => by simp [treap.fake, left_treap, right_treap])
    · intro k _
      exact h5 _ (by simp [treap.fake, left_treap, right_treap])
        (fun k _ => by simp [left_treap, right_treap])
  · exact h4.trans hA.left_cross
  · have : m1 (end_right b) = h.base (end_right b) :=
      h5 _ (by simp [treap.fake, left_treap, end_right])
        (fun k _ => by simp [left_treap, end_right])
    show (m1 (end_right b)).right = end_left b
    rw [this]; exact hA.right_cross
  · intro k hk
    have hk' : k ∈ tl.toList := by
      rw [Shape.toList_erase _ _ _ hA.left_inv.nodup] at hk
      exact List.mem_of_mem_erase hk
    exact hA.left_alloc k hk'

/-- Unlinking a node from the right treap. -/
theorem Links.right_erase {h : Heap L R} {b : Nat} {tl tr : Shape}
    (hA : Links cl cr h b tl tr) (n : Nat) (hn : n ∈ tr.toList) :
    ∃ m1, (right_treap cr h b).erase h.fuel h.base (Ptr.elem Tag.right_tag n) = some m1 ∧
      Links cl cr { h with base := m1 } b tl (Shape.erase h.rprior n tr) ∧
      m1 (Ptr.elem Tag.right_tag n) = ⟨Ptr.null, Ptr.null, Ptr.null⟩ ∧
      (∀ p, p ≠ end_right b → (∀ k ∈ tr.toList, p ≠ Ptr.elem Tag.right_tag k) →
        m1 p = h.base p) := by
  have hsz := hA.right_size
  obtain ⟨m1, h1, h2, h3, h4, h5⟩ := hA.right_inv.erase n h.fuel hn
    (by rw [right_fake, hA.right_cross]; simp [end_left]) (by simp only [Heap.fuel]; omega)
  refine ⟨m1, h1, ⟨?_, h2, ?_, ?_, hA.left_alloc, ?_⟩, h3, h5⟩
  · refine hA.left_inv.transfer_inv rfl rfl rfl (fun _ _ => rfl) ?_ ?_
    · exact h5 _ (by simp [treap.fake, left_treap, right_treap])
        (fun k _ => by simp [treap.fake, left_treap, right_treap])
    · intro k _
      exact h5 _ (by simp [treap.fake, left_treap, right_treap])
        (fun k _ => by simp [left_treap, right_treap])
  · have : m1 (end_left b) = h.base (end_left b) :=
      h5 _ (by simp [treap.fake, right_treap, end_left])
        (fun k _ => by simp [right_treap, end_left])
    show (m1 (end_left b)).right = end_right b
    rw [this]; exact hA.left_cross
  · exact h4.trans hA.right_cross
  · intro k hk
    have hk' : k ∈ tr.toList := by
      rw [Shape.toList_erase _ _ _ hA.right_inv.nodup] at hk
      exact List.mem_of_mem_erase hk
    exact hA.right_alloc k hk'

/-- Linking an allocated node into the left treap. -/
theorem Links.left_insert {h : Heap L R} {b : Nat} {tl tr : Shape} (hA : Links cl cr h b tl tr)
    (hc : StrictWeakOrder cl) (n : Nat) (hn : n ∉ tl.toList) (halloc : n < h.next)
    (hnl : (h.base (Ptr.elem Tag.left_tag n)).left = Ptr.null)
    (hnr : (h.base (Ptr.elem Tag.left_tag n)).right = Ptr.null)
    (hkey : ∀ k ∈ tl.toList, equiv cl (h.lval k) (h.lval n) = false) :
    ∃ m1, (left_treap cl h b).insert h.fuel h.base (Ptr.elem Tag.left_tag n)
        = some (m1, Ptr.elem Tag.left_tag n) ∧
      Links cl cr { h with base := m1 } b
        (Shape.insert h.lprior (fun k => cl (h.lval k) (h.lval n)) tl n) tr ∧
      (∀ p, p ≠ end_left b → (∀ k ∈ n :: tl.toList, p ≠ Ptr.elem Tag.left_tag k) →
        m1 p = h.base p) := by
  have hsz : tl.size < h.next := by
    rw [← Shape.length_toList]
    have := length_le_of_lt (List.nodup_cons.2 ⟨hn, hA.left_inv.nodup⟩)
      (fun k hk => by
        rcases List.mem_cons.1 hk with rfl | hk
        · exact halloc
        · exact hA.left_alloc k hk)
    simpa using this
  obtain ⟨m1, h1, h2, h4, h5⟩ := hA.left_inv.insert_inv hc n h.fuel hn hnl hnr hkey
    (by simp only [Heap.fuel]; omega)
  refine ⟨m1, h1, ⟨h2, ?_, ?_, ?_, ?_, hA.right_alloc⟩, h5⟩
  · refine hA.right_inv.transfer_inv rfl rfl rfl (fun _ _ => rfl) ?_ ?_
    · exact h5 _ (by simp [treap.fake, left_treap, right_treap])
        (fun k _ => by simp [treap.fake, left_treap, right_treap])
    · intro k _
      exact h5 _ (by simp [treap.fake, left_treap, right_treap])
        (fun k _ => by simp [left_treap, right_treap])
  · exact h4.trans hA.left_cross
  · have : m1 (end_right b) = h.base (end_right b) :=
      h5 _ (by simp [treap.fake, left_treap, end_right])
        (fun k _ => by simp [left_treap, end_right])
    show (m1 (end_right b)).right = end_left b
    rw [this]; exact hA.right_cross
  · intro k hk
    rcases (Shape.mem_insert _ _ _ _ _).1 hk with rfl | hk
    · exact halloc
    · exact hA.left_alloc k hk

/-- Linking an allocated node into the right treap. -/
theorem Links.right_insert {h : Heap L R} {b : Nat} {tl tr : Shape}
    (hA : Links cl cr h b tl tr) (hc : StrictWeakOrder cr) (n : Nat) (hn : n ∉ tr.toList)
    (halloc : n < h.next)
    (hnl : (h.base (Ptr.elem Tag.right_tag n)).left = Ptr.null)
    (hnr : (h.base (Ptr.elem Tag.right_tag n)).right = Ptr.null)
    (hkey : ∀ k ∈ tr.toList, equiv cr (h.rval k) (h.rval n) = false) :
    ∃ m1, (right_treap cr h b).insert h.fuel h.base (Ptr.elem Tag.right_tag n)
        = some (m1, Ptr.elem Tag.right_tag n) ∧
      Links cl cr { h with base := m1 } b tl
        (Shape.insert h.rprior (fun k => cr (h.rval k) (h.rval n)) tr n) ∧
      (∀ p, p ≠ end_right b → (∀ k ∈ n :: tr.toList, p ≠ Ptr.elem Tag.right_tag k) →
        m1 p = h.base p) := by
  have hsz : tr.size < h.next := by
    rw [← Shape.length_toList]
    have := length_le_of_lt (List.nodup_cons.2 ⟨hn, hA.right_inv.nodup⟩)
      (fun k hk => by
        rcases List.mem_cons.1 hk with rfl | hk
        · exact halloc
        · exact hA.right_alloc k hk)
    simpa using this
  obtain ⟨m1, h1, h2, h4, h5⟩ := hA.right_inv.insert_inv hc n h.fuel hn hnl hnr hkey
    (by simp only [Heap.fuel]; omega)
  refine ⟨m1, h1, ⟨?_, h2, ?_, ?_, hA.left_alloc, ?_⟩, h5⟩
  · refine hA.left_inv.transfer_inv rfl rfl rfl (fun _ _ => rfl) ?_ ?_
    · exact h5 _ (by simp [treap.fake, left_treap, right_treap])
        (fun k _ => by simp [treap.fake, left_treap, right_treap])
    · intro k _
      exact h5 _ (by simp [treap.fake, left_treap, right_treap])
        (fun k _ => by simp [left_treap, right_treap])
  · have : m1 (end_left b) = h.base (end_left b) :=
      h5 _ (by simp [treap.fake, right_treap, end_left])
        (fun k _ => by simp [right_treap, end_left])
    show (m1 (end_left b)).right = end_right b
    rw [this]; exact hA.left_cross
  · exact h4.trans hA.right_cross
  · intro k hk
    rcases (Shape.mem_insert _ _ _ _ _).1 hk with rfl | hk
    · exact halloc
    · exact hA.right_alloc k hk

end bimap

namespace bimap

open details

variable {L R : Type} {cl : L → L → Bool} {cr : R → R → Bool}

/-! ## Observers of a well-formed bimap -/

theorem mapM_map_some {α β γ : Type} (f : α → β) (g : β → Option γ) (k : α → γ) :
    ∀ (l : List α), (∀ x ∈ l, g (f x) = some (k x)) → (l.map f).mapM g = some (l.map k)
  | [], _ => rfl
  | x :: l, h => by
    have ih := mapM_map_some f g k l (fun y hy => h y (List.mem_cons_of_mem _ hy))
    simp only [List.map_cons, List.mapM_cons, h x (List.mem_cons_self _ _), ih]
    rfl

theorem Visits.incr_mem {m : Mem} {tag : Tag} {step : Nat} {fin : Ptr} {n : Nat}
    {l2 : List Nat} : ∀ (l1 : List Nat), Visits m tag step (l1 ++ n :: l2) fin →
    iterator.incr m step (Ptr.elem tag n) = some (first_or tag fin l2)
  | [], h => h.1
  | _ :: l1, h => Visits.incr_mem l1 h.2

theorem Links.left_range {h : Heap L R} {b : Nat} {tl tr : Shape}
    (hA : Links cl cr h b tl tr) :
    left_range h b = some (tl.toList.map (Ptr.elem Tag.left_tag)) := by
  have hsz := hA.left_size
  exact hA.left_inv.range (by
    intro k
    rw [left_fake, hA.left_cross]
    simp [end_right]) h.fuel (by simp only [Heap.fuel]; omega)

theorem Links.right_range {h : Heap L R} {b : Nat} {tl tr : Shape}
    (hA : Links cl cr h b tl tr) :
    right_range h b = some (tr.toList.map (Ptr.elem Tag.right_tag)) := by
  have hsz := hA.right_size
  exact hA.right_inv.range (by
    intro k
    rw [right_fake, hA.right_cross]
    simp [end_left]) h.fuel (by simp only [Heap.fuel]; omega)

theorem Links.left_visits {h : Heap L R} {b : Nat} {tl tr : Shape}
    (hA : Links cl cr h b tl tr) :
    Visits h.base Tag.left_tag h.fuel tl.toList (end_left b) := by
  have hsz := hA.left_size
  exact hA.left_inv.visits (by
    intro k
    rw [left_fake, hA.left_cross]
    simp [end_right]) h.fuel (by simp only [Heap.fuel]; omega)

theorem Links.right_visits {h : Heap L R} {b : Nat} {tl tr : Shape}
    (hA : Links cl cr h b tl tr) :
    Visits h.base Tag.right_tag h.fuel tr.toList (end_right b) := by
  have hsz := hA.right_size
  exact hA.right_inv.visits (by
    intro k
    rw [right_fake, hA.right_cross]
    simp [end_left]) h.fuel (by simp only [Heap.fuel]; omega)

theorem Links.begin_left {h : Heap L R} {b : Nat} {tl tr : Shape}
    (hA : Links cl cr h b tl tr) :
    begin_left h b = some (first_or Tag.left_tag (end_left b) tl.toList) := by
  have hsz := hA.left_size
  exact hA.left_inv.min h.fuel (by simp only [Heap.fuel]; omega)

theorem Links.begin_right {h : Heap L R} {b : Nat} {tl tr : Shape}
    (hA : Links cl cr h b tl tr) :
    begin_right h b = some (first_or Tag.right_tag (end_right b) tr.toList) := by
  have hsz := hA.right_size
  exact hA.right_inv.min h.fuel (by simp only [Heap.fuel]; omega)

theorem Links.flip_left {h : Heap L R} {b : Nat} {tl tr : Shape} (hA : Links cl cr h b tl tr)
    {n : Nat} (hn : n ∈ tl.toList) :
    iterator.flip h.base Tag.left_tag (Ptr.elem Tag.left_tag n)
      = some (Ptr.elem Tag.right_tag n) := by
  have := Linked.par_ne_null tl _ hA.left_inv.linked (left_treap cl h b).fake_ne_null n hn
  simp only [left_treap] at this
  simp [iterator.flip, this, other_tag]

theorem Links.flip_right {h : Heap L R} {b : Nat} {tl tr : Shape} (hA : Links cl cr h b tl tr)
    {n : Nat} (hn : n ∈ tr.toList) :
    iterator.flip h.base Tag.right_tag (Ptr.elem Tag.right_tag n)
      = some (Ptr.elem Tag.left_tag n) := by
  have := Linked.par_ne_null tr _ hA.right_inv.linked (right_treap cr h b).fake_ne_null n hn
  simp only [right_treap] at this
  simp [iterator.flip, this, other_tag]

theorem Links.flip_end_left {h : Heap L R} {b : Nat} {tl tr : Shape}
    (hA : Links cl cr h b tl tr) :
    iterator.flip h.base Tag.left_tag (end_left b) = some (end_right b) := by
  have h1 := hA.left_inv.fake_par
  have h2 := hA.left_cross
  rw [left_fake] at h1
  simp only [end_left] at h1 h2
  simp [iterator.flip, end_left, h1, h2]

theorem Links.flip_end_right {h : Heap L R} {b : Nat} {tl tr : Shape}
    (hA : Links cl cr h b tl tr) :
    iterator.flip h.base Tag.right_tag (end_right b) = some (end_left b) := by
  have h1 := hA.right_inv.fake_par
  have h2 := hA.right_cross
  rw [right_fake] at h1
  simp only [end_right] at h1 h2
  simp [iterator.flip, end_right, h1, h2]

theorem Links.left_pair {h : Heap L R} {b : Nat} {tl tr : Shape} (hA : Links cl cr h b tl tr)
    {n : Nat} (hn : n ∈ tl.toList) :
    left_pair h (Ptr.elem Tag.left_tag n) = some (h.lval n, h.rval n) := by
  simp [bimap.left_pair, deref_left, hA.flip_left hn, deref_right]

theorem Links.right_pair {h : Heap L R} {b : Nat} {tl tr : Shape} (hA : Links cl cr h b tl tr)
    {n : Nat} (hn : n ∈ tr.toList) :
    right_pair h (Ptr.elem Tag.right_tag n) = some (h.lval n, h.rval n) := by
  simp [bimap.right_pair, deref_left, hA.flip_right hn, deref_right]

theorem Links.left_pairs {h : Heap L R} {b : Nat} {tl tr : Shape}
    (hA : Links cl cr h b tl tr) :
    left_pairs h b = some (tl.toList.map fun n => (h.lval n, h.rval n)) := by
  simp only [bimap.left_pairs, hA.left_range, Option.some_bind]
  exact mapM_map_some _ _ _ _ fun n hn => hA.left_pair hn

theorem Links.right_pairs {h : Heap L R} {b : Nat} {tl tr : Shape}
    (hA : Links cl cr h b tl tr) :
    right_pairs h b = some (tr.toList.map fun n => (h.lval n, h.rval n)) := by
  simp only [bimap.right_pairs, hA.right_range, Option.some_bind]
  exact mapM_map_some _ _ _ _ fun n hn => hA.right_pair hn

/-- The two outcomes of a lookup on the left. -/
theorem Links.find_left_cases {h : Heap L R} {b : Nat} {tl tr : Shape}
    (hA : Links cl cr h b tl tr) (hc : StrictWeakOrder cl) (x : L) :
    ((left_treap cl h b).find h.fuel h.base x = some Ptr.null ∧
        find_left cl h b x = some (end_left b) ∧
        ∀ k ∈ tl.toList, equiv cl (h.lval k) x = false) ∨
      ∃ k ∈ tl.toList,
        (left_treap cl h b).find h.fuel h.base x = some (Ptr.elem Tag.left_tag k) ∧
        find_left cl h b x = some (Ptr.elem Tag.left_tag k) ∧
        equiv cl (h.lval k) x = true := by
  have hsz := hA.left_size
  rcases hA.left_inv.find hc x h.fuel (by simp only [Heap.fuel]; omega) with
    ⟨h1, h2⟩ | ⟨k, hk, h1, h2⟩
  · exact Or.inl ⟨h1, by simp [find_left, h1], h2⟩
  · refine Or.inr ⟨k, hk, h1, ?_, h2⟩
    simp only [left_treap] at h1
    simp [find_left, left_treap, h1]

/-- The two outcomes of a lookup on the right. -/
theorem Links.find_right_cases {h : Heap L R} {b : Nat} {tl tr : Shape}
    (hA : Links cl cr h b tl tr) (hc : StrictWeakOrder cr) (x : R) :
    ((right_treap cr h b).find h.fuel h.base x = some Ptr.null ∧
        find_right cr h b x = some (end_right b) ∧
        ∀ k ∈ tr.toList, equiv cr (h.rval k) x = false) ∨
      ∃ k ∈ tr.toList,
        (right_treap cr h b).find h.fuel h.base x = some (Ptr.elem Tag.right_tag k) ∧
        find_right cr h b x = some (Ptr.elem Tag.right_tag k) ∧
        equiv cr (h.rval k) x = true := by
  have hsz := hA.right_size
  rcases hA.right_inv.find hc x h.fuel (by simp only [Heap.fuel]; omega) with
    ⟨h1, h2⟩ | ⟨k, hk, h1, h2⟩
  · exact Or.inl ⟨h1, by simp [find_right, h1], h2⟩
  · refine Or.inr ⟨k, hk, h1, ?_, h2⟩
    simp only [right_treap] at h1
    simp [find_right, right_treap, h1]

end bimap

namespace bimap

open details

variable {L R : Type} {cl : L → L → Bool} {cr : R → R → Bool}

/-! ## Construction and insertion -/

theorem Links.after_ctor (h : Heap L R) (b : Nat) :
    Links cl cr (ctor h b) b Shape.nil Shape.nil := by
  refine ⟨⟨?_, ?_, trivial, List.nodup_nil, List.Pairwise.nil⟩,
    ⟨?_, ?_, trivial, List.nodup_nil, List.Pairwise.nil⟩, ?_, ?_, ?_, ?_⟩
  all_goals
    simp [bimap.ctor, left_treap, right_treap, treap.fake, end_left, end_right,
      Function.update, Shape.toList]

theorem Abs.of_ctor (h : Heap L R) (b : Nat) : Abs cl cr (ctor h b) b Shape.nil Shape.nil :=
  ⟨Links.after_ctor h b, List.Perm.refl _, by simp [bimap.ctor, Shape.toList]⟩

theorem Links.new_node {h : Heap L R} {b : Nat} {tl tr : Shape} (hA : Links cl cr h b tl tr)
    (l : L) (r : R) : Links cl cr (new_node h l r) b tl tr := by
  have hl : ∀ k ∈ tl.toList, k ≠ h.next := fun k hk => Nat.ne_of_lt (hA.left_alloc k hk)
  have hr : ∀ k ∈ tr.toList, k ≠ h.next := fun k hk => Nat.ne_of_lt (hA.right_alloc k hk)
  refine ⟨?_, ?_, ?_, ?_, ?_, ?_⟩
  · refine hA.left_inv.transfer_inv rfl rfl rfl (fun k hk => ?_) ?_ (fun k hk => ?_)
    · simp [left_treap, bimap.new_node, Function.update, hl k hk]
    · simp [left_treap, bimap.new_node, Function.update, treap.fake]
    · simp [left_treap, bimap.new_node, Function.update, hl k hk]
  · refine hA.right_inv.transfer_inv rfl rfl rfl (fun k hk => ?_) ?_ (fun k hk => ?_)
    · simp [right_treap, bimap.new_node, Function.update, hr k hk]
    · simp [right_treap, bimap.new_node, Function.update, treap.fake]
    · simp [right_treap, bimap.new_node, Function.update, hr k hk]
  · have := hA.left_cross
    simp only [end_left] at this
    simp [bimap.new_node, Function.update, end_left, this]
  · have := hA.right_cross
    simp only [end_right] at this
    simp [bimap.new_node, Function.update, end_right, this]
  · exact fun n hn => Nat.lt_succ_of_lt (hA.left_alloc n hn)
  · exact fun n hn => Nat.lt_succ_of_lt (hA.right_alloc n hn)

/-- A successful `insert`: the new node `h.next` is linked into both trees. -/
theorem Abs.insert_fresh {h : Heap L R} {b : Nat} {tl tr : Shape} (hA : Abs cl cr h b tl tr)
    (hcl : StrictWeakOrder cl) (hcr : StrictWeakOrder cr) (l : L) (r : R)
    (hl : ∀ k ∈ tl.toList, equiv cl (h.lval k) l = false)
    (hr : ∀ k ∈ tr.toList, equiv cr (h.rval k) r = false) :
    ∃ h1, bimap.insert cl cr h b l r = some (h1, Ptr.elem Tag.left_tag h.next) ∧
      Abs cl cr h1 b (Shape.insert h1.lprior (fun k => cl (h1.lval k) l) tl h.next)
        (Shape.insert h1.rprior (fun k => cr (h1.rval k) r) tr h.next) ∧
      h1.lval = Function.update h.lval h.next l ∧
      h1.rval = Function.update h.rval h.next r ∧
      h1.next = h.next + 1 ∧ h1.sz = Function.update h.sz b (h.sz b + 1) := by
  have hfl : (left_treap cl h b).find h.fuel h.base l = some Ptr.null := by
    rcases hA.links.find_left_cases hcl l with ⟨h1, -, -⟩ | ⟨k, hk, -, -, h3⟩
    · exact h1
    · rw [hl k hk] at h3; exact absurd h3 Bool.false_ne_true
  have hfr : (right_treap cr h b).find h.fuel h.base r = some Ptr.null := by
    rcases hA.links.find_right_cases hcr r with ⟨h1, -, -⟩ | ⟨k, hk, -, -, h3⟩
    · exact h1
    · rw [hr k hk] at h3; exact absurd h3 Bool.false_ne_true
  have hnl : h.next ∉ tl.toList := fun hm => Nat.lt_irrefl _ (hA.links.left_alloc _ hm)
  have hnr : h.next ∉ tr.toList := fun hm => Nat.lt_irrefl _ (hA.links.right_alloc _ hm)
  have hN := hA.links.new_node l r
  have hlv : (new_node h l r).lval h.next = l := by simp [bimap.new_node]
  have hrv : (new_node h l r).rval h.next = r := by simp [bimap.new_node]
  obtain ⟨m1, hm1, hL1, hf1⟩ := hN.left_insert hcl h.next hnl (by simp [bimap.new_node])
    (by simp [bimap.new_node, Function.update]) (by simp [bimap.new_node, Function.update])
    (by
      intro k hk
      have hkn : k ≠ h.next := fun e => hnl (e ▸ hk)
      rw [hlv]
      simpa [bimap.new_node, Function.update, hkn] using hl k hk)
  have hm1r : m1 (Ptr.elem Tag.right_tag h.next) = ⟨Ptr.null, Ptr.null, Ptr.null⟩ := by
    rw [hf1 _ (by simp [end_left]) (fun k _ => by simp)]
    simp [bimap.new_node, Function.update]
  obtain ⟨m2, hm2, hL2, hf2⟩ := hL1.right_insert hcr h.next hnr (by simp [bimap.new_node])
    (by simp [hm1r]) (by simp [hm1r])
    (by
      intro k hk
      have hkn : k ≠ h.next := fun e => hnr (e ▸ hk)
      show equiv cr ((new_node h l r).rval k) ((new_node h l r).rval h.next) = false
      rw [hrv]
      simpa [bimap.new_node, Function.update, hkn] using hr k hk)
  rw [hlv] at hL2
  simp only [hrv] at hL2
  refine ⟨Heap.mk m2 (new_node h l r).lval (new_node h l r).lprior (new_node h l r).rval
    (new_node h l r).rprior (Function.update (new_node h l r).sz b ((new_node h l r).sz b + 1))
    (new_node h l r).next (new_node h l r).rnd (new_node h l r).drawn, ?_, ?_, ?_, ?_, ?_, ?_⟩
  · have hm2' : (right_treap cr (new_node h l r) b).insert (new_node h l r).fuel m1
        (Ptr.elem Tag.right_tag h.next) = some (m2, Ptr.elem Tag.right_tag h.next) := hm2
    simp only [bimap.insert, hfl, hfr, Option.some_bind, ne_eq, not_true_eq_false, if_false,
      hm1, hm2']
  · refine ⟨hL2.transfer_links rfl rfl rfl (le_refl _), ?_, ?_⟩
    · exact ((Shape.insert_perm _ _ _ _).trans (List.Perm.cons _ hA.same)).trans
        (Shape.insert_perm _ _ _ _).symm
    · have := (Shape.insert_perm (new_node h l r).lprior
        (fun k => cl ((new_node h l r).lval k) l) tl h.next).length_eq
      simp only [Function.update_same]
      rw [this, List.length_cons]
      have hc := hA.count
      simp only [bimap.new_node]
      omega
  · rfl
  · rfl
  · rfl
  · rfl

/-- A rejected `insert`: the left key is already present. -/
theorem Abs.insert_dup_left {h : Heap L R} {b : Nat} {tl tr : Shape}
    (hA : Abs cl cr h b tl tr) (hcl : StrictWeakOrder cl) (l : L) (r : R) {k : Nat}
    (hk : k ∈ tl.toList) (he : equiv cl (h.lval k) l = true) :
    bimap.insert cl cr h b l r = some (h, end_left b) := by
  rcases hA.links.find_left_cases hcl l with ⟨-, -, h3⟩ | ⟨k1, hk1, h1, -, -⟩
  · rw [h3 k hk] at he; exact absurd he Bool.false_ne_true
  · simp [bimap.insert, h1]

/-- A rejected `insert`: the right key is already present. -/
theorem Abs.insert_dup_right {h : Heap L R} {b : Nat} {tl tr : Shape}
    (hA : Abs cl cr h b tl tr) (hcl : StrictWeakOrder cl) (hcr : StrictWeakOrder cr) (l : L)
    (r : R) {k : Nat} (hk : k ∈ tr.toList) (he : equiv cr (h.rval k) r = true) :
    bimap.insert cl cr h b l r = some (h, end_left b) := by
  have hr : ∃ p, (right_treap cr h b).find h.fuel h.base r = some p ∧ p ≠ Ptr.null := by
    rcases hA.links.find_right_cases hcr r with ⟨-, -, h3⟩ | ⟨k1, hk1, h1, -, -⟩
    · rw [h3 k hk] at he; exact absurd he Bool.false_ne_true
    · exact ⟨_, h1, by simp⟩
  obtain ⟨p, hp, hpn⟩ := hr
  rcases hA.links.find_left_cases hcl l with ⟨h1, -, -⟩ | ⟨k1, hk1, h1, -, -⟩
  · simp [bimap.insert, h1, hp, hpn]
  · simp [bimap.insert, h1]

end bimap

namespace bimap

open details

variable {L R : Type} {cl : L → L → Bool} {cr : R → R → Bool}

/-! ## Erasure and lookup -/

theorem Links.left_unique {h : Heap L R} {b : Nat} {tl tr : Shape}
    (hA : Links cl cr h b tl tr) (hc : StrictWeakOrder cl) {x : L} {i j : Nat}
    (hi : i ∈ tl.toList) (hj : j ∈ tl.toList) (hix : equiv cl (h.lval i) x = true)
    (hjx : equiv cl (h.lval j) x = true) : i = j :=
  sorted_equiv_unique hc hA.left_inv.sorted hi hj hix hjx

theorem Links.right_unique {h : Heap L R} {b : Nat} {tl tr : Shape}
    (hA : Links cl cr h b tl tr) (hc : StrictWeakOrder cr) {x : R} {i j : Nat}
    (hi : i ∈ tr.toList) (hj : j ∈ tr.toList) (hix : equiv cr (h.rval i) x = true)
    (hjx : equiv cr (h.rval j) x = true) : i = j :=
  sorted_equiv_unique hc hA.right_inv.sorted hi hj hix hjx

/-- Both treaps after the two `treap::erase` calls of `erase_left` and `erase_right`. -/
theorem Abs.erase_both {h : Heap L R} {b : Nat} {tl tr : Shape} (hA : Abs cl cr h b tl tr)
    (n : Nat) (hn : n ∈ tl.toList) :
    ∃ m1 m2, (left_treap cl h b).erase h.fuel h.base (Ptr.elem Tag.left_tag n) = some m1 ∧
      (right_treap cr h b).erase h.fuel m1 (Ptr.elem Tag.right_tag n) = some m2 ∧
      Abs cl cr (Heap.mk m2 h.lval h.lprior h.rval h.rprior
        (Function.update h.sz b (h.sz b - 1)) h.next h.rnd h.drawn) b
        (Shape.erase h.lprior n tl) (Shape.erase h.rprior n tr) := by
  have hnr : n ∈ tr.toList := hA.same.mem_iff.1 hn
  obtain ⟨m1, hm1, hL1, -, -⟩ := hA.links.left_erase n hn
  obtain ⟨m2, hm2, hL2, -, -⟩ := hL1.right_erase n hnr
  refine ⟨m1, m2, hm1, hm2, hL2.transfer_links rfl rfl rfl (le_refl _), ?_, ?_⟩
  · rw [Shape.toList_erase _ _ _ hA.links.left_inv.nodup,
      Shape.toList_erase _ _ _ hA.links.right_inv.nodup]
    exact hA.same.erase n
  · rw [Shape.toList_erase _ _ _ hA.links.left_inv.nodup, List.length_erase_of_mem hn]
    simp [hA.count]

/-- `erase_left(it)` at the node `n`: both trees lose `n`; the result is the successor in left
order. -/
theorem Abs.erase_left {h : Heap L R} {b : Nat} {tl tr : Shape} (hA : Abs cl cr h b tl tr)
    (n : Nat) (l1 l2 : List Nat) (hsplit : tl.toList = l1 ++ n :: l2) :
    ∃ h1, bimap.erase_left cl cr h b (Ptr.elem Tag.left_tag n)
        = some (h1, first_or Tag.left_tag (end_left b) l2) ∧
      Abs cl cr h1 b (Shape.erase h.lprior n tl) (Shape.erase h.rprior n tr) ∧
      h1.lval = h.lval ∧ h1.rval = h.rval ∧ h1.lprior = h.lprior ∧ h1.rprior = h.rprior ∧
      h1.next = h.next ∧ h1.sz = Function.update h.sz b (h.sz b - 1) := by
  have hn : n ∈ tl.toList := by rw [hsplit]; simp
  have hV := hA.links.left_visits
  rw [hsplit] at hV
  have hinc := Visits.incr_mem l1 hV
  obtain ⟨m1, m2, hm1, hm2, hA2⟩ := hA.erase_both n hn
  refine ⟨_, ?_, hA2, rfl, rfl, rfl, rfl, rfl, rfl⟩
  simp [bimap.erase_left, hinc, double_downcast, hm1, hm2]

/-- `erase_right(it)` at the node `n`: both trees lose `n`; the result is the successor in
right order. -/
theorem Abs.erase_right {h : Heap L R} {b : Nat} {tl tr : Shape} (hA : Abs cl cr h b tl tr)
    (n : Nat) (l1 l2 : List Nat) (hsplit : tr.toList = l1 ++ n :: l2) :
    ∃ h1, bimap.erase_right cl cr h b (Ptr.elem Tag.right_tag n)
        = some (h1, first_or Tag.right_tag (end_right b) l2) ∧
      Abs cl cr h1 b (Shape.erase h.lprior n tl) (Shape.erase h.rprior n tr) ∧
      h1.lval = h.lval ∧ h1.rval = h.rval ∧ h1.lprior = h.lprior ∧ h1.rprior = h.rprior ∧
      h1.next = h.next ∧ h1.sz = Function.update h.sz b (h.sz b - 1) := by
  have hnr : n ∈ tr.toList := by rw [hsplit]; simp
  have hn : n ∈ tl.toList := hA.same.mem_iff.2 hnr
  have hV := hA.links.right_visits
  rw [hsplit] at hV
  have hinc := Visits.incr_mem l1 hV
  obtain ⟨m1, m2, hm1, hm2, hA2⟩ := hA.erase_both n hn
  refine ⟨_, ?_, hA2, rfl, rfl, rfl, rfl, rfl, rfl⟩
  simp [bimap.erase_right, hinc, double_downcast, hm1, hm2]

theorem mem_split {α : Type} {a : α} {l : List α} (h : a ∈ l) :
    ∃ l1 l2, l = l1 ++ a :: l2 := List.append_of_mem h

/-- `erase_left(key)` with no equivalent key stored. -/
theorem Abs.erase_left_key_absent {h : Heap L R} {b : Nat} {tl tr : Shape}
    (hA : Abs cl cr h b tl tr) (hcl : StrictWeakOrder cl) (x : L)
    (hx : ∀ k ∈ tl.toList, equiv cl (h.lval k) x = false) :
    bimap.erase_left_key cl cr h b x = some (h, false) := by
  rcases hA.links.find_left_cases hcl x with ⟨-, h2, -⟩ | ⟨k, hk, -, -, h3⟩
  · simp [bimap.erase_left_key, h2]
  · rw [hx k hk] at h3; exact absurd h3 Bool.false_ne_true

/-- `erase_left(key)` with an equivalent key stored at node `n`. -/
theorem Abs.erase_left_key_present {h : Heap L R} {b : Nat} {tl tr : Shape}
    (hA : Abs cl cr h b tl tr) (hcl : StrictWeakOrder cl) (x : L) {n : Nat}
    (hn : n ∈ tl.toList) (hx : equiv cl (h.lval n) x = true) :
    ∃ h1, bimap.erase_left_key cl cr h b x = some (h1, true) ∧
      Abs cl cr h1 b (Shape.erase h.lprior n tl) (Shape.erase h.rprior n tr) ∧
      h1.lval = h.lval ∧ h1.rval = h.rval ∧ h1.lprior = h.lprior ∧ h1.rprior = h.rprior ∧
      h1.next = h.next ∧ h1.sz = Function.update h.sz b (h.sz b - 1) := by
  rcases hA.links.find_left_cases hcl x with ⟨-, -, h3⟩ | ⟨k, hk, -, h2, h3⟩
  · rw [h3 n hn] at hx; exact absurd hx Bool.false_ne_true
  · have hkn : k = n := hA.links.left_unique hcl hk hn h3 hx
    subst hkn
    obtain ⟨l1, l2, hsplit⟩ := mem_split hn
    obtain ⟨h1, he, hrest⟩ := hA.erase_left k l1 l2 hsplit
    exact ⟨h1, by simp [bimap.erase_left_key, h2, end_left, he], hrest⟩

/-- `erase_right(key)` with no equivalent key stored. -/
theorem Abs.erase_right_key_absent {h : Heap L R} {b : Nat} {tl tr : Shape}
    (hA : Abs cl cr h b tl tr) (hcr : StrictWeakOrder cr) (x : R)
    (hx : ∀ k ∈ tr.toList, equiv cr (h.rval k) x = false) :
    bimap.erase_right_key cl cr h b x = some (h, false) := by
  rcases hA.links.find_right_cases hcr x with ⟨-, h2, -⟩ | ⟨k, hk, -, -, h3⟩
  · simp [bimap.erase_right_key, h2]
  · rw [hx k hk] at h3; exact absurd h3 Bool.false_ne_true

/-- `erase_right(key)` with an equivalent key stored at node `n`. -/
theorem Abs.erase_right_key_present {h : Heap L R} {b : Nat} {tl tr : Shape}
    (hA : Abs cl cr h b tl tr) (hcr : StrictWeakOrder cr) (x : R) {n : Nat}
    (hn : n ∈ tr.toList) (hx : equiv cr (h.rval n) x = true) :
    ∃ h1, bimap.erase_right_key cl cr h b x = some (h1, true) ∧
      Abs cl cr h1 b (Shape.erase h.lprior n tl) (Shape.erase h.rprior n tr) ∧
      h1.lval = h.lval ∧ h1.rval = h.rval ∧ h1.lprior = h.lprior ∧ h1.rprior = h.rprior ∧
      h1.next = h.next ∧ h1.sz = Function.update h.sz b (h.sz b - 1) := by
  rcases hA.links.find_right_cases hcr x with ⟨-, -, h3⟩ | ⟨k, hk, -, h2, h3⟩
  · rw [h3 n hn] at hx; exact absurd hx Bool.false_ne_true
  · have hkn : k = n := hA.links.right_unique hcr hk hn h3 hx
    subst hkn
    obtain ⟨l1, l2, hsplit⟩ := mem_split hn
    obtain ⟨h1, he, hrest⟩ := hA.erase_right k l1 l2 hsplit
    exact ⟨h1, by simp [bimap.erase_right_key, h2, end_right, he], hrest⟩

/-- `at_left` on an absent key throws. -/
theorem Links.at_left_absent {h : Heap L R} {b : Nat} {tl tr : Shape}
    (hA : Links cl cr h b tl tr) (hcl : StrictWeakOrder cl) (x : L)
    (hx : ∀ k ∈ tl.toList, equiv cl (h.lval k) x = false) :
    bimap.at_left cl h b x = some (Except.error "no such element") := by
  rcases hA.find_left_cases hcl x with ⟨-, h2, -⟩ | ⟨k, hk, -, -, h3⟩
  · simp [bimap.at_left, h2]
  · rw [hx k hk] at h3; exact absurd h3 Bool.false_ne_true

/-- `at_left` on a present key returns the right value of its node. -/
theorem Abs.at_left_present {h : Heap L R} {b : Nat} {tl tr : Shape}
    (hA : Abs cl cr h b tl tr) (hcl : StrictWeakOrder cl) (x : L) {n : Nat}
    (hn : n ∈ tl.toList) (hx : equiv cl (h.lval n) x = true) :
    bimap.at_left cl h b x = some (Except.ok (h.rval n)) := by
  rcases hA.links.find_left_cases hcl x with ⟨-, -, h3⟩ | ⟨k, hk, -, h2, h3⟩
  · rw [h3 n hn] at hx; exact absurd hx Bool.false_ne_true
  · have hkn : k = n := hA.links.left_unique hcl hk hn h3 hx
    subst hkn
    simp [bimap.at_left, h2, end_left, hA.links.flip_left hk, deref_right]

/-- `at_right` on an absent key throws. -/
theorem Links.at_right_absent {h : Heap L R} {b : Nat} {tl tr : Shape}
    (hA : Links cl cr h b tl tr) (hcr : StrictWeakOrder cr) (x : R)
    (hx : ∀ k ∈ tr.toList, equiv cr (h.rval k) x = false) :
    bimap.at_right cr h b x = some (Except.error "no such element") := by
  rcases hA.find_right_cases hcr x with ⟨-, h2, -⟩ | ⟨k, hk, -, -, h3⟩
  · simp [bimap.at_right, h2]
  · rw [hx k hk] at h3; exact absurd h3 Bool.false_ne_true

/-- `at_right` on a present key returns the left value of its node. -/
theorem Abs.at_right_present {h : Heap L R} {b : Nat} {tl tr : Shape}
    (hA : Abs cl cr h b tl tr) (hcr : StrictWeakOrder cr) (x : R) {n : Nat}
    (hn : n ∈ tr.toList) (hx : equiv cr (h.rval n) x = true) :
    bimap.at_right cr h b x = some (Except.ok (h.lval n)) := by
  rcases hA.links.find_right_cases hcr x with ⟨-, -, h3⟩ | ⟨k, hk, -, h2, h3⟩
  · rw [h3 n hn] at hx; exact absurd hx Bool.false_ne_true
  · have hkn : k = n := hA.links.right_unique hcr hk hn h3 hx
    subst hkn
    simp [bimap.at_right, h2, end_right, hA.links.flip_right hk, deref_left]

end bimap

namespace bimap

open details

variable {L R : Type} {cl : L → L → Bool} {cr : R → R → Bool}

/-! ## `at_left_or_default` and `at_right_or_default` -/

/-- Overwriting the left value of a node outside the left tree keeps the links. -/
theorem Links.set_lval {h : Heap L R} {b : Nat} {tl tr : Shape} (hA : Links cl cr h b tl tr)
    (n : Nat) (hn : n ∉ tl.toList) (key : L) :
    Links cl cr (Heap.mk h.base (Function.update h.lval n key) h.lprior h.rval h.rprior h.sz
      h.next h.rnd h.drawn) b tl tr := by
  refine ⟨?_, hA.right_inv, hA.left_cross, hA.right_cross, hA.left_alloc, hA.right_alloc⟩
  refine hA.left_inv.transfer_inv rfl rfl rfl (fun k hk => ?_) rfl (fun _ _ => rfl)
  have : k ≠ n := fun e => hn (e ▸ hk)
  simp [left_treap, Function.update, this]

/-- Overwriting the right value of a node outside the right tree keeps the links. -/
theorem Links.set_rval {h : Heap L R} {b : Nat} {tl tr : Shape} (hA : Links cl cr h b tl tr)
    (n : Nat) (hn : n ∉ tr.toList) (key : R) :
    Links cl cr (Heap.mk h.base h.lval h.lprior (Function.update h.rval n key) h.rprior h.sz
      h.next h.rnd h.drawn) b tl tr := by
  refine ⟨hA.left_inv, ?_, hA.left_cross, hA.right_cross, hA.left_alloc, hA.right_alloc⟩
  refine hA.right_inv.transfer_inv rfl rfl rfl (fun k hk => ?_) rfl (fun _ _ => rfl)
  have : k ≠ n := fun e => hn (e ▸ hk)
  simp [right_treap, Function.update, this]

theorem Shape.not_mem_erase (prior : Nat → Nat) (n : Nat) (t : Shape) (hnd : t.toList.Nodup) :
    n ∉ (Shape.erase prior n t).toList := by
  rw [Shape.toList_erase _ _ _ hnd]
  exact fun hm => (List.Nodup.mem_erase_iff hnd).1 hm |>.1 rfl

theorem Shape.mem_of_mem_erase {prior : Nat → Nat} {n k : Nat} {t : Shape}
    (hnd : t.toList.Nodup) (hk : k ∈ (Shape.erase prior n t).toList) :
    k ∈ t.toList ∧ k ≠ n := by
  rw [Shape.toList_erase _ _ _ hnd] at hk
  exact ⟨List.mem_of_mem_erase hk, ((List.Nodup.mem_erase_iff hnd).1 hk).1⟩

theorem Shape.insert_erase_perm (prior prior1 : Nat → Nat) (lt : Nat → Bool) (n : Nat)
    (t : Shape) (hnd : t.toList.Nodup) (hn : n ∈ t.toList) :
    (Shape.insert prior lt (Shape.erase prior1 n t) n).toList.Perm t.toList := by
  refine (Shape.insert_perm _ _ _ _).trans ?_
  rw [Shape.toList_erase _ _ _ hnd]
  exact (List.perm_cons_erase hn).symm

/-- `at_left_or_default` on a present key: no change, the paired right value is returned. -/
theorem Abs.at_left_or_default_present [Inhabited R] {h : Heap L R} {b : Nat} {tl tr : Shape}
    (hA : Abs cl cr h b tl tr) (hcl : StrictWeakOrder cl) (key : L) {n : Nat}
    (hn : n ∈ tl.toList) (hx : equiv cl (h.lval n) key = true) :
    bimap.at_left_or_default cl cr h b key = some (h, h.rval n) := by
  rcases hA.links.find_left_cases hcl key with ⟨-, -, h3⟩ | ⟨k, hk, -, h2, h3⟩
  · rw [h3 n hn] at hx; exact absurd hx Bool.false_ne_true
  · have hkn : k = n := hA.links.left_unique hcl hk hn h3 hx
    subst hkn
    simp [bimap.at_left_or_default, h2, end_left, hA.links.flip_left hk, deref_right]

/-- `at_left_or_default` on an absent key while the default right value is stored at node
`n`: the node is unlinked from the left tree, gets the key and is linked in again. -/
theorem Abs.at_left_or_default_reuse [Inhabited R] {h : Heap L R} {b : Nat} {tl tr : Shape}
    (hA : Abs cl cr h b tl tr) (hcl : StrictWeakOrder cl) (hcr : StrictWeakOrder cr)
    (key : L) (hkey : ∀ k ∈ tl.toList, equiv cl (h.lval k) key = false) {n : Nat}
    (hn : n ∈ tr.toList) (hd : equiv cr (h.rval n) default = true) :
    ∃ h1, bimap.at_left_or_default cl cr h b key = some (h1, h.rval n) ∧
      Abs cl cr h1 b
        (Shape.insert h.lprior (fun k => cl (h1.lval k) key) (Shape.erase h.lprior n tl) n)
        tr ∧
      h1.lval = Function.update h.lval n key ∧ h1.rval = h.rval ∧ h1.lprior = h.lprior ∧
      h1.rprior = h.rprior ∧ h1.next = h.next ∧ h1.sz = h.sz := by
  have hnl : n ∈ tl.toList := hA.same.mem_iff.2 hn
  have hfl : find_left cl h b key = some (end_left b) := by
    rcases hA.links.find_left_cases hcl key with ⟨-, h2, -⟩ | ⟨k, hk, -, -, h3⟩
    · exact h2
    · rw [hkey k hk] at h3; exact absurd h3 Bool.false_ne_true
  have hfr : find_right cr h b default = some (Ptr.elem Tag.right_tag n) := by
    rcases hA.links.find_right_cases hcr default with ⟨-, -, h3⟩ | ⟨k, hk, -, h2, h3⟩
    · rw [h3 n hn] at hd; exact absurd hd Bool.false_ne_true
    · rw [hA.links.right_unique hcr hn hk hd h3]; exact h2
  obtain ⟨m1, hm1, hL1, hclean, -⟩ := hA.links.left_erase n hnl
  have hnd := hA.links.left_inv.nodup
  have hne : n ∉ (Shape.erase h.lprior n tl).toList := Shape.not_mem_erase _ _ _ hnd
  have hL2 := hL1.set_lval n hne key
  obtain ⟨m2, hm2, hL3, -⟩ := hL2.left_insert hcl n hne (hA.links.right_alloc n hn)
    (by simp [hclean]) (by simp [hclean])
    (by
      intro k hk
      obtain ⟨hk1, hk2⟩ := Shape.mem_of_mem_erase hnd hk
      simpa [Function.update, hk2] using hkey k hk1)
  have hm2' : (left_treap cl (Heap.mk m1 (Function.update h.lval n key) h.lprior h.rval
      h.rprior h.sz h.next h.rnd h.drawn) b).insert h.fuel m1 (Ptr.elem Tag.left_tag n)
      = some (m2, Ptr.elem Tag.left_tag n) := hm2
  refine ⟨Heap.mk m2 (Function.update h.lval n key) h.lprior h.rval h.rprior h.sz h.next
    h.rnd h.drawn, ?_, ⟨?_, ?_, ?_⟩, rfl, rfl, rfl, rfl, rfl, rfl⟩
  · simp only [bimap.at_left_or_default, hfl, Option.some_bind, ne_eq, not_true_eq_false,
      if_false, hfr, end_right, reduceCtorEq, not_false_eq_true, if_true,
      hA.links.flip_right hn, hm1, double_downcast]
    have e : Heap.fuel (Heap.mk m1 (Function.update h.lval n key) h.lprior h.rval h.rprior
        h.sz h.next h.rnd h.drawn) = h.fuel := rfl
    simp only [e, hm2', Option.some_bind, deref_right]
  · have := hL3
    simp only [Function.update_same] at this
    exact this
  · exact (Shape.insert_erase_perm _ _ _ n tl hnd hnl).trans hA.same
  · rw [(Shape.insert_erase_perm _ _ _ n tl hnd hnl).length_eq]
    exact hA.count

/-- `at_left_or_default` when neither the key nor the default right value is stored: the pair
`(key, default)` is inserted. -/
theorem Abs.at_left_or_default_fresh [Inhabited R] {h : Heap L R} {b : Nat} {tl tr : Shape}
    (hA : Abs cl cr h b tl tr) (hcl : StrictWeakOrder cl) (hcr : StrictWeakOrder cr)
    (key : L) (hkey : ∀ k ∈ tl.toList, equiv cl (h.lval k) key = false)
    (hd : ∀ k ∈ tr.toList, equiv cr (h.rval k) default = false) :
    ∃ h1, bimap.at_left_or_default cl cr h b key = some (h1, default) ∧
      Abs cl cr h1 b (Shape.insert h1.lprior (fun k => cl (h1.lval k) key) tl h.next)
        (Shape.insert h1.rprior (fun k => cr (h1.rval k) default) tr h.next) ∧
      h1.lval = Function.update h.lval h.next key ∧
      h1.rval = Function.update h.rval h.next default ∧
      h1.next = h.next + 1 ∧ h1.sz = Function.update h.sz b (h.sz b + 1) := by
  have hfl : find_left cl h b key = some (end_left b) := by
    rcases hA.links.find_left_cases hcl key with ⟨-, h2, -⟩ | ⟨k, hk, -, -, h3⟩
    · exact h2
    · rw [hkey k hk] at h3; exact absurd h3 Bool.false_ne_true
  have hfr : find_right cr h b default = some (end_right b) := by
    rcases hA.links.find_right_cases hcr default with ⟨-, h2, -⟩ | ⟨k, hk, -, -, h3⟩
    · exact h2
    · rw [hd k hk] at h3; exact absurd h3 Bool.false_ne_true
  obtain ⟨h1, hi, hA1, hlv, hrv, hnx, hsz⟩ := hA.insert_fresh hcl hcr key default hkey hd
  refine ⟨h1, ?_, hA1, hlv, hrv, hnx, hsz⟩
  have hmem : h.next ∈ (Shape.insert h1.lprior (fun k => cl (h1.lval k) key) tl h.next).toList :=
    (Shape.mem_insert _ _ _ _ _).2 (Or.inl rfl)
  simp [bimap.at_left_or_default, hfl, hfr, hi, hA1.links.flip_left hmem, deref_right, hrv]

/-- `at_right_or_default` on a present key: no change, the paired left value is returned. -/
theorem Abs.at_right_or_default_present [Inhabited L] {h : Heap L R} {b : Nat}
    {tl tr : Shape} (hA : Abs cl cr h b tl tr) (hcr : StrictWeakOrder cr) (key : R) {n : Nat}
    (hn : n ∈ tr.toList) (hx : equiv cr (h.rval n) key = true) :
    bimap.at_right_or_default cl cr h b key = some (h, h.lval n) := by
  rcases hA.links.find_right_cases hcr key with ⟨-, -, h3⟩ | ⟨k, hk, -, h2, h3⟩
  · rw [h3 n hn] at hx; exact absurd hx Bool.false_ne_true
  · have hkn : k = n := hA.links.right_unique hcr hk hn h3 hx
    subst hkn
    simp [bimap.at_right_or_default, h2, end_right, hA.links.flip_right hk, deref_left]

/-- `at_right_or_default` on an absent key while the default left value is stored at node
`n`: the node is unlinked from the right tree, gets the key and is linked in again. -/
theorem Abs.at_right_or_default_reuse [Inhabited L] {h : Heap L R} {b : Nat} {tl tr : Shape}
    (hA : Abs cl cr h b tl tr) (hcl : StrictWeakOrder cl) (hcr : StrictWeakOrder cr)
    (key : R) (hkey : ∀ k ∈ tr.toList, equiv cr (h.rval k) key = false) {n : Nat}
    (hn : n ∈ tl.toList) (hd : equiv cl (h.lval n) default = true) :
    ∃ h1, bimap.at_right_or_default cl cr h b key = some (h1, h.lval n) ∧
      Abs cl cr h1 b tl
        (Shape.insert h.rprior (fun k => cr (h1.rval k) key) (Shape.erase h.rprior n tr) n) ∧
      h1.lval = h.lval ∧ h1.rval = Function.update h.rval n key ∧ h1.lprior = h.lprior ∧
      h1.rprior = h.rprior ∧ h1.next = h.next ∧ h1.sz = h.sz := by
  have hnr : n ∈ tr.toList := hA.same.mem_iff.1 hn
  have hfr : find_right cr h b key = some (end_right b) := by
    rcases hA.links.find_right_cases hcr key with ⟨-, h2, -⟩ | ⟨k, hk, -, -, h3⟩
    · exact h2
    · rw [hkey k hk] at h3; exact absurd h3 Bool.false_ne_true
  have hfl : find_left cl h b default = some (Ptr.elem Tag.left_tag n) := by
    rcases hA.links.find_left_cases hcl default with ⟨-, -, h3⟩ | ⟨k, hk, -, h2, h3⟩
    · rw [h3 n hn] at hd; exact absurd hd Bool.false_ne_true
    · rw [hA.links.left_unique hcl hn hk hd h3]; exact h2
  obtain ⟨m1, hm1, hL1, hclean, -⟩ := hA.links.right_erase n hnr
  have hnd := hA.links.right_inv.nodup
  have hne : n ∉ (Shape.erase h.rprior n tr).toList := Shape.not_mem_erase _ _ _ hnd
  have hL2 := hL1.set_rval n hne key
  obtain ⟨m2, hm2, hL3, -⟩ := hL2.right_insert hcr n hne (hA.links.left_alloc n hn)
    (by simp [hclean]) (by simp [hclean])
    (by
      intro k hk
      obtain ⟨hk1, hk2⟩ := Shape.mem_of_mem_erase hnd hk
      simpa [Function.update, hk2] using hkey k hk1)
  have hm2' : (right_treap cr (Heap.mk m1 h.lval h.lprior (Function.update h.rval n key)
      h.rprior h.sz h.next h.rnd h.drawn) b).insert h.fuel m1 (Ptr.elem Tag.right_tag n)
      = some (m2, Ptr.elem Tag.right_tag n) := hm2
  refine ⟨Heap.mk m2 h.lval h.lprior (Function.update h.rval n key) h.rprior h.sz h.next
    h.rnd h.drawn, ?_, ⟨?_, ?_, ?_⟩, rfl, rfl, rfl, rfl, rfl, rfl⟩
  · simp only [bimap.at_right_or_default, hfr, Option.some_bind, ne_eq, not_true_eq_false,
      if_false, hfl, end_left, reduceCtorEq, not_false_eq_true, if_true,
      hA.links.flip_left hn, hm1, double_downcast]
    have e : Heap.fuel (Heap.mk m1 h.lval h.lprior (Function.update h.rval n key) h.rprior
        h.sz h.next h.rnd h.drawn) = h.fuel := rfl
    simp only [e, hm2', Option.some_bind, deref_left]
  · have := hL3
    simp only [Function.update_same] at this
    exact this
  · exact hA.same.trans (Shape.insert_erase_perm _ _ _ n tr hnd hnr).symm
  · exact hA.count

/-- `at_right_or_default` when neither the key nor the default left value is stored: the pair
`(default, key)` is inserted. -/
theorem Abs.at_right_or_default_fresh [Inhabited L] {h : Heap L R} {b : Nat} {tl tr : Shape}
    (hA : Abs cl cr h b tl tr) (hcl : StrictWeakOrder cl) (hcr : StrictWeakOrder cr)
    (key : R) (hkey : ∀ k ∈ tr.toList, equiv cr (h.rval k) key = false)
    (hd : ∀ k ∈ tl.toList, equiv cl (h.lval k) default = false) :
    ∃ h1, bimap.at_right_or_default cl cr h b key = some (h1, default) ∧
      Abs cl cr h1 b (Shape.insert h1.lprior (fun k => cl (h1.lval k) default) tl h.next)
        (Shape.insert h1.rprior (fun k => cr (h1.rval k) key) tr h.next) ∧
      h1.lval = Function.update h.lval h.next default ∧
      h1.rval = Function.update h.rval h.next key ∧
      h1.next = h.next + 1 ∧ h1.sz = Function.update h.sz b (h.sz b + 1) := by
  have hfr : find_right cr h b key = some (end_right b) := by
    rcases hA.links.find_right_cases hcr key with ⟨-, h2, -⟩ | ⟨k, hk, -, -, h3⟩
    · exact h2
    · rw [hkey k hk] at h3; exact absurd h3 Bool.false_ne_true
  have hfl : find_left cl h b default = some (end_left b) := by
    rcases hA.links.find_left_cases hcl default with ⟨-, h2, -⟩ | ⟨k, hk, -, -, h3⟩
    · exact h2
    · rw [hd k hk] at h3; exact absurd h3 Bool.false_ne_true
  obtain ⟨h1, hi, hA1, hlv, hrv, hnx, hsz⟩ := hA.insert_fresh hcl hcr default key hd hkey
  refine ⟨h1, ?_, hA1, hlv, hrv, hnx, hsz⟩
  simp [bimap.at_right_or_default, hfl, hfr, hi, deref_left, hlv]

end bimap

namespace bimap

open details

variable {L R : Type} {cl : L → L → Bool} {cr : R → R → Bool}

/-! ## Range erasure and reachable states -/

theorem headD_map_elem (tag : Tag) (fin : Ptr) (l : List Nat) :
    (l.map (Ptr.elem tag)).headD fin = first_or tag fin l := by
  cases l <;> rfl

theorem first_or_ne_elem {tag : Tag} {b : Nat} {x : Nat} {l : List Nat} (hx : x ∉ l) :
    Ptr.elem tag x ≠ first_or tag (Ptr.fake tag b) l := by
  cases l with
  | nil => simp [first_or]
  | cons y l =>
    simp only [first_or, ne_eq, Ptr.elem.injEq, true_and]
    exact fun e => hx (e ▸ List.mem_cons_self _ _)

theorem erase_middle {x : Nat} {l1 l2 : List Nat} (h : x ∉ l1) :
    (l1 ++ x :: l2).erase x = l1 ++ l2 := by
  rw [List.erase_append_right _ h]
  simp

/-- The loop of the left range erase removes the nodes of the range one by one and ends at
`last`. -/
theorem Abs.erase_left_loop {b : Nat} : ∀ (l2 : List Nat) (fuel : Nat) (h : Heap L R)
    (tl tr : Shape) (l1 l3 : List Nat), Abs cl cr h b tl tr → tl.toList = l1 ++ l2 ++ l3 →
    l2.length < fuel →
    ∃ h1 tl1 tr1, bimap.erase_left_loop cl cr b fuel h
        (first_or Tag.left_tag (end_left b) (l2 ++ l3))
        (first_or Tag.left_tag (end_left b) l3)
        = some (h1, first_or Tag.left_tag (end_left b) l3) ∧
      Abs cl cr h1 b tl1 tr1 ∧ tl1.toList = l1 ++ l3 ∧ tr1.toList.Sublist tr.toList ∧
      h1.lval = h.lval ∧ h1.rval = h.rval ∧ h1.next = h.next ∧
      h1.sz b = h.sz b - l2.length := by
  intro l2
  induction l2 with
  | nil =>
    intro fuel h tl tr l1 l3 hA hsplit hlen
    obtain ⟨f1, rfl⟩ : ∃ f1, fuel = f1 + 1 := ⟨fuel - 1, by simp at hlen; omega⟩
    refine ⟨h, tl, tr, ?_, hA, by simpa using hsplit, List.Sublist.refl _, rfl, rfl, rfl,
      by simp⟩
    simp [bimap.erase_left_loop]
  | cons x l2 ih =>
    intro fuel h tl tr l1 l3 hA hsplit hlen
    obtain ⟨f1, rfl⟩ : ∃ f1, fuel = f1 + 1 := ⟨fuel - 1, by simp at hlen; omega⟩
    have hsplit' : tl.toList = l1 ++ x :: (l2 ++ l3) := by simpa using hsplit
    have hnd := hA.links.left_inv.nodup
    rw [hsplit'] at hnd
    have hx1 : x ∉ l1 := fun hm => (List.nodup_append.1 hnd).2.2 hm (by simp)
    have hx23 : x ∉ l2 ++ l3 := (List.nodup_cons.1 (List.nodup_append.1 hnd).2.1).1
    have hx3 : x ∉ l3 := fun hm => hx23 (List.mem_append_right _ hm)
    have hV := hA.links.left_visits
    rw [hsplit'] at hV
    have hinc := Visits.incr_mem l1 hV
    obtain ⟨h1, he, hA1, hlv, hrv, -, -, hnx, hsz⟩ := hA.erase_left x l1 (l2 ++ l3) hsplit'
    have hl1 : (Shape.erase h.lprior x tl).toList = l1 ++ l2 ++ l3 := by
      rw [Shape.toList_erase _ _ _ hA.links.left_inv.nodup, hsplit', erase_middle hx1,
        List.append_assoc]
    obtain ⟨h2, tl2, tr2, hloop, hA2, htl2, htr2, hlv2, hrv2, hnx2, hsz2⟩ :=
      ih f1 h1 _ _ l1 l3 hA1 hl1 (by simp at hlen; omega)
    refine ⟨h2, tl2, tr2, ?_, hA2, htl2, ?_, hlv2.trans hlv, hrv2.trans hrv, hnx2.trans hnx,
      ?_⟩
    · have hne : Ptr.elem Tag.left_tag x ≠ first_or Tag.left_tag (end_left b) l3 :=
        first_or_ne_elem hx3
      have h0 : first_or Tag.left_tag (end_left b) (x :: l2 ++ l3) = Ptr.elem Tag.left_tag x :=
        rfl
      rw [h0]
      simp only [bimap.erase_left_loop, hne, if_false, hinc, Option.some_bind, he]
      exact hloop
    · refine htr2.trans ?_
      rw [Shape.toList_erase _ _ _ hA.links.right_inv.nodup]
      exact List.erase_sublist _ _
    · rw [hsz2, hsz]
      simp only [Function.update_same, List.length_cons]
      omega

/-- The loop of the right range erase removes the nodes of the range one by one and ends at
`last`. -/
theorem Abs.erase_right_loop {b : Nat} : ∀ (l2 : List Nat) (fuel : Nat) (h : Heap L R)
    (tl tr : Shape) (l1 l3 : List Nat), Abs cl cr h b tl tr → tr.toList = l1 ++ l2 ++ l3 →
    l2.length < fuel →
    ∃ h1 tl1 tr1, bimap.erase_right_loop cl cr b fuel h
        (first_or Tag.right_tag (end_right b) (l2 ++ l3))
        (first_or Tag.right_tag (end_right b) l3)
        = some (h1, first_or Tag.right_tag (end_right b) l3) ∧
      Abs cl cr h1 b tl1 tr1 ∧ tr1.toList = l1 ++ l3 ∧ tl1.toList.Sublist tl.toList ∧
      h1.lval = h.lval ∧ h1.rval = h.rval ∧ h1.next = h.next ∧
      h1.sz b = h.sz b - l2.length := by
  intro l2
  induction l2 with
  | nil =>
    intro fuel h tl tr l1 l3 hA hsplit hlen
    obtain ⟨f1, rfl⟩ : ∃ f1, fuel = f1 + 1 := ⟨fuel - 1, by simp at hlen; omega⟩
    refine ⟨h, tl, tr, ?_, hA, by simpa using hsplit, List.Sublist.refl _, rfl, rfl, rfl,
      by simp⟩
    simp [bimap.erase_right_loop]
  | cons x l2 ih =>
    intro fuel h tl tr l1 l3 hA hsplit hlen
    obtain ⟨f1, rfl⟩ : ∃ f1, fuel = f1 + 1 := ⟨fuel - 1, by simp at hlen; omega⟩
    have hsplit' : tr.toList = l1 ++ x :: (l2 ++ l3) := by simpa using hsplit
    have hnd := hA.links.right_inv.nodup
    rw [hsplit'] at hnd
    have hx1 : x ∉ l1 := fun hm => (List.nodup_append.1 hnd).2.2 hm (by simp)
    have hx23 : x ∉ l2 ++ l3 := (List.nodup_cons.1 (List.nodup_append.1 hnd).2.1).1
    have hx3 : x ∉ l3 := fun hm => hx23 (List.mem_append_right _ hm)
    have hV := hA.links.right_visits
    rw [hsplit'] at hV
    have hinc := Visits.incr_mem l1 hV
    obtain ⟨h1, he, hA1, hlv, hrv, -, -, hnx, hsz⟩ := hA.erase_right x l1 (l2 ++ l3) hsplit'
    have hl1 : (Shape.erase h.rprior x tr).toList = l1 ++ l2 ++ l3 := by
      rw [Shape.toList_erase _ _ _ hA.links.right_inv.nodup, hsplit', erase_middle hx1,
        List.append_assoc]
    obtain ⟨h2, tl2, tr2, hloop, hA2, htl2, htr2, hlv2, hrv2, hnx2, hsz2⟩ :=
      ih f1 h1 _ _ l1 l3 hA1 hl1 (by simp at hlen; omega)
    refine ⟨h2, tl2, tr2, ?_, hA2, htl2, ?_, hlv2.trans hlv, hrv2.trans hrv, hnx2.trans hnx,
      ?_⟩
    · have hne : Ptr.elem Tag.right_tag x ≠ first_or Tag.right_tag (end_right b) l3 :=
        first_or_ne_elem hx3
      have h0 : first_or Tag.right_tag (end_right b) (x :: l2 ++ l3)
          = Ptr.elem Tag.right_tag x := rfl
      rw [h0]
      simp only [bimap.erase_right_loop, hne, if_false, hinc, Option.some_bind, he]
      exact hloop
    · refine htr2.trans ?_
      rw [Shape.toList_erase _ _ _ hA.links.left_inv.nodup]
      exact List.erase_sublist _ _
    · rw [hsz2, hsz]
      simp only [Function.update_same, List.length_cons]
      omega

theorem valid_range_nodes {tag : Tag} {fin first last : Ptr} {l : List Nat}
    (hv : valid_range (l.map (Ptr.elem tag)) fin first last) :
    ∃ l1 l2 l3, l = l1 ++ l2 ++ l3 ∧ first = first_or tag fin (l2 ++ l3) ∧
      last = first_or tag fin l3 := by
  obtain ⟨p1, p2, p3, hp, hf, hl⟩ := hv
  obtain ⟨l12, l3, rfl, h12, rfl⟩ := List.map_eq_append_iff.1 hp
  obtain ⟨l1, l2, rfl, rfl, rfl⟩ := List.map_eq_append_iff.1 h12
  refine ⟨l1, l2, l3, rfl, ?_, ?_⟩
  · rw [hf, ← List.map_append, headD_map_elem]
  · rw [hl, headD_map_elem]

/-- A range erase on the left keeps the bimap well formed and returns `last`. -/
theorem Abs.erase_left_range {h : Heap L R} {b : Nat} {tl tr : Shape}
    (hA : Abs cl cr h b tl tr) {first last : Ptr}
    (hv : valid_range (tl.toList.map (Ptr.elem Tag.left_tag)) (end_left b) first last) :
    ∃ h1 tl1 tr1, bimap.erase_left_range cl cr h b first last = some (h1, last) ∧
      Abs cl cr h1 b tl1 tr1 := by
  obtain ⟨l1, l2, l3, hsplit, rfl, rfl⟩ := valid_range_nodes hv
  have hsz := hA.links.left_size
  rw [← Shape.length_toList, hsplit] at hsz
  obtain ⟨h1, tl1, tr1, hloop, hA1, -⟩ := hA.erase_left_loop l2 h.fuel h tl tr l1 l3 hsplit
    (by simp only [Heap.fuel]; simp only [List.length_append] at hsz; omega)
  exact ⟨h1, tl1, tr1, hloop, hA1⟩

/-- A range erase on the right keeps the bimap well formed and returns `last`. -/
theorem Abs.erase_right_range {h : Heap L R} {b : Nat} {tl tr : Shape}
    (hA : Abs cl cr h b tl tr) {first last : Ptr}
    (hv : valid_range (tr.toList.map (Ptr.elem Tag.right_tag)) (end_right b) first last) :
    ∃ h1 tl1 tr1, bimap.erase_right_range cl cr h b first last = some (h1, last) ∧
      Abs cl cr h1 b tl1 tr1 := by
  obtain ⟨l1, l2, l3, hsplit, rfl, rfl⟩ := valid_range_nodes hv
  have hsz := hA.links.right_size
  rw [← Shape.length_toList, hsplit] at hsz
  obtain ⟨h1, tl1, tr1, hloop, hA1, -⟩ := hA.erase_right_loop l2 h.fuel h tl tr l1 l3 hsplit
    (by simp only [Heap.fuel]; simp only [List.length_append] at hsz; omega)
  exact ⟨h1, tl1, tr1, hloop, hA1⟩

/-- Every reachable state of a bimap is well formed. -/
theorem Reachable.wf [Inhabited L] [Inhabited R] (hcl : StrictWeakOrder cl)
    (hcr : StrictWeakOrder cr) {b : Nat} {h : Heap L R} (hR : Reachable cl cr b h) :
    WF cl cr h b := by
  induction hR with
  | ctor h0 => exact ⟨_, _, Abs.of_ctor h0 b⟩
  | @insert h h1 it l r _ hop ih =>
    obtain ⟨tl, tr, hA⟩ := ih
    by_cases hl : ∃ k ∈ tl.toList, equiv cl (h.lval k) l = true
    · obtain ⟨k, hk, he⟩ := hl
      rw [hA.insert_dup_left hcl l r hk he] at hop
      simp only [Option.some.injEq, Prod.mk.injEq] at hop
      exact hop.1 ▸ ⟨tl, tr, hA⟩
    · by_cases hr : ∃ k ∈ tr.toList, equiv cr (h.rval k) r = true
      · obtain ⟨k, hk, he⟩ := hr
        rw [hA.insert_dup_right hcl hcr l r hk he] at hop
        simp only [Option.some.injEq, Prod.mk.injEq] at hop
        exact hop.1 ▸ ⟨tl, tr, hA⟩
      · obtain ⟨h2, hi, hA2, -⟩ := hA.insert_fresh hcl hcr l r
          (fun k hk => by simpa using fun e => hl ⟨k, hk, e⟩)
          (fun k hk => by simpa using fun e => hr ⟨k, hk, e⟩)
        rw [hi] at hop
        simp only [Option.some.injEq, Prod.mk.injEq] at hop
        exact hop.1 ▸ ⟨_, _, hA2⟩
  | @erase_left h h1 its it nxt _ hrange hit hop ih =>
    obtain ⟨tl, tr, hA⟩ := ih
    rw [hA.links.left_range] at hrange
    simp only [Option.some.injEq] at hrange
    rw [← hrange] at hit
    obtain ⟨n, hn, rfl⟩ := List.mem_map.1 hit
    obtain ⟨l1, l2, hsplit⟩ := mem_split hn
    obtain ⟨h2, he, hA2, -⟩ := hA.erase_left n l1 l2 hsplit
    rw [he] at hop
    simp only [Option.some.injEq, Prod.mk.injEq] at hop
    exact hop.1 ▸ ⟨_, _, hA2⟩
  | @erase_right h h1 its it nxt _ hrange hit hop ih =>
    obtain ⟨tl, tr, hA⟩ := ih
    rw [hA.links.right_range] at hrange
    simp only [Option.some.injEq] at hrange
    rw [← hrange] at hit
    obtain ⟨n, hn, rfl⟩ := List.mem_map.1 hit
    obtain ⟨l1, l2, hsplit⟩ := mem_split hn
    obtain ⟨h2, he, hA2, -⟩ := hA.erase_right n l1 l2 hsplit
    rw [he] at hop
    simp only [Option.some.injEq, Prod.mk.injEq] at hop
    exact hop.1 ▸ ⟨_, _, hA2⟩
  | @erase_left_key h h1 found l _ hop ih =>
    obtain ⟨tl, tr, hA⟩ := ih
    by_cases hl : ∃ k ∈ tl.toList, equiv cl (h.lval k) l = true
    · obtain ⟨k, hk, he⟩ := hl
      obtain ⟨h2, hi, hA2, -⟩ := hA.erase_left_key_present hcl l hk he
      rw [hi] at hop
      simp only [Option.some.injEq, Prod.mk.injEq] at hop
      exact hop.1 ▸ ⟨_, _, hA2⟩
    · rw [hA.erase_left_key_absent hcl l
        (fun k hk => by simpa using fun e => hl ⟨k, hk, e⟩)] at hop
      simp only [Option.some.injEq, Prod.mk.injEq] at hop
      exact hop.1 ▸ ⟨tl, tr, hA⟩
  | @erase_right_key h h1 found r _ hop ih =>
    obtain ⟨tl, tr, hA⟩ := ih
    by_cases hr : ∃ k ∈ tr.toList, equiv cr (h.rval k) r = true
    · obtain ⟨k, hk, he⟩ := hr
      obtain ⟨h2, hi, hA2, -⟩ := hA.erase_right_key_present hcr r hk he
      rw [hi] at hop
      simp only [Option.some.injEq, Prod.mk.injEq] at hop
      exact hop.1 ▸ ⟨_, _, hA2⟩
    · rw [hA.erase_right_key_absent hcr r
        (fun k hk => by simpa using fun e => hr ⟨k, hk, e⟩)] at hop
      simp only [Option.some.injEq, Prod.mk.injEq] at hop
      exact hop.1 ▸ ⟨tl, tr, hA⟩
  | @erase_left_range h h1 its first last it _ hrange hv hop ih =>
    obtain ⟨tl, tr, hA⟩ := ih
    rw [hA.links.left_range] at hrange
    simp only [Option.some.injEq] at hrange
    rw [← hrange] at hv
    obtain ⟨h2, tl2, tr2, he, hA2⟩ := hA.erase_left_range hv
    rw [he] at hop
    simp only [Option.some.injEq, Prod.mk.injEq] at hop
    exact hop.1 ▸ ⟨_, _, hA2⟩
  | @erase_right_range h h1 its first last it _ hrange hv hop ih =>
    obtain ⟨tl, tr, hA⟩ := ih
    rw [hA.links.right_range] at hrange
    simp only [Option.some.injEq] at hrange
    rw [← hrange] at hv
    obtain ⟨h2, tl2, tr2, he, hA2⟩ := hA.erase_right_range hv
    rw [he] at hop
    simp only [Option.some.injEq, Prod.mk.injEq] at hop
    exact hop.1 ▸ ⟨_, _, hA2⟩
  | @at_left_or_default h h1 v key _ hop ih =>
    obtain ⟨tl, tr, hA⟩ := ih
    by_cases hl : ∃ k ∈ tl.toList, equiv cl (h.lval k) key = true
    · obtain ⟨k, hk, he⟩ := hl
      rw [hA.at_left_or_default_present hcl key hk he] at hop
      simp only [Option.some.injEq, Prod.mk.injEq] at hop
      exact hop.1 ▸ ⟨tl, tr, hA⟩
    · have hl' : ∀ k ∈ tl.toList, equiv cl (h.lval k) key = false :=
        fun k hk => by simpa using fun e => hl ⟨k, hk, e⟩
      by_cases hr : ∃ k ∈ tr.toList, equiv cr (h.rval k) default = true
      · obtain ⟨k, hk, he⟩ := hr
        obtain ⟨h2, hi, hA2, -⟩ := hA.at_left_or_default_reuse hcl hcr key hl' hk he
        rw [hi] at hop
        simp only [Option.some.injEq, Prod.mk.injEq] at hop
        exact hop.1 ▸ ⟨_, _, hA2⟩
      · obtain ⟨h2, hi, hA2, -⟩ := hA.at_left_or_default_fresh hcl hcr key hl'
          (fun k hk => by simpa using fun e => hr ⟨k, hk, e⟩)
        rw [hi] at hop
        simp only [Option.some.injEq, Prod.mk.injEq] at hop
        exact hop.1 ▸ ⟨_, _, hA2⟩
  | @at_right_or_default h h1 v key _ hop ih =>
    obtain ⟨tl, tr, hA⟩ := ih
    by_cases hr : ∃ k ∈ tr.toList, equiv cr (h.rval k) key = true
    · obtain ⟨k, hk, he⟩ := hr
      rw [hA.at_right_or_default_present hcr key hk he] at hop
      simp only [Option.some.injEq, Prod.mk.injEq] at hop
      exact hop.1 ▸ ⟨tl, tr, hA⟩
    · have hr' : ∀ k ∈ tr.toList, equiv cr (h.rval k) key = false :=
        fun k hk => by simpa using fun e => hr ⟨k, hk, e⟩
      by_cases hl : ∃ k ∈ tl.toList, equiv cl (h.lval k) default = true
      · obtain ⟨k, hk, he⟩ := hl
        obtain ⟨h2, hi, hA2, -⟩ := hA.at_right_or_default_reuse hcl hcr key hr' hk he
        rw [hi] at hop
        simp only [Option.some.injEq, Prod.mk.injEq] at hop
        exact hop.1 ▸ ⟨_, _, hA2⟩
      · obtain ⟨h2, hi, hA2, -⟩ := hA.at_right_or_default_fresh hcl hcr key hr'
          (fun k hk => by simpa using fun e => hl ⟨k, hk, e⟩)
        rw [hi] at hop
        simp only [Option.some.injEq, Prod.mk.injEq] at hop
        exact hop.1 ▸ ⟨_, _, hA2⟩

end bimap

namespace bimap

open details

variable {L R : Type} {cl : L → L → Bool} {cr : R → R → Bool}

/-! ## The concrete instance -/

theorem nat_less_swo : StrictWeakOrder nat_less := by
  refine ⟨fun a => by simp [nat_less], fun x y z h1 h2 => ?_, fun x y z h1 => ?_⟩
  · simp only [nat_less, decide_eq_true_eq] at h1 h2 ⊢; omega
  · simp only [nat_less, decide_eq_true_eq] at h1 ⊢; omega

theorem demo_insert_reachable {h : Heap Nat Nat} (hR : Reachable nat_less nat_less 0 h)
    (l r : Nat) : Reachable nat_less nat_less 0 (demo_insert h l r) := by
  unfold demo_insert
  cases hi : bimap.insert nat_less nat_less h 0 l r with
  | none => exact hR
  | some p => exact Reachable.insert l r hR (show _ = some (p.1, p.2) from hi)

theorem demo0_reachable : Reachable nat_less nat_less 0 demo0 := Reachable.ctor _

theorem demo1_reachable : Reachable nat_less nat_less 0 demo1 :=
  demo_insert_reachable demo0_reachable 5 50

theorem demo2_reachable : Reachable nat_less nat_less 0 demo2 :=
  demo_insert_reachable demo1_reachable 3 0

theorem demo3_reachable : Reachable nat_less nat_less 0 demo3 :=
  demo_insert_reachable demo2_reachable 9 20

theorem demo2_wf : WF nat_less nat_less demo2 0 :=
  demo2_reachable.wf nat_less_swo nat_less_swo

theorem demo3_wf : WF nat_less nat_less demo3 0 :=
  demo3_reachable.wf nat_less_swo nat_less_swo

/-! ## From nodes to pairs -/

theorem equiv_self {T : Type} {c : T → T → Bool} (hc : StrictWeakOrder c) (a : T) :
    equiv c a a = true := by
  simp [equiv, hc.irrefl]

theorem map_insert_middle {α : Type} (f f1 : Nat → α) (n : Nat) (v : α) (sa sb : List Nat)
    (hf : ∀ k, k ≠ n → f1 k = f k) (hn : f1 n = v) (hna : n ∉ sa) (hnb : n ∉ sb) :
    (sa ++ n :: sb).map f1 = sa.map f ++ v :: sb.map f := by
  rw [List.map_append, List.map_cons, hn]
  congr 1
  · exact List.map_congr_left fun k hk => hf k fun e => hna (e ▸ hk)
  · congr 1
    exact List.map_congr_left fun k hk => hf k fun e => hnb (e ▸ hk)

theorem Abs.pairs_mem {h : Heap L R} {b : Nat} {tl tr : Shape} (hA : Abs cl cr h b tl tr)
    {ps : List (L × R)} (hps : left_pairs h b = some ps) :
    ps = tl.toList.map fun n => (h.lval n, h.rval n) := by
  rw [hA.links.left_pairs] at hps
  exact (Option.some.inj hps).symm

theorem Abs.left_keys {h : Heap L R} {b : Nat} {tl tr : Shape} (hA : Abs cl cr h b tl tr)
    {ps : List (L × R)} (hps : left_pairs h b = some ps) {P : L × R → Prop}
    (hP : ∀ p ∈ ps, P p) : ∀ k ∈ tl.toList, P (h.lval k, h.rval k) := by
  intro k hk
  refine hP _ ?_
  rw [hA.pairs_mem hps]
  exact List.mem_map.2 ⟨k, hk, rfl⟩

theorem Abs.right_keys {h : Heap L R} {b : Nat} {tl tr : Shape} (hA : Abs cl cr h b tl tr)
    {ps : List (L × R)} (hps : left_pairs h b = some ps) {P : L × R → Prop}
    (hP : ∀ p ∈ ps, P p) : ∀ k ∈ tr.toList, P (h.lval k, h.rval k) :=
  fun k hk => hA.left_keys hps hP k (hA.same.mem_iff.2 hk)

end bimap

namespace bimap

open details

variable {L R : Type} {cl : L → L → Bool} {cr : R → R → Bool}

/-! ## Insertion -/

/-- C1: on a well-formed bimap whose stored pairs (in left order) are `ps` and (in right
order) `qs`, with no stored left value equivalent to `l` and no stored right value equivalent
to `r`, `insert(l, r)` returns an iterator `it` with `*it == l` and `*it.flip() == r`, `size()`
grows by exactly one, and both sequences of pairs are the old ones with `(l, r)` put in at one
place, every old pair kept in its order; the bimap stays well formed. -/
theorem insert_adds_pair (hcl : StrictWeakOrder cl) (hcr : StrictWeakOrder cr)
    {h : Heap L R} {b : Nat} (hwf : WF cl cr h b) (l : L) (r : R) (ps qs : List (L × R))
    (hps : left_pairs h b = some ps) (hqs : right_pairs h b = some qs)
    (hl : ∀ p ∈ ps, equiv cl p.1 l = false) (hr : ∀ p ∈ ps, equiv cr p.2 r = false) :
    ∃ h1 it, bimap.insert cl cr h b l r = some (h1, it) ∧
      deref_left h1 it = some l ∧
      (iterator.flip h1.base Tag.left_tag it).bind (deref_right h1) = some r ∧
      size h1 b = size h b + 1 ∧
      (∃ ps1 ps2, ps = ps1 ++ ps2 ∧ left_pairs h1 b = some (ps1 ++ (l, r) :: ps2)) ∧
      (∃ qs1 qs2, qs = qs1 ++ qs2 ∧ right_pairs h1 b = some (qs1 ++ (l, r) :: qs2)) ∧
      WF cl cr h1 b := by
  obtain ⟨tl, tr, hA⟩ := hwf
  have hl' := hA.left_keys hps hl
  have hr' := hA.right_keys hps hr
  obtain ⟨h1, hi, hA1, hlv, hrv, hnx, hsz⟩ := hA.insert_fresh hcl hcr l r hl' hr'
  have hnl : h.next ∉ tl.toList := fun hm => Nat.lt_irrefl _ (hA.links.left_alloc _ hm)
  have hnr : h.next ∉ tr.toList := fun hm => Nat.lt_irrefl _ (hA.links.right_alloc _ hm)
  have hf : ∀ k, k ≠ h.next → (h1.lval k, h1.rval k) = (h.lval k, h.rval k) := by
    intro k hk
    simp [hlv, hrv, Function.update, hk]
  have hn : (h1.lval h.next, h1.rval h.next) = (l, r) := by simp [hlv, hrv]
  have hmem : h.next ∈ (Shape.insert h1.lprior (fun k => cl (h1.lval k) l) tl h.next).toList :=
    (Shape.mem_insert _ _ _ _ _).2 (Or.inl rfl)
  refine ⟨h1, _, hi, ?_, ?_, ?_, ?_, ?_, ⟨_, _, hA1⟩⟩
  · simp [deref_left, hlv]
  · simp [hA1.links.flip_left hmem, deref_right, hrv]
  · simp [size, hsz]
  · have hsp := Shape.toList_split (fun k => cl (h1.lval k) l) tl
    refine ⟨(Shape.split (fun k => cl (h1.lval k) l) tl).1.toList.map
        fun n => (h.lval n, h.rval n),
      (Shape.split (fun k => cl (h1.lval k) l) tl).2.toList.map
        fun n => (h.lval n, h.rval n), ?_, ?_⟩
    · rw [hA.pairs_mem hps, ← hsp, List.map_append]
    · rw [hA1.links.left_pairs, Shape.toList_insert]
      congr 1
      exact map_insert_middle _ _ _ _ _ _ hf hn
        (fun hm => hnl (hsp ▸ List.mem_append_left _ hm))
        (fun hm => hnl (hsp ▸ List.mem_append_right _ hm))
  · have hsp := Shape.toList_split (fun k => cr (h1.rval k) r) tr
    have hq : qs = tr.toList.map fun n => (h.lval n, h.rval n) := by
      rw [hA.links.right_pairs] at hqs
      exact (Option.some.inj hqs).symm
    refine ⟨(Shape.split (fun k => cr (h1.rval k) r) tr).1.toList.map
        fun n => (h.lval n, h.rval n),
      (Shape.split (fun k => cr (h1.rval k) r) tr).2.toList.map
        fun n => (h.lval n, h.rval n), ?_, ?_⟩
    · rw [hq, ← hsp, List.map_append]
    · rw [hA1.links.right_pairs, Shape.toList_insert]
      congr 1
      exact map_insert_middle _ _ _ _ _ _ hf hn
        (fun hm => hnr (hsp ▸ List.mem_append_left _ hm))
        (fun hm => hnr (hsp ▸ List.mem_append_right _ hm))

/-- C1 at a concrete input: `insert(4, 40)` on the bimap holding `(3, 0)`, `(5, 50)`. -/
theorem insert_adds_pair_witness :
    ∃ h1 it, bimap.insert nat_less nat_less demo2 0 4 40 = some (h1, it) ∧
      deref_left h1 it = some 4 ∧
      (iterator.flip h1.base Tag.left_tag it).bind (deref_right h1) = some 40 ∧
      size h1 0 = size demo2 0 + 1 ∧
      (∃ ps1 ps2, [(3, 0), (5, 50)] = ps1 ++ ps2 ∧
        left_pairs h1 0 = some (ps1 ++ (4, 40) :: ps2)) ∧
      (∃ qs1 qs2, [(3, 0), (5, 50)] = qs1 ++ qs2 ∧
        right_pairs h1 0 = some (qs1 ++ (4, 40) :: qs2)) ∧
      WF nat_less nat_less h1 0 :=
  insert_adds_pair nat_less_swo nat_less_swo demo2_wf 4 40 [(3, 0), (5, 50)]
    [(3, 0), (5, 50)] (by decide) (by decide) (by decide) (by decide)

/-- C2: on a well-formed bimap whose stored pairs are `ps`, when a stored left value is
equivalent to `l` or a stored right value is equivalent to `r`, `insert(l, r)` returns
`end_left()` and the state after the call is the state before it: nothing is allocated or
linked, so size and both sequences of pairs are the same. -/
theorem insert_rejects_duplicate (hcl : StrictWeakOrder cl) (hcr : StrictWeakOrder cr)
    {h : Heap L R} {b : Nat} (hwf : WF cl cr h b) (l : L) (r : R) (ps : List (L × R))
    (hps : left_pairs h b = some ps)
    (hdup : (∃ p ∈ ps, equiv cl p.1 l = true) ∨ (∃ p ∈ ps, equiv cr p.2 r = true)) :
    bimap.insert cl cr h b l r = some (h, end_left b) ∧
      ∀ h1 it, bimap.insert cl cr h b l r = some (h1, it) →
        it = end_left b ∧ size h1 b = size h b ∧ left_pairs h1 b = left_pairs h b ∧
          right_pairs h1 b = right_pairs h b := by
  obtain ⟨tl, tr, hA⟩ := hwf
  have key : bimap.insert cl cr h b l r = some (h, end_left b) := by
    rw [hA.pairs_mem hps] at hdup
    rcases hdup with ⟨p, hp, he⟩ | ⟨p, hp, he⟩
    · obtain ⟨k, hk, rfl⟩ := List.mem_map.1 hp
      exact hA.insert_dup_left hcl l r hk he
    · obtain ⟨k, hk, rfl⟩ := List.mem_map.1 hp
      exact hA.insert_dup_right hcl hcr l r (hA.same.mem_iff.1 hk) he
  refine ⟨key, fun h1 it hi => ?_⟩
  rw [key] at hi
  simp only [Option.some.injEq, Prod.mk.injEq] at hi
  obtain ⟨rfl, rfl⟩ := hi
  exact ⟨rfl, rfl, rfl, rfl⟩

/-- C2 at a concrete input: `insert(7, 0)` on the bimap holding `(3, 0)`, `(5, 50)` reuses
the right value `0`. -/
theorem insert_rejects_duplicate_witness :
    bimap.insert nat_less nat_less demo2 0 7 0 = some (demo2, end_left 0) ∧
      ∀ h1 it, bimap.insert nat_less nat_less demo2 0 7 0 = some (h1, it) →
        it = end_left 0 ∧ size h1 0 = size demo2 0 ∧ left_pairs h1 0 = left_pairs demo2 0 ∧
          right_pairs h1 0 = right_pairs demo2 0 :=
  insert_rejects_duplicate nat_less_swo nat_less_swo demo2_wf 7 0 [(3, 0), (5, 50)]
    (by decide) (Or.inr ⟨(3, 0), by decide, by decide⟩)

/-! ## Invariants of reachable states -/

/-- C3: in every state reached from a constructed bimap by `insert`, `erase_left`,
`erase_right`, `at_left_or_default` and `at_right_or_default` calls, forward iteration from
`begin_left()` to `end_left()` terminates and visits the left values in strictly increasing
order under `CompareLeft`, and forward iteration from `begin_right()` to `end_right()` visits
the right values in strictly increasing order under `CompareRight`; no left value and no right
value occurs twice. -/
theorem iteration_is_sorted [Inhabited L] [Inhabited R] (hcl : StrictWeakOrder cl)
    (hcr : StrictWeakOrder cr) {h : Heap L R} {b : Nat} (hR : Reachable cl cr b h) :
    ∃ ps qs, left_pairs h b = some ps ∧ right_pairs h b = some qs ∧
      ps.Pairwise (fun p q => cl p.1 q.1 = true) ∧
      qs.Pairwise (fun p q => cr p.2 q.2 = true) ∧
      (ps.map Prod.fst).Nodup ∧ (qs.map Prod.snd).Nodup := by
  obtain ⟨tl, tr, hA⟩ := hR.wf hcl hcr
  have hsl : (tl.toList.map fun n => (h.lval n, h.rval n)).Pairwise
      (fun p q => cl p.1 q.1 = true) :=
    List.pairwise_map.2 hA.links.left_inv.sorted
  have hsr : (tr.toList.map fun n => (h.lval n, h.rval n)).Pairwise
      (fun p q => cr p.2 q.2 = true) :=
    List.pairwise_map.2 hA.links.right_inv.sorted
  refine ⟨_, _, hA.links.left_pairs, hA.links.right_pairs, hsl, hsr, ?_, ?_⟩
  · refine List.pairwise_map.2 (hsl.imp ?_)
    intro p q hpq e
    rw [e, hcl.irrefl] at hpq
    exact Bool.false_ne_true hpq
  · refine List.pairwise_map.2 (hsr.imp ?_)
    intro p q hpq e
    rw [e, hcr.irrefl] at hpq
    exact Bool.false_ne_true hpq

/-- C3 at a concrete input: the bimap built by `insert(5, 50)`, `insert(3, 0)`,
`insert(9, 20)`. -/
theorem iteration_is_sorted_witness :
    ∃ ps qs, left_pairs demo3 0 = some ps ∧ right_pairs demo3 0 = some qs ∧
      ps.Pairwise (fun p q => nat_less p.1 q.1 = true) ∧
      qs.Pairwise (fun p q => nat_less p.2 q.2 = true) ∧
      (ps.map Prod.fst).Nodup ∧ (qs.map Prod.snd).Nodup :=
  iteration_is_sorted nat_less_swo nat_less_swo demo3_reachable

/-- C4: in every reachable state the two trees hold the same nodes: for every stored pair
`(l, r)`, `find_left(l)` and `find_right(r)` are non-end, `find_left(l).flip() == find_right(r)`
and `find_right(r).flip() == find_left(l)`; and `flip` maps every position of the left
iteration to a position of the right iteration and every position of the right iteration to a
position of the left iteration. -/
theorem both_orders_share_nodes [Inhabited L] [Inhabited R] (hcl : StrictWeakOrder cl)
    (hcr : StrictWeakOrder cr) {h : Heap L R} {b : Nat} (hR : Reachable cl cr b h) :
    ∃ ps lits rits, left_pairs h b = some ps ∧ left_range h b = some lits ∧
      right_range h b = some rits ∧
      (∀ p ∈ ps, ∃ li ri, find_left cl h b p.1 = some li ∧ find_right cr h b p.2 = some ri ∧
        li ≠ end_left b ∧ ri ≠ end_right b ∧
        iterator.flip h.base Tag.left_tag li = some ri ∧
        iterator.flip h.base Tag.right_tag ri = some li) ∧
      (∀ it ∈ lits, ∃ it1 ∈ rits, iterator.flip h.base Tag.left_tag it = some it1) ∧
      (∀ it ∈ rits, ∃ it1 ∈ lits, iterator.flip h.base Tag.right_tag it = some it1) := by
  obtain ⟨tl, tr, hA⟩ := hR.wf hcl hcr
  refine ⟨_, _, _, hA.links.left_pairs, hA.links.left_range, hA.links.right_range, ?_, ?_, ?_⟩
  · intro p hp
    obtain ⟨n, hn, rfl⟩ := List.mem_map.1 hp
    have hnr : n ∈ tr.toList := hA.same.mem_iff.1 hn
    have hfl : find_left cl h b (h.lval n) = some (Ptr.elem Tag.left_tag n) := by
      rcases hA.links.find_left_cases hcl (h.lval n) with ⟨-, -, h3⟩ | ⟨k, hk, -, h2, h3⟩
      · exact absurd (h3 n hn) (by simp [equiv_self hcl])
      · have e := hA.links.left_unique hcl hn hk (equiv_self hcl _) h3
        rw [← e] at h2
        exact h2
    have hfr : find_right cr h b (h.rval n) = some (Ptr.elem Tag.right_tag n) := by
      rcases hA.links.find_right_cases hcr (h.rval n) with ⟨-, -, h3⟩ | ⟨k, hk, -, h2, h3⟩
      · exact absurd (h3 n hnr) (by simp [equiv_self hcr])
      · have e := hA.links.right_unique hcr hnr hk (equiv_self hcr _) h3
        rw [← e] at h2
        exact h2
    exact ⟨_, _, hfl, hfr, by simp [end_left], by simp [end_right], hA.links.flip_left hn,
      hA.links.flip_right hnr⟩
  · intro it hit
    obtain ⟨n, hn, rfl⟩ := List.mem_map.1 hit
    exact ⟨_, List.mem_map.2 ⟨n, hA.same.mem_iff.1 hn, rfl⟩, hA.links.flip_left hn⟩
  · intro it hit
    obtain ⟨n, hn, rfl⟩ := List.mem_map.1 hit
    exact ⟨_, List.mem_map.2 ⟨n, hA.same.mem_iff.2 hn, rfl⟩, hA.links.flip_right hn⟩

/-- C4 at a concrete input: the bimap built by `insert(5, 50)`, `insert(3, 0)`,
`insert(9, 20)`. -/
theorem both_orders_share_nodes_witness :
    ∃ ps lits rits, left_pairs demo3 0 = some ps ∧ left_range demo3 0 = some lits ∧
      right_range demo3 0 = some rits ∧
      (∀ p ∈ ps, ∃ li ri, find_left nat_less demo3 0 p.1 = some li ∧
        find_right nat_less demo3 0 p.2 = some ri ∧
        li ≠ end_left 0 ∧ ri ≠ end_right 0 ∧
        iterator.flip demo3.base Tag.left_tag li = some ri ∧
        iterator.flip demo3.base Tag.right_tag ri = some li) ∧
      (∀ it ∈ lits, ∃ it1 ∈ rits, iterator.flip demo3.base Tag.left_tag it = some it1) ∧
      (∀ it ∈ rits, ∃ it1 ∈ lits, iterator.flip demo3.base Tag.right_tag it = some it1) :=
  both_orders_share_nodes nat_less_swo nat_less_swo demo3_reachable

/-- C5: in every state reached from a constructed bimap by `insert`, `erase_left` and
`erase_right` (by iterator, by key or by range), `at_left_or_default` and
`at_right_or_default` calls, `size()` is the number of positions forward iteration visits from
`begin_left()` to `end_left()`, and also the number it visits from `begin_right()` to
`end_right()`. -/
theorem size_counts_iteration [Inhabited L] [Inhabited R] (hcl : StrictWeakOrder cl)
    (hcr : StrictWeakOrder cr) {h : Heap L R} {b : Nat} (hR : Reachable cl cr b h) :
    ∃ lits rits, left_range h b = some lits ∧ right_range h b = some rits ∧
      size h b = lits.length ∧ size h b = rits.length := by
  obtain ⟨tl, tr, hA⟩ := hR.wf hcl hcr
  refine ⟨_, _, hA.links.left_range, hA.links.right_range, ?_, ?_⟩
  · simp [size, hA.count]
  · simp [size, hA.count, hA.same.length_eq]

/-- C5 at a concrete input: the bimap built by `insert(5, 50)`, `insert(3, 0)`,
`insert(9, 20)`. -/
theorem size_counts_iteration_witness :
    ∃ lits rits, left_range demo3 0 = some lits ∧ right_range demo3 0 = some rits ∧
      size demo3 0 = lits.length ∧ size demo3 0 = rits.length :=
  size_counts_iteration nat_less_swo nat_less_swo demo3_reachable

end bimap

namespace bimap

open details

variable {L R : Type} {cl : L → L → Bool} {cr : R → R → Bool}

/-! ## Erasure -/

theorem equiv_symm {T : Type} (c : T → T → Bool) (a b : T) : equiv c a b = equiv c b a := by
  simp [equiv, Bool.and_comm]

theorem map_elem_split {tag : Tag} {l : List Nat} {its1 its2 : List Ptr} {it : Ptr}
    (h : l.map (Ptr.elem tag) = its1 ++ it :: its2) :
    ∃ l1 n l2, l = l1 ++ n :: l2 ∧ its1 = l1.map (Ptr.elem tag) ∧ it = Ptr.elem tag n ∧
      its2 = l2.map (Ptr.elem tag) := by
  obtain ⟨l1, l2', rfl, h1, h2⟩ := List.map_eq_append_iff.1 h
  obtain ⟨n, l2, rfl, h3, h4⟩ := List.map_eq_cons_iff.1 h2
  exact ⟨l1, n, l2, rfl, h1.symm, h3.symm, h4.symm⟩

/-- What an erasure of node `n` from both trees leaves behind, in terms of the pairs. -/
theorem Abs.erased {h h1 : Heap L R} {b : Nat} {tl tr : Shape} (hA : Abs cl cr h b tl tr)
    (hcl : StrictWeakOrder cl) (hcr : StrictWeakOrder cr) (n : Nat) (l1 l2 r1 r2 : List Nat)
    (hsl : tl.toList = l1 ++ n :: l2) (hsr : tr.toList = r1 ++ n :: r2)
    (hA1 : Abs cl cr h1 b (Shape.erase h.lprior n tl) (Shape.erase h.rprior n tr))
    (hlv : h1.lval = h.lval) (hrv : h1.rval = h.rval)
    (hsz : h1.sz = Function.update h.sz b (h.sz b - 1)) :
    left_pairs h b = some (l1.map (fun k => (h.lval k, h.rval k)) ++
      (h.lval n, h.rval n) :: l2.map (fun k => (h.lval k, h.rval k))) ∧
    right_pairs h b = some (r1.map (fun k => (h.lval k, h.rval k)) ++
      (h.lval n, h.rval n) :: r2.map (fun k => (h.lval k, h.rval k))) ∧
    left_pairs h1 b = some (l1.map (fun k => (h.lval k, h.rval k)) ++
      l2.map (fun k => (h.lval k, h.rval k))) ∧
    right_pairs h1 b = some (r1.map (fun k => (h.lval k, h.rval k)) ++
      r2.map (fun k => (h.lval k, h.rval k))) ∧
    left_range h1 b = some ((l1 ++ l2).map (Ptr.elem Tag.left_tag)) ∧
    right_range h1 b = some ((r1 ++ r2).map (Ptr.elem Tag.right_tag)) ∧
    (∀ x, equiv cl (h.lval n) x = true → find_left cl h1 b x = some (end_left b)) ∧
    (∀ x, equiv cr (h.rval n) x = true → find_right cr h1 b x = some (end_right b)) ∧
    size h1 b + 1 = size h b := by
  have hnl : n ∈ tl.toList := by rw [hsl]; simp
  have hnr : n ∈ tr.toList := by rw [hsr]; simp
  have hndl := hA.links.left_inv.nodup
  have hndr := hA.links.right_inv.nodup
  have hl1 : n ∉ l1 := by
    rw [hsl] at hndl
    exact fun hm => (List.nodup_append.1 hndl).2.2 hm (by simp)
  have hr1 : n ∉ r1 := by
    rw [hsr] at hndr
    exact fun hm => (List.nodup_append.1 hndr).2.2 hm (by simp)
  have hel : (Shape.erase h.lprior n tl).toList = l1 ++ l2 := by
    rw [Shape.toList_erase _ _ _ hndl, hsl, erase_middle hl1]
  have her : (Shape.erase h.rprior n tr).toList = r1 ++ r2 := by
    rw [Shape.toList_erase _ _ _ hndr, hsr, erase_middle hr1]
  refine ⟨?_, ?_, ?_, ?_, ?_, ?_, ?_, ?_, ?_⟩
  · rw [hA.links.left_pairs, hsl]; simp
  · rw [hA.links.right_pairs, hsr]; simp
  · rw [hA1.links.left_pairs, hel, hlv, hrv]; simp
  · rw [hA1.links.right_pairs, her, hlv, hrv]; simp
  · rw [hA1.links.left_range, hel]
  · rw [hA1.links.right_range, her]
  · intro x hx
    rcases hA1.links.find_left_cases hcl x with ⟨-, h2, -⟩ | ⟨k, hk, -, -, h3⟩
    · exact h2
    · obtain ⟨hk1, hk2⟩ := Shape.mem_of_mem_erase hndl hk
      rw [hlv] at h3
      exact absurd (hA.links.left_unique hcl hk1 hnl h3 hx) hk2
  · intro x hx
    rcases hA1.links.find_right_cases hcr x with ⟨-, h2, -⟩ | ⟨k, hk, -, -, h3⟩
    · exact h2
    · obtain ⟨hk1, hk2⟩ := Shape.mem_of_mem_erase hndr hk
      rw [hrv] at h3
      exact absurd (hA.links.right_unique hcr hk1 hnr h3 hx) hk2
  · have hc := hA.count
    have hpos : 0 < tl.toList.length := List.length_pos_of_mem hnl
    simp only [size, hsz, Function.update_same]
    omega

/-- C6: on a well-formed bimap, `erase_left(it)` at a non-end left iterator `it` (a position
of the left iteration, pointing at the pair `p`) removes exactly `p` from both sequences of
pairs, every other pair keeping its place in its order; afterwards `find_left` of the left
value and `find_right` of the right value of `p` return the end iterators, `size()` is one
less, the remaining iterators are the positions of the left iteration in the old order, and
the call returns the position that followed `it` (`end_left()` when there was none).
`erase_right(it)` does the same seen from the right order. -/
theorem erase_at_iterator (hcl : StrictWeakOrder cl) (hcr : StrictWeakOrder cr)
    {h : Heap L R} {b : Nat} (hwf : WF cl cr h b) :
    (∀ (its1 its2 : List Ptr) (it : Ptr), left_range h b = some (its1 ++ it :: its2) →
      ∃ h1 p ps1 ps2 qs1 qs2, left_pair h it = some p ∧
        left_pairs h b = some (ps1 ++ p :: ps2) ∧ ps1.length = its1.length ∧
        right_pairs h b = some (qs1 ++ p :: qs2) ∧
        bimap.erase_left cl cr h b it = some (h1, its2.headD (end_left b)) ∧
        left_pairs h1 b = some (ps1 ++ ps2) ∧ right_pairs h1 b = some (qs1 ++ qs2) ∧
        left_range h1 b = some (its1 ++ its2) ∧
        find_left cl h1 b p.1 = some (end_left b) ∧
        find_right cr h1 b p.2 = some (end_right b) ∧
        size h1 b + 1 = size h b ∧ WF cl cr h1 b) ∧
    (∀ (its1 its2 : List Ptr) (it : Ptr), right_range h b = some (its1 ++ it :: its2) →
      ∃ h1 p ps1 ps2 qs1 qs2, right_pair h it = some p ∧
        right_pairs h b = some (qs1 ++ p :: qs2) ∧ qs1.length = its1.length ∧
        left_pairs h b = some (ps1 ++ p :: ps2) ∧
        bimap.erase_right cl cr h b it = some (h1, its2.headD (end_right b)) ∧
        left_pairs h1 b = some (ps1 ++ ps2) ∧ right_pairs h1 b = some (qs1 ++ qs2) ∧
        right_range h1 b = some (its1 ++ its2) ∧
        find_left cl h1 b p.1 = some (end_left b) ∧
        find_right cr h1 b p.2 = some (end_right b) ∧
        size h1 b + 1 = size h b ∧ WF cl cr h1 b) := by
  obtain ⟨tl, tr, hA⟩ := hwf
  constructor
  · intro its1 its2 it hrange
    rw [hA.links.left_range] at hrange
    obtain ⟨l1, n, l2, hsl, rfl, rfl, rfl⟩ := map_elem_split (Option.some.inj hrange)
    have hnl : n ∈ tl.toList := by rw [hsl]; simp
    obtain ⟨r1, r2, hsr⟩ := mem_split (hA.same.mem_iff.1 hnl)
    obtain ⟨h1, he, hA1, hlv, hrv, -, -, -, hsz⟩ := hA.erase_left n l1 l2 hsl
    obtain ⟨e1, e2, e3, e4, e5, -, e7, e8, e9⟩ :=
      hA.erased hcl hcr n l1 l2 r1 r2 hsl hsr hA1 hlv hrv hsz
    refine ⟨h1, (h.lval n, h.rval n), _, _, _, _, hA.links.left_pair hnl, e1, by simp, e2, ?_,
      e3, e4, ?_, e7 _ (equiv_self hcl _), e8 _ (equiv_self hcr _), e9, ⟨_, _, hA1⟩⟩
    · rw [he, headD_map_elem]
    · rw [e5, List.map_append]
  · intro its1 its2 it hrange
    rw [hA.links.right_range] at hrange
    obtain ⟨r1, n, r2, hsr, rfl, rfl, rfl⟩ := map_elem_split (Option.some.inj hrange)
    have hnr : n ∈ tr.toList := by rw [hsr]; simp
    obtain ⟨l1, l2, hsl⟩ := mem_split (hA.same.mem_iff.2 hnr)
    obtain ⟨h1, he, hA1, hlv, hrv, -, -, -, hsz⟩ := hA.erase_right n r1 r2 hsr
    obtain ⟨e1, e2, e3, e4, -, e6, e7, e8, e9⟩ :=
      hA.erased hcl hcr n l1 l2 r1 r2 hsl hsr hA1 hlv hrv hsz
    refine ⟨h1, (h.lval n, h.rval n), _, _, _, _, hA.links.right_pair hnr, e2, by simp, e1,
      ?_, e3, e4, ?_, e7 _ (equiv_self hcl _), e8 _ (equiv_self hcr _), e9, ⟨_, _, hA1⟩⟩
    · rw [he, headD_map_elem]
    · rw [e6, List.map_append]

/-- C6 at a concrete input: in the bimap holding `(3, 0)`, `(5, 50)`, `(9, 20)`, erasing at
the left iterator of `5` and erasing at the right iterator of `20`. -/
theorem erase_at_iterator_witness :
    (∃ h1 p ps1 ps2 qs1 qs2, left_pair demo3 (Ptr.elem Tag.left_tag 0) = some p ∧
        left_pairs demo3 0 = some (ps1 ++ p :: ps2) ∧
        ps1.length = [Ptr.elem Tag.left_tag 1].length ∧
        right_pairs demo3 0 = some (qs1 ++ p :: qs2) ∧
        bimap.erase_left nat_less nat_less demo3 0 (Ptr.elem Tag.left_tag 0)
          = some (h1, [Ptr.elem Tag.left_tag 2].headD (end_left 0)) ∧
        left_pairs h1 0 = some (ps1 ++ ps2) ∧ right_pairs h1 0 = some (qs1 ++ qs2) ∧
        left_range h1 0 = some ([Ptr.elem Tag.left_tag 1] ++ [Ptr.elem Tag.left_tag 2]) ∧
        find_left nat_less h1 0 p.1 = some (end_left 0) ∧
        find_right nat_less h1 0 p.2 = some (end_right 0) ∧
        size h1 0 + 1 = size demo3 0 ∧ WF nat_less nat_less h1 0) ∧
    (∃ h1 p ps1 ps2 qs1 qs2, right_pair demo3 (Ptr.elem Tag.right_tag 2) = some p ∧
        right_pairs demo3 0 = some (qs1 ++ p :: qs2) ∧
        qs1.length = [Ptr.elem Tag.right_tag 1].length ∧
        left_pairs demo3 0 = some (ps1 ++ p :: ps2) ∧
        bimap.erase_right nat_less nat_less demo3 0 (Ptr.elem Tag.right_tag 2)
          = some (h1, [Ptr.elem Tag.right_tag 0].headD (end_right 0)) ∧
        left_pairs h1 0 = some (ps1 ++ ps2) ∧ right_pairs h1 0 = some (qs1 ++ qs2) ∧
        right_range h1 0 = some ([Ptr.elem Tag.right_tag 1] ++ [Ptr.elem Tag.right_tag 0]) ∧
        find_left nat_less h1 0 p.1 = some (end_left 0) ∧
        find_right nat_less h1 0 p.2 = some (end_right 0) ∧
        size h1 0 + 1 = size demo3 0 ∧ WF nat_less nat_less h1 0) :=
  ⟨(erase_at_iterator nat_less_swo nat_less_swo demo3_wf).1 [Ptr.elem Tag.left_tag 1]
      [Ptr.elem Tag.left_tag 2] (Ptr.elem Tag.left_tag 0) (by decide),
    (erase_at_iterator nat_less_swo nat_less_swo demo3_wf).2 [Ptr.elem Tag.right_tag 1]
      [Ptr.elem Tag.right_tag 0] (Ptr.elem Tag.right_tag 2) (by decide)⟩

/-- C7: on a well-formed bimap whose pairs are `ps` in left order and `qs` in right order,
`erase_left(l)` returns `true` exactly when a stored left value is equivalent to `l`; when it
returns `false` the state is unchanged; when it returns `true` the pair `p` with that left
value is gone from both sequences, every other pair keeping its place, `find_left(l)` and
`find_right` of the right value of `p` return the end iterators and `size()` is one less.
`erase_right(r)` is the same with the roles of the two sides exchanged. -/
theorem erase_by_key (hcl : StrictWeakOrder cl) (hcr : StrictWeakOrder cr)
    {h : Heap L R} {b : Nat} (hwf : WF cl cr h b) (ps qs : List (L × R))
    (hps : left_pairs h b = some ps) (hqs : right_pairs h b = some qs) :
    (∀ l : L, ∃ h1 found, bimap.erase_left_key cl cr h b l = some (h1, found) ∧
      (found = true ↔ ∃ p ∈ ps, equiv cl p.1 l = true) ∧
      (found = false → h1 = h) ∧
      (found = true → ∃ p ps1 ps2 qs1 qs2, equiv cl p.1 l = true ∧
        ps = ps1 ++ p :: ps2 ∧ qs = qs1 ++ p :: qs2 ∧
        left_pairs h1 b = some (ps1 ++ ps2) ∧ right_pairs h1 b = some (qs1 ++ qs2) ∧
        find_left cl h1 b l = some (end_left b) ∧
        find_right cr h1 b p.2 = some (end_right b) ∧
        size h1 b + 1 = size h b ∧ WF cl cr h1 b)) ∧
    (∀ r : R, ∃ h1 found, bimap.erase_right_key cl cr h b r = some (h1, found) ∧
      (found = true ↔ ∃ p ∈ ps, equiv cr p.2 r = true) ∧
      (found = false → h1 = h) ∧
      (found = true → ∃ p ps1 ps2 qs1 qs2, equiv cr p.2 r = true ∧
        ps = ps1 ++ p :: ps2 ∧ qs = qs1 ++ p :: qs2 ∧
        left_pairs h1 b = some (ps1 ++ ps2) ∧ right_pairs h1 b = some (qs1 ++ qs2) ∧
        find_left cl h1 b p.1 = some (end_left b) ∧
        find_right cr h1 b r = some (end_right b) ∧
        size h1 b + 1 = size h b ∧ WF cl cr h1 b)) := by
  obtain ⟨tl, tr, hA⟩ := hwf
  have hpe := hA.pairs_mem hps
  have hqe : qs = tr.toList.map fun n => (h.lval n, h.rval n) := by
    rw [hA.links.right_pairs] at hqs
    exact (Option.some.inj hqs).symm
  constructor
  · intro l
    by_cases hl : ∃ k ∈ tl.toList, equiv cl (h.lval k) l = true
    · obtain ⟨n, hn, he⟩ := hl
      obtain ⟨l1, l2, hsl⟩ := mem_split hn
      obtain ⟨r1, r2, hsr⟩ := mem_split (hA.same.mem_iff.1 hn)
      obtain ⟨h1, hk, hA1, hlv, hrv, -, -, -, hsz⟩ := hA.erase_left_key_present hcl l hn he
      obtain ⟨e1, e2, e3, e4, -, -, e7, e8, e9⟩ :=
        hA.erased hcl hcr n l1 l2 r1 r2 hsl hsr hA1 hlv hrv hsz
      refine ⟨h1, true, hk, ?_, by simp, fun _ => ?_⟩
      · simp only [true_iff]
        exact ⟨(h.lval n, h.rval n), by rw [hpe]; exact List.mem_map.2 ⟨n, hn, rfl⟩, he⟩
      · refine ⟨(h.lval n, h.rval n), _, _, _, _, he, ?_, ?_, e3, e4, e7 _ he,
          e8 _ (equiv_self hcr _), e9, ⟨_, _, hA1⟩⟩
        · rw [hpe, hsl]; simp
        · rw [hqe, hsr]; simp
    · have hl' : ∀ k ∈ tl.toList, equiv cl (h.lval k) l = false :=
        fun k hk => by simpa using fun e => hl ⟨k, hk, e⟩
      refine ⟨h, false, hA.erase_left_key_absent hcl l hl', ?_, fun _ => rfl, by simp⟩
      simp only [Bool.false_eq_true, false_iff, not_exists, not_and]
      intro p hp
      rw [hpe] at hp
      obtain ⟨k, hk, rfl⟩ := List.mem_map.1 hp
      simp [hl' k hk]
  · intro r
    by_cases hr : ∃ k ∈ tr.toList, equiv cr (h.rval k) r = true
    · obtain ⟨n, hn, he⟩ := hr
      obtain ⟨r1, r2, hsr⟩ := mem_split hn
      obtain ⟨l1, l2, hsl⟩ := mem_split (hA.same.mem_iff.2 hn)
      obtain ⟨h1, hk, hA1, hlv, hrv, -, -, -, hsz⟩ := hA.erase_right_key_present hcr r hn he
      obtain ⟨e1, e2, e3, e4, -, -, e7, e8, e9⟩ :=
        hA.erased hcl hcr n l1 l2 r1 r2 hsl hsr hA1 hlv hrv hsz
      refine ⟨h1, true, hk, ?_, by simp, fun _ => ?_⟩
      · simp only [true_iff]
        exact ⟨(h.lval n, h.rval n),
          by rw [hpe]; exact List.mem_map.2 ⟨n, hA.same.mem_iff.2 hn, rfl⟩, he⟩
      · refine ⟨(h.lval n, h.rval n), _, _, _, _, he, ?_, ?_, e3, e4,
          e7 _ (equiv_self hcl _), e8 _ he, e9, ⟨_, _, hA1⟩⟩
        · rw [hpe, hsl]; simp
        · rw [hqe, hsr]; simp
    · have hr' : ∀ k ∈ tr.toList, equiv cr (h.rval k) r = false :=
        fun k hk => by simpa using fun e => hr ⟨k, hk, e⟩
      refine ⟨h, false, hA.erase_right_key_absent hcr r hr', ?_, fun _ => rfl, by simp⟩
      simp only [Bool.false_eq_true, false_iff, not_exists, not_and]
      intro p hp
      rw [hpe] at hp
      obtain ⟨k, hk, rfl⟩ := List.mem_map.1 hp
      simp [hr' k (hA.same.mem_iff.1 hk)]

/-- C7 at a concrete input: in the bimap holding `(3, 0)`, `(5, 50)`, `(9, 20)`, the calls
`erase_left(5)` and `erase_right(7)`. -/
theorem erase_by_key_witness :
    (∃ h1 found, bimap.erase_left_key nat_less nat_less demo3 0 5 = some (h1, found) ∧
      (found = true ↔ ∃ p ∈ [(3, 0), (5, 50), (9, 20)], equiv nat_less p.1 5 = true) ∧
      (found = false → h1 = demo3) ∧
      (found = true → ∃ p ps1 ps2 qs1 qs2, equiv nat_less p.1 5 = true ∧
        [(3, 0), (5, 50), (9, 20)] = ps1 ++ p :: ps2 ∧
        [(3, 0), (9, 20), (5, 50)] = qs1 ++ p :: qs2 ∧
        left_pairs h1 0 = some (ps1 ++ ps2) ∧ right_pairs h1 0 = some (qs1 ++ qs2) ∧
        find_left nat_less h1 0 5 = some (end_left 0) ∧
        find_right nat_less h1 0 p.2 = some (end_right 0) ∧
        size h1 0 + 1 = size demo3 0 ∧ WF nat_less nat_less h1 0)) ∧
    (∃ h1 found, bimap.erase_right_key nat_less nat_less demo3 0 7 = some (h1, found) ∧
      (found = true ↔ ∃ p ∈ [(3, 0), (5, 50), (9, 20)], equiv nat_less p.2 7 = true) ∧
      (found = false → h1 = demo3) ∧
      (found = true → ∃ p ps1 ps2 qs1 qs2, equiv nat_less p.2 7 = true ∧
        [(3, 0), (5, 50), (9, 20)] = ps1 ++ p :: ps2 ∧
        [(3, 0), (9, 20), (5, 50)] = qs1 ++ p :: qs2 ∧
        left_pairs h1 0 = some (ps1 ++ ps2) ∧ right_pairs h1 0 = some (qs1 ++ qs2) ∧
        find_left nat_less h1 0 p.1 = some (end_left 0) ∧
        find_right nat_less h1 0 7 = some (end_right 0) ∧
        size h1 0 + 1 = size demo3 0 ∧ WF nat_less nat_less h1 0)) :=
  ⟨(erase_by_key nat_less_swo nat_less_swo demo3_wf [(3, 0), (5, 50), (9, 20)]
      [(3, 0), (9, 20), (5, 50)] (by decide) (by decide)).1 5,
    (erase_by_key nat_less_swo nat_less_swo demo3_wf [(3, 0), (5, 50), (9, 20)]
      [(3, 0), (9, 20), (5, 50)] (by decide) (by decide)).2 7⟩

end bimap

namespace bimap

open details

variable {L R : Type} {cl : L → L → Bool} {cr : R → R → Bool}

/-! ## Lookup with and without a default -/

/-- C8: on a well-formed bimap whose pairs are `ps`, `at_left(k)` throws `std::out_of_range`
exactly when no stored left value is equivalent to `k`, and otherwise returns the right value
of the stored pair whose left value is equivalent to `k` (there is only one such pair);
`at_right` is the same with the two sides exchanged.  Both are read-only functions of the
state: the embedding of these `const` members yields no new state. -/
theorem at_throws_iff_absent (hcl : StrictWeakOrder cl) (hcr : StrictWeakOrder cr)
    {h : Heap L R} {b : Nat} (hwf : WF cl cr h b) (ps : List (L × R))
    (hps : left_pairs h b = some ps) :
    (∀ k : L, ∃ res, bimap.at_left cl h b k = some res ∧
      ((∃ msg, res = Except.error msg) ↔ ∀ p ∈ ps, equiv cl p.1 k = false) ∧
      (∀ p ∈ ps, equiv cl p.1 k = true → res = Except.ok p.2) ∧
      (∀ p ∈ ps, ∀ q ∈ ps, equiv cl p.1 k = true → equiv cl q.1 k = true → p = q)) ∧
    (∀ k : R, ∃ res, bimap.at_right cr h b k = some res ∧
      ((∃ msg, res = Except.error msg) ↔ ∀ p ∈ ps, equiv cr p.2 k = false) ∧
      (∀ p ∈ ps, equiv cr p.2 k = true → res = Except.ok p.1) ∧
      (∀ p ∈ ps, ∀ q ∈ ps, equiv cr p.2 k = true → equiv cr q.2 k = true → p = q)) := by
  obtain ⟨tl, tr, hA⟩ := hwf
  have hpe := hA.pairs_mem hps
  constructor
  · intro k
    have huniq : ∀ p ∈ ps, ∀ q ∈ ps, equiv cl p.1 k = true → equiv cl q.1 k = true →
        p = q := by
      intro p hp q hq hpk hqk
      rw [hpe] at hp hq
      obtain ⟨i, hi, rfl⟩ := List.mem_map.1 hp
      obtain ⟨j, hj, rfl⟩ := List.mem_map.1 hq
      rw [hA.links.left_unique hcl hi hj hpk hqk]
    by_cases hl : ∃ n ∈ tl.toList, equiv cl (h.lval n) k = true
    · obtain ⟨n, hn, he⟩ := hl
      refine ⟨_, hA.at_left_present hcl k hn he, ?_, ?_, huniq⟩
      · constructor
        · rintro ⟨msg, hm⟩
          exact absurd hm (by simp)
        · intro hall
          have := hall (h.lval n, h.rval n) (by rw [hpe]; exact List.mem_map.2 ⟨n, hn, rfl⟩)
          rw [he] at this
          exact absurd this (by simp)
      · intro p hp hpk
        have hnp : (h.lval n, h.rval n) ∈ ps := by
          rw [hpe]; exact List.mem_map.2 ⟨n, hn, rfl⟩
        rw [huniq p hp _ hnp hpk he]
    · have hl' : ∀ n ∈ tl.toList, equiv cl (h.lval n) k = false :=
        fun n hn => by simpa using fun e => hl ⟨n, hn, e⟩
      have hall : ∀ p ∈ ps, equiv cl p.1 k = false := by
        intro p hp
        rw [hpe] at hp
        obtain ⟨n, hn, rfl⟩ := List.mem_map.1 hp
        exact hl' n hn
      refine ⟨_, hA.links.at_left_absent hcl k hl', ?_, ?_, huniq⟩
      · exact ⟨fun _ => hall, fun _ => ⟨_, rfl⟩⟩
      · intro p hp hpk
        rw [hall p hp] at hpk
        exact absurd hpk (by simp)
  · intro k
    have huniq : ∀ p ∈ ps, ∀ q ∈ ps, equiv cr p.2 k = true → equiv cr q.2 k = true →
        p = q := by
      intro p hp q hq hpk hqk
      rw [hpe] at hp hq
      obtain ⟨i, hi, rfl⟩ := List.mem_map.1 hp
      obtain ⟨j, hj, rfl⟩ := List.mem_map.1 hq
      rw [hA.links.right_unique hcr (hA.same.mem_iff.1 hi) (hA.same.mem_iff.1 hj) hpk hqk]
    by_cases hr : ∃ n ∈ tr.toList, equiv cr (h.rval n) k = true
    · obtain ⟨n, hn, he⟩ := hr
      have hnp : (h.lval n, h.rval n) ∈ ps := by
        rw [hpe]; exact List.mem_map.2 ⟨n, hA.same.mem_iff.2 hn, rfl⟩
      refine ⟨_, hA.at_right_present hcr k hn he, ?_, ?_, huniq⟩
      · constructor
        · rintro ⟨msg, hm⟩
          exact absurd hm (by simp)
        · intro hall
          have := hall _ hnp
          rw [he] at this
          exact absurd this (by simp)
      · intro p hp hpk
        rw [huniq p hp _ hnp hpk he]
    · have hr' : ∀ n ∈ tr.toList, equiv cr (h.rval n) k = false :=
        fun n hn => by simpa using fun e => hr ⟨n, hn, e⟩
      have hall : ∀ p ∈ ps, equiv cr p.2 k = false := by
        intro p hp
        rw [hpe] at hp
        obtain ⟨n, hn, rfl⟩ := List.mem_map.1 hp
        exact hr' n (hA.same.mem_iff.1 hn)
      refine ⟨_, hA.links.at_right_absent hcr k hr', ?_, ?_, huniq⟩
      · exact ⟨fun _ => hall, fun _ => ⟨_, rfl⟩⟩
      · intro p hp hpk
        rw [hall p hp] at hpk
        exact absurd hpk (by simp)

/-- C8 at a concrete input: in the bimap holding `(3, 0)`, `(5, 50)`, `(9, 20)`, the calls
`at_left(5)` and `at_right(7)`. -/
theorem at_throws_iff_absent_witness :
    (∃ res, bimap.at_left nat_less demo3 0 5 = some res ∧
      ((∃ msg, res = Except.error msg) ↔
        ∀ p ∈ [(3, 0), (5, 50), (9, 20)], equiv nat_less p.1 5 = false) ∧
      (∀ p ∈ [(3, 0), (5, 50), (9, 20)], equiv nat_less p.1 5 = true → res = Except.ok p.2) ∧
      (∀ p ∈ [(3, 0), (5, 50), (9, 20)], ∀ q ∈ [(3, 0), (5, 50), (9, 20)],
        equiv nat_less p.1 5 = true → equiv nat_less q.1 5 = true → p = q)) ∧
    (∃ res, bimap.at_right nat_less demo3 0 7 = some res ∧
      ((∃ msg, res = Except.error msg) ↔
        ∀ p ∈ [(3, 0), (5, 50), (9, 20)], equiv nat_less p.2 7 = false) ∧
      (∀ p ∈ [(3, 0), (5, 50), (9, 20)], equiv nat_less p.2 7 = true → res = Except.ok p.1) ∧
      (∀ p ∈ [(3, 0), (5, 50), (9, 20)], ∀ q ∈ [(3, 0), (5, 50), (9, 20)],
        equiv nat_less p.2 7 = true → equiv nat_less q.2 7 = true → p = q)) :=
  ⟨(at_throws_iff_absent nat_less_swo nat_less_swo demo3_wf [(3, 0), (5, 50), (9, 20)]
      (by decide)).1 5,
    (at_throws_iff_absent nat_less_swo nat_less_swo demo3_wf [(3, 0), (5, 50), (9, 20)]
      (by decide)).2 7⟩

/-- C10: on a well-formed bimap whose pairs are `ps`, when a stored pair `p` has a left value
equivalent to `k`, `at_left_or_default(k)` returns the right value of `p` and the state after
the call is the state before it, whatever is stored for the default right value. -/
theorem at_left_or_default_keeps_present [Inhabited R] (hcl : StrictWeakOrder cl)
    {h : Heap L R} {b : Nat} (hwf : WF cl cr h b) (k : L) (ps : List (L × R))
    (hps : left_pairs h b = some ps) (p : L × R) (hp : p ∈ ps)
    (hk : equiv cl p.1 k = true) :
    bimap.at_left_or_default cl cr h b k = some (h, p.2) := by
  obtain ⟨tl, tr, hA⟩ := hwf
  rw [hA.pairs_mem hps] at hp
  obtain ⟨n, hn, rfl⟩ := List.mem_map.1 hp
  exact hA.at_left_or_default_present hcl k hn hk

/-- C10 at a concrete input: `at_left_or_default(5)` in the bimap holding `(3, 0)`, `(5, 50)`,
`(9, 20)`, where the default right value `0` is stored under the left key `3`. -/
theorem at_left_or_default_keeps_present_witness :
    bimap.at_left_or_default nat_less nat_less demo3 0 5 = some (demo3, 50) :=
  at_left_or_default_keeps_present nat_less_swo demo3_wf 5 [(3, 0), (5, 50), (9, 20)]
    (by decide) (5, 50) (by decide) (by decide)

end bimap

namespace bimap

open details

variable {L R : Type} {cl : L → L → Bool} {cr : R → R → Bool}

/-- C9: on a well-formed bimap whose pairs are `ps` in left order and `qs` in right order,
with no stored left value equivalent to `k` and with a stored pair `(l2, d)` whose right value
is the default right value (`d` equivalent to `Right()`), `at_left_or_default(k)` returns `d`,
leaves `size()` unchanged and replaces `(l2, d)` by `(k, d)`: in left order the other pairs
keep their relative order and `(k, d)` is put in at one place, in right order `(k, d)` stands
where `(l2, d)` stood.  Afterwards `find_left(l2)` is `end_left()`, `find_left(k)` is a
non-end iterator equal to `find_right(d).flip()` (also for `d = Right()`), `at_left(k)` is
`d`, both sequences are strictly increasing and the bimap is well formed. -/
theorem at_left_or_default_reassigns [Inhabited R] (hcl : StrictWeakOrder cl)
    (hcr : StrictWeakOrder cr) {h : Heap L R} {b : Nat} (hwf : WF cl cr h b) (k : L)
    (ps qs : List (L × R)) (hps : left_pairs h b = some ps) (hqs : right_pairs h b = some qs)
    (habs : ∀ p ∈ ps, equiv cl p.1 k = false) (l2 : L) (d : R) (hmem : (l2, d) ∈ ps)
    (hd : equiv cr d default = true) :
    ∃ h1, bimap.at_left_or_default cl cr h b k = some (h1, d) ∧ size h1 b = size h b ∧
      (∃ ps1 ps2 ps3 ps4, ps = ps1 ++ (l2, d) :: ps2 ∧ ps1 ++ ps2 = ps3 ++ ps4 ∧
        left_pairs h1 b = some (ps3 ++ (k, d) :: ps4) ∧
        (ps3 ++ (k, d) :: ps4).Pairwise (fun p q => cl p.1 q.1 = true)) ∧
      (∃ qs1 qs2, qs = qs1 ++ (l2, d) :: qs2 ∧
        right_pairs h1 b = some (qs1 ++ (k, d) :: qs2) ∧
        (qs1 ++ (k, d) :: qs2).Pairwise (fun p q => cr p.2 q.2 = true)) ∧
      find_left cl h1 b l2 = some (end_left b) ∧
      (∃ it, find_left cl h1 b k = some it ∧ it ≠ end_left b ∧
        (find_right cr h1 b d).bind (iterator.flip h1.base Tag.right_tag) = some it ∧
        (find_right cr h1 b default).bind (iterator.flip h1.base Tag.right_tag) = some it) ∧
      bimap.at_left cl h1 b k = some (Except.ok d) ∧ WF cl cr h1 b := by
  obtain ⟨tl, tr, hA⟩ := hwf
  have hpe := hA.pairs_mem hps
  have hqe : qs = tr.toList.map fun n => (h.lval n, h.rval n) := by
    rw [hA.links.right_pairs] at hqs
    exact (Option.some.inj hqs).symm
  have hkey := hA.left_keys hps habs
  rw [hpe] at hmem
  obtain ⟨n, hn, hnv⟩ := List.mem_map.1 hmem
  simp only [Prod.mk.injEq] at hnv
  obtain ⟨hl2, hdv⟩ := hnv
  have hnr : n ∈ tr.toList := hA.same.mem_iff.1 hn
  have hd' : equiv cr (h.rval n) default = true := by rw [hdv]; exact hd
  obtain ⟨h1, hres, hA1, hlv, hrv, -, -, -, hsz⟩ :=
    hA.at_left_or_default_reuse hcl hcr k hkey hnr hd'
  obtain ⟨l1, l2s, hsl⟩ := mem_split hn
  obtain ⟨r1, r2, hsr⟩ := mem_split hnr
  have hndl := hA.links.left_inv.nodup
  have hndr := hA.links.right_inv.nodup
  have hl1 : n ∉ l1 := by
    rw [hsl] at hndl
    exact fun hm => (List.nodup_append.1 hndl).2.2 hm (by simp)
  have hr1 : n ∉ r1 := by
    rw [hsr] at hndr
    exact fun hm => (List.nodup_append.1 hndr).2.2 hm (by simp)
  have hr2 : n ∉ r2 := by
    rw [hsr] at hndr
    exact (List.nodup_cons.1 (List.nodup_append.1 hndr).2.1).1
  have hel : (Shape.erase h.lprior n tl).toList = l1 ++ l2s := by
    rw [Shape.toList_erase _ _ _ hndl, hsl, erase_middle hl1]
  have hne : n ∉ (Shape.erase h.lprior n tl).toList := Shape.not_mem_erase _ _ _ hndl
  have hsp := Shape.toList_split (fun j => cl (h1.lval j) k) (Shape.erase h.lprior n tl)
  have hf : ∀ j, j ≠ n → (h1.lval j, h1.rval j) = (h.lval j, h.rval j) := by
    intro j hj
    simp [hlv, hrv, Function.update, hj]
  have hfn : (h1.lval n, h1.rval n) = (k, d) := by simp [hlv, hrv, hdv]
  have hmem1 : n ∈ (Shape.insert h.lprior (fun j => cl (h1.lval j) k)
      (Shape.erase h.lprior n tl) n).toList := (Shape.mem_insert _ _ _ _ _).2 (Or.inl rfl)
  have hlvn : h1.lval n = k := by simp [hlv]
  have hrvn : h1.rval n = d := by simp [hrv, hdv]
  have hkk : equiv cl (h1.lval n) k = true := by rw [hlvn]; exact equiv_self hcl k
  have hleft1 : left_pairs h1 b = some
      ((Shape.split (fun j => cl (h1.lval j) k) (Shape.erase h.lprior n tl)).1.toList.map
          (fun j => (h.lval j, h.rval j)) ++ (k, d) ::
        (Shape.split (fun j => cl (h1.lval j) k) (Shape.erase h.lprior n tl)).2.toList.map
          (fun j => (h.lval j, h.rval j))) := by
    rw [hA1.links.left_pairs, Shape.toList_insert]
    congr 1
    exact map_insert_middle _ _ _ _ _ _ hf hfn
      (fun hm => hne (hsp ▸ List.mem_append_left _ hm))
      (fun hm => hne (hsp ▸ List.mem_append_right _ hm))
  have hright1 : right_pairs h1 b = some (r1.map (fun j => (h.lval j, h.rval j)) ++ (k, d) ::
      r2.map (fun j => (h.lval j, h.rval j))) := by
    rw [hA1.links.right_pairs, hsr]
    congr 1
    exact map_insert_middle _ _ _ _ _ _ hf hfn hr1 hr2
  have hfk : find_left cl h1 b k = some (Ptr.elem Tag.left_tag n) := by
    rcases hA1.links.find_left_cases hcl k with ⟨-, -, h3⟩ | ⟨j, hj, -, h2, h3⟩
    · exact absurd (h3 n hmem1) (by simp [hkk])
    · rw [hA1.links.left_unique hcl hmem1 hj hkk h3]; exact h2
  have hfr : ∀ x, equiv cr d x = true →
      find_right cr h1 b x = some (Ptr.elem Tag.right_tag n) := by
    intro x hx
    have hx' : equiv cr (h1.rval n) x = true := by rw [hrvn]; exact hx
    rcases hA1.links.find_right_cases hcr x with ⟨-, -, h3⟩ | ⟨j, hj, -, h2, h3⟩
    · exact absurd (h3 n hnr) (by simp [hx'])
    · rw [hA1.links.right_unique hcr hnr hj hx' h3]; exact h2
  refine ⟨h1, ?_, ?_, ?_, ?_, ?_, ?_, ?_, ⟨_, _, hA1⟩⟩
  · rw [hres, hdv]
  · simp [size, hsz]
  · refine ⟨l1.map (fun j => (h.lval j, h.rval j)), l2s.map (fun j => (h.lval j, h.rval j)),
      _, _, ?_, ?_, hleft1, ?_⟩
    · rw [hpe, hsl, ← hl2, ← hdv]; simp
    · rw [← List.map_append, ← List.map_append, hsp, hel]
    · have := hA1.links.left_pairs
      rw [hleft1] at this
      rw [Option.some.inj this]
      exact List.pairwise_map.2 hA1.links.left_inv.sorted
  · refine ⟨r1.map (fun j => (h.lval j, h.rval j)), r2.map (fun j => (h.lval j, h.rval j)),
      ?_, hright1, ?_⟩
    · rw [hqe, hsr, ← hl2, ← hdv]; simp
    · have := hA1.links.right_pairs
      rw [hright1] at this
      rw [Option.some.inj this]
      exact List.pairwise_map.2 hA1.links.right_inv.sorted
  · rcases hA1.links.find_left_cases hcl l2 with ⟨-, h2, -⟩ | ⟨j, hj, -, -, h3⟩
    · exact h2
    · exfalso
      rcases (Shape.mem_insert _ _ _ _ _).1 hj with rfl | hj'
      · rw [hlvn, equiv_symm, ← hl2, hkey j hn] at h3
        exact Bool.false_ne_true h3
      · obtain ⟨hj1, hj2⟩ := Shape.mem_of_mem_erase hndl hj'
        have e : h1.lval j = h.lval j := by simp [hlv, Function.update, hj2]
        rw [e, ← hl2] at h3
        exact hj2 (hA.links.left_unique hcl hj1 hn h3 (equiv_self hcl _))
  · refine ⟨_, hfk, by simp [end_left], ?_, ?_⟩
    · rw [hfr d (equiv_self hcr d), Option.some_bind, hA1.links.flip_right hnr]
    · rw [hfr default hd, Option.some_bind, hA1.links.flip_right hnr]
  · rw [hA1.at_left_present hcl k hmem1 hkk, hrvn]

/-- C9 at a concrete input: `at_left_or_default(7)` in the bimap holding `(3, 0)`, `(5, 50)`,
`(9, 20)` reassigns the pair `(3, 0)` to `(7, 0)`. -/
theorem at_left_or_default_reassigns_witness :
    ∃ h1, bimap.at_left_or_default nat_less nat_less demo3 0 7 = some (h1, 0) ∧
      size h1 0 = size demo3 0 ∧
      (∃ ps1 ps2 ps3 ps4, [(3, 0), (5, 50), (9, 20)] = ps1 ++ (3, 0) :: ps2 ∧
        ps1 ++ ps2 = ps3 ++ ps4 ∧ left_pairs h1 0 = some (ps3 ++ (7, 0) :: ps4) ∧
        (ps3 ++ (7, 0) :: ps4).Pairwise (fun p q => nat_less p.1 q.1 = true)) ∧
      (∃ qs1 qs2, [(3, 0), (9, 20), (5, 50)] = qs1 ++ (3, 0) :: qs2 ∧
        right_pairs h1 0 = some (qs1 ++ (7, 0) :: qs2) ∧
        (qs1 ++ (7, 0) :: qs2).Pairwise (fun p q => nat_less p.2 q.2 = true)) ∧
      find_left nat_less h1 0 3 = some (end_left 0) ∧
      (∃ it, find_left nat_less h1 0 7 = some it ∧ it ≠ end_left 0 ∧
        (find_right nat_less h1 0 0).bind (iterator.flip h1.base Tag.right_tag) = some it ∧
        (find_right nat_less h1 0 default).bind (iterator.flip h1.base Tag.right_tag)
          = some it) ∧
      bimap.at_left nat_less h1 0 7 = some (Except.ok 0) ∧ WF nat_less nat_less h1 0 :=
  at_left_or_default_reassigns nat_less_swo nat_less_swo demo3_wf 7 [(3, 0), (5, 50), (9, 20)]
    [(3, 0), (9, 20), (5, 50)] (by decide) (by decide) (by decide) 3 0 (by decide) (by decide)

end bimap

namespace bimap

open details

variable {L R : Type} {cl : L → L → Bool} {cr : R → R → Bool}

/-! ## The fallbacks of `at_left_or_default` and `at_right_or_default` -/

theorem demo1_wf : WF nat_less nat_less demo1 0 :=
  demo1_reachable.wf nat_less_swo nat_less_swo

theorem demo4_wf : WF nat_less nat_less demo4 0 :=
  (demo_insert_reachable demo3_reachable 0 70).wf nat_less_swo nat_less_swo

theorem demo3_left_pairs : left_pairs demo3 0 = some [(3, 0), (5, 50), (9, 20)] := by
  decide

theorem demo3_right_pairs : right_pairs demo3 0 = some [(3, 0), (9, 20), (5, 50)] := by
  decide

/-- The sequences of pairs after a fresh node `h.next` carrying `(l, r)` has been linked into
both trees: the old sequences with `(l, r)` put in at one place. -/
theorem Abs.fresh_pairs {h h1 : Heap L R} {b : Nat} {tl tr : Shape} (hA : Abs cl cr h b tl tr)
    {pl pr : Nat → Nat} {ltl ltr : Nat → Bool}
    (hA1 : Abs cl cr h1 b (Shape.insert pl ltl tl h.next) (Shape.insert pr ltr tr h.next))
    (l : L) (r : R) (hlv : h1.lval = Function.update h.lval h.next l)
    (hrv : h1.rval = Function.update h.rval h.next r) {ps qs : List (L × R)}
    (hps : left_pairs h b = some ps) (hqs : right_pairs h b = some qs) :
    (∃ ps1 ps2, ps = ps1 ++ ps2 ∧ left_pairs h1 b = some (ps1 ++ (l, r) :: ps2)) ∧
      (∃ qs1 qs2, qs = qs1 ++ qs2 ∧ right_pairs h1 b = some (qs1 ++ (l, r) :: qs2)) := by
  have hnl : h.next ∉ tl.toList := fun hm => Nat.lt_irrefl _ (hA.links.left_alloc _ hm)
  have hnr : h.next ∉ tr.toList := fun hm => Nat.lt_irrefl _ (hA.links.right_alloc _ hm)
  have hf : ∀ k, k ≠ h.next → (h1.lval k, h1.rval k) = (h.lval k, h.rval k) := by
    intro k hk
    simp [hlv, hrv, Function.update, hk]
  have hn : (h1.lval h.next, h1.rval h.next) = (l, r) := by simp [hlv, hrv]
  constructor
  · have hsp := Shape.toList_split ltl tl
    refine ⟨(Shape.split ltl tl).1.toList.map fun n => (h.lval n, h.rval n),
      (Shape.split ltl tl).2.toList.map fun n => (h.lval n, h.rval n), ?_, ?_⟩
    · rw [hA.pairs_mem hps, ← hsp, List.map_append]
    · rw [hA1.links.left_pairs, Shape.toList_insert]
      congr 1
      exact map_insert_middle _ _ _ _ _ _ hf hn
        (fun hm => hnl (hsp ▸ List.mem_append_left _ hm))
        (fun hm => hnl (hsp ▸ List.mem_append_right _ hm))
  · have hsp := Shape.toList_split ltr tr
    have hq : qs = tr.toList.map fun n => (h.lval n, h.rval n) := by
      rw [hA.links.right_pairs] at hqs
      exact (Option.some.inj hqs).symm
    refine ⟨(Shape.split ltr tr).1.toList.map fun n => (h.lval n, h.rval n),
      (Shape.split ltr tr).2.toList.map fun n => (h.lval n, h.rval n), ?_, ?_⟩
    · rw [hq, ← hsp, List.map_append]
    · rw [hA1.links.right_pairs, Shape.toList_insert]
      congr 1
      exact map_insert_middle _ _ _ _ _ _ hf hn
        (fun hm => hnr (hsp ▸ List.mem_append_left _ hm))
        (fun hm => hnr (hsp ▸ List.mem_append_right _ hm))

/-- C11: on a well-formed bimap whose pairs are `ps` in left order and `qs` in right order,
with no stored left value equivalent to `k` and no stored right value equivalent to the
default right value `Right()`, `at_left_or_default(k)` returns `Right()`, `size()` grows by
exactly one, and both sequences of pairs are the old ones with `(k, Right())` put in at one
place, every old pair kept unchanged and in its order; afterwards `at_left(k)` is `Right()`
and the bimap is well formed. -/
theorem at_left_or_default_inserts [Inhabited R] (hcl : StrictWeakOrder cl)
    (hcr : StrictWeakOrder cr) {h : Heap L R} {b : Nat} (hwf : WF cl cr h b) (k : L)
    (ps qs : List (L × R)) (hps : left_pairs h b = some ps) (hqs : right_pairs h b = some qs)
    (habs : ∀ p ∈ ps, equiv cl p.1 k = false)
    (hd : ∀ p ∈ ps, equiv cr p.2 default = false) :
    ∃ h1, bimap.at_left_or_default cl cr h b k = some (h1, default) ∧
      size h1 b = size h b + 1 ∧
      (∃ ps1 ps2, ps = ps1 ++ ps2 ∧ left_pairs h1 b = some (ps1 ++ (k, default) :: ps2)) ∧
      (∃ qs1 qs2, qs = qs1 ++ qs2 ∧ right_pairs h1 b = some (qs1 ++ (k, default) :: qs2)) ∧
      bimap.at_left cl h1 b k = some (Except.ok default) ∧ WF cl cr h1 b := by
  obtain ⟨tl, tr, hA⟩ := hwf
  obtain ⟨h1, hres, hA1, hlv, hrv, -, hsz⟩ := hA.at_left_or_default_fresh hcl hcr k
    (hA.left_keys hps habs) (hA.right_keys hps hd)
  obtain ⟨hl, hr⟩ := hA.fresh_pairs hA1 k default hlv hrv hps hqs
  have hmem : h.next ∈ (Shape.insert h1.lprior (fun j => cl (h1.lval j) k) tl h.next).toList :=
    (Shape.mem_insert _ _ _ _ _).2 (Or.inl rfl)
  have hlvn : h1.lval h.next = k := by simp [hlv]
  refine ⟨h1, hres, by simp [size, hsz], hl, hr, ?_, ⟨_, _, hA1⟩⟩
  rw [hA1.at_left_present hcl k hmem (by rw [hlvn]; exact equiv_self hcl k)]
  simp [hrv]

/-- C11 at a concrete input: `at_left_or_default(7)` in the bimap holding `(5, 50)` inserts
`(7, 0)`. -/
theorem at_left_or_default_inserts_witness :
    ∃ h1, bimap.at_left_or_default nat_less nat_less demo1 0 7 = some (h1, default) ∧
      size h1 0 = size demo1 0 + 1 ∧
      (∃ ps1 ps2, [(5, 50)] = ps1 ++ ps2 ∧
        left_pairs h1 0 = some (ps1 ++ (7, default) :: ps2)) ∧
      (∃ qs1 qs2, [(5, 50)] = qs1 ++ qs2 ∧
        right_pairs h1 0 = some (qs1 ++ (7, default) :: qs2)) ∧
      bimap.at_left nat_less h1 0 7 = some (Except.ok default) ∧ WF nat_less nat_less h1 0 :=
  at_left_or_default_inserts nat_less_swo nat_less_swo demo1_wf 7 [(5, 50)] [(5, 50)]
    (by decide) (by decide) (by decide) (by decide)

end bimap

namespace bimap

open details

variable {L R : Type} {cl : L → L → Bool} {cr : R → R → Bool}

/-- The sequences of pairs after `at_right_or_default` has given the right key `k` to the
node `n` that carries the default left value: in left order the pair stands where it stood,
in right order it has left its place and is put in at one place. -/
theorem Abs.reuse_right_pairs {h h1 : Heap L R} {b : Nat} {tl tr : Shape}
    (hA : Abs cl cr h b tl tr) {lt : Nat → Bool} {n : Nat} (hn : n ∈ tl.toList) (k : R)
    (hA1 : Abs cl cr h1 b tl (Shape.insert h.rprior lt (Shape.erase h.rprior n tr) n))
    (hlv : h1.lval = h.lval) (hrv : h1.rval = Function.update h.rval n k)
    {ps qs : List (L × R)} (hps : left_pairs h b = some ps)
    (hqs : right_pairs h b = some qs) :
    (∃ ps1 ps2, ps = ps1 ++ (h.lval n, h.rval n) :: ps2 ∧
        left_pairs h1 b = some (ps1 ++ (h.lval n, k) :: ps2)) ∧
      (∃ qs1 qs2 qs3 qs4, qs = qs1 ++ (h.lval n, h.rval n) :: qs2 ∧
        qs1 ++ qs2 = qs3 ++ qs4 ∧ right_pairs h1 b = some (qs3 ++ (h.lval n, k) :: qs4)) := by
  have hpe := hA.pairs_mem hps
  have hqe : qs = tr.toList.map fun j => (h.lval j, h.rval j) := by
    rw [hA.links.right_pairs] at hqs
    exact (Option.some.inj hqs).symm
  have hnr : n ∈ tr.toList := hA.same.mem_iff.1 hn
  obtain ⟨l1, l2, hsl⟩ := mem_split hn
  obtain ⟨r1, r2, hsr⟩ := mem_split hnr
  have hndl := hA.links.left_inv.nodup
  have hndr := hA.links.right_inv.nodup
  have hl1 : n ∉ l1 := by
    rw [hsl] at hndl
    exact fun hm => (List.nodup_append.1 hndl).2.2 hm (by simp)
  have hl2 : n ∉ l2 := by
    rw [hsl] at hndl
    exact (List.nodup_cons.1 (List.nodup_append.1 hndl).2.1).1
  have hr1 : n ∉ r1 := by
    rw [hsr] at hndr
    exact fun hm => (List.nodup_append.1 hndr).2.2 hm (by simp)
  have her : (Shape.erase h.rprior n tr).toList = r1 ++ r2 := by
    rw [Shape.toList_erase _ _ _ hndr, hsr, erase_middle hr1]
  have hne : n ∉ (Shape.erase h.rprior n tr).toList := Shape.not_mem_erase _ _ _ hndr
  have hsp := Shape.toList_split lt (Shape.erase h.rprior n tr)
  have hf : ∀ j, j ≠ n → (h1.lval j, h1.rval j) = (h.lval j, h.rval j) := by
    intro j hj
    simp [hlv, hrv, Function.update, hj]
  have hfn : (h1.lval n, h1.rval n) = (h.lval n, k) := by simp [hlv, hrv]
  constructor
  · refine ⟨l1.map (fun j => (h.lval j, h.rval j)), l2.map (fun j => (h.lval j, h.rval j)),
      ?_, ?_⟩
    · rw [hpe, hsl]; simp
    · rw [hA1.links.left_pairs, hsl]
      congr 1
      exact map_insert_middle _ _ _ _ _ _ hf hfn hl1 hl2
  · refine ⟨r1.map (fun j => (h.lval j, h.rval j)), r2.map (fun j => (h.lval j, h.rval j)),
      (Shape.split lt (Shape.erase h.rprior n tr)).1.toList.map
        (fun j => (h.lval j, h.rval j)),
      (Shape.split lt (Shape.erase h.rprior n tr)).2.toList.map
        (fun j => (h.lval j, h.rval j)), ?_, ?_, ?_⟩
    · rw [hqe, hsr]; simp
    · rw [← List.map_append, ← List.map_append, hsp, her]
    · rw [hA1.links.right_pairs, Shape.toList_insert]
      congr 1
      exact map_insert_middle _ _ _ _ _ _ hf hfn
        (fun hm => hne (hsp ▸ List.mem_append_left _ hm))
        (fun hm => hne (hsp ▸ List.mem_append_right _ hm))

/-- C12: on a well-formed bimap whose pairs are `ps` in left order and `qs` in right order
and a right key `k`, `at_right_or_default(k)` has three cases.  When a stored pair `p` has a
right value equivalent to `k`, it returns the left value of `p` and the state is the one
before the call.  Otherwise, when a stored pair `(d, r2)` has the default left value (`d`
equivalent to `Left()`), it returns `d`, `size()` is unchanged, `(d, r2)` becomes `(d, k)`
(in left order at the same place, in right order put in at one place among the other pairs)
and `find_right(r2)` is `end_right()`.  Otherwise it returns `Left()`, `size()` grows by one
and `(Left(), k)` is put into both sequences.  In each case `at_right(k)` after the call is
the returned value, and the bimap stays well formed. -/
theorem at_right_or_default_mirrors [Inhabited L] (hcl : StrictWeakOrder cl)
    (hcr : StrictWeakOrder cr) {h : Heap L R} {b : Nat} (hwf : WF cl cr h b) (k : R)
    (ps qs : List (L × R)) (hps : left_pairs h b = some ps)
    (hqs : right_pairs h b = some qs) :
    (∀ p ∈ ps, equiv cr p.2 k = true →
      bimap.at_right_or_default cl cr h b k = some (h, p.1) ∧
      bimap.at_right cr h b k = some (Except.ok p.1)) ∧
    ((∀ p ∈ ps, equiv cr p.2 k = false) → ∀ d r2, (d, r2) ∈ ps → equiv cl d default = true →
      ∃ h1, bimap.at_right_or_default cl cr h b k = some (h1, d) ∧ size h1 b = size h b ∧
        (∃ ps1 ps2, ps = ps1 ++ (d, r2) :: ps2 ∧
          left_pairs h1 b = some (ps1 ++ (d, k) :: ps2)) ∧
        (∃ qs1 qs2 qs3 qs4, qs = qs1 ++ (d, r2) :: qs2 ∧ qs1 ++ qs2 = qs3 ++ qs4 ∧
          right_pairs h1 b = some (qs3 ++ (d, k) :: qs4)) ∧
        find_right cr h1 b r2 = some (end_right b) ∧
        bimap.at_right cr h1 b k = some (Except.ok d) ∧ WF cl cr h1 b) ∧
    ((∀ p ∈ ps, equiv cr p.2 k = false) → (∀ p ∈ ps, equiv cl p.1 default = false) →
      ∃ h1, bimap.at_right_or_default cl cr h b k = some (h1, default) ∧
        size h1 b = size h b + 1 ∧
        (∃ ps1 ps2, ps = ps1 ++ ps2 ∧ left_pairs h1 b = some (ps1 ++ (default, k) :: ps2)) ∧
        (∃ qs1 qs2, qs = qs1 ++ qs2 ∧
          right_pairs h1 b = some (qs1 ++ (default, k) :: qs2)) ∧
        bimap.at_right cr h1 b k = some (Except.ok default) ∧ WF cl cr h1 b) := by
  obtain ⟨tl, tr, hA⟩ := hwf
  have hpe := hA.pairs_mem hps
  refine ⟨?_, ?_, ?_⟩
  · intro p hp hpk
    rw [hpe] at hp
    obtain ⟨n, hn, rfl⟩ := List.mem_map.1 hp
    have hnr : n ∈ tr.toList := hA.same.mem_iff.1 hn
    exact ⟨hA.at_right_or_default_present hcr k hnr hpk, hA.at_right_present hcr k hnr hpk⟩
  · intro habs d r2 hmem hd
    have hkey := hA.right_keys hps habs
    rw [hpe] at hmem
    obtain ⟨n, hn, hnv⟩ := List.mem_map.1 hmem
    simp only [Prod.mk.injEq] at hnv
    obtain ⟨hdv, hr2⟩ := hnv
    have hnr : n ∈ tr.toList := hA.same.mem_iff.1 hn
    have hd' : equiv cl (h.lval n) default = true := by rw [hdv]; exact hd
    obtain ⟨h1, hres, hA1, hlv, hrv, -, -, -, hsz⟩ :=
      hA.at_right_or_default_reuse hcl hcr k hkey hn hd'
    obtain ⟨hl, hr⟩ := hA.reuse_right_pairs hn k hA1 hlv hrv hps hqs
    rw [hdv, hr2] at hl hr
    have hndr := hA.links.right_inv.nodup
    have hmem1 : n ∈ (Shape.insert h.rprior (fun j => cr (h1.rval j) k)
        (Shape.erase h.rprior n tr) n).toList := (Shape.mem_insert _ _ _ _ _).2 (Or.inl rfl)
    have hrvn : h1.rval n = k := by simp [hrv]
    have hlvn : h1.lval n = d := by simp [hlv, hdv]
    refine ⟨h1, by rw [hres, hdv], by simp [size, hsz], hl, hr, ?_, ?_, ⟨_, _, hA1⟩⟩
    · rcases hA1.links.find_right_cases hcr r2 with ⟨-, h2, -⟩ | ⟨j, hj, -, -, h3⟩
      · exact h2
      · exfalso
        rcases (Shape.mem_insert _ _ _ _ _).1 hj with rfl | hj'
        · rw [hrvn, equiv_symm, ← hr2, hkey j hnr] at h3
          exact Bool.false_ne_true h3
        · obtain ⟨hj1, hj2⟩ := Shape.mem_of_mem_erase hndr hj'
          have e : h1.rval j = h.rval j := by simp [hrv, Function.update, hj2]
          rw [e, ← hr2] at h3
          exact hj2 (hA.links.right_unique hcr hj1 hnr h3 (equiv_self hcr _))
    · rw [hA1.at_right_present hcr k hmem1 (by rw [hrvn]; exact equiv_self hcr k), hlvn]
  · intro habs hd
    obtain ⟨h1, hres, hA1, hlv, hrv, -, hsz⟩ := hA.at_right_or_default_fresh hcl hcr k
      (hA.right_keys hps habs) (hA.left_keys hps hd)
    obtain ⟨hl, hr⟩ := hA.fresh_pairs hA1 default k hlv hrv hps hqs
    have hmem : h.next ∈
        (Shape.insert h1.rprior (fun j => cr (h1.rval j) k) tr h.next).toList :=
      (Shape.mem_insert _ _ _ _ _).2 (Or.inl rfl)
    have hrvn : h1.rval h.next = k := by simp [hrv]
    refine ⟨h1, hres, by simp [size, hsz], hl, hr, ?_, ⟨_, _, hA1⟩⟩
    rw [hA1.at_right_present hcr k hmem (by rw [hrvn]; exact equiv_self hcr k)]
    simp [hlv]

theorem demo4_left_pairs : left_pairs demo4 0 = some [(0, 70), (3, 0), (5, 50), (9, 20)] := by
  decide!

theorem demo4_right_pairs :
    right_pairs demo4 0 = some [(3, 0), (9, 20), (5, 50), (0, 70)] := by
  decide!

/-- C12 at concrete inputs: in the bimap holding `(3, 0)`, `(5, 50)`, `(9, 20)` the call
`at_right_or_default(50)` returns `5` and `at_right_or_default(8)` inserts `(0, 8)`; in the
bimap that also holds `(0, 70)` the call `at_right_or_default(8)` turns that pair into
`(0, 8)`. -/
theorem at_right_or_default_mirrors_witness :
    (bimap.at_right_or_default nat_less nat_less demo3 0 50 = some (demo3, 5) ∧
      bimap.at_right nat_less demo3 0 50 = some (Except.ok 5)) ∧
    (∃ h1, bimap.at_right_or_default nat_less nat_less demo4 0 8 = some (h1, 0) ∧
      size h1 0 = size demo4 0 ∧
      (∃ ps1 ps2, [(0, 70), (3, 0), (5, 50), (9, 20)] = ps1 ++ (0, 70) :: ps2 ∧
        left_pairs h1 0 = some (ps1 ++ (0, 8) :: ps2)) ∧
      (∃ qs1 qs2 qs3 qs4, [(3, 0), (9, 20), (5, 50), (0, 70)] = qs1 ++ (0, 70) :: qs2 ∧
        qs1 ++ qs2 = qs3 ++ qs4 ∧ right_pairs h1 0 = some (qs3 ++ (0, 8) :: qs4)) ∧
      find_right nat_less h1 0 70 = some (end_right 0) ∧
      bimap.at_right nat_less h1 0 8 = some (Except.ok 0) ∧ WF nat_less nat_less h1 0) ∧
    (∃ h1, bimap.at_right_or_default nat_less nat_less demo3 0 8 = some (h1, default) ∧
      size h1 0 = size demo3 0 + 1 ∧
      (∃ ps1 ps2, [(3, 0), (5, 50), (9, 20)] = ps1 ++ ps2 ∧
        left_pairs h1 0 = some (ps1 ++ (default, 8) :: ps2)) ∧
      (∃ qs1 qs2, [(3, 0), (9, 20), (5, 50)] = qs1 ++ qs2 ∧
        right_pairs h1 0 = some (qs1 ++ (default, 8) :: qs2)) ∧
      bimap.at_right nat_less h1 0 8 = some (Except.ok default) ∧
      WF nat_less nat_less h1 0) :=
  ⟨(at_right_or_default_mirrors nat_less_swo nat_less_swo demo3_wf 50
      [(3, 0), (5, 50), (9, 20)] [(3, 0), (9, 20), (5, 50)] demo3_left_pairs
      demo3_right_pairs).1 (5, 50) (by decide) (by decide),
    (at_right_or_default_mirrors nat_less_swo nat_less_swo demo4_wf 8
      [(0, 70), (3, 0), (5, 50), (9, 20)] [(3, 0), (9, 20), (5, 50), (0, 70)]
      demo4_left_pairs demo4_right_pairs).2.1 (by decide) 0 70 (by decide) (by decide),
    (at_right_or_default_mirrors nat_less_swo nat_less_swo demo3_wf 8
      [(3, 0), (5, 50), (9, 20)] [(3, 0), (9, 20), (5, 50)] demo3_left_pairs
      demo3_right_pairs).2.2 (by decide) (by decide)⟩

end bimap

namespace bimap

open details

variable {L R : Type} {cl : L → L → Bool} {cr : R → R → Bool}

/-! ## Lookup and `flip` -/

theorem demo3_left_range : left_range demo3 0 = some [Ptr.elem Tag.left_tag 1,
    Ptr.elem Tag.left_tag 0, Ptr.elem Tag.left_tag 2] := by
  decide

theorem demo3_right_range : right_range demo3 0 = some [Ptr.elem Tag.right_tag 1,
    Ptr.elem Tag.right_tag 2, Ptr.elem Tag.right_tag 0] := by
  decide

/-- C13: on a well-formed bimap whose pairs are `ps` and whose left and right iterators are
`lits` and `rits`, `find_left(k)` returns an iterator for every `k`: when a stored left value
is equivalent to `k` it is a non-end iterator of the bimap, `*it` is equivalent to `k` and
the pair at `it` is a stored pair; when no stored left value is equivalent to `k` it is
`end_left()`.  `find_right` is the same with the right values and `CompareRight`.  Both are
functions of the state: they return an iterator only, so the bimap is the same afterwards. -/
theorem find_returns_match (hcl : StrictWeakOrder cl) (hcr : StrictWeakOrder cr)
    {h : Heap L R} {b : Nat} (hwf : WF cl cr h b) (ps : List (L × R)) (lits rits : List Ptr)
    (hps : left_pairs h b = some ps) (hl : left_range h b = some lits)
    (hr : right_range h b = some rits) :
    (∀ k : L, ∃ it, find_left cl h b k = some it ∧
      ((∃ p ∈ ps, equiv cl p.1 k = true) → it ∈ lits ∧ it ≠ end_left b ∧
        ∃ p ∈ ps, left_pair h it = some p ∧ deref_left h it = some p.1 ∧
          equiv cl p.1 k = true) ∧
      ((∀ p ∈ ps, equiv cl p.1 k = false) → it = end_left b)) ∧
    (∀ k : R, ∃ it, find_right cr h b k = some it ∧
      ((∃ p ∈ ps, equiv cr p.2 k = true) → it ∈ rits ∧ it ≠ end_right b ∧
        ∃ p ∈ ps, right_pair h it = some p ∧ deref_right h it = some p.2 ∧
          equiv cr p.2 k = true) ∧
      ((∀ p ∈ ps, equiv cr p.2 k = false) → it = end_right b)) := by
  obtain ⟨tl, tr, hA⟩ := hwf
  have hpe := hA.pairs_mem hps
  rw [hA.links.left_range] at hl
  rw [hA.links.right_range] at hr
  have hl' := (Option.some.inj hl).symm
  have hr' := (Option.some.inj hr).symm
  constructor
  · intro k
    rcases hA.links.find_left_cases hcl k with ⟨-, h2, h3⟩ | ⟨n, hn, -, h2, h3⟩
    · refine ⟨_, h2, ?_, fun _ => rfl⟩
      rintro ⟨p, hp, hpk⟩
      rw [hpe] at hp
      obtain ⟨n, hn, rfl⟩ := List.mem_map.1 hp
      rw [h3 n hn] at hpk
      exact absurd hpk Bool.false_ne_true
    · refine ⟨_, h2, fun _ => ⟨?_, by simp [end_left], (h.lval n, h.rval n), ?_,
        hA.links.left_pair hn, rfl, h3⟩, ?_⟩
      · rw [hl']; exact List.mem_map.2 ⟨n, hn, rfl⟩
      · rw [hpe]; exact List.mem_map.2 ⟨n, hn, rfl⟩
      · intro habs
        have := hA.left_keys hps habs n hn
        rw [h3] at this
        exact absurd this (by simp)
  · intro k
    rcases hA.links.find_right_cases hcr k with ⟨-, h2, h3⟩ | ⟨n, hn, -, h2, h3⟩
    · refine ⟨_, h2, ?_, fun _ => rfl⟩
      rintro ⟨p, hp, hpk⟩
      rw [hpe] at hp
      obtain ⟨n, hn, rfl⟩ := List.mem_map.1 hp
      rw [h3 n (hA.same.mem_iff.1 hn)] at hpk
      exact absurd hpk Bool.false_ne_true
    · refine ⟨_, h2, fun _ => ⟨?_, by simp [end_right], (h.lval n, h.rval n), ?_,
        hA.links.right_pair hn, rfl, h3⟩, ?_⟩
      · rw [hr']; exact List.mem_map.2 ⟨n, hn, rfl⟩
      · rw [hpe]; exact List.mem_map.2 ⟨n, hA.same.mem_iff.2 hn, rfl⟩
      · intro habs
        have := hA.right_keys hps habs n hn
        rw [h3] at this
        exact absurd this (by simp)

/-- C13 at a concrete input: the lookups in the bimap holding `(3, 0)`, `(5, 50)`,
`(9, 20)`. -/
theorem find_returns_match_witness :
    (∀ k : Nat, ∃ it, find_left nat_less demo3 0 k = some it ∧
      ((∃ p ∈ [(3, 0), (5, 50), (9, 20)], equiv nat_less p.1 k = true) →
        it ∈ [Ptr.elem Tag.left_tag 1, Ptr.elem Tag.left_tag 0, Ptr.elem Tag.left_tag 2] ∧
        it ≠ end_left 0 ∧
        ∃ p ∈ [(3, 0), (5, 50), (9, 20)], left_pair demo3 it = some p ∧
          deref_left demo3 it = some p.1 ∧ equiv nat_less p.1 k = true) ∧
      ((∀ p ∈ [(3, 0), (5, 50), (9, 20)], equiv nat_less p.1 k = false) →
        it = end_left 0)) ∧
    (∀ k : Nat, ∃ it, find_right nat_less demo3 0 k = some it ∧
      ((∃ p ∈ [(3, 0), (5, 50), (9, 20)], equiv nat_less p.2 k = true) →
        it ∈ [Ptr.elem Tag.right_tag 1, Ptr.elem Tag.right_tag 2, Ptr.elem Tag.right_tag 0] ∧
        it ≠ end_right 0 ∧
        ∃ p ∈ [(3, 0), (5, 50), (9, 20)], right_pair demo3 it = some p ∧
          deref_right demo3 it = some p.2 ∧ equiv nat_less p.2 k = true) ∧
      ((∀ p ∈ [(3, 0), (5, 50), (9, 20)], equiv nat_less p.2 k = false) →
        it = end_right 0)) :=
  find_returns_match nat_less_swo nat_less_swo demo3_wf [(3, 0), (5, 50), (9, 20)]
    [Ptr.elem Tag.left_tag 1, Ptr.elem Tag.left_tag 0, Ptr.elem Tag.left_tag 2]
    [Ptr.elem Tag.right_tag 1, Ptr.elem Tag.right_tag 2, Ptr.elem Tag.right_tag 0]
    demo3_left_pairs demo3_left_range demo3_right_range

/-- C15: on a well-formed bimap whose pairs are `ps` and whose left and right iterators are
`lits` and `rits`: for every left iterator `it`, `it.flip()` is a right iterator of the
bimap, `it.flip().flip()` is `it`, and `(*it, *it.flip())` is a stored pair; for every right
iterator `it`, `it.flip()` is a left iterator of the bimap, `it.flip().flip()` is `it`, and
`(*it.flip(), *it)` is a stored pair. -/
theorem flip_is_involution {h : Heap L R} {b : Nat} (hwf : WF cl cr h b) (ps : List (L × R))
    (lits rits : List Ptr) (hps : left_pairs h b = some ps)
    (hl : left_range h b = some lits) (hr : right_range h b = some rits) :
    (∀ it ∈ lits, ∃ it1, iterator.flip h.base Tag.left_tag it = some it1 ∧ it1 ∈ rits ∧
      iterator.flip h.base Tag.right_tag it1 = some it ∧
      ∃ p ∈ ps, deref_left h it = some p.1 ∧ deref_right h it1 = some p.2) ∧
    (∀ it ∈ rits, ∃ it1, iterator.flip h.base Tag.right_tag it = some it1 ∧ it1 ∈ lits ∧
      iterator.flip h.base Tag.left_tag it1 = some it ∧
      ∃ p ∈ ps, deref_left h it1 = some p.1 ∧ deref_right h it = some p.2) := by
  obtain ⟨tl, tr, hA⟩ := hwf
  have hpe := hA.pairs_mem hps
  rw [hA.links.left_range] at hl
  rw [hA.links.right_range] at hr
  have hl' := (Option.some.inj hl).symm
  have hr' := (Option.some.inj hr).symm
  constructor
  · intro it hit
    rw [hl'] at hit
    obtain ⟨n, hn, rfl⟩ := List.mem_map.1 hit
    have hnr : n ∈ tr.toList := hA.same.mem_iff.1 hn
    refine ⟨_, hA.links.flip_left hn, ?_, hA.links.flip_right hnr, (h.lval n, h.rval n), ?_,
      rfl, rfl⟩
    · rw [hr']; exact List.mem_map.2 ⟨n, hnr, rfl⟩
    · rw [hpe]; exact List.mem_map.2 ⟨n, hn, rfl⟩
  · intro it hit
    rw [hr'] at hit
    obtain ⟨n, hn, rfl⟩ := List.mem_map.1 hit
    have hnl : n ∈ tl.toList := hA.same.mem_iff.2 hn
    refine ⟨_, hA.links.flip_right hn, ?_, hA.links.flip_left hnl, (h.lval n, h.rval n), ?_,
      rfl, rfl⟩
    · rw [hl']; exact List.mem_map.2 ⟨n, hnl, rfl⟩
    · rw [hpe]; exact List.mem_map.2 ⟨n, hnl, rfl⟩

/-- C15 at a concrete input: the iterators of the bimap holding `(3, 0)`, `(5, 50)`,
`(9, 20)`. -/
theorem flip_is_involution_witness :
    (∀ it ∈ [Ptr.elem Tag.left_tag 1, Ptr.elem Tag.left_tag 0, Ptr.elem Tag.left_tag 2],
      ∃ it1, iterator.flip demo3.base Tag.left_tag it = some it1 ∧
      it1 ∈ [Ptr.elem Tag.right_tag 1, Ptr.elem Tag.right_tag 2, Ptr.elem Tag.right_tag 0] ∧
      iterator.flip demo3.base Tag.right_tag it1 = some it ∧
      ∃ p ∈ [(3, 0), (5, 50), (9, 20)],
        deref_left demo3 it = some p.1 ∧ deref_right demo3 it1 = some p.2) ∧
    (∀ it ∈ [Ptr.elem Tag.right_tag 1, Ptr.elem Tag.right_tag 2, Ptr.elem Tag.right_tag 0],
      ∃ it1, iterator.flip demo3.base Tag.right_tag it = some it1 ∧
      it1 ∈ [Ptr.elem Tag.left_tag 1, Ptr.elem Tag.left_tag 0, Ptr.elem Tag.left_tag 2] ∧
      iterator.flip demo3.base Tag.left_tag it1 = some it ∧
      ∃ p ∈ [(3, 0), (5, 50), (9, 20)],
        deref_left demo3 it1 = some p.1 ∧ deref_right demo3 it = some p.2) :=
  flip_is_involution demo3_wf [(3, 0), (5, 50), (9, 20)]
    [Ptr.elem Tag.left_tag 1, Ptr.elem Tag.left_tag 0, Ptr.elem Tag.left_tag 2]
    [Ptr.elem Tag.right_tag 1, Ptr.elem Tag.right_tag 2, Ptr.elem Tag.right_tag 0]
    demo3_left_pairs demo3_left_range demo3_right_range

end bimap

namespace details

variable {T : Type}

/-! ## `treap::bound` -/

/-- The loop of `treap::bound` on a linked tree whose in-order sequence is cut by the check
into a part where it holds and a part where it fails: the answer is the first node of the
second part, or the candidate `pa` when that part is empty. -/
theorem bound_spec (t : treap T) (m : Mem) (x : T) (cb : T → T → Bool) :
    ∀ (fuel : Nat) (tr : Shape) (q pa : Ptr), Linked m t.tag tr q →
    tr.toList.Pairwise (fun i j => cb x (t.val j) = true → cb x (t.val i) = true) →
    tr.size < fuel →
    ∃ l1 l2, tr.toList = l1 ++ l2 ∧ (∀ i ∈ l1, cb x (t.val i) = true) ∧
      (∀ i ∈ l2, cb x (t.val i) = false) ∧
      t.bound_loop m x cb fuel pa (tr.root t.tag) = some (first_or t.tag pa l2) := by
  intro fuel
  induction fuel with
  | zero => intro tr q pa _ _ h; omega
  | succ fuel ih =>
    intro tr q pa hL hs hsz
    cases tr with
    | nil =>
      exact ⟨[], [], rfl, by simp, by simp, by simp [treap.bound_loop, Shape.root, first_or]⟩
    | node l n r =>
      obtain ⟨-, hl, hr, hLl, hLr⟩ := hL
      simp only [Shape.toList, List.pairwise_append, List.pairwise_cons, List.mem_cons] at hs
      obtain ⟨hsl, ⟨hnr, hsr⟩, hlr⟩ := hs
      simp only [Shape.size] at hsz
      by_cases h1 : cb x (t.val n) = true
      · have hstep : t.bound_loop m x cb (fuel + 1) pa (Ptr.elem t.tag n)
            = t.bound_loop m x cb fuel pa (r.root t.tag) := by
          simp [treap.bound_loop, h1, hr]
        obtain ⟨a, c, hac, ha, hc, hres⟩ := ih r _ pa hLr hsr (by omega)
        refine ⟨l.toList ++ n :: a, c, ?_, ?_, hc, ?_⟩
        · simp [Shape.toList, hac]
        · intro i hi
          simp only [List.mem_append, List.mem_cons] at hi
          rcases hi with hi | rfl | hi
          · exact hlr i hi n (Or.inl rfl) h1
          · exact h1
          · exact ha i hi
        · rw [Shape.root_node, hstep, hres]
      · have h1' : cb x (t.val n) = false := by simpa using h1
        have hstep : t.bound_loop m x cb (fuel + 1) pa (Ptr.elem t.tag n)
            = t.bound_loop m x cb fuel (Ptr.elem t.tag n) (l.root t.tag) := by
          simp [treap.bound_loop, h1', hl]
        obtain ⟨a, c, hac, ha, hc, hres⟩ := ih l _ (Ptr.elem t.tag n) hLl hsl (by omega)
        refine ⟨a, c ++ n :: r.toList, ?_, ha, ?_, ?_⟩
        · simp [Shape.toList, hac]
        · intro i hi
          simp only [List.mem_append, List.mem_cons] at hi
          rcases hi with hi | rfl | hi
          · exact hc i hi
          · exact h1'
          · by_contra hcon
            have := hnr i hi (by simpa using hcon)
            rw [h1'] at this
            exact Bool.false_ne_true this
        · rw [Shape.root_node, hstep, hres, first_or_append]
          rfl

theorem TreapInv.lower_bound {t : treap T} {m : Mem} {tr : Shape} (hI : TreapInv t m tr)
    (hc : StrictWeakOrder t.cmp) (x : T) (fuel : Nat) (hsz : tr.size < fuel) :
    ∃ l1 l2, tr.toList = l1 ++ l2 ∧ (∀ i ∈ l1, t.cmp (t.val i) x = true) ∧
      (∀ i ∈ l2, t.cmp (t.val i) x = false) ∧
      t.lower_bound fuel m x = some (first_or t.tag t.fake l2) := by
  have := bound_spec t m x (fun a b => t.greater a b) fuel tr _ t.fake hI.linked
    (hI.sorted.imp fun {i j} hij hj => hc.trans _ _ _ hij hj) hsz
  simpa only [treap.lower_bound, treap.bound, hI.fake_left, treap.greater] using this

theorem TreapInv.upper_bound {t : treap T} {m : Mem} {tr : Shape} (hI : TreapInv t m tr)
    (hc : StrictWeakOrder t.cmp) (x : T) (fuel : Nat) (hsz : tr.size < fuel) :
    ∃ l1 l2, tr.toList = l1 ++ l2 ∧ (∀ i ∈ l1, t.cmp x (t.val i) = false) ∧
      (∀ i ∈ l2, t.cmp x (t.val i) = true) ∧
      t.upper_bound fuel m x = some (first_or t.tag t.fake l2) := by
  have := bound_spec t m x (fun a b => t.greater_or_equal a b) fuel tr _ t.fake hI.linked
    (hI.sorted.imp fun {i j} hij hj => by
      simp only [treap.greater_or_equal, Bool.not_eq_true', Bool.not_eq_eq_eq_not,
        Bool.not_true] at hj ⊢
      by_contra hcon
      have := hc.trans _ _ _ (by simpa using hcon) hij
      rw [hj] at this
      exact Bool.false_ne_true this) hsz
  simpa only [treap.upper_bound, treap.bound, hI.fake_left, treap.greater_or_equal,
    Bool.not_eq_true', Bool.not_eq_eq_eq_not, Bool.not_true, Bool.not_eq_false'] using this

end details

namespace bimap

open details

variable {L R : Type} {cl : L → L → Bool} {cr : R → R → Bool}

/-- A cut of the nodes of a tree gives a cut of the iterators. -/
theorem cut_iterators {T : Type} (tag : Tag) (fin : Ptr) (val : Nat → T)
    (deref : Ptr → Option T) (hd : ∀ n, deref (Ptr.elem tag n) = some (val n))
    (P : T → Prop) (Q : T → Prop) {l l1 l2 : List Nat} {res : Option Ptr}
    (hl : l = l1 ++ l2) (h1 : ∀ i ∈ l1, P (val i)) (h2 : ∀ i ∈ l2, Q (val i))
    (hres : res = some (first_or tag fin l2)) :
    ∃ a c, l.map (Ptr.elem tag) = a ++ c ∧ res = some (c.headD fin) ∧
      (∀ it ∈ a, ∃ v, deref it = some v ∧ P v) ∧ (∀ it ∈ c, ∃ v, deref it = some v ∧ Q v) := by
  refine ⟨l1.map (Ptr.elem tag), l2.map (Ptr.elem tag), by rw [hl, List.map_append],
    by rw [hres, headD_map_elem], ?_, ?_⟩
  · intro it hit
    obtain ⟨n, hn, rfl⟩ := List.mem_map.1 hit
    exact ⟨_, hd n, h1 n hn⟩
  · intro it hit
    obtain ⟨n, hn, rfl⟩ := List.mem_map.1 hit
    exact ⟨_, hd n, h2 n hn⟩

/-- C14: on a well-formed bimap with left iterators `lits` and right iterators `rits` (in
iteration order) and a key `k`: `lits` is cut into `a ++ c` where every element of `a` is
less than `k` and no element of `c` is, and `lower_bound_left(k)` is the first iterator of
`c`, or `end_left()` when `c` is empty; `lits` is cut into `a ++ c` where no element of `a`
is greater than `k` and every element of `c` is, and `upper_bound_left(k)` is the first
iterator of `c`, or `end_left()` when `c` is empty.  The same holds of `rits`,
`lower_bound_right`, `upper_bound_right` and `end_right()` with `CompareRight`. -/
theorem bounds_cut_the_order (hcl : StrictWeakOrder cl) (hcr : StrictWeakOrder cr)
    {h : Heap L R} {b : Nat} (hwf : WF cl cr h b) (lits rits : List Ptr)
    (hl : left_range h b = some lits) (hr : right_range h b = some rits) :
    (∀ k : L,
      (∃ a c, lits = a ++ c ∧ lower_bound_left cl h b k = some (c.headD (end_left b)) ∧
        (∀ it ∈ a, ∃ v, deref_left h it = some v ∧ cl v k = true) ∧
        (∀ it ∈ c, ∃ v, deref_left h it = some v ∧ cl v k = false)) ∧
      (∃ a c, lits = a ++ c ∧ upper_bound_left cl h b k = some (c.headD (end_left b)) ∧
        (∀ it ∈ a, ∃ v, deref_left h it = some v ∧ cl k v = false) ∧
        (∀ it ∈ c, ∃ v, deref_left h it = some v ∧ cl k v = true))) ∧
    (∀ k : R,
      (∃ a c, rits = a ++ c ∧ lower_bound_right cr h b k = some (c.headD (end_right b)) ∧
        (∀ it ∈ a, ∃ v, deref_right h it = some v ∧ cr v k = true) ∧
        (∀ it ∈ c, ∃ v, deref_right h it = some v ∧ cr v k = false)) ∧
      (∃ a c, rits = a ++ c ∧ upper_bound_right cr h b k = some (c.headD (end_right b)) ∧
        (∀ it ∈ a, ∃ v, deref_right h it = some v ∧ cr k v = false) ∧
        (∀ it ∈ c, ∃ v, deref_right h it = some v ∧ cr k v = true))) := by
  obtain ⟨tl, tr, hA⟩ := hwf
  rw [hA.links.left_range] at hl
  rw [hA.links.right_range] at hr
  have hl' := (Option.some.inj hl).symm
  have hr' := (Option.some.inj hr).symm
  have hszl := hA.links.left_size
  have hszr := hA.links.right_size
  constructor
  · intro k
    constructor
    · obtain ⟨l1, l2, h0, h1, h2, h3⟩ := hA.links.left_inv.lower_bound hcl k h.fuel
        (by simp only [Heap.fuel]; omega)
      rw [hl']
      exact cut_iterators Tag.left_tag (end_left b) h.lval (deref_left h) (fun _ => rfl)
        (fun v => cl v k = true) (fun v => cl v k = false) h0 h1 h2 h3
    · obtain ⟨l1, l2, h0, h1, h2, h3⟩ := hA.links.left_inv.upper_bound hcl k h.fuel
        (by simp only [Heap.fuel]; omega)
      rw [hl']
      exact cut_iterators Tag.left_tag (end_left b) h.lval (deref_left h) (fun _ => rfl)
        (fun v => cl k v = false) (fun v => cl k v = true) h0 h1 h2 h3
  · intro k
    constructor
    · obtain ⟨l1, l2, h0, h1, h2, h3⟩ := hA.links.right_inv.lower_bound hcr k h.fuel
        (by simp only [Heap.fuel]; omega)
      rw [hr']
      exact cut_iterators Tag.right_tag (end_right b) h.rval (deref_right h) (fun _ => rfl)
        (fun v => cr v k = true) (fun v => cr v k = false) h0 h1 h2 h3
    · obtain ⟨l1, l2, h0, h1, h2, h3⟩ := hA.links.right_inv.upper_bound hcr k h.fuel
        (by simp only [Heap.fuel]; omega)
      rw [hr']
      exact cut_iterators Tag.right_tag (end_right b) h.rval (deref_right h) (fun _ => rfl)
        (fun v => cr k v = false) (fun v => cr k v = true) h0 h1 h2 h3

/-- C14 at a concrete input: the bounds in the bimap holding `(3, 0)`, `(5, 50)`, `(9, 20)`;
for instance `lower_bound_left(5)` is the iterator to `5`, `upper_bound_left(5)` the iterator
to `9` and `upper_bound_left(9)` is `end_left()`. -/
theorem bounds_cut_the_order_witness :
    ((∀ k : Nat,
      (∃ a c, [Ptr.elem Tag.left_tag 1, Ptr.elem Tag.left_tag 0, Ptr.elem Tag.left_tag 2]
          = a ++ c ∧
        lower_bound_left nat_less demo3 0 k = some (c.headD (end_left 0)) ∧
        (∀ it ∈ a, ∃ v, deref_left demo3 it = some v ∧ nat_less v k = true) ∧
        (∀ it ∈ c, ∃ v, deref_left demo3 it = some v ∧ nat_less v k = false)) ∧
      (∃ a c, [Ptr.elem Tag.left_tag 1, Ptr.elem Tag.left_tag 0, Ptr.elem Tag.left_tag 2]
          = a ++ c ∧
        upper_bound_left nat_less demo3 0 k = some (c.headD (end_left 0)) ∧
        (∀ it ∈ a, ∃ v, deref_left demo3 it = some v ∧ nat_less k v = false) ∧
        (∀ it ∈ c, ∃ v, deref_left demo3 it = some v ∧ nat_less k v = true))) ∧
    (∀ k : Nat,
      (∃ a c, [Ptr.elem Tag.right_tag 1, Ptr.elem Tag.right_tag 2, Ptr.elem Tag.right_tag 0]
          = a ++ c ∧
        lower_bound_right nat_less demo3 0 k = some (c.headD (end_right 0)) ∧
        (∀ it ∈ a, ∃ v, deref_right demo3 it = some v ∧ nat_less v k = true) ∧
        (∀ it ∈ c, ∃ v, deref_right demo3 it = some v ∧ nat_less v k = false)) ∧
      (∃ a c, [Ptr.elem Tag.right_tag 1, Ptr.elem Tag.right_tag 2, Ptr.elem Tag.right_tag 0]
          = a ++ c ∧
        upper_bound_right nat_less demo3 0 k = some (c.headD (end_right 0)) ∧
        (∀ it ∈ a, ∃ v, deref_right demo3 it = some v ∧ nat_less k v = false) ∧
        (∀ it ∈ c, ∃ v, deref_right demo3 it = some v ∧ nat_less k v = true)))) ∧
    lower_bound_left nat_less demo3 0 5 = some (Ptr.elem Tag.left_tag 0) ∧
    upper_bound_left nat_less demo3 0 5 = some (Ptr.elem Tag.left_tag 2) ∧
    upper_bound_left nat_less demo3 0 9 = some (end_left 0) ∧
    lower_bound_right nat_less demo3 0 21 = some (Ptr.elem Tag.right_tag 0) :=
  ⟨bounds_cut_the_order nat_less_swo nat_less_swo demo3_wf
    [Ptr.elem Tag.left_tag 1, Ptr.elem Tag.left_tag 0, Ptr.elem Tag.left_tag 2]
    [Ptr.elem Tag.right_tag 1, Ptr.elem Tag.right_tag 2, Ptr.elem Tag.right_tag 0]
    demo3_left_range demo3_right_range, by decide, by decide, by decide, by decide⟩

end bimap

namespace details

open bimap

/-! ## Walking the links backwards -/

theorem first_opt_append (tag : Tag) (pre : Option Ptr) (l1 l2 : List Nat) :
    first_opt tag pre (l1 ++ l2) = first_opt tag (first_opt tag pre l2) l1 := by
  cases l1 <;> rfl

theorem VisitsBack.append_back {m : Mem} {tag : Tag} {step : Nat} {pre : Option Ptr}
    {l1 l2 : List Nat} (h1 : VisitsBack m tag step l1 (first_opt tag pre l2))
    (h2 : VisitsBack m tag step l2 pre) : VisitsBack m tag step (l1 ++ l2) pre := by
  induction l1 with
  | nil => exact h2
  | cons x l1 ih =>
    rw [List.cons_append]
    refine ⟨?_, ih h1.2⟩
    rw [first_opt_append]
    exact h1.1

theorem VisitsBack.decr_mem {m : Mem} {tag : Tag} {step : Nat} {pre : Option Ptr} {n : Nat}
    {l2 : List Nat} : ∀ (l1 : List Nat), VisitsBack m tag step (l1 ++ n :: l2) pre →
    iterator.decr m step (Ptr.elem tag n) = first_opt tag pre l2
  | [], h => h.1
  | _ :: l1, h => VisitsBack.decr_mem l1 h.2

theorem Shape.reverse_node (l r : Shape) (n : Nat) :
    (Shape.node l n r).toList.reverse = r.toList.reverse ++ n :: l.toList.reverse := by
  simp [Shape.toList]

theorem down_right_last {m : Mem} {tag : Tag} : ∀ (fuel : Nat) (t : Shape) (q : Ptr),
    Linked m tag t q → t.size < fuel + 1 → ∀ x, t.toList.reverse.head? = some x →
    iterator.down_right m fuel (t.root tag) = some (Ptr.elem tag x) := by
  intro fuel
  induction fuel with
  | zero =>
    intro t q _ hsz x hx
    cases t with
    | nil => simp [Shape.toList] at hx
    | node l n r => simp only [Shape.size] at hsz; omega
  | succ fuel ih =>
    intro t q hL hsz x hx
    cases t with
    | nil => simp [Shape.toList] at hx
    | node l n r =>
      obtain ⟨-, -, hr, -, hLr⟩ := hL
      simp only [Shape.size] at hsz
      rw [Shape.reverse_node] at hx
      cases r with
      | nil =>
        simp only [Shape.toList, List.reverse_nil, List.nil_append, List.head?_cons,
          Option.some.injEq] at hx
        subst hx
        simp [iterator.down_right, hr]
      | node l1 n1 r1 =>
        have hne : (Shape.node l1 n1 r1).toList.reverse ≠ [] := by simp [Shape.toList]
        have hx' : (Shape.node l1 n1 r1).toList.reverse.head? = some x := by
          rw [List.head?_append_of_ne_nil _ hne] at hx
          exact hx
        have := ih (Shape.node l1 n1 r1) _ hLr (by omega) x hx'
        simp only [Shape.root_node] at this
        simp [iterator.down_right, hr, this]

theorem first_opt_reverse_eq (tag : Tag) (pre : Option Ptr) (t : Shape) (h : t ≠ Shape.nil) :
    ∃ x, t.toList.reverse.head? = some x ∧
      first_opt tag pre t.toList.reverse = some (Ptr.elem tag x) := by
  cases t with
  | nil => exact absurd rfl h
  | node l n r =>
    rw [Shape.reverse_node]
    cases hr : r.toList.reverse with
    | nil => exact ⟨n, by simp, by simp [first_opt]⟩
    | cons x rest => exact ⟨x, by simp, by simp [first_opt]⟩

/-- Stepping backwards through a subtree: `operator--` visits its nodes against the order and
then leaves it with the outcome `pre`, that of the climb along left-son links from its
root. -/
theorem visits_back_subtree {m : Mem} {tag : Tag} (step : Nat) : ∀ (t : Shape) (q : Ptr)
    (pre : Option Ptr) (f0 : Nat), Linked m tag t q → t.toList.Nodup → q ≠ Ptr.null →
    ((m q).left = t.root tag ∧ (m q).right ≠ t.root tag ∨
      (m q).right = t.root tag ∧ (m q).left ≠ t.root tag) →
    (∀ f, f0 ≤ f → ((iterator.up_left m f (t.root tag)).bind fun d =>
      (m.read d).bind fun e => some e.par) = pre) →
    f0 + t.size ≤ step →
    VisitsBack m tag step t.toList.reverse pre := by
  intro t
  induction t with
  | nil => intro q pre f0 _ _ _ _ _ _; trivial
  | node l n r ihl ihr =>
    intro q pre f0 hL hnd hq hson hex hstep
    obtain ⟨hp, hl, hr, hLl, hLr⟩ := hL
    obtain ⟨hndl, hndr, hnl, hnr, hlr⟩ := nodup_node hnd
    simp only [Shape.size] at hstep
    simp only [Shape.root_node] at hson hex
    have hlr_root : l.root tag = r.root tag → l = Shape.nil ∧ r = Shape.nil := by
      intro e
      rcases Shape.root_cases tag l with h | ⟨x, hx, h⟩
      · exact ⟨Shape.root_eq_null.1 h, Shape.root_eq_null.1 (e ▸ h)⟩
      · exact absurd (Shape.root_mem (e ▸ h)) (hlr x hx)
    -- the right subtree is left for the root
    have hVr : VisitsBack m tag step r.toList.reverse (some (Ptr.elem tag n)) := by
      by_cases hr0 : r = Shape.nil
      · subst hr0; trivial
      · have hrne : r.root tag ≠ Ptr.null := fun e => hr0 (Shape.root_eq_null.1 e)
        refine ihr (Ptr.elem tag n) _ 1 hLr hndr (by simp) ?_ ?_ (by omega)
        · refine Or.inr ⟨hr, ?_⟩
          rw [hl]
          exact fun e => hr0 (hlr_root e).2
        · intro f hf
          obtain ⟨f1, rfl⟩ : ∃ f1, f = f1 + 1 := ⟨f - 1, by omega⟩
          have hpr : (m (r.root tag)).par = Ptr.elem tag n := by
            cases r with
            | nil => exact absurd rfl hr0
            | node l1 n1 r1 => exact hLr.1
          have hls : map_element_base.is_left_son m (r.root tag) = some false := by
            simp only [map_element_base.is_left_son, Mem.read_of_ne _ hrne, Option.some_bind,
              hpr, Mem.read_elem, hl]
            simp only [Option.some.injEq, decide_eq_false_iff_not]
            exact fun e => hr0 (hlr_root e).2
          simp [iterator.up_left, hls, Mem.read_of_ne _ hrne, hpr]
    -- the root and the left subtree
    have hVl : VisitsBack m tag step (n :: l.toList.reverse) pre := by
      by_cases hl0 : l = Shape.nil
      · subst hl0
        refine ⟨?_, trivial⟩
        simp only [Shape.toList, List.reverse_nil, first_opt]
        simp only [Shape.root_nil] at hl
        rcases hson with ⟨hql, hqr⟩ | ⟨hqr, hql⟩
        · have hls : map_element_base.is_left_son m (Ptr.elem tag n) = some true := by
            simp [map_element_base.is_left_son, hp, Mem.read_of_ne _ hq, hql]
          have hrs : map_element_base.is_right_son m (Ptr.elem tag n) = some false := by
            simp [map_element_base.is_right_son, hp, Mem.read_of_ne _ hq, hqr]
          have := hex step (by omega)
          simp only [iterator.decr, Mem.read_elem, Option.some_bind, hl, ne_eq,
            not_true_eq_false, if_false, hrs, Bool.false_eq_true]
          exact this
        · have hls : map_element_base.is_left_son m (Ptr.elem tag n) = some false := by
            simp [map_element_base.is_left_son, hp, Mem.read_of_ne _ hq, hql]
          have hrs : map_element_base.is_right_son m (Ptr.elem tag n) = some true := by
            simp [map_element_base.is_right_son, hp, Mem.read_of_ne _ hq, hqr]
          have := hex (f0 + 1) (by omega)
          simp only [iterator.up_left, hls, Option.some_bind, Bool.false_eq_true, if_false,
            Mem.read_elem, hp] at this
          simp [iterator.decr, hl, hrs, hp, this]
      · have hlne : l.root tag ≠ Ptr.null := fun e => hl0 (Shape.root_eq_null.1 e)
        obtain ⟨x, hx, hfx⟩ := first_opt_reverse_eq tag pre l hl0
        refine ⟨?_, ?_⟩
        · rw [hfx]
          have := down_right_last step l _ hLl (by omega) x hx
          simp [iterator.decr, hl, hlne, this]
        · refine ihl (Ptr.elem tag n) pre (f0 + 1) hLl hndl (by simp) ?_ ?_ (by omega)
          · refine Or.inl ⟨hl, ?_⟩
            rw [hr]
            exact fun e => hl0 (hlr_root e.symm).1
          · intro f hf
            obtain ⟨f1, rfl⟩ : ∃ f1, f = f1 + 1 := ⟨f - 1, by omega⟩
            have hpl : (m (l.root tag)).par = Ptr.elem tag n := by
              cases l with
              | nil => exact absurd rfl hl0
              | node l1 n1 r1 => exact hLl.1
            have hls : map_element_base.is_left_son m (l.root tag) = some true := by
              simp [map_element_base.is_left_son, Mem.read_of_ne _ hlne, hpl, hl]
            have := hex f1 (by omega)
            simp only [iterator.up_left, hls, Option.some_bind, if_true, hpl]
            exact this
    rw [Shape.reverse_node]
    exact @VisitsBack.append_back m tag step pre r.toList.reverse (n :: l.toList.reverse) hVr hVl

end details

namespace details

open bimap

variable {T : Type}

theorem VisitsBack.split {m : Mem} {tag : Tag} {step : Nat} {pre : Option Ptr} :
    ∀ (l1 l2 : List Nat), VisitsBack m tag step (l1 ++ l2) pre →
    VisitsBack m tag step l1 (first_opt tag pre l2) ∧ VisitsBack m tag step l2 pre
  | [], _, h => ⟨trivial, h⟩
  | x :: l1, l2, h => by
    have ih := VisitsBack.split l1 l2 h.2
    refine ⟨⟨?_, ih.1⟩, ih.2⟩
    rw [← first_opt_append]
    exact h.1

/-- Backward iteration over the whole tree: the decrement of the first element is a fault (the
climb reads through the null parent link of the sentinel). -/
theorem TreapInv.visits_back {t : treap T} {m : Mem} {tr : Shape} (hI : TreapInv t m tr)
    (hright : ∀ k, (m t.fake).right ≠ Ptr.elem t.tag k) (step : Nat)
    (hstep : tr.size ≤ step) : VisitsBack m t.tag step tr.toList.reverse none := by
  by_cases h0 : tr = Shape.nil
  · subst h0; trivial
  · have hne : tr.root t.tag ≠ Ptr.null := fun e => h0 (Shape.root_eq_null.1 e)
    have hroot : ∃ k, tr.root t.tag = Ptr.elem t.tag k := by
      cases tr with
      | nil => exact absurd rfl h0
      | node l n r => exact ⟨n, rfl⟩
    obtain ⟨k, hk⟩ := hroot
    have hpar : (m (tr.root t.tag)).par = t.fake := by
      cases tr with
      | nil => exact absurd rfl h0
      | node l n r => exact hI.linked.1
    refine visits_back_subtree step tr t.fake none 0 hI.linked hI.nodup t.fake_ne_null ?_ ?_
      (by omega)
    · refine Or.inl ⟨hI.fake_left, ?_⟩
      rw [hk]; exact hright k
    · intro f _
      cases f with
      | zero => simp [iterator.up_left]
      | succ f =>
        have hls : map_element_base.is_left_son m (tr.root t.tag) = some true := by
          simp [map_element_base.is_left_son, Mem.read_of_ne _ hne, hpar,
            Mem.read_of_ne _ t.fake_ne_null, hI.fake_left]
        have hfk : map_element_base.is_left_son m t.fake = none := by
          simp [map_element_base.is_left_son, Mem.read_of_ne _ t.fake_ne_null, hI.fake_par]
        cases f with
        | zero => simp [iterator.up_left, hls]
        | succ f => simp [iterator.up_left, hls, hpar, hfk]

/-- The decrement of the end iterator of a non-empty tree is the last element. -/
theorem TreapInv.decr_end {t : treap T} {m : Mem} {tr : Shape} (hI : TreapInv t m tr)
    (step : Nat) (hstep : tr.size ≤ step) (h0 : tr.toList ≠ []) :
    iterator.decr m step t.fake = first_opt t.tag none tr.toList.reverse := by
  have hnil : tr ≠ Shape.nil := by
    rintro rfl
    exact h0 rfl
  have hne : tr.root t.tag ≠ Ptr.null := fun e => hnil (Shape.root_eq_null.1 e)
  obtain ⟨x, hx, hfx⟩ := first_opt_reverse_eq t.tag none tr hnil
  have := down_right_last step tr _ hI.linked (by omega) x hx
  rw [hfx]
  simp [iterator.decr, Mem.read_of_ne _ t.fake_ne_null, hI.fake_left, hne, this]

theorem first_or_drop (tag : Tag) (fin : Ptr) : ∀ (l : List Nat) (j : Nat),
    first_or tag fin (l.drop j) = (l.map (Ptr.elem tag)).getD j fin
  | [], j => by simp [first_or]
  | x :: xs, 0 => by simp [first_or]
  | x :: xs, j + 1 => by
    simpa using first_or_drop tag fin xs j

theorem Visits.incr_drop {m : Mem} {tag : Tag} {step : Nat} {fin : Ptr} :
    ∀ (l : List Nat), Visits m tag step l fin → ∀ j, j < l.length →
    iterator.incr m step (first_or tag fin (l.drop j))
      = some (first_or tag fin (l.drop (j + 1)))
  | [], _, j, hj => by simp at hj
  | x :: xs, hV, 0, _ => by simpa [first_or] using hV.1
  | x :: xs, hV, j + 1, hj => by
    simpa using Visits.incr_drop xs hV.2 j (by simpa using hj)

theorem VisitsBack.decr_drop {m : Mem} {tag : Tag} {step : Nat} {fin : Ptr} :
    ∀ (l : List Nat) (pre : Option Ptr), VisitsBack m tag step l.reverse pre →
    (l ≠ [] → iterator.decr m step fin = first_opt tag none l.reverse) →
    ∀ j, j < l.length →
    iterator.decr m step (first_or tag fin (l.drop (j + 1)))
      = some (first_or tag fin (l.drop j))
  | [], _, _, _, j, hj => by simp at hj
  | x :: xs, pre, hV, hend, j, hj => by
    rw [List.reverse_cons] at hV
    have hV1 := (VisitsBack.split xs.reverse [x] hV).1
    have h1 : first_opt tag pre [x] = some (Ptr.elem tag x) := rfl
    rw [h1] at hV1
    cases j with
    | zero =>
      simp only [List.drop_succ_cons, List.drop_zero]
      cases xs with
      | nil =>
        have := hend (by simp)
        simpa [first_or, first_opt] using this
      | cons y ys =>
        rw [List.reverse_cons] at hV1
        have := VisitsBack.decr_mem ys.reverse hV1
        simpa [first_or, first_opt] using this
    | succ j =>
      simp only [List.drop_succ_cons]
      refine VisitsBack.decr_drop xs _ hV1 (fun hne => ?_) j (by simpa using hj)
      have := hend (by simp)
      rw [this, List.reverse_cons, first_opt_append]
      cases hr : xs.reverse with
      | nil => exact absurd (List.reverse_eq_nil_iff.1 hr) hne
      | cons y ys => rfl

theorem advance_spec {m : Mem} {step : Nat} (pos : Nat → Ptr) (n : Nat)
    (hinc : ∀ j, j < n → iterator.incr m step (pos j) = some (pos (j + 1))) :
    ∀ (k i : Nat), i + k ≤ n → iterator.advance m step k (pos i) = some (pos (i + k))
  | 0, i, _ => rfl
  | k + 1, i, h => by
    rw [iterator.advance, hinc i (by omega), Option.some_bind,
      advance_spec pos n hinc k (i + 1) (by omega)]
    congr 2
    omega

theorem retreat_spec {m : Mem} {step : Nat} (pos : Nat → Ptr) (n : Nat)
    (hdec : ∀ j, j < n → iterator.decr m step (pos (j + 1)) = some (pos j)) :
    ∀ (k i : Nat), i + k ≤ n → iterator.retreat m step k (pos (i + k)) = some (pos i)
  | 0, i, _ => rfl
  | k + 1, i, h => by
    have e : i + (k + 1) = (i + k) + 1 := by omega
    rw [iterator.retreat, e, hdec (i + k) (by omega), Option.some_bind,
      retreat_spec pos n hdec k i (by omega)]

/-- Round trips over a sequence of `n` positions followed by the end position. -/
theorem round_trip_spec {m : Mem} {tag : Tag} {step : Nat} {fin : Ptr} (l : List Nat)
    (hV : Visits m tag step l fin) (hB : VisitsBack m tag step l.reverse none)
    (hend : l ≠ [] → iterator.decr m step fin = first_opt tag none l.reverse) :
    (∀ i k, i + k ≤ (l.map (Ptr.elem tag)).length →
      iterator.advance m step k ((l.map (Ptr.elem tag)).getD i fin)
        = some ((l.map (Ptr.elem tag)).getD (i + k) fin) ∧
      iterator.retreat m step k ((l.map (Ptr.elem tag)).getD (i + k) fin)
        = some ((l.map (Ptr.elem tag)).getD i fin)) ∧
    (∀ x, (l.map (Ptr.elem tag)).getLast? = some x → iterator.decr m step fin = some x) ∧
    (∀ it ∈ l.map (Ptr.elem tag),
      (iterator.incr m step it).bind (iterator.decr m step) = some it) := by
  have hinc : ∀ j, j < l.length → iterator.incr m step ((l.map (Ptr.elem tag)).getD j fin)
      = some ((l.map (Ptr.elem tag)).getD (j + 1) fin) := by
    intro j hj
    rw [← first_or_drop, ← first_or_drop]
    exact Visits.incr_drop l hV j hj
  have hdec : ∀ j, j < l.length →
      iterator.decr m step ((l.map (Ptr.elem tag)).getD (j + 1) fin)
      = some ((l.map (Ptr.elem tag)).getD j fin) := by
    intro j hj
    rw [← first_or_drop, ← first_or_drop]
    exact VisitsBack.decr_drop l none hB hend j hj
  refine ⟨fun i k hik => ?_, ?_, ?_⟩
  · rw [List.length_map] at hik
    exact ⟨advance_spec (fun j => (l.map (Ptr.elem tag)).getD j fin) l.length hinc k i hik,
      retreat_spec (fun j => (l.map (Ptr.elem tag)).getD j fin) l.length hdec k i hik⟩
  · intro x hx
    have hne : l ≠ [] := by
      rintro rfl
      simp at hx
    rw [hend hne]
    rw [List.getLast?_eq_head?_reverse, ← List.map_reverse] at hx
    cases hr : l.reverse with
    | nil => exact absurd (List.reverse_eq_nil_iff.1 hr) hne
    | cons y ys =>
      rw [hr] at hx
      simp only [List.map_cons, List.head?_cons, Option.some.injEq] at hx
      simp [first_opt, hx]
  · intro it hit
    obtain ⟨j, hj, rfl⟩ := List.getElem_of_mem hit
    have hj' : j < l.length := by simpa using hj
    have e : (l.map (Ptr.elem tag))[j] = (l.map (Ptr.elem tag)).getD j fin := by
      rw [List.getD_eq_getElem _ _ hj]
    rw [e, hinc j hj', Option.some_bind, hdec j hj']

end details

namespace bimap

open details

variable {L R : Type} {cl : L → L → Bool} {cr : R → R → Bool}

/-! ## Round trips of iterators -/

theorem Links.left_visits_back {h : Heap L R} {b : Nat} {tl tr : Shape}
    (hA : Links cl cr h b tl tr) :
    VisitsBack h.base Tag.left_tag h.fuel tl.toList.reverse none := by
  have hsz := hA.left_size
  exact hA.left_inv.visits_back (by
    intro k
    rw [left_fake, hA.left_cross]
    simp [end_right]) h.fuel (by simp only [Heap.fuel]; omega)

theorem Links.right_visits_back {h : Heap L R} {b : Nat} {tl tr : Shape}
    (hA : Links cl cr h b tl tr) :
    VisitsBack h.base Tag.right_tag h.fuel tr.toList.reverse none := by
  have hsz := hA.right_size
  exact hA.right_inv.visits_back (by
    intro k
    rw [right_fake, hA.right_cross]
    simp [end_left]) h.fuel (by simp only [Heap.fuel]; omega)

/-- C17: on a well-formed bimap whose left iterators are `lits` (position `i` of the left
order is `lits[i]`, position `lits.length` is `end_left()`): for every position `i` and every
`k` with `i + k` at most the number of elements, `k` applications of `++` lead from position
`i` to position `i + k` and `k` applications of `--` lead back to position `i`; `--` applied
to `end_left()` of a non-empty bimap is the iterator to the last element; and `--` applied
after `++` at an element gives the element back.  The same holds of the right iterators
`rits` and `end_right()`. -/
theorem round_trip_iteration {h : Heap L R} {b : Nat} (hwf : WF cl cr h b)
    (lits rits : List Ptr) (hl : left_range h b = some lits)
    (hr : right_range h b = some rits) :
    ((∀ i k, i + k ≤ lits.length →
        iterator.advance h.base h.fuel k (lits.getD i (end_left b))
          = some (lits.getD (i + k) (end_left b)) ∧
        iterator.retreat h.base h.fuel k (lits.getD (i + k) (end_left b))
          = some (lits.getD i (end_left b))) ∧
      (∀ x, lits.getLast? = some x → iterator.decr h.base h.fuel (end_left b) = some x) ∧
      (∀ it ∈ lits,
        (iterator.incr h.base h.fuel it).bind (iterator.decr h.base h.fuel) = some it)) ∧
    ((∀ i k, i + k ≤ rits.length →
        iterator.advance h.base h.fuel k (rits.getD i (end_right b))
          = some (rits.getD (i + k) (end_right b)) ∧
        iterator.retreat h.base h.fuel k (rits.getD (i + k) (end_right b))
          = some (rits.getD i (end_right b))) ∧
      (∀ x, rits.getLast? = some x → iterator.decr h.base h.fuel (end_right b) = some x) ∧
      (∀ it ∈ rits,
        (iterator.incr h.base h.fuel it).bind (iterator.decr h.base h.fuel) = some it)) := by
  obtain ⟨tl, tr, hA⟩ := hwf
  rw [hA.links.left_range] at hl
  rw [hA.links.right_range] at hr
  have hl' := (Option.some.inj hl).symm
  have hr' := (Option.some.inj hr).symm
  have hszl := hA.links.left_size
  have hszr := hA.links.right_size
  rw [hl', hr']
  constructor
  · refine round_trip_spec tl.toList hA.links.left_visits hA.links.left_visits_back fun h0 => ?_
    exact hA.links.left_inv.decr_end h.fuel (by simp only [Heap.fuel]; omega) h0
  · refine round_trip_spec tr.toList hA.links.right_visits hA.links.right_visits_back
      fun h0 => ?_
    exact hA.links.right_inv.decr_end h.fuel (by simp only [Heap.fuel]; omega) h0

/-- C17 at a concrete input: the iterators of the bimap holding `(3, 0)`, `(5, 50)`,
`(9, 20)`; for instance two steps forward from the first left iterator and two steps back. -/
theorem round_trip_iteration_witness :
    (((∀ i k, i + k ≤
          [Ptr.elem Tag.left_tag 1, Ptr.elem Tag.left_tag 0, Ptr.elem Tag.left_tag 2].length →
        iterator.advance demo3.base demo3.fuel k
            ([Ptr.elem Tag.left_tag 1, Ptr.elem Tag.left_tag 0, Ptr.elem Tag.left_tag 2].getD i
              (end_left 0))
          = some ([Ptr.elem Tag.left_tag 1, Ptr.elem Tag.left_tag 0,
              Ptr.elem Tag.left_tag 2].getD (i + k) (end_left 0)) ∧
        iterator.retreat demo3.base demo3.fuel k
            ([Ptr.elem Tag.left_tag 1, Ptr.elem Tag.left_tag 0,
              Ptr.elem Tag.left_tag 2].getD (i + k) (end_left 0))
          = some ([Ptr.elem Tag.left_tag 1, Ptr.elem Tag.left_tag 0,
              Ptr.elem Tag.left_tag 2].getD i (end_left 0))) ∧
      (∀ x, [Ptr.elem Tag.left_tag 1, Ptr.elem Tag.left_tag 0,
          Ptr.elem Tag.left_tag 2].getLast? = some x →
        iterator.decr demo3.base demo3.fuel (end_left 0) = some x) ∧
      (∀ it ∈ [Ptr.elem Tag.left_tag 1, Ptr.elem Tag.left_tag 0, Ptr.elem Tag.left_tag 2],
        (iterator.incr demo3.base demo3.fuel it).bind (iterator.decr demo3.base demo3.fuel)
          = some it)) ∧
    ((∀ i k, i + k ≤
          [Ptr.elem Tag.right_tag 1, Ptr.elem Tag.right_tag 2,
            Ptr.elem Tag.right_tag 0].length →
        iterator.advance demo3.base demo3.fuel k
            ([Ptr.elem Tag.right_tag 1, Ptr.elem Tag.right_tag 2,
              Ptr.elem Tag.right_tag 0].getD i (end_right 0))
          = some ([Ptr.elem Tag.right_tag 1, Ptr.elem Tag.right_tag 2,
              Ptr.elem Tag.right_tag 0].getD (i + k) (end_right 0)) ∧
        iterator.retreat demo3.base demo3.fuel k
            ([Ptr.elem Tag.right_tag 1, Ptr.elem Tag.right_tag 2,
              Ptr.elem Tag.right_tag 0].getD (i + k) (end_right 0))
          = some ([Ptr.elem Tag.right_tag 1, Ptr.elem Tag.right_tag 2,
              Ptr.elem Tag.right_tag 0].getD i (end_right 0))) ∧
      (∀ x, [Ptr.elem Tag.right_tag 1, Ptr.elem Tag.right_tag 2,
          Ptr.elem Tag.right_tag 0].getLast? = some x →
        iterator.decr demo3.base demo3.fuel (end_right 0) = some x) ∧
      (∀ it ∈ [Ptr.elem Tag.right_tag 1, Ptr.elem Tag.right_tag 2, Ptr.elem Tag.right_tag 0],
        (iterator.incr demo3.base demo3.fuel it).bind (iterator.decr demo3.base demo3.fuel)
          = some it))) ∧
    iterator.advance demo3.base demo3.fuel 2 (Ptr.elem Tag.left_tag 1)
      = some (Ptr.elem Tag.left_tag 2) ∧
    iterator.retreat demo3.base demo3.fuel 2 (Ptr.elem Tag.left_tag 2)
      = some (Ptr.elem Tag.left_tag 1) ∧
    iterator.decr demo3.base demo3.fuel (end_left 0) = some (Ptr.elem Tag.left_tag 2) ∧
    iterator.decr demo3.base demo3.fuel (Ptr.elem Tag.left_tag 1) = none :=
  ⟨round_trip_iteration demo3_wf
    [Ptr.elem Tag.left_tag 1, Ptr.elem Tag.left_tag 0, Ptr.elem Tag.left_tag 2]
    [Ptr.elem Tag.right_tag 1, Ptr.elem Tag.right_tag 2, Ptr.elem Tag.right_tag 0]
    demo3_left_range demo3_right_range, by decide, by decide, by decide, by decide⟩

end bimap

namespace bimap

open details

variable {L R : Type} {cl : L → L → Bool} {cr : R → R → Bool}

/-! ## Several objects in one state: what a call leaves alone -/

theorem Outside.same (h : Heap L R) (objs own : List Nat) : Outside h h objs own :=
  ⟨fun _ _ _ => rfl, fun _ _ _ _ => rfl, fun _ _ _ => rfl, fun _ _ _ => rfl, fun _ _ => rfl,
    le_refl _⟩

theorem Outside.trans {h h1 h2 : Heap L R} {objs own own1 : List Nat}
    (h01 : Outside h h1 objs own) (h12 : Outside h1 h2 objs own1)
    (hown : ∀ k ∈ own1, k ∈ own ∨ h.next ≤ k) : Outside h h2 objs own := by
  have hk : ∀ k, k ∉ own → k < h.next → k ∉ own1 ∧ k < h1.next := by
    intro k hk hlt
    refine ⟨fun hm => ?_, lt_of_lt_of_le hlt h01.next⟩
    rcases hown k hm with h' | h'
    · exact hk h'
    · omega
  refine ⟨fun tag c hc => (h12.fake tag c hc).trans (h01.fake tag c hc), ?_, ?_, ?_,
    fun c hc => (h12.sz c hc).trans (h01.sz c hc), le_trans h01.next h12.next⟩
  · intro tag k hk1 hlt
    exact (h12.elem tag k (hk k hk1 hlt).1 (hk k hk1 hlt).2).trans (h01.elem tag k hk1 hlt)
  · intro k hk1 hlt
    exact (h12.lval k (hk k hk1 hlt).1 (hk k hk1 hlt).2).trans (h01.lval k hk1 hlt)
  · intro k hk1 hlt
    exact (h12.rval k (hk k hk1 hlt).1 (hk k hk1 hlt).2).trans (h01.rval k hk1 hlt)

theorem Outside.mono {h h1 : Heap L R} {objs objs1 own own1 : List Nat}
    (hO : Outside h h1 objs own) (hobjs : ∀ c ∈ objs, c ∈ objs1)
    (hown : ∀ k ∈ own, k ∈ own1) : Outside h h1 objs1 own1 :=
  ⟨fun tag c hc => hO.fake tag c fun hm => hc (hobjs c hm),
    fun tag k hk hlt => hO.elem tag k (fun hm => hk (hown k hm)) hlt,
    fun k hk hlt => hO.lval k (fun hm => hk (hown k hm)) hlt,
    fun k hk hlt => hO.rval k (fun hm => hk (hown k hm)) hlt,
    fun c hc => hO.sz c fun hm => hc (hobjs c hm), hO.next⟩

/-- An object that a change leaves alone stays as it is, with the same trees. -/
theorem Abs.outside {h h1 : Heap L R} {c : Nat} {tl tr : Shape} {objs own : List Nat}
    (hA : Abs cl cr h c tl tr) (hO : Outside h h1 objs own) (hc : c ∉ objs)
    (hd : ∀ k ∈ tl.toList, k ∉ own) : Abs cl cr h1 c tl tr := by
  have hdr : ∀ k ∈ tr.toList, k ∉ own := fun k hk => hd k (hA.same.mem_iff.2 hk)
  refine ⟨⟨?_, ?_, ?_, ?_, ?_, ?_⟩, hA.same, ?_⟩
  · refine hA.links.left_inv.transfer_inv rfl rfl rfl (fun k hk => ?_) ?_ (fun k hk => ?_)
    · exact hO.lval k (hd k hk) (hA.links.left_alloc k hk)
    · exact hO.fake _ _ hc
    · exact hO.elem _ k (hd k hk) (hA.links.left_alloc k hk)
  · refine hA.links.right_inv.transfer_inv rfl rfl rfl (fun k hk => ?_) ?_ (fun k hk => ?_)
    · exact hO.rval k (hdr k hk) (hA.links.right_alloc k hk)
    · exact hO.fake _ _ hc
    · exact hO.elem _ k (hdr k hk) (hA.links.right_alloc k hk)
  · have := hO.fake Tag.left_tag c hc
    simp only [end_left]
    rw [this]
    exact hA.links.left_cross
  · have := hO.fake Tag.right_tag c hc
    simp only [end_right]
    rw [this]
    exact hA.links.right_cross
  · exact fun n hn => lt_of_lt_of_le (hA.links.left_alloc n hn) hO.next
  · exact fun n hn => lt_of_lt_of_le (hA.links.right_alloc n hn) hO.next
  · rw [hO.sz c hc]
    exact hA.count

/-- The pairs, the iterators and the size of an object that a change leaves alone. -/
theorem Abs.outside_pairs {h h1 : Heap L R} {c : Nat} {tl tr : Shape} {objs own : List Nat}
    (hA : Abs cl cr h c tl tr) (hO : Outside h h1 objs own) (hc : c ∉ objs)
    (hd : ∀ k ∈ tl.toList, k ∉ own) :
    left_pairs h1 c = left_pairs h c ∧ right_pairs h1 c = right_pairs h c ∧
      left_range h1 c = left_range h c ∧ right_range h1 c = right_range h c ∧
      size h1 c = size h c := by
  have hA1 := hA.outside hO hc hd
  refine ⟨?_, ?_, ?_, ?_, hO.sz c hc⟩
  · rw [hA1.links.left_pairs, hA.links.left_pairs]
    congr 1
    refine List.map_congr_left fun k hk => ?_
    rw [hO.lval k (hd k hk) (hA.links.left_alloc k hk),
      hO.rval k (hd k hk) (hA.links.left_alloc k hk)]
  · rw [hA1.links.right_pairs, hA.links.right_pairs]
    congr 1
    refine List.map_congr_left fun k hk => ?_
    have hkl := hA.same.mem_iff.2 hk
    rw [hO.lval k (hd k hkl) (hA.links.left_alloc k hkl),
      hO.rval k (hd k hkl) (hA.links.left_alloc k hkl)]
  · rw [hA1.links.left_range, hA.links.left_range]
  · rw [hA1.links.right_range, hA.links.right_range]

/-- The two `treap::erase` calls of `erase_left` and `erase_right` write to the sentinels and
the nodes of the object only. -/
theorem Abs.erase_both_out {h : Heap L R} {b : Nat} {tl tr : Shape} (hA : Abs cl cr h b tl tr)
    (n : Nat) (hn : n ∈ tl.toList) :
    ∃ m1 m2, (left_treap cl h b).erase h.fuel h.base (Ptr.elem Tag.left_tag n) = some m1 ∧
      (right_treap cr h b).erase h.fuel m1 (Ptr.elem Tag.right_tag n) = some m2 ∧
      Outside h (Heap.mk m2 h.lval h.lprior h.rval h.rprior
        (Function.update h.sz b (h.sz b - 1)) h.next h.rnd h.drawn) [b] tl.toList := by
  have hnr : n ∈ tr.toList := hA.same.mem_iff.1 hn
  obtain ⟨m1, hm1, hL1, -, hf1⟩ := hA.links.left_erase n hn
  obtain ⟨m2, hm2, -, -, hf2⟩ := hL1.right_erase n hnr
  have hf2' : ∀ p, p ≠ end_right b → (∀ k ∈ tr.toList, p ≠ Ptr.elem Tag.right_tag k) →
      m2 p = m1 p := hf2
  refine ⟨m1, m2, hm1, hm2, ⟨?_, ?_, fun _ _ _ => rfl, fun _ _ _ => rfl, ?_, le_refl _⟩⟩
  · intro tag c hc
    have hcb : c ≠ b := by simpa using hc
    show m2 (Ptr.fake tag c) = h.base (Ptr.fake tag c)
    rw [hf2' _ (by simp [end_right, hcb]) (fun _ _ => by simp),
      hf1 _ (by simp [end_left, hcb]) (fun _ _ => by simp)]
  · intro tag k hk _
    show m2 (Ptr.elem tag k) = h.base (Ptr.elem tag k)
    rw [hf2' _ (by simp [end_right]) (fun j hj e => by
        simp only [Ptr.elem.injEq] at e
        exact hk (e.2 ▸ hA.same.mem_iff.2 hj)),
      hf1 _ (by simp [end_left]) (fun j hj e => by
        simp only [Ptr.elem.injEq] at e
        exact hk (e.2 ▸ hj))]
  · intro c hc
    have hcb : c ≠ b := by simpa using hc
    simp [Function.update, hcb]

/-- `erase_left(it)` with what it leaves alone. -/
theorem Abs.erase_left_out {h : Heap L R} {b : Nat} {tl tr : Shape} (hA : Abs cl cr h b tl tr)
    (n : Nat) (l1 l2 : List Nat) (hsplit : tl.toList = l1 ++ n :: l2) :
    ∃ h1, bimap.erase_left cl cr h b (Ptr.elem Tag.left_tag n)
        = some (h1, first_or Tag.left_tag (end_left b) l2) ∧
      Abs cl cr h1 b (Shape.erase h.lprior n tl) (Shape.erase h.rprior n tr) ∧
      Outside h h1 [b] tl.toList := by
  have hn : n ∈ tl.toList := by rw [hsplit]; simp
  have hV := hA.links.left_visits
  rw [hsplit] at hV
  have hinc := Visits.incr_mem l1 hV
  obtain ⟨h1, he, hA1, -⟩ := hA.erase_left n l1 l2 hsplit
  obtain ⟨m1, m2, hm1, hm2, hO⟩ := hA.erase_both_out n hn
  have he' : bimap.erase_left cl cr h b (Ptr.elem Tag.left_tag n)
      = some (Heap.mk m2 h.lval h.lprior h.rval h.rprior
        (Function.update h.sz b (h.sz b - 1)) h.next h.rnd h.drawn,
        first_or Tag.left_tag (end_left b) l2) := by
    simp [bimap.erase_left, hinc, double_downcast, hm1, hm2]
  rw [he'] at he
  simp only [Option.some.injEq, Prod.mk.injEq, and_true] at he
  exact ⟨h1, by rw [he', he], hA1, he ▸ hO⟩

/-- `erase_right(it)` with what it leaves alone. -/
theorem Abs.erase_right_out {h : Heap L R} {b : Nat} {tl tr : Shape}
    (hA : Abs cl cr h b tl tr) (n : Nat) (l1 l2 : List Nat)
    (hsplit : tr.toList = l1 ++ n :: l2) :
    ∃ h1, bimap.erase_right cl cr h b (Ptr.elem Tag.right_tag n)
        = some (h1, first_or Tag.right_tag (end_right b) l2) ∧
      Abs cl cr h1 b (Shape.erase h.lprior n tl) (Shape.erase h.rprior n tr) ∧
      Outside h h1 [b] tl.toList := by
  have hnr : n ∈ tr.toList := by rw [hsplit]; simp
  have hn : n ∈ tl.toList := hA.same.mem_iff.2 hnr
  have hV := hA.links.right_visits
  rw [hsplit] at hV
  have hinc := Visits.incr_mem l1 hV
  obtain ⟨h1, he, hA1, -⟩ := hA.erase_right n l1 l2 hsplit
  obtain ⟨m1, m2, hm1, hm2, hO⟩ := hA.erase_both_out n hn
  have he' : bimap.erase_right cl cr h b (Ptr.elem Tag.right_tag n)
      = some (Heap.mk m2 h.lval h.lprior h.rval h.rprior
        (Function.update h.sz b (h.sz b - 1)) h.next h.rnd h.drawn,
        first_or Tag.right_tag (end_right b) l2) := by
    simp [bimap.erase_right, hinc, double_downcast, hm1, hm2]
  rw [he'] at he
  simp only [Option.some.injEq, Prod.mk.injEq, and_true] at he
  exact ⟨h1, by rw [he', he], hA1, he ▸ hO⟩

end bimap

namespace bimap

open details

variable {L R : Type} {cl : L → L → Bool} {cr : R → R → Bool}

/-- A successful `insert` with what it leaves alone. -/
theorem Abs.insert_out {h : Heap L R} {b : Nat} {tl tr : Shape} (hA : Abs cl cr h b tl tr)
    (hcl : StrictWeakOrder cl) (hcr : StrictWeakOrder cr) (l : L) (r : R)
    (hl : ∀ k ∈ tl.toList, equiv cl (h.lval k) l = false)
    (hr : ∀ k ∈ tr.toList, equiv cr (h.rval k) r = false) :
    ∃ h1, bimap.insert cl cr h b l r = some (h1, Ptr.elem Tag.left_tag h.next) ∧
      Abs cl cr h1 b (Shape.insert h1.lprior (fun k => cl (h1.lval k) l) tl h.next)
        (Shape.insert h1.rprior (fun k => cr (h1.rval k) r) tr h.next) ∧
      h1.lval = Function.update h.lval h.next l ∧
      h1.rval = Function.update h.rval h.next r ∧
      h1.next = h.next + 1 ∧ h1.sz = Function.update h.sz b (h.sz b + 1) ∧
      Outside h h1 [b] tl.toList := by
  obtain ⟨h1, hi, hA1, hlv, hrv, hnx, hsz⟩ := hA.insert_fresh hcl hcr l r hl hr
  refine ⟨h1, hi, hA1, hlv, hrv, hnx, hsz, ?_⟩
  have hfl : (left_treap cl h b).find h.fuel h.base l = some Ptr.null := by
    rcases hA.links.find_left_cases hcl l with ⟨h1, -, -⟩ | ⟨k, hk, -, -, h3⟩
    · exact h1
    · rw [hl k hk] at h3; exact absurd h3 Bool.false_ne_true
  have hfr : (right_treap cr h b).find h.fuel h.base r = some Ptr.null := by
    rcases hA.links.find_right_cases hcr r with ⟨h1, -, -⟩ | ⟨k, hk, -, -, h3⟩
    · exact h1
    · rw [hr k hk] at h3; exact absurd h3 Bool.false_ne_true
  have hnl : h.next ∉ tl.toList := fun hm => Nat.lt_irrefl _ (hA.links.left_alloc _ hm)
  have hnr : h.next ∉ tr.toList := fun hm => Nat.lt_irrefl _ (hA.links.right_alloc _ hm)
  have hN := hA.links.new_node l r
  have hlv0 : (new_node h l r).lval h.next = l := by simp [bimap.new_node]
  have hrv0 : (new_node h l r).rval h.next = r := by simp [bimap.new_node]
  obtain ⟨m1, hm1, hL1, hf1⟩ := hN.left_insert hcl h.next hnl (by simp [bimap.new_node])
    (by simp [bimap.new_node, Function.update]) (by simp [bimap.new_node, Function.update])
    (by
      intro k hk
      have hkn : k ≠ h.next := fun e => hnl (e ▸ hk)
      rw [hlv0]
      simpa [bimap.new_node, Function.update, hkn] using hl k hk)
  have hm1r : m1 (Ptr.elem Tag.right_tag h.next) = ⟨Ptr.null, Ptr.null, Ptr.null⟩ := by
    rw [hf1 _ (by simp [end_left]) (fun k _ => by simp)]
    simp [bimap.new_node, Function.update]
  obtain ⟨m2, hm2, -, hf2⟩ := hL1.right_insert hcr h.next hnr (by simp [bimap.new_node])
    (by simp [hm1r]) (by simp [hm1r])
    (by
      intro k hk
      have hkn : k ≠ h.next := fun e => hnr (e ▸ hk)
      show equiv cr ((new_node h l r).rval k) ((new_node h l r).rval h.next) = false
      rw [hrv0]
      simpa [bimap.new_node, Function.update, hkn] using hr k hk)
  have hf2' : ∀ p, p ≠ end_right b → (∀ k ∈ h.next :: tr.toList, p ≠ Ptr.elem Tag.right_tag k) →
      m2 p = m1 p := hf2
  have hm2' : (right_treap cr (new_node h l r) b).insert (new_node h l r).fuel m1
      (Ptr.elem Tag.right_tag h.next) = some (m2, Ptr.elem Tag.right_tag h.next) := hm2
  have hi' : bimap.insert cl cr h b l r = some (Heap.mk m2 (new_node h l r).lval
      (new_node h l r).lprior (new_node h l r).rval (new_node h l r).rprior
      (Function.update (new_node h l r).sz b ((new_node h l r).sz b + 1))
      (new_node h l r).next (new_node h l r).rnd (new_node h l r).drawn,
      Ptr.elem Tag.left_tag h.next) := by
    simp only [bimap.insert, hfl, hfr, Option.some_bind, ne_eq, not_true_eq_false, if_false,
      hm1, hm2']
  rw [hi'] at hi
  simp only [Option.some.injEq, Prod.mk.injEq, and_true] at hi
  rw [← hi]
  refine ⟨?_, ?_, ?_, ?_, ?_, ?_⟩
  · intro tag c hc
    have hcb : c ≠ b := by simpa using hc
    show m2 (Ptr.fake tag c) = h.base (Ptr.fake tag c)
    rw [hf2' _ (by simp [end_right, hcb]) (fun _ _ => by simp),
      hf1 _ (by simp [end_left, hcb]) (fun _ _ => by simp)]
    simp [bimap.new_node, Function.update]
  · intro tag k hk hlt
    have hkn : k ≠ h.next := Nat.ne_of_lt hlt
    show m2 (Ptr.elem tag k) = h.base (Ptr.elem tag k)
    rw [hf2' _ (by simp [end_right]) (fun j hj e => by
        simp only [Ptr.elem.injEq] at e
        rcases List.mem_cons.1 hj with rfl | hj
        · exact hkn e.2
        · exact hk (e.2 ▸ hA.same.mem_iff.2 hj)),
      hf1 _ (by simp [end_left]) (fun j hj e => by
        simp only [Ptr.elem.injEq] at e
        rcases List.mem_cons.1 hj with rfl | hj
        · exact hkn e.2
        · exact hk (e.2 ▸ hj))]
    simp [bimap.new_node, Function.update, hkn]
  · intro k _ hlt
    simp [bimap.new_node, Function.update, Nat.ne_of_lt hlt]
  · intro k _ hlt
    simp [bimap.new_node, Function.update, Nat.ne_of_lt hlt]
  · intro c hc
    have hcb : c ≠ b := by simpa using hc
    simp [bimap.new_node, Function.update, hcb]
  · simp [bimap.new_node]

/-- The reassignment of `at_left_or_default` with what it leaves alone. -/
theorem Abs.at_left_or_default_reuse_out [Inhabited R] {h : Heap L R} {b : Nat}
    {tl tr : Shape} (hA : Abs cl cr h b tl tr) (hcl : StrictWeakOrder cl)
    (hcr : StrictWeakOrder cr) (key : L)
    (hkey : ∀ k ∈ tl.toList, equiv cl (h.lval k) key = false) {n : Nat}
    (hn : n ∈ tr.toList) (hd : equiv cr (h.rval n) default = true) :
    ∃ h1, bimap.at_left_or_default cl cr h b key = some (h1, h.rval n) ∧
      Abs cl cr h1 b
        (Shape.insert h.lprior (fun k => cl (h1.lval k) key) (Shape.erase h.lprior n tl) n)
        tr ∧
      Outside h h1 [b] tl.toList := by
  obtain ⟨h1, hres, hA1, -⟩ := hA.at_left_or_default_reuse hcl hcr key hkey hn hd
  refine ⟨h1, hres, hA1, ?_⟩
  have hnl : n ∈ tl.toList := hA.same.mem_iff.2 hn
  have hfl : find_left cl h b key = some (end_left b) := by
    rcases hA.links.find_left_cases hcl key with ⟨-, h2, -⟩ | ⟨k, hk, -, -, h3⟩
    · exact h2
    · rw [hkey k hk] at h3; exact absurd h3 Bool.false_ne_true
  have hfr : find_right cr h b default = some (Ptr.elem Tag.right_tag n) := by
    rcases hA.links.find_right_cases hcr default with ⟨-, -, h3⟩ | ⟨k, hk, -, h2, h3⟩
    · rw [h3 n hn] at hd; exact absurd hd Bool.false_ne_true
    · rw [hA.links.right_unique hcr hn hk hd h3]; exact h2
  obtain ⟨m1, hm1, hL1, hclean, hf1⟩ := hA.links.left_erase n hnl
  have hnd := hA.links.left_inv.nodup
  have hne : n ∉ (Shape.erase h.lprior n tl).toList := Shape.not_mem_erase _ _ _ hnd
  have hL2 := hL1.set_lval n hne key
  obtain ⟨m2, hm2, -, hf2⟩ := hL2.left_insert hcl n hne (hA.links.right_alloc n hn)
    (by simp [hclean]) (by simp [hclean])
    (by
      intro k hk
      obtain ⟨hk1, hk2⟩ := Shape.mem_of_mem_erase hnd hk
      simpa [Function.update, hk2] using hkey k hk1)
  have hf2' : ∀ p, p ≠ end_left b →
      (∀ k ∈ n :: (Shape.erase h.lprior n tl).toList, p ≠ Ptr.elem Tag.left_tag k) →
      m2 p = m1 p := hf2
  have hm2' : (left_treap cl (Heap.mk m1 (Function.update h.lval n key) h.lprior h.rval
      h.rprior h.sz h.next h.rnd h.drawn) b).insert h.fuel m1 (Ptr.elem Tag.left_tag n)
      = some (m2, Ptr.elem Tag.left_tag n) := hm2
  have hres' : bimap.at_left_or_default cl cr h b key = some (Heap.mk m2
      (Function.update h.lval n key) h.lprior h.rval h.rprior h.sz h.next h.rnd h.drawn,
      h.rval n) := by
    simp only [bimap.at_left_or_default, hfl, Option.some_bind, ne_eq, not_true_eq_false,
      if_false, hfr, end_right, reduceCtorEq, not_false_eq_true, if_true,
      hA.links.flip_right hn, hm1, double_downcast]
    have e : Heap.fuel (Heap.mk m1 (Function.update h.lval n key) h.lprior h.rval h.rprior
        h.sz h.next h.rnd h.drawn) = h.fuel := rfl
    simp only [e, hm2', Option.some_bind, deref_right]
  rw [hres'] at hres
  simp only [Option.some.injEq, Prod.mk.injEq, and_true] at hres
  rw [← hres]
  have hsub : ∀ j ∈ n :: (Shape.erase h.lprior n tl).toList, j ∈ tl.toList := by
    intro j hj
    rcases List.mem_cons.1 hj with rfl | hj
    · exact hnl
    · exact (Shape.mem_of_mem_erase hnd hj).1
  refine ⟨?_, ?_, ?_, fun _ _ _ => rfl, fun _ _ => rfl, le_refl _⟩
  · intro tag c hc
    have hcb : c ≠ b := by simpa using hc
    show m2 (Ptr.fake tag c) = h.base (Ptr.fake tag c)
    rw [hf2' _ (by simp [end_left, hcb]) (fun _ _ => by simp),
      hf1 _ (by simp [end_left, hcb]) (fun _ _ => by simp)]
  · intro tag k hk _
    show m2 (Ptr.elem tag k) = h.base (Ptr.elem tag k)
    rw [hf2' _ (by simp [end_left]) (fun j hj e => by
        simp only [Ptr.elem.injEq] at e
        exact hk (e.2 ▸ hsub j hj)),
      hf1 _ (by simp [end_left]) (fun j hj e => by
        simp only [Ptr.elem.injEq] at e
        exact hk (e.2 ▸ hj))]
  · intro k hk _
    have hkn : k ≠ n := fun e => hk (e ▸ hnl)
    simp [Function.update, hkn]

/-- The reassignment of `at_right_or_default` with what it leaves alone. -/
theorem Abs.at_right_or_default_reuse_out [Inhabited L] {h : Heap L R} {b : Nat}
    {tl tr : Shape} (hA : Abs cl cr h b tl tr) (hcl : StrictWeakOrder cl)
    (hcr : StrictWeakOrder cr) (key : R)
    (hkey : ∀ k ∈ tr.toList, equiv cr (h.rval k) key = false) {n : Nat}
    (hn : n ∈ tl.toList) (hd : equiv cl (h.lval n) default = true) :
    ∃ h1, bimap.at_right_or_default cl cr h b key = some (h1, h.lval n) ∧
      Abs cl cr h1 b tl
        (Shape.insert h.rprior (fun k => cr (h1.rval k) key) (Shape.erase h.rprior n tr) n) ∧
      Outside h h1 [b] tl.toList := by
  obtain ⟨h1, hres, hA1, -⟩ := hA.at_right_or_default_reuse hcl hcr key hkey hn hd
  refine ⟨h1, hres, hA1, ?_⟩
  have hnr : n ∈ tr.toList := hA.same.mem_iff.1 hn
  have hfr : find_right cr h b key = some (end_right b) := by
    rcases hA.links.find_right_cases hcr key with ⟨-, h2, -⟩ | ⟨k, hk, -, -, h3⟩
    · exact h2
    · rw [hkey k hk] at h3; exact absurd h3 Bool.false_ne_true
  have hfl : find_left cl h b default = some (Ptr.elem Tag.left_tag n) := by
    rcases hA.links.find_left_cases hcl default with ⟨-, -, h3⟩ | ⟨k, hk, -, h2, h3⟩
    · rw [h3 n hn] at hd; exact absurd hd Bool.false_ne_true
    · rw [hA.links.left_unique hcl hn hk hd h3]; exact h2
  obtain ⟨m1, hm1, hL1, hclean, hf1⟩ := hA.links.right_erase n hnr
  have hnd := hA.links.right_inv.nodup
  have hne : n ∉ (Shape.erase h.rprior n tr).toList := Shape.not_mem_erase _ _ _ hnd
  have hL2 := hL1.set_rval n hne key
  obtain ⟨m2, hm2, -, hf2⟩ := hL2.right_insert hcr n hne (hA.links.left_alloc n hn)
    (by simp [hclean]) (by simp [hclean])
    (by
      intro k hk
      obtain ⟨hk1, hk2⟩ := Shape.mem_of_mem_erase hnd hk
      simpa [Function.update, hk2] using hkey k hk1)
  have hf2' : ∀ p, p ≠ end_right b →
      (∀ k ∈ n :: (Shape.erase h.rprior n tr).toList, p ≠ Ptr.elem Tag.right_tag k) →
      m2 p = m1 p := hf2
  have hm2' : (right_treap cr (Heap.mk m1 h.lval h.lprior (Function.update h.rval n key)
      h.rprior h.sz h.next h.rnd h.drawn) b).insert h.fuel m1 (Ptr.elem Tag.right_tag n)
      = some (m2, Ptr.elem Tag.right_tag n) := hm2
  have hres' : bimap.at_right_or_default cl cr h b key = some (Heap.mk m2 h.lval h.lprior
      (Function.update h.rval n key) h.rprior h.sz h.next h.rnd h.drawn, h.lval n) := by
    simp only [bimap.at_right_or_default, hfr, Option.some_bind, ne_eq, not_true_eq_false,
      if_false, hfl, end_left, reduceCtorEq, not_false_eq_true, if_true,
      hA.links.flip_left hn, hm1, double_downcast]
    have e : Heap.fuel (Heap.mk m1 h.lval h.lprior (Function.update h.rval n key) h.rprior
        h.sz h.next h.rnd h.drawn) = h.fuel := rfl
    simp only [e, hm2', Option.some_bind, deref_left]
  rw [hres'] at hres
  simp only [Option.some.injEq, Prod.mk.injEq, and_true] at hres
  rw [← hres]
  have hsub : ∀ j ∈ n :: (Shape.erase h.rprior n tr).toList, j ∈ tl.toList := by
    intro j hj
    rcases List.mem_cons.1 hj with rfl | hj
    · exact hn
    · exact hA.same.mem_iff.2 (Shape.mem_of_mem_erase hnd hj).1
  refine ⟨?_, ?_, fun _ _ _ => rfl, ?_, fun _ _ => rfl, le_refl _⟩
  · intro tag c hc
    have hcb : c ≠ b := by simpa using hc
    show m2 (Ptr.fake tag c) = h.base (Ptr.fake tag c)
    rw [hf2' _ (by simp [end_right, hcb]) (fun _ _ => by simp),
      hf1 _ (by simp [end_right, hcb]) (fun _ _ => by simp)]
  · intro tag k hk _
    show m2 (Ptr.elem tag k) = h.base (Ptr.elem tag k)
    rw [hf2' _ (by simp [end_right]) (fun j hj e => by
        simp only [Ptr.elem.injEq] at e
        exact hk (e.2 ▸ hsub j hj)),
      hf1 _ (by simp [end_right]) (fun j hj e => by
        simp only [Ptr.elem.injEq] at e
        exact hk (e.2 ▸ hA.same.mem_iff.2 hj))]
  · intro k hk _
    have hkn : k ≠ n := fun e => hk (e ▸ hn)
    simp [Function.update, hkn]

end bimap

namespace bimap

open details

variable {L R : Type} {cl : L → L → Bool} {cr : R → R → Bool}

/-- The loop of the left range erase with what it leaves alone. -/
theorem Abs.erase_left_loop_out {b : Nat} : ∀ (l2 : List Nat) (fuel : Nat) (h : Heap L R)
    (tl tr : Shape) (l1 l3 : List Nat), Abs cl cr h b tl tr → tl.toList = l1 ++ l2 ++ l3 →
    l2.length < fuel →
    ∃ h1 tl1 tr1, bimap.erase_left_loop cl cr b fuel h
        (first_or Tag.left_tag (end_left b) (l2 ++ l3))
        (first_or Tag.left_tag (end_left b) l3)
        = some (h1, first_or Tag.left_tag (end_left b) l3) ∧
      Abs cl cr h1 b tl1 tr1 ∧ tl1.toList = l1 ++ l3 ∧ Outside h h1 [b] tl.toList := by
  intro l2
  induction l2 with
  | nil =>
    intro fuel h tl tr l1 l3 hA hsplit hlen
    obtain ⟨f1, rfl⟩ : ∃ f1, fuel = f1 + 1 := ⟨fuel - 1, by simp at hlen; omega⟩
    refine ⟨h, tl, tr, ?_, hA, by simpa using hsplit, Outside.same _ _ _⟩
    simp [bimap.erase_left_loop]
  | cons x l2 ih =>
    intro fuel h tl tr l1 l3 hA hsplit hlen
    obtain ⟨f1, rfl⟩ : ∃ f1, fuel = f1 + 1 := ⟨fuel - 1, by simp at hlen; omega⟩
    have hsplit' : tl.toList = l1 ++ x :: (l2 ++ l3) := by simpa using hsplit
    have hnd := hA.links.left_inv.nodup
    have hnd0 := hnd
    rw [hsplit'] at hnd
    have hx1 : x ∉ l1 := fun hm => (List.nodup_append.1 hnd).2.2 hm (by simp)
    have hx23 : x ∉ l2 ++ l3 := (List.nodup_cons.1 (List.nodup_append.1 hnd).2.1).1
    have hx3 : x ∉ l3 := fun hm => hx23 (List.mem_append_right _ hm)
    have hV := hA.links.left_visits
    rw [hsplit'] at hV
    have hinc := Visits.incr_mem l1 hV
    obtain ⟨h1, he, hA1, hO1⟩ := hA.erase_left_out x l1 (l2 ++ l3) hsplit'
    have hl1 : (Shape.erase h.lprior x tl).toList = l1 ++ l2 ++ l3 := by
      rw [Shape.toList_erase _ _ _ hA.links.left_inv.nodup, hsplit', erase_middle hx1,
        List.append_assoc]
    obtain ⟨h2, tl2, tr2, hloop, hA2, htl2, hO2⟩ :=
      ih f1 h1 _ _ l1 l3 hA1 hl1 (by simp at hlen; omega)
    refine ⟨h2, tl2, tr2, ?_, hA2, htl2, hO1.trans hO2 fun k hk => ?_⟩
    · have hne : Ptr.elem Tag.left_tag x ≠ first_or Tag.left_tag (end_left b) l3 :=
        first_or_ne_elem hx3
      have h0 : first_or Tag.left_tag (end_left b) (x :: l2 ++ l3) = Ptr.elem Tag.left_tag x :=
        rfl
      rw [h0]
      simp only [bimap.erase_left_loop, hne, if_false, hinc, Option.some_bind, he]
      exact hloop
    · exact Or.inl (Shape.mem_of_mem_erase hnd0 hk).1

/-- The loop of the right range erase with what it leaves alone. -/
theorem Abs.erase_right_loop_out {b : Nat} : ∀ (l2 : List Nat) (fuel : Nat) (h : Heap L R)
    (tl tr : Shape) (l1 l3 : List Nat), Abs cl cr h b tl tr → tr.toList = l1 ++ l2 ++ l3 →
    l2.length < fuel →
    ∃ h1 tl1 tr1, bimap.erase_right_loop cl cr b fuel h
        (first_or Tag.right_tag (end_right b) (l2 ++ l3))
        (first_or Tag.right_tag (end_right b) l3)
        = some (h1, first_or Tag.right_tag (end_right b) l3) ∧
      Abs cl cr h1 b tl1 tr1 ∧ (∀ k ∈ tl1.toList, k ∈ tl.toList) ∧
      Outside h h1 [b] tl.toList := by
  intro l2
  induction l2 with
  | nil =>
    intro fuel h tl tr l1 l3 hA hsplit hlen
    obtain ⟨f1, rfl⟩ : ∃ f1, fuel = f1 + 1 := ⟨fuel - 1, by simp at hlen; omega⟩
    refine ⟨h, tl, tr, ?_, hA, fun _ hk => hk, Outside.same _ _ _⟩
    simp [bimap.erase_right_loop]
  | cons x l2 ih =>
    intro fuel h tl tr l1 l3 hA hsplit hlen
    obtain ⟨f1, rfl⟩ : ∃ f1, fuel = f1 + 1 := ⟨fuel - 1, by simp at hlen; omega⟩
    have hsplit' : tr.toList = l1 ++ x :: (l2 ++ l3) := by simpa using hsplit
    have hnd := hA.links.right_inv.nodup
    rw [hsplit'] at hnd
    have hx1 : x ∉ l1 := fun hm => (List.nodup_append.1 hnd).2.2 hm (by simp)
    have hx23 : x ∉ l2 ++ l3 := (List.nodup_cons.1 (List.nodup_append.1 hnd).2.1).1
    have hx3 : x ∉ l3 := fun hm => hx23 (List.mem_append_right _ hm)
    have hV := hA.links.right_visits
    rw [hsplit'] at hV
    have hinc := Visits.incr_mem l1 hV
    obtain ⟨h1, he, hA1, hO1⟩ := hA.erase_right_out x l1 (l2 ++ l3) hsplit'
    have hl1 : (Shape.erase h.rprior x tr).toList = l1 ++ l2 ++ l3 := by
      rw [Shape.toList_erase _ _ _ hA.links.right_inv.nodup, hsplit', erase_middle hx1,
        List.append_assoc]
    obtain ⟨h2, tl2, tr2, hloop, hA2, htl2, hO2⟩ :=
      ih f1 h1 _ _ l1 l3 hA1 hl1 (by simp at hlen; omega)
    have hsub : ∀ k ∈ (Shape.erase h.lprior x tl).toList, k ∈ tl.toList :=
      fun k hk => (Shape.mem_of_mem_erase hA.links.left_inv.nodup hk).1
    refine ⟨h2, tl2, tr2, ?_, hA2, fun k hk => hsub k (htl2 k hk),
      hO1.trans hO2 fun k hk => Or.inl (hsub k hk)⟩
    have hne : Ptr.elem Tag.right_tag x ≠ first_or Tag.right_tag (end_right b) l3 :=
      first_or_ne_elem hx3
    have h0 : first_or Tag.right_tag (end_right b) (x :: l2 ++ l3)
        = Ptr.elem Tag.right_tag x := rfl
    rw [h0]
    simp only [bimap.erase_right_loop, hne, if_false, hinc, Option.some_bind, he]
    exact hloop

/-- A call on a well-formed bimap leaves it well formed, its nodes are old nodes of it or
newly allocated ones, and everything outside the object is as before. -/
theorem Op.step [Inhabited L] [Inhabited R] (hcl : StrictWeakOrder cl)
    (hcr : StrictWeakOrder cr) {b : Nat} {h h1 : Heap L R} (hop : Op cl cr b h h1)
    {tl tr : Shape} (hA : Abs cl cr h b tl tr) :
    ∃ tl1 tr1, Abs cl cr h1 b tl1 tr1 ∧ (∀ k ∈ tl1.toList, k ∈ tl.toList ∨ h.next ≤ k) ∧
      Outside h h1 [b] tl.toList := by
  have hkeep : ∃ tl1 tr1, Abs cl cr h b tl1 tr1 ∧
      (∀ k ∈ tl1.toList, k ∈ tl.toList ∨ h.next ≤ k) ∧ Outside h h [b] tl.toList :=
    ⟨tl, tr, hA, fun _ hk => Or.inl hk, Outside.same _ _ _⟩
  have hnd := hA.links.left_inv.nodup
  have hfresh : ∀ (h2 : Heap L R) (l : L) (r : R) (pl : Nat → Nat) (lt : Nat → Bool),
      ∀ k ∈ (Shape.insert pl lt tl h.next).toList, k ∈ tl.toList ∨ h.next ≤ k := by
    intro _ _ _ pl lt k hk
    rcases (Shape.mem_insert _ _ _ _ _).1 hk with rfl | hk
    · exact Or.inr (le_refl _)
    · exact Or.inl hk
  have herased : ∀ (pl : Nat → Nat) (n : Nat),
      ∀ k ∈ (Shape.erase pl n tl).toList, k ∈ tl.toList ∨ h.next ≤ k :=
    fun pl n k hk => Or.inl (Shape.mem_of_mem_erase hnd hk).1
  cases hop with
  | @insert it l r hop =>
    by_cases hl : ∃ k ∈ tl.toList, equiv cl (h.lval k) l = true
    · obtain ⟨k, hk, he⟩ := hl
      rw [hA.insert_dup_left hcl l r hk he] at hop
      simp only [Option.some.injEq, Prod.mk.injEq] at hop
      exact hop.1 ▸ hkeep
    · by_cases hr : ∃ k ∈ tr.toList, equiv cr (h.rval k) r = true
      · obtain ⟨k, hk, he⟩ := hr
        rw [hA.insert_dup_right hcl hcr l r hk he] at hop
        simp only [Option.some.injEq, Prod.mk.injEq] at hop
        exact hop.1 ▸ hkeep
      · obtain ⟨h2, hi, hA2, -, -, -, -, hO⟩ := hA.insert_out hcl hcr l r
          (fun k hk => by simpa using fun e => hl ⟨k, hk, e⟩)
          (fun k hk => by simpa using fun e => hr ⟨k, hk, e⟩)
        rw [hi] at hop
        simp only [Option.some.injEq, Prod.mk.injEq] at hop
        exact hop.1 ▸ ⟨_, _, hA2, hfresh h2 l r _ _, hO⟩
  | @erase_left its it nxt hrange hit hop =>
    rw [hA.links.left_range] at hrange
    simp only [Option.some.injEq] at hrange
    rw [← hrange] at hit
    obtain ⟨n, hn, rfl⟩ := List.mem_map.1 hit
    obtain ⟨l1, l2, hsplit⟩ := mem_split hn
    obtain ⟨h2, he, hA2, hO⟩ := hA.erase_left_out n l1 l2 hsplit
    rw [he] at hop
    simp only [Option.some.injEq, Prod.mk.injEq] at hop
    exact hop.1 ▸ ⟨_, _, hA2, herased _ _, hO⟩
  | @erase_right its it nxt hrange hit hop =>
    rw [hA.links.right_range] at hrange
    simp only [Option.some.injEq] at hrange
    rw [← hrange] at hit
    obtain ⟨n, hn, rfl⟩ := List.mem_map.1 hit
    obtain ⟨l1, l2, hsplit⟩ := mem_split hn
    obtain ⟨h2, he, hA2, hO⟩ := hA.erase_right_out n l1 l2 hsplit
    rw [he] at hop
    simp only [Option.some.injEq, Prod.mk.injEq] at hop
    exact hop.1 ▸ ⟨_, _, hA2, herased _ _, hO⟩
  | @erase_left_key found l hop =>
    rcases hA.links.find_left_cases hcl l with ⟨-, h2, -⟩ | ⟨n, hn, -, h2, -⟩
    · simp only [bimap.erase_left_key, h2, Option.some_bind, if_true, Option.some.injEq,
        Prod.mk.injEq] at hop
      exact hop.1 ▸ hkeep
    · obtain ⟨l1, l2, hsplit⟩ := mem_split hn
      obtain ⟨h2', he, hA2, hO⟩ := hA.erase_left_out n l1 l2 hsplit
      simp only [bimap.erase_left_key, h2, Option.some_bind, end_left, reduceCtorEq, if_false,
        he, Option.some.injEq, Prod.mk.injEq] at hop
      exact hop.1 ▸ ⟨_, _, hA2, herased _ _, hO⟩
  | @erase_right_key found r hop =>
    rcases hA.links.find_right_cases hcr r with ⟨-, h2, -⟩ | ⟨n, hn, -, h2, -⟩
    · simp only [bimap.erase_right_key, h2, Option.some_bind, if_true, Option.some.injEq,
        Prod.mk.injEq] at hop
      exact hop.1 ▸ hkeep
    · obtain ⟨l1, l2, hsplit⟩ := mem_split hn
      obtain ⟨h2', he, hA2, hO⟩ := hA.erase_right_out n l1 l2 hsplit
      simp only [bimap.erase_right_key, h2, Option.some_bind, end_right, reduceCtorEq,
        if_false, he, Option.some.injEq, Prod.mk.injEq] at hop
      exact hop.1 ▸ ⟨_, _, hA2, herased _ _, hO⟩
  | @erase_left_range its first last it hrange hv hop =>
    rw [hA.links.left_range] at hrange
    simp only [Option.some.injEq] at hrange
    rw [← hrange] at hv
    obtain ⟨l1, l2, l3, hsplit, rfl, rfl⟩ := valid_range_nodes hv
    have hsz := hA.links.left_size
    rw [← Shape.length_toList, hsplit] at hsz
    obtain ⟨h2, tl2, tr2, hloop, hA2, htl2, hO⟩ := hA.erase_left_loop_out l2 h.fuel h tl tr
      l1 l3 hsplit (by simp only [Heap.fuel]; simp only [List.length_append] at hsz; omega)
    have hloop' : bimap.erase_left_range cl cr h b
        (first_or Tag.left_tag (end_left b) (l2 ++ l3))
        (first_or Tag.left_tag (end_left b) l3)
        = some (h2, first_or Tag.left_tag (end_left b) l3) := hloop
    rw [hloop'] at hop
    simp only [Option.some.injEq, Prod.mk.injEq] at hop
    refine hop.1 ▸ ⟨_, _, hA2, fun k hk => Or.inl ?_, hO⟩
    rw [htl2] at hk
    rw [hsplit]
    simp only [List.mem_append] at hk ⊢
    tauto
  | @erase_right_range its first last it hrange hv hop =>
    rw [hA.links.right_range] at hrange
    simp only [Option.some.injEq] at hrange
    rw [← hrange] at hv
    obtain ⟨l1, l2, l3, hsplit, rfl, rfl⟩ := valid_range_nodes hv
    have hsz := hA.links.right_size
    rw [← Shape.length_toList, hsplit] at hsz
    obtain ⟨h2, tl2, tr2, hloop, hA2, htl2, hO⟩ := hA.erase_right_loop_out l2 h.fuel h tl tr
      l1 l3 hsplit (by simp only [Heap.fuel]; simp only [List.length_append] at hsz; omega)
    have hloop' : bimap.erase_right_range cl cr h b
        (first_or Tag.right_tag (end_right b) (l2 ++ l3))
        (first_or Tag.right_tag (end_right b) l3)
        = some (h2, first_or Tag.right_tag (end_right b) l3) := hloop
    rw [hloop'] at hop
    simp only [Option.some.injEq, Prod.mk.injEq] at hop
    exact hop.1 ▸ ⟨_, _, hA2, fun k hk => Or.inl (htl2 k hk), hO⟩
  | @at_left_or_default v key hop =>
    by_cases hl : ∃ k ∈ tl.toList, equiv cl (h.lval k) key = true
    · obtain ⟨k, hk, he⟩ := hl
      rw [hA.at_left_or_default_present hcl key hk he] at hop
      simp only [Option.some.injEq, Prod.mk.injEq] at hop
      exact hop.1 ▸ hkeep
    · have hl' : ∀ k ∈ tl.toList, equiv cl (h.lval k) key = false :=
        fun k hk => by simpa using fun e => hl ⟨k, hk, e⟩
      by_cases hr : ∃ k ∈ tr.toList, equiv cr (h.rval k) default = true
      · obtain ⟨k, hk, he⟩ := hr
        obtain ⟨h2, hi, hA2, hO⟩ := hA.at_left_or_default_reuse_out hcl hcr key hl' hk he
        rw [hi] at hop
        simp only [Option.some.injEq, Prod.mk.injEq] at hop
        refine hop.1 ▸ ⟨_, _, hA2, fun j hj => Or.inl ?_, hO⟩
        rcases (Shape.mem_insert _ _ _ _ _).1 hj with rfl | hj
        · exact hA.same.mem_iff.2 hk
        · exact (Shape.mem_of_mem_erase hnd hj).1
      · have hr' : ∀ k ∈ tr.toList, equiv cr (h.rval k) default = false :=
          fun k hk => by simpa using fun e => hr ⟨k, hk, e⟩
        have hfl : find_left cl h b key = some (end_left b) := by
          rcases hA.links.find_left_cases hcl key with ⟨-, h2, -⟩ | ⟨k, hk, -, -, h3⟩
          · exact h2
          · rw [hl' k hk] at h3; exact absurd h3 Bool.false_ne_true
        have hfr : find_right cr h b default = some (end_right b) := by
          rcases hA.links.find_right_cases hcr default with ⟨-, h2, -⟩ | ⟨k, hk, -, -, h3⟩
          · exact h2
          · rw [hr' k hk] at h3; exact absurd h3 Bool.false_ne_true
        obtain ⟨h2, hi, hA2, -, -, -, -, hO⟩ := hA.insert_out hcl hcr key default hl' hr'
        simp only [bimap.at_left_or_default, hfl, hfr, hi, Option.some_bind, ne_eq,
          not_true_eq_false, if_false, Option.bind_eq_some, Option.some.injEq,
          Prod.mk.injEq] at hop
        obtain ⟨_, _, _, _, hh, _⟩ := hop
        exact hh ▸ ⟨_, _, hA2, hfresh h2 key default _ _, hO⟩
  | @at_right_or_default v key hop =>
    by_cases hr : ∃ k ∈ tr.toList, equiv cr (h.rval k) key = true
    · obtain ⟨k, hk, he⟩ := hr
      rw [hA.at_right_or_default_present hcr key hk he] at hop
      simp only [Option.some.injEq, Prod.mk.injEq] at hop
      exact hop.1 ▸ hkeep
    · have hr' : ∀ k ∈ tr.toList, equiv cr (h.rval k) key = false :=
        fun k hk => by simpa using fun e => hr ⟨k, hk, e⟩
      by_cases hl : ∃ k ∈ tl.toList, equiv cl (h.lval k) default = true
      · obtain ⟨k, hk, he⟩ := hl
        obtain ⟨h2, hi, hA2, hO⟩ := hA.at_right_or_default_reuse_out hcl hcr key hr' hk he
        rw [hi] at hop
        simp only [Option.some.injEq, Prod.mk.injEq] at hop
        exact hop.1 ▸ ⟨_, _, hA2, fun j hj => Or.inl hj, hO⟩
      · have hl' : ∀ k ∈ tl.toList, equiv cl (h.lval k) default = false :=
          fun k hk => by simpa using fun e => hl ⟨k, hk, e⟩
        have hfr : find_right cr h b key = some (end_right b) := by
          rcases hA.links.find_right_cases hcr key with ⟨-, h2, -⟩ | ⟨k, hk, -, -, h3⟩
          · exact h2
          · rw [hr' k hk] at h3; exact absurd h3 Bool.false_ne_true
        have hfl : find_left cl h b default = some (end_left b) := by
          rcases hA.links.find_left_cases hcl default with ⟨-, h2, -⟩ | ⟨k, hk, -, -, h3⟩
          · exact h2
          · rw [hl' k hk] at h3; exact absurd h3 Bool.false_ne_true
        obtain ⟨h2, hi, hA2, -, -, -, -, hO⟩ := hA.insert_out hcl hcr default key hl' hr'
        simp only [bimap.at_right_or_default, hfl, hfr, hi, Option.some_bind, ne_eq,
          not_true_eq_false, if_false, Option.bind_eq_some, Option.some.injEq,
          Prod.mk.injEq] at hop
        obtain ⟨_, _, hh, _⟩ := hop
        exact hh ▸ ⟨_, _, hA2, hfresh h2 default key _ _, hO⟩

end bimap

namespace details

/-! ## `swap` -/

/-- Source-level effect of `treap::swap_fake(a, b)` on two different sentinels of one role
whose partner sentinels (of the other role) are `pa` and `pb`, and whose roots are two
different elements or null. -/
theorem swap_fake_spec (m : Mem) (tag tag1 : Tag) (x y x1 y1 : Nat) (ra rb : Ptr)
    (hxy : x ≠ y) (hxy1 : x1 ≠ y1) (htag : tag1 ≠ tag)
    (har : (m (Ptr.fake tag x)).right = Ptr.fake tag1 x1)
    (hbr : (m (Ptr.fake tag y)).right = Ptr.fake tag1 y1)
    (hal : (m (Ptr.fake tag x)).left = ra) (hbl : (m (Ptr.fake tag y)).left = rb)
    (hra : ra = Ptr.null ∨ ∃ k, ra = Ptr.elem tag k)
    (hrb : rb = Ptr.null ∨ ∃ k, rb = Ptr.elem tag k)
    (hne : ra = rb → ra = Ptr.null) :
    ∃ m1, treap.swap_fake m (Ptr.fake tag x) (Ptr.fake tag y) = some m1 ∧
      m1 (Ptr.fake tag x) = ⟨(m (Ptr.fake tag x)).par, rb, Ptr.fake tag1 y1⟩ ∧
      m1 (Ptr.fake tag y) = ⟨(m (Ptr.fake tag y)).par, ra, Ptr.fake tag1 x1⟩ ∧
      m1 (Ptr.fake tag1 x1) = ⟨(m (Ptr.fake tag1 x1)).par, (m (Ptr.fake tag1 x1)).left,
        (m (Ptr.fake tag1 y1)).right⟩ ∧
      m1 (Ptr.fake tag1 y1) = ⟨(m (Ptr.fake tag1 y1)).par, (m (Ptr.fake tag1 y1)).left,
        (m (Ptr.fake tag1 x1)).right⟩ ∧
      (rb ≠ Ptr.null → m1 rb = ⟨Ptr.fake tag x, (m rb).left, (m rb).right⟩) ∧
      (ra ≠ Ptr.null → m1 ra = ⟨Ptr.fake tag y, (m ra).left, (m ra).right⟩) ∧
      (∀ p, p ≠ Ptr.fake tag x → p ≠ Ptr.fake tag y → p ≠ Ptr.fake tag1 x1 →
        p ≠ Ptr.fake tag1 y1 → p ≠ ra → p ≠ rb → m1 p = m p) := by
  have hyx : y ≠ x := fun e => hxy e.symm
  have hyx1 : y1 ≠ x1 := fun e => hxy1 e.symm
  have htag' : tag ≠ tag1 := fun e => htag e.symm
  rcases hra with rfl | ⟨ka, rfl⟩ <;> rcases hrb with rfl | ⟨kb, rfl⟩
  · refine ⟨_, by
      simp [treap.swap_fake, Mem.swap_right, Mem.swap_left, Mem.set_right, Mem.set_left,
        Mem.set_par, Mem.write, Function.update, har, hbr, hal, hbl, hxy, hyx, hxy1, hyx1,
        htag, htag']
      rfl, ?_, ?_, ?_, ?_, ?_, ?_, ?_⟩
    · simp [Function.update, hxy, hyx, hxy1, hyx1, htag, htag', har, hbr, hal, hbl]
    · simp [Function.update, hxy, hyx, hxy1, hyx1, htag, htag', har, hbr, hal, hbl]
    · simp [Function.update, hxy, hyx, hxy1, hyx1, htag, htag', har, hbr, hal, hbl]
    · simp [Function.update, hxy, hyx, hxy1, hyx1, htag, htag', har, hbr, hal, hbl]
    · simp [Function.update, hxy, hyx, hxy1, hyx1, htag, htag', har, hbr, hal, hbl]
    · simp [Function.update, hxy, hyx, hxy1, hyx1, htag, htag', har, hbr, hal, hbl]
    · intro p h1 h2 h3 h4 h5 h6
      simp [Function.update, h1, h2, h3, h4, h5, h6]
  · refine ⟨_, by
      simp [treap.swap_fake, Mem.swap_right, Mem.swap_left, Mem.set_right, Mem.set_left,
        Mem.set_par, Mem.write, Function.update, har, hbr, hal, hbl, hxy, hyx, hxy1, hyx1,
        htag, htag']
      rfl, ?_, ?_, ?_, ?_, ?_, ?_, ?_⟩
    · simp [Function.update, hxy, hyx, hxy1, hyx1, htag, htag', har, hbr, hal, hbl]
    · simp [Function.update, hxy, hyx, hxy1, hyx1, htag, htag', har, hbr, hal, hbl]
    · simp [Function.update, hxy, hyx, hxy1, hyx1, htag, htag', har, hbr, hal, hbl]
    · simp [Function.update, hxy, hyx, hxy1, hyx1, htag, htag', har, hbr, hal, hbl]
    · simp [Function.update, hxy, hyx, hxy1, hyx1, htag, htag', har, hbr, hal, hbl]
    · simp [Function.update, hxy, hyx, hxy1, hyx1, htag, htag', har, hbr, hal, hbl]
    · intro p h1 h2 h3 h4 h5 h6
      simp [Function.update, h1, h2, h3, h4, h5, h6]
  · refine ⟨_, by
      simp [treap.swap_fake, Mem.swap_right, Mem.swap_left, Mem.set_right, Mem.set_left,
        Mem.set_par, Mem.write, Function.update, har, hbr, hal, hbl, hxy, hyx, hxy1, hyx1,
        htag, htag']
      rfl, ?_, ?_, ?_, ?_, ?_, ?_, ?_⟩
    · simp [Function.update, hxy, hyx, hxy1, hyx1, htag, htag', har, hbr, hal, hbl]
    · simp [Function.update, hxy, hyx, hxy1, hyx1, htag, htag', har, hbr, hal, hbl]
    · simp [Function.update, hxy, hyx, hxy1, hyx1, htag, htag', har, hbr, hal, hbl]
    · simp [Function.update, hxy, hyx, hxy1, hyx1, htag, htag', har, hbr, hal, hbl]
    · simp [Function.update, hxy, hyx, hxy1, hyx1, htag, htag', har, hbr, hal, hbl]
    · simp [Function.update, hxy, hyx, hxy1, hyx1, htag, htag', har, hbr, hal, hbl]
    · intro p h1 h2 h3 h4 h5 h6
      simp [Function.update, h1, h2, h3, h4, h5, h6]
  · have hk : ka ≠ kb := by
      intro e
      have := hne (by rw [e])
      simp at this
    have hk' : kb ≠ ka := fun e => hk e.symm
    refine ⟨_, by
      simp [treap.swap_fake, Mem.swap_right, Mem.swap_left, Mem.set_right, Mem.set_left,
        Mem.set_par, Mem.write, Function.update, har, hbr, hal, hbl, hxy, hyx, hxy1, hyx1,
        htag, htag', hk, hk']
      rfl, ?_, ?_, ?_, ?_, ?_, ?_, ?_⟩
    · simp [Function.update, hxy, hyx, hxy1, hyx1, htag, htag', har, hbr, hal, hbl, hk, hk']
    · simp [Function.update, hxy, hyx, hxy1, hyx1, htag, htag', har, hbr, hal, hbl, hk, hk']
    · simp [Function.update, hxy, hyx, hxy1, hyx1, htag, htag', har, hbr, hal, hbl, hk, hk']
    · simp [Function.update, hxy, hyx, hxy1, hyx1, htag, htag', har, hbr, hal, hbl, hk, hk']
    · simp [Function.update, hxy, hyx, hxy1, hyx1, htag, htag', har, hbr, hal, hbl, hk, hk']
    · simp [Function.update, hxy, hyx, hxy1, hyx1, htag, htag', har, hbr, hal, hbl, hk, hk']
    · intro p h1 h2 h3 h4 h5 h6
      simp [Function.update, h1, h2, h3, h4, h5, h6]

/-- A linked tree stays linked when only its root cell changes, and only in the parent
link. -/
theorem Linked.reroot {m m1 : Mem} {tag : Tag} (t : Shape) (q q1 : Ptr)
    (hL : Linked m tag t q) (hnd : t.toList.Nodup)
    (hk : ∀ k ∈ t.toList, Ptr.elem tag k ≠ t.root tag →
      m1 (Ptr.elem tag k) = m (Ptr.elem tag k))
    (hroot : t.root tag ≠ Ptr.null →
      m1 (t.root tag) = ⟨q1, (m (t.root tag)).left, (m (t.root tag)).right⟩) :
    Linked m1 tag t q1 := by
  cases t with
  | nil => trivial
  | node l n r =>
    obtain ⟨-, hl, hr, hLl, hLr⟩ := hL
    obtain ⟨-, -, hnl, hnr, -⟩ := nodup_node hnd
    have hr0 := hroot (by simp [Shape.root])
    simp only [Shape.root_node] at hr0 hk
    refine ⟨by rw [hr0], by rw [hr0]; exact hl, by rw [hr0]; exact hr, ?_, ?_⟩
    · refine Linked.transfer l _ (fun k hkl => hk k (by simp [Shape.toList, hkl]) ?_) hLl
      simp only [ne_eq, Ptr.elem.injEq, true_and]
      exact fun e => hnl (e ▸ hkl)
    · refine Linked.transfer r _ (fun k hkr => hk k (by simp [Shape.toList, hkr]) ?_) hLr
      simp only [ne_eq, Ptr.elem.injEq, true_and]
      exact fun e => hnr (e ▸ hkr)

end details

namespace bimap

open details

variable {L R : Type} {cl : L → L → Bool} {cr : R → R → Bool}

/-- An object whose sentinels have taken over the trees of the object `b`: the sentinels of
`a` point to the roots of the trees of `b` and to each other, the roots point back to the
sentinels of `a`, and nothing else of the trees has changed. -/
theorem Abs.of_swapped {h h1 : Heap L R} {a b : Nat} {tlb trb : Shape}
    (hAb : Abs cl cr h b tlb trb)
    (hfl : h1.base (end_left a) = ⟨Ptr.null, tlb.root Tag.left_tag, end_right a⟩)
    (hfr : h1.base (end_right a) = ⟨Ptr.null, trb.root Tag.right_tag, end_left a⟩)
    (hrl : tlb.root Tag.left_tag ≠ Ptr.null → h1.base (tlb.root Tag.left_tag)
      = ⟨end_left a, (h.base (tlb.root Tag.left_tag)).left,
        (h.base (tlb.root Tag.left_tag)).right⟩)
    (hrr : trb.root Tag.right_tag ≠ Ptr.null → h1.base (trb.root Tag.right_tag)
      = ⟨end_right a, (h.base (trb.root Tag.right_tag)).left,
        (h.base (trb.root Tag.right_tag)).right⟩)
    (hkl : ∀ k ∈ tlb.toList, Ptr.elem Tag.left_tag k ≠ tlb.root Tag.left_tag →
      h1.base (Ptr.elem Tag.left_tag k) = h.base (Ptr.elem Tag.left_tag k))
    (hkr : ∀ k ∈ trb.toList, Ptr.elem Tag.right_tag k ≠ trb.root Tag.right_tag →
      h1.base (Ptr.elem Tag.right_tag k) = h.base (Ptr.elem Tag.right_tag k))
    (hlv : h1.lval = h.lval) (hrv : h1.rval = h.rval) (hnx : h1.next = h.next)
    (hsz : h1.sz a = h.sz b) : Abs cl cr h1 a tlb trb := by
  refine ⟨⟨⟨?_, ?_, ?_, hAb.links.left_inv.nodup, ?_⟩, ⟨?_, ?_, ?_, hAb.links.right_inv.nodup, ?_⟩,
    ?_, ?_, ?_, ?_⟩, hAb.same, ?_⟩
  · show (h1.base (end_left a)).par = Ptr.null
    rw [hfl]
  · show (h1.base (end_left a)).left = tlb.root Tag.left_tag
    rw [hfl]
  · exact Linked.reroot tlb _ (end_left a) hAb.links.left_inv.linked hAb.links.left_inv.nodup
      hkl hrl
  · have := hAb.links.left_inv.sorted
    simp only [left_treap] at this ⊢
    rw [hlv]
    exact this
  · show (h1.base (end_right a)).par = Ptr.null
    rw [hfr]
  · show (h1.base (end_right a)).left = trb.root Tag.right_tag
    rw [hfr]
  · exact Linked.reroot trb _ (end_right a) hAb.links.right_inv.linked
      hAb.links.right_inv.nodup hkr hrr
  · have := hAb.links.right_inv.sorted
    simp only [right_treap] at this ⊢
    rw [hrv]
    exact this
  · rw [hfl]
  · rw [hfr]
  · rw [hnx]; exact hAb.links.left_alloc
  · rw [hnx]; exact hAb.links.right_alloc
  · rw [hsz]; exact hAb.count

end bimap

namespace bimap

open details

variable {L R : Type} {cl : L → L → Bool} {cr : R → R → Bool}

theorem fake_ne_root (tag tag1 : Tag) (c : Nat) (t : Shape) :
    Ptr.fake tag c ≠ t.root tag1 := by
  cases t <;> simp [Shape.root]

theorem elem_ne_root {tag tag1 : Tag} {k : Nat} {t : Shape} (hk : k ∉ t.toList) :
    Ptr.elem tag k ≠ t.root tag1 := by
  cases t with
  | nil => simp [Shape.root]
  | node l n r =>
    simp only [Shape.root, ne_eq, Ptr.elem.injEq, not_and]
    intro _ e
    exact hk (e ▸ by simp [Shape.toList])

theorem elem_ne_root_tag {tag tag1 : Tag} (k : Nat) (t : Shape) (hne : tag ≠ tag1) :
    Ptr.elem tag k ≠ t.root tag1 := by
  cases t with
  | nil => simp [Shape.root]
  | node l n r =>
    simp only [Shape.root, ne_eq, Ptr.elem.injEq, not_and]
    exact fun e => absurd e hne

theorem root_cases_elem (tag : Tag) (t : Shape) :
    t.root tag = Ptr.null ∨ ∃ k, t.root tag = Ptr.elem tag k := by
  rcases Shape.root_cases tag t with h | ⟨k, -, h⟩
  · exact Or.inl h
  · exact Or.inr ⟨k, h⟩

theorem root_ne_of_disjoint (tag : Tag) {t1 t2 : Shape}
    (hd : ∀ k ∈ t1.toList, k ∉ t2.toList) (e : t1.root tag = t2.root tag) :
    t1.root tag = Ptr.null := by
  rcases Shape.root_cases tag t1 with h | ⟨k, hk, h⟩
  · exact h
  · exact absurd (Shape.root_mem (e ▸ h)) (hd k hk)

/-- `swap` of two different well-formed bimaps with no node in common: each object ends with
the trees and the size of the other, its sentinels reference each other, and everything
outside the two objects is as before. -/
theorem Abs.swap_distinct {h : Heap L R} {a b : Nat} {tla tra tlb trb : Shape}
    (hAa : Abs cl cr h a tla tra) (hAb : Abs cl cr h b tlb trb) (hab : a ≠ b)
    (hdisj : ∀ k ∈ tla.toList, k ∉ tlb.toList) :
    ∃ h1, bimap.swap h a b = some h1 ∧ Abs cl cr h1 a tlb trb ∧ Abs cl cr h1 b tla tra ∧
      h1.lval = h.lval ∧ h1.rval = h.rval ∧ h1.next = h.next ∧
      Outside h h1 [a, b] (tla.toList ++ tlb.toList) := by
  have hba : b ≠ a := fun e => hab e.symm
  have hdisj' : ∀ k ∈ tlb.toList, k ∉ tla.toList := fun k hk hm => hdisj k hm hk
  have hdr : ∀ k ∈ tra.toList, k ∉ trb.toList := fun k hk hm =>
    hdisj k (hAa.same.mem_iff.2 hk) (hAb.same.mem_iff.2 hm)
  have hdr' : ∀ k ∈ trb.toList, k ∉ tra.toList := fun k hk hm => hdr k hm hk
  -- the four sentinels before the call
  have pal : (h.base (Ptr.fake Tag.left_tag a)).par = Ptr.null := hAa.links.left_inv.fake_par
  have pbl : (h.base (Ptr.fake Tag.left_tag b)).par = Ptr.null := hAb.links.left_inv.fake_par
  have par : (h.base (Ptr.fake Tag.right_tag a)).par = Ptr.null :=
    hAa.links.right_inv.fake_par
  have pbr : (h.base (Ptr.fake Tag.right_tag b)).par = Ptr.null :=
    hAb.links.right_inv.fake_par
  have lal : (h.base (Ptr.fake Tag.left_tag a)).left = tla.root Tag.left_tag :=
    hAa.links.left_inv.fake_left
  have lbl : (h.base (Ptr.fake Tag.left_tag b)).left = tlb.root Tag.left_tag :=
    hAb.links.left_inv.fake_left
  have lar : (h.base (Ptr.fake Tag.right_tag a)).left = tra.root Tag.right_tag :=
    hAa.links.right_inv.fake_left
  have lbr : (h.base (Ptr.fake Tag.right_tag b)).left = trb.root Tag.right_tag :=
    hAb.links.right_inv.fake_left
  have ral : (h.base (Ptr.fake Tag.left_tag a)).right = Ptr.fake Tag.right_tag a :=
    hAa.links.left_cross
  have rbl : (h.base (Ptr.fake Tag.left_tag b)).right = Ptr.fake Tag.right_tag b :=
    hAb.links.left_cross
  have rar : (h.base (Ptr.fake Tag.right_tag a)).right = Ptr.fake Tag.left_tag a :=
    hAa.links.right_cross
  have rbr : (h.base (Ptr.fake Tag.right_tag b)).right = Ptr.fake Tag.left_tag b :=
    hAb.links.right_cross
  -- the exchange of the left sentinels
  obtain ⟨m1, hs1, h1a, h1b, h1ar, h1br, h1rb, h1ra, h1f⟩ :=
    swap_fake_spec h.base Tag.left_tag Tag.right_tag a b a b (tla.root Tag.left_tag)
      (tlb.root Tag.left_tag) hab hab (by simp) ral rbl lal lbl (root_cases_elem _ _)
      (root_cases_elem _ _) (root_ne_of_disjoint _ hdisj)
  rw [pal] at h1a
  rw [pbl] at h1b
  rw [par, lar, rbr] at h1ar
  rw [pbr, lbr, rar] at h1br
  -- the exchange of the right sentinels
  obtain ⟨m2, hs2, h2a, h2b, h2bl, h2al, h2rb, h2ra, h2f⟩ :=
    swap_fake_spec m1 Tag.right_tag Tag.left_tag a b b a (tra.root Tag.right_tag)
      (trb.root Tag.right_tag) hab hba (by simp) (by rw [h1ar]) (by rw [h1br])
      (by rw [h1ar]) (by rw [h1br]) (root_cases_elem _ _) (root_cases_elem _ _)
      (root_ne_of_disjoint _ hdr)
  rw [h1ar] at h2a
  rw [h1br] at h2b
  rw [h1a, h1b] at h2al h2bl
  simp only at h2a h2b h2al h2bl
  -- elements
  have hel : ∀ k, Ptr.elem Tag.left_tag k ≠ tla.root Tag.left_tag →
      Ptr.elem Tag.left_tag k ≠ tlb.root Tag.left_tag →
      m2 (Ptr.elem Tag.left_tag k) = h.base (Ptr.elem Tag.left_tag k) := by
    intro k h1 h2
    rw [h2f _ (by simp) (by simp) (by simp) (by simp) (elem_ne_root_tag _ _ (by simp))
      (elem_ne_root_tag _ _ (by simp)),
      h1f _ (by simp) (by simp) (by simp) (by simp) h1 h2]
  have her : ∀ k, Ptr.elem Tag.right_tag k ≠ tra.root Tag.right_tag →
      Ptr.elem Tag.right_tag k ≠ trb.root Tag.right_tag →
      m2 (Ptr.elem Tag.right_tag k) = h.base (Ptr.elem Tag.right_tag k) := by
    intro k h1 h2
    rw [h2f _ (by simp) (by simp) (by simp) (by simp) h1 h2,
      h1f _ (by simp) (by simp) (by simp) (by simp) (elem_ne_root_tag _ _ (by simp))
        (elem_ne_root_tag _ _ (by simp))]
  have hrootl : ∀ (t : Shape) (q : Ptr), t.root Tag.left_tag ≠ Ptr.null →
      m1 (t.root Tag.left_tag) = ⟨q, (h.base (t.root Tag.left_tag)).left,
        (h.base (t.root Tag.left_tag)).right⟩ →
      m2 (t.root Tag.left_tag) = ⟨q, (h.base (t.root Tag.left_tag)).left,
        (h.base (t.root Tag.left_tag)).right⟩ := by
    intro t q hne hm
    rcases Shape.root_cases Tag.left_tag t with h0 | ⟨k, -, hk⟩
    · exact absurd h0 hne
    · rw [hk] at hm ⊢
      rw [h2f _ (by simp) (by simp) (by simp) (by simp) (elem_ne_root_tag _ _ (by simp))
        (elem_ne_root_tag _ _ (by simp)), hm]
  have hrootr : ∀ (t : Shape), t.root Tag.right_tag ≠ Ptr.null →
      m1 (t.root Tag.right_tag) = h.base (t.root Tag.right_tag) := by
    intro t hne
    rcases Shape.root_cases Tag.right_tag t with h0 | ⟨k, -, hk⟩
    · exact absurd h0 hne
    · rw [hk]
      exact h1f _ (by simp) (by simp) (by simp) (by simp) (elem_ne_root_tag _ _ (by simp))
        (elem_ne_root_tag _ _ (by simp))
  have hsw : bimap.swap h a b = some (Heap.mk m2 h.lval h.lprior h.rval h.rprior
      (Function.update (Function.update h.sz a (h.sz b)) b (h.sz a)) h.next h.rnd
      h.drawn) := by
    simp [bimap.swap, treap.swap, hs1, hs2]
  refine ⟨_, hsw, ?_, ?_, rfl, rfl, rfl, ?_⟩
  · refine hAb.of_swapped ?_ ?_ ?_ ?_ ?_ ?_ rfl rfl rfl ?_
    · exact h2al
    · exact h2a
    · exact fun hne => hrootl tlb _ hne (h1rb hne)
    · intro hne
      show m2 (trb.root Tag.right_tag) = _
      rw [h2rb hne, hrootr trb hne]
      rfl
    · exact fun k hk hne => hel k (elem_ne_root (hdisj' k hk)) hne
    · exact fun k hk hne => her k (elem_ne_root (hdr' k hk)) hne
    · simp [Function.update, hab]
  · refine hAa.of_swapped ?_ ?_ ?_ ?_ ?_ ?_ rfl rfl rfl ?_
    · exact h2bl
    · exact h2b
    · exact fun hne => hrootl tla _ hne (h1ra hne)
    · intro hne
      show m2 (tra.root Tag.right_tag) = _
      rw [h2ra hne, hrootr tra hne]
      rfl
    · exact fun k hk hne => hel k hne (elem_ne_root (hdisj k hk))
    · exact fun k hk hne => her k hne (elem_ne_root (hdr k hk))
    · simp [Function.update]
  · refine ⟨?_, ?_, fun _ _ _ => rfl, fun _ _ _ => rfl, ?_, le_refl _⟩
    · intro tag c hc
      simp only [List.mem_cons, List.mem_singleton, not_or, List.not_mem_nil,
        or_false] at hc
      show m2 (Ptr.fake tag c) = h.base (Ptr.fake tag c)
      rw [h2f _ (by simp [hc.1]) (by simp [hc.2]) (by simp [hc.2]) (by simp [hc.1])
        (fake_ne_root _ _ _ _) (fake_ne_root _ _ _ _),
        h1f _ (by simp [hc.1]) (by simp [hc.2]) (by simp [hc.1]) (by simp [hc.2])
        (fake_ne_root _ _ _ _) (fake_ne_root _ _ _ _)]
    · intro tag k hk _
      simp only [List.mem_append, not_or] at hk
      have hka : k ∉ tra.toList := fun hm => hk.1 (hAa.same.mem_iff.2 hm)
      have hkb : k ∉ trb.toList := fun hm => hk.2 (hAb.same.mem_iff.2 hm)
      show m2 (Ptr.elem tag k) = h.base (Ptr.elem tag k)
      rw [h2f _ (by simp) (by simp) (by simp) (by simp) (elem_ne_root hka)
        (elem_ne_root hkb),
        h1f _ (by simp) (by simp) (by simp) (by simp) (elem_ne_root hk.1)
        (elem_ne_root hk.2)]
    · intro c hc
      simp only [List.mem_cons, List.mem_singleton, not_or, List.not_mem_nil,
        or_false] at hc
      simp [Function.update, hc.1, hc.2]

end bimap

namespace details

theorem Mem.set_right_self (m : Mem) (p : Ptr) (hp : p ≠ Ptr.null) :
    m.set_right p (m p).right = some m := by
  cases p with
  | null => exact absurd rfl hp
  | fake tag c =>
    have : Function.update m (Ptr.fake tag c) ⟨(m (Ptr.fake tag c)).par,
        (m (Ptr.fake tag c)).left, (m (Ptr.fake tag c)).right⟩ = m :=
      Function.update_eq_self _ _
    simp [Mem.set_right, Mem.write, this]
  | elem tag k =>
    have : Function.update m (Ptr.elem tag k) ⟨(m (Ptr.elem tag k)).par,
        (m (Ptr.elem tag k)).left, (m (Ptr.elem tag k)).right⟩ = m :=
      Function.update_eq_self _ _
    simp [Mem.set_right, Mem.write, this]

theorem Mem.set_left_self (m : Mem) (p : Ptr) (hp : p ≠ Ptr.null) :
    m.set_left p (m p).left = some m := by
  cases p with
  | null => exact absurd rfl hp
  | fake tag c =>
    have : Function.update m (Ptr.fake tag c) ⟨(m (Ptr.fake tag c)).par,
        (m (Ptr.fake tag c)).left, (m (Ptr.fake tag c)).right⟩ = m :=
      Function.update_eq_self _ _
    simp [Mem.set_left, Mem.write, this]
  | elem tag k =>
    have : Function.update m (Ptr.elem tag k) ⟨(m (Ptr.elem tag k)).par,
        (m (Ptr.elem tag k)).left, (m (Ptr.elem tag k)).right⟩ = m :=
      Function.update_eq_self _ _
    simp [Mem.set_left, Mem.write, this]

theorem Mem.set_par_self (m : Mem) (p : Ptr) (hp : p ≠ Ptr.null) :
    m.set_par p (m p).par = some m := by
  cases p with
  | null => exact absurd rfl hp
  | fake tag c =>
    have : Function.update m (Ptr.fake tag c) ⟨(m (Ptr.fake tag c)).par,
        (m (Ptr.fake tag c)).left, (m (Ptr.fake tag c)).right⟩ = m :=
      Function.update_eq_self _ _
    simp [Mem.set_par, Mem.write, this]
  | elem tag k =>
    have : Function.update m (Ptr.elem tag k) ⟨(m (Ptr.elem tag k)).par,
        (m (Ptr.elem tag k)).left, (m (Ptr.elem tag k)).right⟩ = m :=
      Function.update_eq_self _ _
    simp [Mem.set_par, Mem.write, this]

/-- `swap_fake(a, a)` on a sentinel with a partner and a root that points back to it changes
nothing. -/
theorem swap_fake_self (m : Mem) (p : Ptr) (hp : p ≠ Ptr.null)
    (hr : (m p).right ≠ Ptr.null)
    (hroot : (m p).left ≠ Ptr.null → (m (m p).left).par = p) :
    treap.swap_fake m p p = some m := by
  have h1 : m.swap_right p p = some m := by
    simp [Mem.swap_right, Mem.read_of_ne _ hp, Mem.set_right_self _ _ hp]
  have h2 : m.swap_right (m p).right (m p).right = some m := by
    simp [Mem.swap_right, Mem.read_of_ne _ hr, Mem.set_right_self _ _ hr]
  have h3 : m.swap_left p p = some m := by
    simp [Mem.swap_left, Mem.read_of_ne _ hp, Mem.set_left_self _ _ hp]
  have h4 : (if (m p).left ≠ Ptr.null then m.set_par (m p).left p else some m) = some m := by
    by_cases h0 : (m p).left = Ptr.null
    · simp [h0]
    · have := Mem.set_par_self m _ h0
      rw [hroot h0] at this
      simp [h0, this]
  simp only [treap.swap_fake, h1, Option.some_bind, h2, h3, h4]

end details

namespace bimap

open details

variable {L R : Type} {cl : L → L → Bool} {cr : R → R → Bool}

/-- `swap` of a well-formed bimap with itself changes nothing. -/
theorem Abs.swap_self {h : Heap L R} {a : Nat} {tl tr : Shape} (hA : Abs cl cr h a tl tr) :
    bimap.swap h a a = some h := by
  have hl : treap.swap h.base Tag.left_tag a a = some h.base := by
    refine swap_fake_self _ _ (by simp) ?_ ?_
    · have := hA.links.left_cross
      simp only [end_left, end_right] at this
      simp [this]
    · intro hne
      have h1 : (h.base (Ptr.fake Tag.left_tag a)).left = tl.root Tag.left_tag :=
        hA.links.left_inv.fake_left
      rw [h1] at hne ⊢
      cases tl with
      | nil => exact absurd rfl hne
      | node l n r => exact hA.links.left_inv.linked.1
  have hr : treap.swap h.base Tag.right_tag a a = some h.base := by
    refine swap_fake_self _ _ (by simp) ?_ ?_
    · have := hA.links.right_cross
      simp only [end_left, end_right] at this
      simp [this]
    · intro hne
      have h1 : (h.base (Ptr.fake Tag.right_tag a)).left = tr.root Tag.right_tag :=
        hA.links.right_inv.fake_left
      rw [h1] at hne ⊢
      cases tr with
      | nil => exact absurd rfl hne
      | node l n r => exact hA.links.right_inv.linked.1
  simp [bimap.swap, hl, hr]

/-! ## The invariant of a state with several objects -/

theorem Sys.subset {h : Heap L R} {objs objs1 : List Nat} (hS : Sys cl cr h objs)
    (hsub : ∀ c ∈ objs1, c ∈ objs) : Sys cl cr h objs1 := by
  obtain ⟨tls, trs, hAll, hdisj⟩ := hS
  exact ⟨tls, trs, fun c hc => hAll c (hsub c hc),
    fun a ha b hb => hdisj a (hsub a ha) b (hsub b hb)⟩

theorem Sys.wf_of_mem {h : Heap L R} {objs : List Nat} (hS : Sys cl cr h objs) {b : Nat}
    (hb : b ∈ objs) : WF cl cr h b := by
  obtain ⟨tls, trs, hAll, -⟩ := hS
  exact ⟨_, _, hAll b hb⟩

/-- The object `b` has been changed or constructed, everything else is as before. -/
theorem sys_update {h h1 : Heap L R} {objs : List Nat} {tls trs : Nat → Shape}
    (hAll : ∀ c ∈ objs, Abs cl cr h c (tls c) (trs c))
    (hdisj : ∀ a ∈ objs, ∀ b ∈ objs, a ≠ b → ∀ k ∈ (tls a).toList, k ∉ (tls b).toList)
    (b : Nat) {tl1 tr1 : Shape} (hA1 : Abs cl cr h1 b tl1 tr1) (own : List Nat)
    (hsub : ∀ k ∈ tl1.toList, k ∈ own ∨ h.next ≤ k)
    (hown : ∀ c ∈ objs, c ≠ b → ∀ k ∈ (tls c).toList, k ∉ own)
    (hO : Outside h h1 [b] own) : Sys cl cr h1 (b :: objs) := by
  have hother : ∀ c ∈ objs, c ≠ b → ∀ k ∈ (tls c).toList, k ∉ tl1.toList := by
    intro c hc hcb k hk hm
    rcases hsub k hm with h' | h'
    · exact hown c hc hcb k hk h'
    · have := (hAll c hc).links.left_alloc k hk
      omega
  refine ⟨Function.update tls b tl1, Function.update trs b tr1, ?_, ?_⟩
  · intro c hc
    by_cases hcb : c = b
    · subst hcb
      simpa using hA1
    · have hc' : c ∈ objs := by
        rcases List.mem_cons.1 hc with e | e
        · exact absurd e hcb
        · exact e
      simp only [Function.update, hcb, dif_neg, not_false_eq_true]
      exact (hAll c hc').outside hO (by simpa using hcb) (hown c hc' hcb)
  · intro a ha c hc hac k hk
    have mem : ∀ x, x ∈ b :: objs → x ≠ b → x ∈ objs := by
      intro x hx hxb
      rcases List.mem_cons.1 hx with e | e
      · exact absurd e hxb
      · exact e
    by_cases hab : a = b
    · subst hab
      have hca : c ≠ a := fun e => hac e.symm
      simp only [Function.update_same] at hk
      simp only [Function.update, hca, dif_neg, not_false_eq_true]
      exact fun hm => hother c (mem c hc hca) hca k hm hk
    · by_cases hcb : c = b
      · subst hcb
        simp only [Function.update, hab, dif_neg, not_false_eq_true] at hk
        simp only [Function.update_same]
        exact hother a (mem a ha hab) hab k hk
      · simp only [Function.update, hab, hcb, dif_neg, not_false_eq_true] at hk ⊢
        exact hdisj a (mem a ha hab) c (mem c hc hcb) hac k hk

/-- A call on one object of a state with several objects. -/
theorem Sys.after_op [Inhabited L] [Inhabited R] (hcl : StrictWeakOrder cl)
    (hcr : StrictWeakOrder cr) {h h1 : Heap L R} {objs : List Nat} (hS : Sys cl cr h objs)
    {b : Nat} (hb : b ∈ objs) (hop : Op cl cr b h h1) : Sys cl cr h1 objs := by
  obtain ⟨tls, trs, hAll, hdisj⟩ := hS
  obtain ⟨tl1, tr1, hA1, hsub, hO⟩ := hop.step hcl hcr (hAll b hb)
  refine (sys_update hAll hdisj b hA1 (tls b).toList hsub ?_ hO).subset ?_
  · exact fun c hc hcb k hk => hdisj c hc b hb hcb k hk
  · exact fun c hc => List.mem_cons_of_mem _ hc

/-- The default constructor on storage of its own. -/
theorem Sys.ctor {h : Heap L R} {objs : List Nat} (hS : Sys cl cr h objs) (b : Nat) :
    Sys cl cr (bimap.ctor h b) (b :: objs) := by
  obtain ⟨tls, trs, hAll, hdisj⟩ := hS
  refine sys_update hAll hdisj b (Abs.of_ctor h b) [] (by simp [Shape.toList])
    (fun _ _ _ _ _ => by simp) ⟨?_, fun _ _ _ _ => rfl, fun _ _ _ => rfl, fun _ _ _ => rfl, ?_,
      le_refl _⟩
  · intro tag c hc
    have hcb : c ≠ b := by simpa using hc
    simp [bimap.ctor, Function.update, hcb]
  · intro c hc
    have hcb : c ≠ b := by simpa using hc
    simp [bimap.ctor, Function.update, hcb]

end bimap

namespace bimap

open details

variable {L R : Type} {cl : L → L → Bool} {cr : R → R → Bool}

/-- `swap` of two objects of a state with several objects returns, and the objects stay well
formed with no node in common. -/
theorem Sys.swap {h : Heap L R} {objs : List Nat} (hS : Sys cl cr h objs) {a b : Nat}
    (ha : a ∈ objs) (hb : b ∈ objs) :
    ∃ h1, bimap.swap h a b = some h1 ∧ Sys cl cr h1 objs := by
  by_cases hab : a = b
  · subst hab
    obtain ⟨tls, trs, hAll, hdisj⟩ := hS
    exact ⟨h, (hAll a ha).swap_self, tls, trs, hAll, hdisj⟩
  · obtain ⟨tls, trs, hAll, hdisj⟩ := hS
    have hba : b ≠ a := fun e => hab e.symm
    obtain ⟨h1, hsw, hAa, hAb, -, -, -, hO⟩ :=
      (hAll a ha).swap_distinct (hAll b hb) hab (hdisj a ha b hb hab)
    refine ⟨h1, hsw, Function.update (Function.update tls a (tls b)) b (tls a),
      Function.update (Function.update trs a (trs b)) b (trs a), ?_, ?_⟩
    · intro c hc
      by_cases hcb : c = b
      · subst hcb
        simpa using hAb
      · by_cases hca : c = a
        · subst hca
          simpa [Function.update, hcb] using hAa
        · simp only [Function.update, hcb, hca, dif_neg, not_false_eq_true]
          refine (hAll c hc).outside hO (by simp [hca, hcb]) fun k hk hm => ?_
          rcases List.mem_append.1 hm with hm | hm
          · exact hdisj c hc a ha hca k hk hm
          · exact hdisj c hc b hb hcb k hk hm
    · have key : ∀ c, c ∈ objs → (Function.update (Function.update tls a (tls b)) b (tls a)) c
          = tls (if c = b then a else if c = a then b else c) := by
        intro c _
        by_cases hcb : c = b
        · subst hcb; simp
        · by_cases hca : c = a
          · subst hca; simp [Function.update, hcb]
          · simp [Function.update, hcb, hca]
      intro c hc d hd hcd k hk
      rw [key c hc] at hk
      rw [key d hd]
      have memf : ∀ c, c ∈ objs → (if c = b then a else if c = a then b else c) ∈ objs := by
        intro c hc
        split_ifs
        · exact ha
        · exact hb
        · exact hc
      refine hdisj _ (memf c hc) _ (memf d hd) ?_ k hk
      intro e
      apply hcd
      by_cases h1 : c = b <;> by_cases h2 : c = a <;> by_cases h3 : d = b <;>
        by_cases h4 : d = a <;> simp_all

end bimap

namespace bimap

open details

variable {L R : Type} {cl : L → L → Bool} {cr : R → R → Bool}

/-! ## The copy constructor -/

/-- The loop of the copy constructor: the pairs of `o` from the position of `rest` on are
inserted into `b`, whose nodes are new ones; everything outside `b` stays as it is. -/
theorem copy_loop_spec (hcl : StrictWeakOrder cl) (hcr : StrictWeakOrder cr) {b o : Nat}
    (hbo : o ≠ b) {h0 : Heap L R} {tlo tro : Shape} (hAo : Abs cl cr h0 o tlo tro) :
    ∀ (rest : List Nat) (fuel : Nat) (hi : Heap L R) (done : List Nat) (tli tri : Shape),
    tlo.toList = done ++ rest → Abs cl cr hi b tli tri →
    (∀ k ∈ tli.toList, h0.next ≤ k) → Outside h0 hi [b] [] →
    (tli.toList.map fun k => (hi.lval k, hi.rval k)).Perm
      (done.map fun k => (h0.lval k, h0.rval k)) →
    rest.length < fuel →
    ∃ h1 tl1 tr1, copy_loop cl cr b o fuel hi (first_or Tag.left_tag (end_left o) rest)
        = some h1 ∧
      Abs cl cr h1 b tl1 tr1 ∧ (∀ k ∈ tl1.toList, h0.next ≤ k) ∧ Outside h0 h1 [b] [] ∧
      (tl1.toList.map fun k => (h1.lval k, h1.rval k)).Perm
        (tlo.toList.map fun k => (h0.lval k, h0.rval k)) := by
  intro rest
  induction rest with
  | nil =>
    intro fuel hi done tli tri hsplit hAi hfresh hO hperm hlen
    obtain ⟨f1, rfl⟩ : ∃ f1, fuel = f1 + 1 := ⟨fuel - 1, by simp at hlen; omega⟩
    refine ⟨hi, tli, tri, by simp [copy_loop, first_or], hAi, hfresh, hO, ?_⟩
    rw [hsplit, List.append_nil]
    exact hperm
  | cons x rest ih =>
    intro fuel hi done tli tri hsplit hAi hfresh hO hperm hlen
    obtain ⟨f1, rfl⟩ : ∃ f1, fuel = f1 + 1 := ⟨fuel - 1, by simp at hlen; omega⟩
    have hnd := hAo.links.left_inv.nodup
    rw [hsplit] at hnd
    have hxd : x ∉ done := fun hm => (List.nodup_append.1 hnd).2.2 hm (by simp)
    have hx : x ∈ tlo.toList := by rw [hsplit]; simp
    have hxr : x ∈ tro.toList := hAo.same.mem_iff.1 hx
    have hdone : ∀ j ∈ done, j ∈ tlo.toList := fun j hj => by rw [hsplit]; simp [hj]
    -- the source object in the current state
    have hAoi : Abs cl cr hi o tlo tro :=
      hAo.outside hO (by simpa using hbo) (fun _ _ => by simp)
    have hlvx : ∀ j ∈ tlo.toList, hi.lval j = h0.lval j :=
      fun j hj => hO.lval j (by simp) (hAo.links.left_alloc j hj)
    have hrvx : ∀ j ∈ tlo.toList, hi.rval j = h0.rval j :=
      fun j hj => hO.rval j (by simp) (hAo.links.left_alloc j hj)
    -- every pair of `b` is the pair of a node of `done`
    have hsrc : ∀ k ∈ tli.toList, ∃ j ∈ done,
        (hi.lval k, hi.rval k) = (h0.lval j, h0.rval j) := by
      intro k hk
      have : (hi.lval k, hi.rval k) ∈ done.map fun k => (h0.lval k, h0.rval k) :=
        hperm.mem_iff.1 (List.mem_map.2 ⟨k, hk, rfl⟩)
      obtain ⟨j, hj, e⟩ := List.mem_map.1 this
      exact ⟨j, hj, e.symm⟩
    have hkl : ∀ k ∈ tli.toList, equiv cl (hi.lval k) (h0.lval x) = false := by
      intro k hk
      obtain ⟨j, hj, e⟩ := hsrc k hk
      simp only [Prod.mk.injEq] at e
      rw [e.1]
      by_contra hcon
      have hjx : j = x := hAo.links.left_unique hcl (hdone j hj) hx
        (by simpa using hcon) (equiv_self hcl _)
      exact hxd (hjx ▸ hj)
    have hkr : ∀ k ∈ tri.toList, equiv cr (hi.rval k) (h0.rval x) = false := by
      intro k hk
      obtain ⟨j, hj, e⟩ := hsrc k (hAi.same.mem_iff.2 hk)
      simp only [Prod.mk.injEq] at e
      rw [e.2]
      by_contra hcon
      have hjx : j = x := hAo.links.right_unique hcr (hAo.same.mem_iff.1 (hdone j hj)) hxr
        (by simpa using hcon) (equiv_self hcr _)
      exact hxd (hjx ▸ hj)
    obtain ⟨h2, hins, hA2, hlv2, hrv2, hnx2, -, hO2⟩ :=
      hAi.insert_out hcl hcr (h0.lval x) (h0.rval x) hkl hkr
    have hO02 : Outside h0 h2 [b] [] :=
      hO.trans hO2 fun k hk => Or.inr (hfresh k hk)
    have hAo2 : Abs cl cr h2 o tlo tro :=
      hAo.outside hO02 (by simpa using hbo) (fun _ _ => by simp)
    have hV := hAo2.links.left_visits
    rw [hsplit] at hV
    have hinc := Visits.incr_mem done hV
    have hni : hi.next ∉ tli.toList := fun hm => Nat.lt_irrefl _ (hAi.links.left_alloc _ hm)
    obtain ⟨h1, tl1, tr1, hloop, hA1, hfresh1, hO1, hperm1⟩ :=
      ih f1 h2 (done ++ [x]) _ _ (by simp [hsplit]) hA2
        (by
          intro k hk
          rcases (Shape.mem_insert _ _ _ _ _).1 hk with rfl | hk
          · exact hO.next
          · exact hfresh k hk)
        hO02
        (by
          refine ((Shape.insert_perm _ _ _ _).map _).trans ?_
          rw [List.map_cons, List.map_append, List.map_singleton]
          refine List.Perm.trans ?_ (List.perm_append_singleton _ _).symm
          have e1 : (h2.lval hi.next, h2.rval hi.next) = (h0.lval x, h0.rval x) := by
            simp [hlv2, hrv2]
          rw [e1]
          refine List.Perm.cons _ ?_
          refine List.Perm.trans ?_ hperm
          refine List.Perm.of_eq (List.map_congr_left fun k hk => ?_)
          have hkn : k ≠ hi.next := fun e => hni (e ▸ hk)
          simp [hlv2, hrv2, Function.update, hkn])
        (by simp at hlen; omega)
    refine ⟨h1, tl1, tr1, ?_, hA1, hfresh1, hO1, hperm1⟩
    have h0' : first_or Tag.left_tag (end_left o) (x :: rest) = Ptr.elem Tag.left_tag x := rfl
    rw [h0']
    simp only [copy_loop, end_left, reduceCtorEq, if_false, deref_left, Option.some_bind,
      hAoi.links.flip_left hx, deref_right, hlvx x hx, hrvx x hx, hins, hinc]
    exact hloop

end bimap

namespace bimap

open details

variable {L R : Type} {cl : L → L → Bool} {cr : R → R → Bool}

/-- Two strictly increasing sequences with the same elements are the same sequence. -/
theorem sorted_perm_eq {α : Type} (r : α → α → Prop) (hr : ∀ a b, r a b → r b a → False)
    {l1 l2 : List α} (hp : l1.Perm l2) (h1 : l1.Pairwise r) (h2 : l2.Pairwise r) :
    l1 = l2 := by
  haveI : IsAntisymm α r := ⟨fun a b hab hba => (hr a b hab hba).elim⟩
  exact List.eq_of_perm_of_sorted hp h1 h2

theorem swo_asymm {T : Type} {c : T → T → Bool} (hc : StrictWeakOrder c) (a b : T)
    (hab : c a b = true) (hba : c b a = true) : False := by
  have := hc.trans _ _ _ hab hba
  rw [hc.irrefl] at this
  exact Bool.false_ne_true this

/-- The copy constructor on storage of its own: the copy holds the pairs of the source in
new nodes, in the same left order and the same right order, and has its size; everything
outside the copy is as before. -/
theorem Abs.copy_ctor (hcl : StrictWeakOrder cl) (hcr : StrictWeakOrder cr) {h : Heap L R}
    {b o : Nat} (hbo : o ≠ b) {tlo tro : Shape} (hAo : Abs cl cr h o tlo tro) :
    ∃ h1 tl1 tr1, bimap.copy_ctor cl cr h b o = some h1 ∧ Abs cl cr h1 b tl1 tr1 ∧
      (∀ k ∈ tl1.toList, h.next ≤ k) ∧ Outside h h1 [b] [] ∧
      left_pairs h1 b = left_pairs h o ∧ right_pairs h1 b = right_pairs h o ∧
      size h1 b = size h o := by
  have hO0 : Outside h (bimap.ctor h b) [b] [] := by
    refine ⟨?_, fun _ _ _ _ => rfl, fun _ _ _ => rfl, fun _ _ _ => rfl, ?_, le_refl _⟩
    · intro tag c hc
      have hcb : c ≠ b := by simpa using hc
      simp [bimap.ctor, Function.update, hcb]
    · intro c hc
      have hcb : c ≠ b := by simpa using hc
      simp [bimap.ctor, Function.update, hcb]
  have hAo0 : Abs cl cr (bimap.ctor h b) o tlo tro :=
    hAo.outside hO0 (by simpa using hbo) (fun _ _ => by simp)
  have hsz := hAo.links.left_size
  rw [← Shape.length_toList] at hsz
  obtain ⟨h1, tl1, tr1, hloop, hA1, hfresh, hO1, hperm⟩ :=
    copy_loop_spec hcl hcr hbo hAo0 tlo.toList (bimap.ctor h b).fuel (bimap.ctor h b) []
      Shape.nil Shape.nil (by simp) (Abs.of_ctor h b) (by simp [Shape.toList])
      (Outside.same _ _ _) (by simp [Shape.toList])
      (by simp only [Heap.fuel, bimap.ctor]; omega)
  have hO : Outside h h1 [b] [] := hO0.trans hO1 (by simp)
  have hperm' : (tl1.toList.map fun k => (h1.lval k, h1.rval k)).Perm
      (tlo.toList.map fun k => (h.lval k, h.rval k)) := hperm
  have hl : left_pairs h1 b = left_pairs h o := by
    rw [hA1.links.left_pairs, hAo.links.left_pairs]
    congr 1
    refine sorted_perm_eq (fun p q : L × R => cl p.1 q.1 = true) (fun p q => swo_asymm hcl _ _) hperm'
      (List.pairwise_map.2 hA1.links.left_inv.sorted)
      (List.pairwise_map.2 hAo.links.left_inv.sorted)
  have hr : right_pairs h1 b = right_pairs h o := by
    rw [hA1.links.right_pairs, hAo.links.right_pairs]
    congr 1
    refine sorted_perm_eq (fun p q : L × R => cr p.2 q.2 = true) (fun p q => swo_asymm hcr _ _)
      (((hA1.same.map _).symm.trans hperm').trans (hAo.same.map _))
      (List.pairwise_map.2 hA1.links.right_inv.sorted)
      (List.pairwise_map.2 hAo.links.right_inv.sorted)
  refine ⟨h1, tl1, tr1, ?_, hA1, fun k hk => hfresh k hk, hO, hl, hr, ?_⟩
  · have hb0 : begin_left (bimap.ctor h b) o
        = some (first_or Tag.left_tag (end_left o) tlo.toList) := hAo0.links.begin_left
    simp only [bimap.copy_ctor, hb0, Option.some_bind]
    exact hloop
  · simp only [size]
    rw [hA1.count, hAo.count, ← List.length_map tl1.toList fun k => (h1.lval k, h1.rval k),
      hperm'.length_eq, List.length_map]

/-- The copy constructor in a state with several objects. -/
theorem Sys.after_copy (hcl : StrictWeakOrder cl) (hcr : StrictWeakOrder cr) {h : Heap L R}
    {objs : List Nat} (hS : Sys cl cr h objs) {b o : Nat} (hb : b ∉ objs) (ho : o ∈ objs) :
    ∃ h1, bimap.copy_ctor cl cr h b o = some h1 ∧ Sys cl cr h1 (b :: objs) := by
  obtain ⟨tls, trs, hAll, hdisj⟩ := hS
  have hob : o ≠ b := fun e => hb (e ▸ ho)
  obtain ⟨h1, tl1, tr1, hc, hA1, hfresh, hO, -⟩ := Abs.copy_ctor hcl hcr hob (hAll o ho)
  exact ⟨h1, hc, sys_update hAll hdisj b hA1 [] (fun k hk => Or.inr (hfresh k hk))
    (fun _ _ _ _ _ => by simp) hO⟩

/-- Every reachable state of a program with several bimaps: all objects are well formed and
no node belongs to two of them. -/
theorem SysReachable.sys [Inhabited L] [Inhabited R] (hcl : StrictWeakOrder cl)
    (hcr : StrictWeakOrder cr) {h : Heap L R} {objs : List Nat}
    (hR : SysReachable cl cr h objs) : Sys cl cr h objs := by
  induction hR with
  | init h0 => exact ⟨fun _ => Shape.nil, fun _ => Shape.nil, by simp, by simp⟩
  | ctor b _ _ ih => exact ih.ctor b
  | copy_ctor b o _ hb ho hc ih =>
    obtain ⟨h2, hc2, hS⟩ := ih.after_copy hcl hcr hb ho
    rw [hc2] at hc
    exact Option.some.inj hc ▸ hS
  | op b _ hb hop ih => exact ih.after_op hcl hcr hb hop
  | swap a b _ ha hb hsw ih =>
    obtain ⟨h2, hs2, hS⟩ := ih.swap ha hb
    rw [hs2] at hsw
    exact Option.some.inj hsw ▸ hS

end bimap

namespace bimap

open details

variable {L R : Type} {cl : L → L → Bool} {cr : R → R → Bool}

/-! ## The concrete instance with two objects -/

theorem demo_insert_at_reachable {h : Heap Nat Nat} {objs : List Nat}
    (hR : SysReachable nat_less nat_less h objs) (b : Nat) (hb : b ∈ objs) (l r : Nat) :
    SysReachable nat_less nat_less (demo_insert_at h b l r) objs := by
  unfold demo_insert_at
  cases hi : bimap.insert nat_less nat_less h b l r with
  | none => exact hR
  | some p => exact SysReachable.op b hR hb (Op.insert l r (show _ = some (p.1, p.2) from hi))

theorem duo0_reachable : SysReachable nat_less nat_less duo0 [1, 0] :=
  SysReachable.ctor 1 (SysReachable.ctor 0 (SysReachable.init _) (by simp)) (by simp)

theorem duo3_reachable : SysReachable nat_less nat_less duo3 [1, 0] :=
  demo_insert_at_reachable
    (demo_insert_at_reachable (demo_insert_at_reachable duo0_reachable 0 (by simp) 1 10) 0
      (by simp) 2 20) 1 (by simp) 5 50

theorem duo3_sys : Sys nat_less nat_less duo3 [1, 0] :=
  duo3_reachable.sys nat_less_swo nat_less_swo

theorem duo_swap_reachable : SysReachable nat_less nat_less duo_swap [1, 0] := by
  unfold duo_swap
  cases hs : bimap.swap duo3 0 1 with
  | none => exact duo3_reachable
  | some h1 => exact SysReachable.swap 0 1 duo3_reachable (by simp) (by simp) hs

theorem duo_copy_reachable : SysReachable nat_less nat_less duo_copy [2, 1, 0] := by
  obtain ⟨h1, hc, -⟩ := duo3_sys.after_copy nat_less_swo nat_less_swo
    (show 2 ∉ [1, 0] by simp) (show 0 ∈ [1, 0] by simp)
  have e : duo_copy = h1 := by
    unfold duo_copy
    rw [hc]
  rw [e]
  exact SysReachable.copy_ctor 2 0 duo3_reachable (by simp) (by simp) hc

/-- C16: in every state of a program that default constructs and copy constructs bimaps on
storage of their own and calls `insert`, `erase_left`, `erase_right` (by iterator, key or
range), `at_left_or_default`, `at_right_or_default` and `swap` on them, for every bimap `b`
constructed so far `end_left().flip()` is `end_right()` and `end_right().flip()` is
`end_left()`. -/
theorem sentinels_reference_each_other [Inhabited L] [Inhabited R]
    (hcl : StrictWeakOrder cl) (hcr : StrictWeakOrder cr) {h : Heap L R} {objs : List Nat}
    (hR : SysReachable cl cr h objs) (b : Nat) (hb : b ∈ objs) :
    iterator.flip h.base Tag.left_tag (end_left b) = some (end_right b) ∧
      iterator.flip h.base Tag.right_tag (end_right b) = some (end_left b) := by
  obtain ⟨tl, tr, hA⟩ := (hR.sys hcl hcr).wf_of_mem hb
  exact ⟨hA.links.flip_end_left, hA.links.flip_end_right⟩

/-- C16 at concrete inputs: object `0` after `swap` with object `1`, and object `2` copy
constructed from object `0`. -/
theorem sentinels_reference_each_other_witness :
    (iterator.flip duo_swap.base Tag.left_tag (end_left 0) = some (end_right 0) ∧
      iterator.flip duo_swap.base Tag.right_tag (end_right 0) = some (end_left 0)) ∧
    (iterator.flip duo_copy.base Tag.left_tag (end_left 2) = some (end_right 2) ∧
      iterator.flip duo_copy.base Tag.right_tag (end_right 2) = some (end_left 2)) :=
  ⟨sentinels_reference_each_other nat_less_swo nat_less_swo duo_swap_reachable 0 (by simp),
    sentinels_reference_each_other nat_less_swo nat_less_swo duo_copy_reachable 2 (by simp)⟩

end bimap

namespace bimap

open details

variable {L R : Type} {cl : L → L → Bool} {cr : R → R → Bool}

/-! ## `operator==` and `operator!=` -/

theorem treap_equal_eq_equiv {T : Type} (t : treap T) (x y : T) :
    t.equal x y = equiv t.cmp x y := by
  simp only [treap.equal, treap.less_or_equal, treap.greater_or_equal, equiv]
  exact Bool.and_comm _ _

/-- The loop of `operator==` over two sequences of nodes of the same length. -/
theorem eq_loop_spec (h : Heap L R) (a : Nat) (fb : Ptr) :
    ∀ (xs ys : List Nat) (fuel : Nat), xs.length = ys.length → xs.length < fuel →
    Visits h.base Tag.left_tag h.fuel xs (end_left a) →
    Visits h.base Tag.left_tag h.fuel ys fb →
    (∀ x ∈ xs, iterator.flip h.base Tag.left_tag (Ptr.elem Tag.left_tag x)
      = some (Ptr.elem Tag.right_tag x)) →
    (∀ y ∈ ys, iterator.flip h.base Tag.left_tag (Ptr.elem Tag.left_tag y)
      = some (Ptr.elem Tag.right_tag y)) →
    ∃ r, eq_loop cl cr h a fuel (first_or Tag.left_tag (end_left a) xs)
        (first_or Tag.left_tag fb ys) (end_left a) = some r ∧
      (r = true ↔ List.Forall₂ (fun x y => equiv cl (h.lval x) (h.lval y) = true ∧
        equiv cr (h.rval x) (h.rval y) = true) xs ys)
  | [], [], fuel, _, hlen, _, _, _, _ => by
    obtain ⟨f1, rfl⟩ : ∃ f1, fuel = f1 + 1 := ⟨fuel - 1, by simp at hlen; omega⟩
    exact ⟨true, by simp [eq_loop, first_or], by simp⟩
  | [], _ :: _, _, hl, _, _, _, _, _ => by simp at hl
  | _ :: _, [], _, hl, _, _, _, _, _ => by simp at hl
  | x :: xs, y :: ys, fuel, hl, hlen, hVx, hVy, hfx, hfy => by
    obtain ⟨f1, rfl⟩ : ∃ f1, fuel = f1 + 1 := ⟨fuel - 1, by simp at hlen; omega⟩
    obtain ⟨r, hr, hiff⟩ := eq_loop_spec h a fb xs ys f1 (by simpa using hl)
      (by simp at hlen; omega) hVx.2 hVy.2
      (fun k hk => hfx k (List.mem_cons_of_mem _ hk))
      (fun k hk => hfy k (List.mem_cons_of_mem _ hk))
    have h0x : first_or Tag.left_tag (end_left a) (x :: xs) = Ptr.elem Tag.left_tag x := rfl
    have h0y : first_or Tag.left_tag fb (y :: ys) = Ptr.elem Tag.left_tag y := rfl
    have e1 : (left_treap cl h a).equal (h.lval x) (h.lval y)
        = equiv cl (h.lval x) (h.lval y) := treap_equal_eq_equiv _ _ _
    have e2 : (right_treap cr h a).equal (h.rval x) (h.rval y)
        = equiv cr (h.rval x) (h.rval y) := treap_equal_eq_equiv _ _ _
    rw [h0x, h0y]
    by_cases hl1 : equiv cl (h.lval x) (h.lval y) = true
    · by_cases hr1 : equiv cr (h.rval x) (h.rval y) = true
      · refine ⟨r, ?_, ?_⟩
        · simp only [eq_loop, end_left, reduceCtorEq, if_false, deref_left, Option.some_bind,
            e1, hl1, if_true, hfx x (List.mem_cons_self _ _), hfy y (List.mem_cons_self _ _),
            deref_right, e2, hr1, hVx.1, hVy.1]
          exact hr
        · rw [hiff, List.forall₂_cons]
          simp [hl1, hr1]
      · refine ⟨false, ?_, ?_⟩
        · have hr1' : equiv cr (h.rval x) (h.rval y) = false := by simpa using hr1
          simp [eq_loop, end_left, deref_left, e1, hl1, hfx x (List.mem_cons_self _ _),
            hfy y (List.mem_cons_self _ _), deref_right, e2, hr1']
        · rw [List.forall₂_cons]
          simp [hr1]
    · refine ⟨false, ?_, ?_⟩
      · have hl1' : equiv cl (h.lval x) (h.lval y) = false := by simpa using hl1
        simp [eq_loop, end_left, deref_left, e1, hl1']
      · rw [List.forall₂_cons]
        simp [hl1]

/-- `operator==` on two well-formed bimaps with their trees. -/
theorem Abs.op_eq {h : Heap L R} {a b : Nat} {tla tra tlb trb : Shape}
    (hAa : Abs cl cr h a tla tra) (hAb : Abs cl cr h b tlb trb) :
    ∃ r, bimap.op_eq cl cr h a b = some r ∧
      (r = true ↔ size h a = size h b ∧
        List.Forall₂ (fun p q : L × R => equiv cl p.1 q.1 = true ∧ equiv cr p.2 q.2 = true)
          (tla.toList.map fun k => (h.lval k, h.rval k))
          (tlb.toList.map fun k => (h.lval k, h.rval k))) := by
  by_cases hsz : h.sz a = h.sz b
  · have hlen : tla.toList.length = tlb.toList.length := by
      rw [← hAa.count, ← hAb.count, hsz]
    have hs := hAa.links.left_size
    rw [← Shape.length_toList] at hs
    obtain ⟨r, hr, hiff⟩ := @eq_loop_spec L R cl cr h a (end_left b) tla.toList
      tlb.toList h.fuel hlen (by simp only [Heap.fuel]; omega) hAa.links.left_visits
      hAb.links.left_visits (fun x hx => hAa.links.flip_left hx)
      (fun y hy => hAb.links.flip_left hy)
    refine ⟨r, ?_, ?_⟩
    · simp only [bimap.op_eq, hsz, ne_eq, not_true_eq_false, if_false, hAa.links.begin_left,
        hAb.links.begin_left, Option.some_bind]
      exact hr
    · rw [hiff, List.forall₂_map_left_iff, List.forall₂_map_right_iff]
      simp [size, hsz]
  · exact ⟨false, by simp [bimap.op_eq, hsz], by simp [size, hsz]⟩

/-- C19: for two well-formed bimaps `a` and `b` whose pairs in left order are `psa` and
`psb`, `a == b` returns a value `r`, and `r` is true if and only if `a.size() == b.size()`
and the two sequences match position by position (`List.Forall₂`: same length and the
relation at every position), the left values being equivalent under `CompareLeft` and the
right values under `CompareRight`, where `x` and `y` are equivalent iff neither is less than
the other; `a != b` returns the negation of `r`. -/
theorem equality_compares_pairs {h : Heap L R} {a b : Nat} (hwa : WF cl cr h a)
    (hwb : WF cl cr h b) (psa psb : List (L × R)) (hpa : left_pairs h a = some psa)
    (hpb : left_pairs h b = some psb) :
    ∃ r, bimap.op_eq cl cr h a b = some r ∧ bimap.op_ne cl cr h a b = some (!r) ∧
      (r = true ↔ size h a = size h b ∧
        List.Forall₂ (fun p q : L × R => equiv cl p.1 q.1 = true ∧ equiv cr p.2 q.2 = true)
          psa psb) := by
  obtain ⟨tla, tra, hAa⟩ := hwa
  obtain ⟨tlb, trb, hAb⟩ := hwb
  obtain ⟨r, hr, hiff⟩ := hAa.op_eq hAb
  rw [hAa.pairs_mem hpa, hAb.pairs_mem hpb]
  exact ⟨r, hr, by simp [bimap.op_ne, hr], hiff⟩

theorem duo_copy_left_pairs_0 : left_pairs duo_copy 0 = some [(1, 10), (2, 20)] := by
  decide!

theorem duo_copy_left_pairs_1 : left_pairs duo_copy 1 = some [(5, 50)] := by
  decide!

theorem duo_copy_left_pairs_2 : left_pairs duo_copy 2 = some [(1, 10), (2, 20)] := by
  decide!

theorem duo_copy_sys : Sys nat_less nat_less duo_copy [2, 1, 0] :=
  duo_copy_reachable.sys nat_less_swo nat_less_swo

/-- C19 at concrete inputs: object `0` holding `(1, 10)`, `(2, 20)` compared with its copy,
object `2`, and with object `1` holding `(5, 50)`. -/
theorem equality_compares_pairs_witness :
    (∃ r, bimap.op_eq nat_less nat_less duo_copy 0 2 = some r ∧
      bimap.op_ne nat_less nat_less duo_copy 0 2 = some (!r) ∧
      (r = true ↔ size duo_copy 0 = size duo_copy 2 ∧
        List.Forall₂ (fun p q : Nat × Nat =>
          equiv nat_less p.1 q.1 = true ∧ equiv nat_less p.2 q.2 = true)
          [(1, 10), (2, 20)] [(1, 10), (2, 20)])) ∧
    (∃ r, bimap.op_eq nat_less nat_less duo_copy 0 1 = some r ∧
      bimap.op_ne nat_less nat_less duo_copy 0 1 = some (!r) ∧
      (r = true ↔ size duo_copy 0 = size duo_copy 1 ∧
        List.Forall₂ (fun p q : Nat × Nat =>
          equiv nat_less p.1 q.1 = true ∧ equiv nat_less p.2 q.2 = true)
          [(1, 10), (2, 20)] [(5, 50)])) ∧
    bimap.op_eq nat_less nat_less duo_copy 0 2 = some true ∧
    bimap.op_eq nat_less nat_less duo_copy 0 1 = some false :=
  ⟨equality_compares_pairs (duo_copy_sys.wf_of_mem (by simp)) (duo_copy_sys.wf_of_mem (by simp))
      [(1, 10), (2, 20)] [(1, 10), (2, 20)] duo_copy_left_pairs_0 duo_copy_left_pairs_2,
    equality_compares_pairs (duo_copy_sys.wf_of_mem (by simp)) (duo_copy_sys.wf_of_mem (by simp))
      [(1, 10), (2, 20)] [(5, 50)] duo_copy_left_pairs_0 duo_copy_left_pairs_1,
    by decide!, by decide!⟩

end bimap

namespace bimap

open details

variable {L R : Type} {cl : L → L → Bool} {cr : R → R → Bool}

/-! ## Copies are independent -/

/-- C18: for a well-formed bimap `b1` whose pairs are `ps` in left order and `qs` in right
order, the copy constructor run on other storage `b2` returns; the copy `b2` has the size of
`b1`, the same left-order sequence `ps` and the same right-order sequence `qs`, and
`b2 == b1` is true; `b1` has its size and both its sequences as before; both are well formed;
and after any further call on `b2` (`insert`, an `erase`, `at_left_or_default`,
`at_right_or_default`) `b1` still has its size and both its sequences. -/
theorem copy_is_independent [Inhabited L] [Inhabited R] (hcl : StrictWeakOrder cl)
    (hcr : StrictWeakOrder cr) {h : Heap L R} {b1 b2 : Nat} (hwf : WF cl cr h b1)
    (hne : b2 ≠ b1) (ps qs : List (L × R)) (hps : left_pairs h b1 = some ps)
    (hqs : right_pairs h b1 = some qs) :
    ∃ hc, bimap.copy_ctor cl cr h b2 b1 = some hc ∧
      size hc b2 = size h b1 ∧ left_pairs hc b2 = some ps ∧ right_pairs hc b2 = some qs ∧
      bimap.op_eq cl cr hc b2 b1 = some true ∧
      size hc b1 = size h b1 ∧ left_pairs hc b1 = some ps ∧ right_pairs hc b1 = some qs ∧
      WF cl cr hc b1 ∧ WF cl cr hc b2 ∧
      ∀ h3, Op cl cr b2 hc h3 →
        size h3 b1 = size h b1 ∧ left_pairs h3 b1 = some ps ∧ right_pairs h3 b1 = some qs ∧
        WF cl cr h3 b1 ∧ WF cl cr h3 b2 := by
  obtain ⟨tl1, tr1, hA1⟩ := hwf
  have hne' : b1 ≠ b2 := fun e => hne e.symm
  obtain ⟨hc, tl2, tr2, hcopy, hA2, hfresh, hO, hl, hr, hsz⟩ :=
    Abs.copy_ctor hcl hcr hne' hA1
  have hA1c : Abs cl cr hc b1 tl1 tr1 :=
    hA1.outside hO (by simpa using hne') (fun _ _ => by simp)
  obtain ⟨hl1, hr1, -, -, hs1⟩ := hA1.outside_pairs hO (by simpa using hne')
    (fun _ _ => by simp)
  have hdisj : ∀ k ∈ tl1.toList, k ∉ tl2.toList := by
    intro k hk hm
    have := hA1.links.left_alloc k hk
    have := hfresh k hm
    omega
  refine ⟨hc, hcopy, hsz, hl.trans hps, hr.trans hqs, ?_, hs1, hl1.trans hps, hr1.trans hqs,
    ⟨_, _, hA1c⟩, ⟨_, _, hA2⟩, ?_⟩
  · obtain ⟨r, hr0, hiff⟩ := hA2.op_eq hA1c
    have hrt : r = true := by
      rw [hiff]
      refine ⟨hsz.trans hs1.symm, ?_⟩
      have e : left_pairs hc b2 = left_pairs hc b1 := hl.trans hl1.symm
      rw [hA2.links.left_pairs, hA1c.links.left_pairs] at e
      rw [Option.some.inj e]
      exact List.forall₂_same.2 fun p _ => ⟨equiv_self hcl _, equiv_self hcr _⟩
    rw [hr0, hrt]
  · intro h3 hop
    obtain ⟨tl3, tr3, hA3, -, hO3⟩ := hop.step hcl hcr hA2
    obtain ⟨hl3, hr3, -, -, hs3⟩ := hA1c.outside_pairs hO3 (by simpa using hne') hdisj
    exact ⟨hs3.trans hs1, (hl3.trans hl1).trans hps, (hr3.trans hr1).trans hqs,
      ⟨_, _, hA1c.outside hO3 (by simpa using hne') hdisj⟩, ⟨_, _, hA3⟩⟩

theorem duo3_left_pairs_0 : left_pairs duo3 0 = some [(1, 10), (2, 20)] := by
  decide!

theorem duo3_right_pairs_0 : right_pairs duo3 0 = some [(1, 10), (2, 20)] := by
  decide!

/-- C18 at a concrete input: object `2` copy constructed from object `0`, which holds
`(1, 10)` and `(2, 20)`. -/
theorem copy_is_independent_witness :
    ∃ hc, bimap.copy_ctor nat_less nat_less duo3 2 0 = some hc ∧
      size hc 2 = size duo3 0 ∧ left_pairs hc 2 = some [(1, 10), (2, 20)] ∧
      right_pairs hc 2 = some [(1, 10), (2, 20)] ∧
      bimap.op_eq nat_less nat_less hc 2 0 = some true ∧
      size hc 0 = size duo3 0 ∧ left_pairs hc 0 = some [(1, 10), (2, 20)] ∧
      right_pairs hc 0 = some [(1, 10), (2, 20)] ∧
      WF nat_less nat_less hc 0 ∧ WF nat_less nat_less hc 2 ∧
      ∀ h3, Op nat_less nat_less 2 hc h3 →
        size h3 0 = size duo3 0 ∧ left_pairs h3 0 = some [(1, 10), (2, 20)] ∧
        right_pairs h3 0 = some [(1, 10), (2, 20)] ∧
        WF nat_less nat_less h3 0 ∧ WF nat_less nat_less h3 2 :=
  copy_is_independent nat_less_swo nat_less_swo (duo3_sys.wf_of_mem (by simp)) (by decide)
    [(1, 10), (2, 20)] [(1, 10), (2, 20)] duo3_left_pairs_0 duo3_right_pairs_0

end bimap

namespace bimap

open details

/-! ## Move assignment -/

theorem duo3_left_pairs_1 : left_pairs duo3 1 = some [(5, 50)] := by
  decide!

/-- C20 (the code departs from the claim): with `a` (object `0`) holding `(1, 10)`, `(2, 20)`
and `b` (object `1`) holding `(5, 50)`, both well formed, the move assignment
`a = std::move(b)` returns, and afterwards iteration over `a` visits no pair in either order
while `a.size()` is `1`, and `b` holds `(1, 10)`, `(2, 20)` with `b.size()` equal to `1` and
`b.begin_left()` different from `b.end_left()`: the pair of `b` is lost and `b` is not
empty. -/
theorem move_assign_empties_target :
    WF nat_less nat_less duo3 0 ∧ WF nat_less nat_less duo3 1 ∧
    left_pairs duo3 0 = some [(1, 10), (2, 20)] ∧ left_pairs duo3 1 = some [(5, 50)] ∧
    size duo3 0 = 2 ∧ size duo3 1 = 1 ∧
    ∃ h1, move_assign nat_less nat_less duo3 0 1 = some h1 ∧
      left_pairs h1 0 = some [] ∧ right_pairs h1 0 = some [] ∧ size h1 0 = 1 ∧
      begin_left h1 0 = some (end_left 0) ∧
      left_pairs h1 1 = some [(1, 10), (2, 20)] ∧ right_pairs h1 1 = some [(1, 10), (2, 20)] ∧
      size h1 1 = 1 ∧ begin_left h1 1 = some (Ptr.elem Tag.left_tag 0) := by
  refine ⟨duo3_sys.wf_of_mem (by simp), duo3_sys.wf_of_mem (by simp), duo3_left_pairs_0, duo3_left_pairs_1,
    by decide!, by decide!, ?_⟩
  have e1 : (move_assign nat_less nat_less duo3 0 1).bind (fun h1 => left_pairs h1 0)
      = some [] := by decide!
  have e2 : (move_assign nat_less nat_less duo3 0 1).bind (fun h1 => right_pairs h1 0)
      = some [] := by decide!
  have e3 : (move_assign nat_less nat_less duo3 0 1).map (fun h1 => size h1 0)
      = some 1 := by decide!
  have e4 : (move_assign nat_less nat_less duo3 0 1).bind (fun h1 => begin_left h1 0)
      = some (end_left 0) := by decide!
  have e5 : (move_assign nat_less nat_less duo3 0 1).bind (fun h1 => left_pairs h1 1)
      = some [(1, 10), (2, 20)] := by decide!
  have e6 : (move_assign nat_less nat_less duo3 0 1).bind (fun h1 => right_pairs h1 1)
      = some [(1, 10), (2, 20)] := by decide!
  have e7 : (move_assign nat_less nat_less duo3 0 1).map (fun h1 => size h1 1)
      = some 1 := by decide!
  have e8 : (move_assign nat_less nat_less duo3 0 1).bind (fun h1 => begin_left h1 1)
      = some (Ptr.elem Tag.left_tag 0) := by decide!
  cases hm : move_assign nat_less nat_less duo3 0 1 with
  | none => simp [hm] at e1
  | some h1 =>
    simp only [hm, Option.some_bind, Option.map_some', Option.some.injEq] at e1 e2 e3 e4
    simp only [hm, Option.some_bind, Option.map_some', Option.some.injEq] at e5 e6 e7 e8
    exact ⟨h1, rfl, e1, e2, e3, e4, e5, e6, e7, e8⟩

end bimap

namespace bimap

open details

variable {L R : Type} {cl : L → L → Bool} {cr : R → R → Bool}

/-! ## The move constructor -/

/-- `swap_fake(a, b)` on a sentinel `a` without a partner (`a.right` is `nullptr`) and a
sentinel `b` with a partner: after the exchange of the `right` links, `b.right` is `nullptr`
and `b.right->right` reads through it. -/
theorem swap_fake_fresh (m : Mem) (tag tag1 : Tag) (x y y1 : Nat) (hxy : x ≠ y)
    (har : (m (Ptr.fake tag x)).right = Ptr.null)
    (hbr : (m (Ptr.fake tag y)).right = Ptr.fake tag1 y1) :
    treap.swap_fake m (Ptr.fake tag x) (Ptr.fake tag y) = none := by
  have hyx : y ≠ x := fun e => hxy e.symm
  simp [treap.swap_fake, Mem.swap_right, Mem.set_right, Mem.write, Function.update, har, hbr,
    hxy, hyx, Mem.read]

/-- C21 (the code departs from the claim): for every well-formed bimap `b` and every other
storage `c`, the move constructor `bimap(bimap&& other)` run for `c` with `other = b` does not
return a result: the move constructor of the left treap calls `swap_fake` on its own default
constructed sentinel, whose `right` link is `nullptr`, and after `std::swap(a.right, b.right)`
the statement `std::swap(a.right->right, b.right->right)` reads `b.right->right` through the
null pointer. -/
theorem move_ctor_faults {h : Heap L R} {b c : Nat} (hwf : WF cl cr h b) (hcb : c ≠ b) :
    bimap.move_ctor h c b = none := by
  obtain ⟨tl, tr, hA⟩ := hwf
  have hr : (h.base (Ptr.fake Tag.left_tag b)).right = Ptr.fake Tag.right_tag b :=
    hA.links.left_cross
  have h1 : treap.move_ctor h.base Tag.left_tag c b = none := by
    simp only [treap.move_ctor, Mem.write, Option.some_bind, treap.swap]
    exact swap_fake_fresh _ Tag.left_tag Tag.right_tag c b b hcb (by simp)
      (by simp [Function.update, hcb.symm, hr])
  simp [bimap.move_ctor, h1]

/-- C21 at a concrete input: move construction of object `1` from the bimap holding `(3, 0)`,
`(5, 50)`, `(9, 20)`. -/
theorem move_ctor_faults_witness : bimap.move_ctor demo3 1 0 = none :=
  move_ctor_faults demo3_wf (by decide)

end bimap

namespace bimap

open details

variable {L R : Type} {cl : L → L → Bool} {cr : R → R → Bool}

/-! ## Range erasure -/

theorem map_elem_split3 {tag : Tag} {l : List Nat} {its1 its2 its3 : List Ptr}
    (h : l.map (Ptr.elem tag) = its1 ++ its2 ++ its3) :
    ∃ l1 l2 l3, l = l1 ++ l2 ++ l3 ∧ its1 = l1.map (Ptr.elem tag) ∧
      its2 = l2.map (Ptr.elem tag) ∧ its3 = l3.map (Ptr.elem tag) := by
  obtain ⟨l12, l3, rfl, h12, rfl⟩ := List.map_eq_append_iff.1 h
  obtain ⟨l1, l2, rfl, rfl, rfl⟩ := List.map_eq_append_iff.1 h12
  exact ⟨l1, l2, l3, rfl, rfl, rfl, rfl⟩

/-- The left range erase in terms of the nodes: the nodes `l2` of the range are gone from both
trees, the others keep their order. -/
theorem Abs.erase_left_range_nodes {h : Heap L R} {b : Nat} {tl tr : Shape}
    (hA : Abs cl cr h b tl tr) (l1 l2 l3 : List Nat) (hsplit : tl.toList = l1 ++ l2 ++ l3) :
    ∃ h1 tl1 tr1, bimap.erase_left_range cl cr h b
        (first_or Tag.left_tag (end_left b) (l2 ++ l3))
        (first_or Tag.left_tag (end_left b) l3)
        = some (h1, first_or Tag.left_tag (end_left b) l3) ∧
      Abs cl cr h1 b tl1 tr1 ∧ tl1.toList = l1 ++ l3 ∧ tr1.toList.Sublist tr.toList ∧
      h1.lval = h.lval ∧ h1.rval = h.rval ∧ h1.sz b + l2.length = h.sz b := by
  have hsz := hA.links.left_size
  rw [← Shape.length_toList, hsplit] at hsz
  obtain ⟨h1, tl1, tr1, hloop, hA1, htl, htr, hlv, hrv, -, hs⟩ :=
    hA.erase_left_loop l2 h.fuel h tl tr l1 l3 hsplit
      (by simp only [Heap.fuel]; simp only [List.length_append] at hsz; omega)
  refine ⟨h1, tl1, tr1, hloop, hA1, htl, htr, hlv, hrv, ?_⟩
  have hc := hA.count
  rw [hsplit] at hc
  simp only [List.length_append] at hc
  omega

/-- The right range erase in terms of the nodes. -/
theorem Abs.erase_right_range_nodes {h : Heap L R} {b : Nat} {tl tr : Shape}
    (hA : Abs cl cr h b tl tr) (l1 l2 l3 : List Nat) (hsplit : tr.toList = l1 ++ l2 ++ l3) :
    ∃ h1 tl1 tr1, bimap.erase_right_range cl cr h b
        (first_or Tag.right_tag (end_right b) (l2 ++ l3))
        (first_or Tag.right_tag (end_right b) l3)
        = some (h1, first_or Tag.right_tag (end_right b) l3) ∧
      Abs cl cr h1 b tl1 tr1 ∧ tr1.toList = l1 ++ l3 ∧ tl1.toList.Sublist tl.toList ∧
      h1.lval = h.lval ∧ h1.rval = h.rval ∧ h1.sz b + l2.length = h.sz b := by
  have hsz := hA.links.right_size
  rw [← Shape.length_toList, hsplit] at hsz
  obtain ⟨h1, tl1, tr1, hloop, hA1, htr, htl, hlv, hrv, -, hs⟩ :=
    hA.erase_right_loop l2 h.fuel h tl tr l1 l3 hsplit
      (by simp only [Heap.fuel]; simp only [List.length_append] at hsz; omega)
  refine ⟨h1, tl1, tr1, hloop, hA1, htr, htl, hlv, hrv, ?_⟩
  have hc := hA.count
  rw [hA.same.length_eq, hsplit] at hc
  simp only [List.length_append] at hc
  omega

/-- C22: on a well-formed bimap whose pairs are `ps` in left order and `qs` in right order
and whose left and right iterators are `lits` and `rits`.  For every cut
`lits = its1 ++ its2 ++ its3`, the call `erase_left(first, last)` with `first` the first
iterator of `its2 ++ its3` and `last` the first iterator of `its3` (or `end_left()` when
there is none) returns `last`; with `ps = ps1 ++ ps2 ++ ps3` cut at the same places (`ps2`
are the pairs at `its2`), the left order afterwards is `ps1 ++ ps3` with the iterators
`its1 ++ its3`, the right order is a subsequence of `qs` with the same pairs as `ps1 ++ ps3`,
`size()` has gone down by the length of `its2`, and the bimap is well formed.  In particular
`erase_left(begin_left(), end_left())` leaves no pair, size `0` and
`begin_left() == end_left()`.  The same holds of `erase_right(first, last)` with the two
orders exchanged. -/
theorem erase_range_removes_range {h : Heap L R} {b : Nat} (hwf : WF cl cr h b)
    (ps qs : List (L × R)) (lits rits : List Ptr) (hps : left_pairs h b = some ps)
    (hqs : right_pairs h b = some qs) (hl : left_range h b = some lits)
    (hr : right_range h b = some rits) :
    (∀ its1 its2 its3, lits = its1 ++ its2 ++ its3 →
      ∃ h1 ps1 ps2 ps3 qs1,
        bimap.erase_left_range cl cr h b ((its2 ++ its3).headD (end_left b))
          (its3.headD (end_left b)) = some (h1, its3.headD (end_left b)) ∧
        ps = ps1 ++ ps2 ++ ps3 ∧ ps1.length = its1.length ∧
        its2.mapM (left_pair h) = some ps2 ∧
        left_pairs h1 b = some (ps1 ++ ps3) ∧ left_range h1 b = some (its1 ++ its3) ∧
        right_pairs h1 b = some qs1 ∧ qs1.Sublist qs ∧ qs1.Perm (ps1 ++ ps3) ∧
        size h1 b + its2.length = size h b ∧ WF cl cr h1 b) ∧
    (∃ first h1, begin_left h b = some first ∧
      bimap.erase_left_range cl cr h b first (end_left b) = some (h1, end_left b) ∧
      left_pairs h1 b = some [] ∧ right_pairs h1 b = some [] ∧ size h1 b = 0 ∧
      bimap.empty h1 b = true ∧ begin_left h1 b = some (end_left b)) ∧
    (∀ its1 its2 its3, rits = its1 ++ its2 ++ its3 →
      ∃ h1 qs1 qs2 qs3 ps1,
        bimap.erase_right_range cl cr h b ((its2 ++ its3).headD (end_right b))
          (its3.headD (end_right b)) = some (h1, its3.headD (end_right b)) ∧
        qs = qs1 ++ qs2 ++ qs3 ∧ qs1.length = its1.length ∧
        its2.mapM (right_pair h) = some qs2 ∧
        right_pairs h1 b = some (qs1 ++ qs3) ∧ right_range h1 b = some (its1 ++ its3) ∧
        left_pairs h1 b = some ps1 ∧ ps1.Sublist ps ∧ ps1.Perm (qs1 ++ qs3) ∧
        size h1 b + its2.length = size h b ∧ WF cl cr h1 b) ∧
    (∃ first h1, begin_right h b = some first ∧
      bimap.erase_right_range cl cr h b first (end_right b) = some (h1, end_right b) ∧
      left_pairs h1 b = some [] ∧ right_pairs h1 b = some [] ∧ size h1 b = 0 ∧
      bimap.empty h1 b = true ∧ begin_right h1 b = some (end_right b)) := by
  obtain ⟨tl, tr, hA⟩ := hwf
  have hpe := hA.pairs_mem hps
  have hqe : qs = tr.toList.map fun n => (h.lval n, h.rval n) := by
    rw [hA.links.right_pairs] at hqs
    exact (Option.some.inj hqs).symm
  rw [hA.links.left_range] at hl
  rw [hA.links.right_range] at hr
  have hl' := Option.some.inj hl
  have hr' := Option.some.inj hr
  have hleft : ∀ l1 l2 l3, tl.toList = l1 ++ l2 ++ l3 →
      ∃ h1, bimap.erase_left_range cl cr h b
          (first_or Tag.left_tag (end_left b) (l2 ++ l3))
          (first_or Tag.left_tag (end_left b) l3)
          = some (h1, first_or Tag.left_tag (end_left b) l3) ∧
        left_pairs h1 b = some ((l1 ++ l3).map fun n => (h.lval n, h.rval n)) ∧
        left_range h1 b = some ((l1 ++ l3).map (Ptr.elem Tag.left_tag)) ∧
        (∃ qs1, right_pairs h1 b = some qs1 ∧ qs1.Sublist qs ∧
          qs1.Perm ((l1 ++ l3).map fun n => (h.lval n, h.rval n))) ∧
        size h1 b + l2.length = size h b ∧ WF cl cr h1 b ∧
        (l1 ++ l3 = [] → begin_left h1 b = some (end_left b)) := by
    intro l1 l2 l3 hsplit
    obtain ⟨h1, tl1, tr1, he, hA1, htl, htr, hlv, hrv, hs⟩ :=
      hA.erase_left_range_nodes l1 l2 l3 hsplit
    refine ⟨h1, he, ?_, ?_, ⟨_, hA1.links.right_pairs, ?_, ?_⟩, hs, ⟨_, _, hA1⟩, ?_⟩
    · rw [hA1.links.left_pairs, htl, hlv, hrv]
    · rw [hA1.links.left_range, htl]
    · rw [hqe, hlv, hrv]
      exact htr.map _
    · rw [hlv, hrv, ← htl]
      exact hA1.same.symm.map _
    · intro he0
      rw [hA1.links.begin_left, htl, he0]
      rfl
  have hright : ∀ l1 l2 l3, tr.toList = l1 ++ l2 ++ l3 →
      ∃ h1, bimap.erase_right_range cl cr h b
          (first_or Tag.right_tag (end_right b) (l2 ++ l3))
          (first_or Tag.right_tag (end_right b) l3)
          = some (h1, first_or Tag.right_tag (end_right b) l3) ∧
        right_pairs h1 b = some ((l1 ++ l3).map fun n => (h.lval n, h.rval n)) ∧
        right_range h1 b = some ((l1 ++ l3).map (Ptr.elem Tag.right_tag)) ∧
        (∃ ps1, left_pairs h1 b = some ps1 ∧ ps1.Sublist ps ∧
          ps1.Perm ((l1 ++ l3).map fun n => (h.lval n, h.rval n))) ∧
        size h1 b + l2.length = size h b ∧ WF cl cr h1 b ∧
        (l1 ++ l3 = [] → begin_right h1 b = some (end_right b)) := by
    intro l1 l2 l3 hsplit
    obtain ⟨h1, tl1, tr1, he, hA1, htr, htl, hlv, hrv, hs⟩ :=
      hA.erase_right_range_nodes l1 l2 l3 hsplit
    refine ⟨h1, he, ?_, ?_, ⟨_, hA1.links.left_pairs, ?_, ?_⟩, hs, ⟨_, _, hA1⟩, ?_⟩
    · rw [hA1.links.right_pairs, htr, hlv, hrv]
    · rw [hA1.links.right_range, htr]
    · rw [hpe, hlv, hrv]
      exact htl.map _
    · rw [hlv, hrv, ← htr]
      exact hA1.same.map _
    · intro he0
      rw [hA1.links.begin_right, htr, he0]
      rfl
  refine ⟨?_, ?_, ?_, ?_⟩
  · intro its1 its2 its3 hcut
    rw [← hl'] at hcut
    obtain ⟨l1, l2, l3, hsplit, rfl, rfl, rfl⟩ := map_elem_split3 hcut
    obtain ⟨h1, he, hlp, hlr, ⟨qs1, hq1, hq2, hq3⟩, hs, hw, -⟩ := hleft l1 l2 l3 hsplit
    refine ⟨h1, l1.map (fun n => (h.lval n, h.rval n)),
      l2.map (fun n => (h.lval n, h.rval n)), l3.map (fun n => (h.lval n, h.rval n)), qs1,
      ?_, ?_, by simp, ?_, ?_, ?_, hq1, hq2, ?_, ?_, hw⟩
    · rw [← List.map_append, headD_map_elem, headD_map_elem]
      exact he
    · rw [hpe, hsplit]; simp
    · refine mapM_map_some _ _ _ _ fun n hn => hA.links.left_pair ?_
      rw [hsplit]; simp [hn]
    · rw [hlp]; simp
    · rw [hlr]; simp
    · simpa using hq3
    · simpa using hs
  · obtain ⟨h1, he, hlp, -, ⟨qs1, hq1, -, hq3⟩, hs, -, hb⟩ := hleft [] tl.toList []
      (by simp)
    refine ⟨_, h1, hA.links.begin_left, ?_, by simpa using hlp, ?_, ?_, ?_, hb rfl⟩
    · simpa [first_or] using he
    · rw [hq1]
      simpa using hq3
    · have := hA.count
      simp only [size] at hs ⊢
      omega
    · have := hA.count
      simp only [size, bimap.empty, decide_eq_true_eq] at hs ⊢
      omega
  · intro its1 its2 its3 hcut
    rw [← hr'] at hcut
    obtain ⟨l1, l2, l3, hsplit, rfl, rfl, rfl⟩ := map_elem_split3 hcut
    obtain ⟨h1, he, hrp, hrr, ⟨ps1, hp1, hp2, hp3⟩, hs, hw, -⟩ := hright l1 l2 l3 hsplit
    refine ⟨h1, l1.map (fun n => (h.lval n, h.rval n)),
      l2.map (fun n => (h.lval n, h.rval n)), l3.map (fun n => (h.lval n, h.rval n)), ps1,
      ?_, ?_, by simp, ?_, ?_, ?_, hp1, hp2, ?_, ?_, hw⟩
    · rw [← List.map_append, headD_map_elem, headD_map_elem]
      exact he
    · rw [hqe, hsplit]; simp
    · refine mapM_map_some _ _ _ _ fun n hn => hA.links.right_pair ?_
      rw [hsplit]; simp [hn]
    · rw [hrp]; simp
    · rw [hrr]; simp
    · simpa using hp3
    · simpa using hs
  · obtain ⟨h1, he, hrp, -, ⟨ps1, hp1, -, hp3⟩, hs, -, hb⟩ := hright [] tr.toList []
      (by simp)
    refine ⟨_, h1, hA.links.begin_right, ?_, ?_, by simpa using hrp, ?_, ?_, hb rfl⟩
    · simpa [first_or] using he
    · rw [hp1]
      simpa using hp3
    · have := hA.count
      rw [hA.same.length_eq] at this
      simp only [size] at hs ⊢
      omega
    · have := hA.count
      rw [hA.same.length_eq] at this
      simp only [size, bimap.empty, decide_eq_true_eq] at hs ⊢
      omega

/-- C22 at a concrete input: range erasure in the bimap holding `(3, 0)`, `(5, 50)`,
`(9, 20)`. -/
theorem erase_range_removes_range_witness :
    (∀ its1 its2 its3,
      [Ptr.elem Tag.left_tag 1, Ptr.elem Tag.left_tag 0, Ptr.elem Tag.left_tag 2]
        = its1 ++ its2 ++ its3 →
      ∃ h1 ps1 ps2 ps3 qs1,
        bimap.erase_left_range nat_less nat_less demo3 0 ((its2 ++ its3).headD (end_left 0))
          (its3.headD (end_left 0)) = some (h1, its3.headD (end_left 0)) ∧
        [(3, 0), (5, 50), (9, 20)] = ps1 ++ ps2 ++ ps3 ∧ ps1.length = its1.length ∧
        its2.mapM (left_pair demo3) = some ps2 ∧
        left_pairs h1 0 = some (ps1 ++ ps3) ∧ left_range h1 0 = some (its1 ++ its3) ∧
        right_pairs h1 0 = some qs1 ∧ qs1.Sublist [(3, 0), (9, 20), (5, 50)] ∧
        qs1.Perm (ps1 ++ ps3) ∧
        size h1 0 + its2.length = size demo3 0 ∧ WF nat_less nat_less h1 0) ∧
    (∃ first h1, begin_left demo3 0 = some first ∧
      bimap.erase_left_range nat_less nat_less demo3 0 first (end_left 0)
        = some (h1, end_left 0) ∧
      left_pairs h1 0 = some [] ∧ right_pairs h1 0 = some [] ∧ size h1 0 = 0 ∧
      bimap.empty h1 0 = true ∧ begin_left h1 0 = some (end_left 0)) ∧
    (∀ its1 its2 its3,
      [Ptr.elem Tag.right_tag 1, Ptr.elem Tag.right_tag 2, Ptr.elem Tag.right_tag 0]
        = its1 ++ its2 ++ its3 →
      ∃ h1 qs1 qs2 qs3 ps1,
        bimap.erase_right_range nat_less nat_less demo3 0
          ((its2 ++ its3).headD (end_right 0)) (its3.headD (end_right 0))
          = some (h1, its3.headD (end_right 0)) ∧
        [(3, 0), (9, 20), (5, 50)] = qs1 ++ qs2 ++ qs3 ∧ qs1.length = its1.length ∧
        its2.mapM (right_pair demo3) = some qs2 ∧
        right_pairs h1 0 = some (qs1 ++ qs3) ∧ right_range h1 0 = some (its1 ++ its3) ∧
        left_pairs h1 0 = some ps1 ∧ ps1.Sublist [(3, 0), (5, 50), (9, 20)] ∧
        ps1.Perm (qs1 ++ qs3) ∧
        size h1 0 + its2.length = size demo3 0 ∧ WF nat_less nat_less h1 0) ∧
    (∃ first h1, begin_right demo3 0 = some first ∧
      bimap.erase_right_range nat_less nat_less demo3 0 first (end_right 0)
        = some (h1, end_right 0) ∧
      left_pairs h1 0 = some [] ∧ right_pairs h1 0 = some [] ∧ size h1 0 = 0 ∧
      bimap.empty h1 0 = true ∧ begin_right h1 0 = some (end_right 0)) :=
  erase_range_removes_range demo3_wf [(3, 0), (5, 50), (9, 20)] [(3, 0), (9, 20), (5, 50)]
    [Ptr.elem Tag.left_tag 1, Ptr.elem Tag.left_tag 0, Ptr.elem Tag.left_tag 2]
    [Ptr.elem Tag.right_tag 1, Ptr.elem Tag.right_tag 2, Ptr.elem Tag.right_tag 0]
    demo3_left_pairs demo3_right_pairs demo3_left_range demo3_right_range

end bimap

namespace details

open bimap

/-- Single steps along a sequence of positions followed by the end position. -/
theorem steps_spec {m : Mem} {tag : Tag} {step : Nat} {fin : Ptr} (l : List Nat)
    (hV : Visits m tag step l fin) (hB : VisitsBack m tag step l.reverse none)
    (hend : l ≠ [] → iterator.decr m step fin = first_opt tag none l.reverse) :
    ∀ j, j < (l.map (Ptr.elem tag)).length →
      iterator.incr m step ((l.map (Ptr.elem tag)).getD j fin)
        = some ((l.map (Ptr.elem tag)).getD (j + 1) fin) ∧
      iterator.decr m step ((l.map (Ptr.elem tag)).getD (j + 1) fin)
        = some ((l.map (Ptr.elem tag)).getD j fin) := by
  intro j hj
  rw [List.length_map] at hj
  rw [← first_or_drop, ← first_or_drop]
  exact ⟨Visits.incr_drop l hV j hj, VisitsBack.decr_drop l none hB hend j hj⟩

end details

namespace bimap

open details

variable {L R : Type} {cl : L → L → Bool} {cr : R → R → Bool}

/-! ## Cursors after an erasure -/

/-- Stepping with `++` and `--` in a well-formed bimap follows the two in-order sequences. -/
theorem Abs.steps {h : Heap L R} {b : Nat} {tl tr : Shape} (hA : Abs cl cr h b tl tr) :
    (∀ j, j < (tl.toList.map (Ptr.elem Tag.left_tag)).length →
      iterator.incr h.base h.fuel ((tl.toList.map (Ptr.elem Tag.left_tag)).getD j (end_left b))
        = some ((tl.toList.map (Ptr.elem Tag.left_tag)).getD (j + 1) (end_left b)) ∧
      iterator.decr h.base h.fuel
          ((tl.toList.map (Ptr.elem Tag.left_tag)).getD (j + 1) (end_left b))
        = some ((tl.toList.map (Ptr.elem Tag.left_tag)).getD j (end_left b))) ∧
    (∀ j, j < (tr.toList.map (Ptr.elem Tag.right_tag)).length →
      iterator.incr h.base h.fuel
          ((tr.toList.map (Ptr.elem Tag.right_tag)).getD j (end_right b))
        = some ((tr.toList.map (Ptr.elem Tag.right_tag)).getD (j + 1) (end_right b)) ∧
      iterator.decr h.base h.fuel
          ((tr.toList.map (Ptr.elem Tag.right_tag)).getD (j + 1) (end_right b))
        = some ((tr.toList.map (Ptr.elem Tag.right_tag)).getD j (end_right b))) := by
  have hszl := hA.links.left_size
  have hszr := hA.links.right_size
  constructor
  · refine steps_spec tl.toList hA.links.left_visits hA.links.left_visits_back fun h0 => ?_
    exact hA.links.left_inv.decr_end h.fuel (by simp only [Heap.fuel]; omega) h0
  · refine steps_spec tr.toList hA.links.right_visits hA.links.right_visits_back fun h0 => ?_
    exact hA.links.right_inv.decr_end h.fuel (by simp only [Heap.fuel]; omega) h0

/-- The cursors of a bimap after node `n` has been erased from both trees: the remaining
positions of both orders, each still at its pair, and the steps between them. -/
theorem Abs.cursors_after_erase {h h1 : Heap L R} {b : Nat} {tl tr : Shape}
    (hA : Abs cl cr h b tl tr) (n : Nat) (l1 l2 r1 r2 : List Nat)
    (hsl : tl.toList = l1 ++ n :: l2) (hsr : tr.toList = r1 ++ n :: r2)
    (hA1 : Abs cl cr h1 b (Shape.erase h.lprior n tl) (Shape.erase h.rprior n tr))
    (hlv : h1.lval = h.lval) (hrv : h1.rval = h.rval) :
    left_range h1 b = some ((l1 ++ l2).map (Ptr.elem Tag.left_tag)) ∧
    right_range h1 b = some ((r1 ++ r2).map (Ptr.elem Tag.right_tag)) ∧
    (∀ c ∈ (l1 ++ l2).map (Ptr.elem Tag.left_tag), c ≠ Ptr.elem Tag.left_tag n ∧
      iterator.flip h1.base Tag.left_tag c = iterator.flip h.base Tag.left_tag c ∧
      ∃ p, left_pair h c = some p ∧ left_pair h1 c = some p ∧ deref_left h1 c = some p.1 ∧
        (iterator.flip h1.base Tag.left_tag c).bind (deref_right h1) = some p.2) ∧
    (∀ c ∈ (r1 ++ r2).map (Ptr.elem Tag.right_tag), c ≠ Ptr.elem Tag.right_tag n ∧
      iterator.flip h1.base Tag.right_tag c = iterator.flip h.base Tag.right_tag c ∧
      ∃ p, right_pair h c = some p ∧ right_pair h1 c = some p ∧
        deref_right h1 c = some p.2 ∧
        (iterator.flip h1.base Tag.right_tag c).bind (deref_left h1) = some p.1) ∧
    (∀ j, j < ((l1 ++ l2).map (Ptr.elem Tag.left_tag)).length →
      iterator.incr h1.base h1.fuel
          (((l1 ++ l2).map (Ptr.elem Tag.left_tag)).getD j (end_left b))
        = some (((l1 ++ l2).map (Ptr.elem Tag.left_tag)).getD (j + 1) (end_left b)) ∧
      iterator.decr h1.base h1.fuel
          (((l1 ++ l2).map (Ptr.elem Tag.left_tag)).getD (j + 1) (end_left b))
        = some (((l1 ++ l2).map (Ptr.elem Tag.left_tag)).getD j (end_left b))) ∧
    (∀ j, j < ((r1 ++ r2).map (Ptr.elem Tag.right_tag)).length →
      iterator.incr h1.base h1.fuel
          (((r1 ++ r2).map (Ptr.elem Tag.right_tag)).getD j (end_right b))
        = some (((r1 ++ r2).map (Ptr.elem Tag.right_tag)).getD (j + 1) (end_right b)) ∧
      iterator.decr h1.base h1.fuel
          (((r1 ++ r2).map (Ptr.elem Tag.right_tag)).getD (j + 1) (end_right b))
        = some (((r1 ++ r2).map (Ptr.elem Tag.right_tag)).getD j (end_right b))) := by
  have hndl := hA.links.left_inv.nodup
  have hndr := hA.links.right_inv.nodup
  have hl1 : n ∉ l1 := by
    rw [hsl] at hndl
    exact fun hm => (List.nodup_append.1 hndl).2.2 hm (by simp)
  have hr1 : n ∉ r1 := by
    rw [hsr] at hndr
    exact fun hm => (List.nodup_append.1 hndr).2.2 hm (by simp)
  have hel : (Shape.erase h.lprior n tl).toList = l1 ++ l2 := by
    rw [Shape.toList_erase _ _ _ hndl, hsl, erase_middle hl1]
  have her : (Shape.erase h.rprior n tr).toList = r1 ++ r2 := by
    rw [Shape.toList_erase _ _ _ hndr, hsr, erase_middle hr1]
  have hst := hA1.steps
  rw [hel, her] at hst
  refine ⟨by rw [hA1.links.left_range, hel], by rw [hA1.links.right_range, her], ?_, ?_,
    hst.1, hst.2⟩
  · intro c hc
    obtain ⟨k, hk, rfl⟩ := List.mem_map.1 hc
    have hk1 : k ∈ (Shape.erase h.lprior n tl).toList := hel ▸ hk
    obtain ⟨hk0, hkn⟩ := Shape.mem_of_mem_erase hndl hk1
    refine ⟨by simpa using hkn, ?_, (h.lval k, h.rval k), hA.links.left_pair hk0, ?_, ?_, ?_⟩
    · rw [hA1.links.flip_left hk1, hA.links.flip_left hk0]
    · rw [hA1.links.left_pair hk1, hlv, hrv]
    · simp [deref_left, hlv]
    · simp [hA1.links.flip_left hk1, deref_right, hrv]
  · intro c hc
    obtain ⟨k, hk, rfl⟩ := List.mem_map.1 hc
    have hk1 : k ∈ (Shape.erase h.rprior n tr).toList := her ▸ hk
    obtain ⟨hk0, hkn⟩ := Shape.mem_of_mem_erase hndr hk1
    refine ⟨by simpa using hkn, ?_, (h.lval k, h.rval k), hA.links.right_pair hk0, ?_, ?_, ?_⟩
    · rw [hA1.links.flip_right hk1, hA.links.flip_right hk0]
    · rw [hA1.links.right_pair hk1, hlv, hrv]
    · simp [deref_right, hrv]
    · simp [hA1.links.flip_right hk1, deref_left, hlv]

end bimap

namespace bimap

open details

variable {L R : Type} {cl : L → L → Bool} {cr : R → R → Bool}

theorem Abs.cursors_kept_erase {h h1 : Heap L R} {b : Nat} {tl tr : Shape}
    (hA : Abs cl cr h b tl tr) (n : Nat) (l1 l2 r1 r2 : List Nat)
    (hsl : tl.toList = l1 ++ n :: l2) (hsr : tr.toList = r1 ++ n :: r2)
    (hA1 : Abs cl cr h1 b (Shape.erase h.lprior n tl) (Shape.erase h.rprior n tr))
    (hlv : h1.lval = h.lval) (hrv : h1.rval = h.rval) :
    cursors_kept h h1 b ((l1 ++ l2).map (Ptr.elem Tag.left_tag))
      ((r1 ++ r2).map (Ptr.elem Tag.right_tag)) := by
  obtain ⟨e1, e2, e3, e4, e5, e6⟩ := hA.cursors_after_erase n l1 l2 r1 r2 hsl hsr hA1 hlv hrv
  exact ⟨e1, e2, fun c hc => (e3 c hc).2, fun c hc => (e4 c hc).2, e5, e6⟩

/-- C23: on a well-formed bimap with left iterators `lits` and right iterators `rits`, for
every non-end left iterator `it` (`lits = its1 ++ it :: its2`; its flipped iterator stands in
`rits = rits1 ++ it.flip() :: rits2`) the call `erase_left(it)` returns, and every other
cursor is kept (`cursors_kept`): the left cursors `its1 ++ its2` and the right cursors
`rits1 ++ rits2` are the iterators of the bimap afterwards, each denotes the pair it denoted
before (`*c` and `*c.flip()` unchanged), and `++` and `--` step along these two sequences of
the remaining elements.  The same holds of `erase_right(it)` for a non-end right iterator. -/
theorem erase_keeps_other_cursors {h : Heap L R} {b : Nat} (hwf : WF cl cr h b)
    (lits rits : List Ptr) (hl : left_range h b = some lits)
    (hr : right_range h b = some rits) :
    (∀ its1 it its2, lits = its1 ++ it :: its2 →
      ∃ h1 nxt rits1 rits2 fit, iterator.flip h.base Tag.left_tag it = some fit ∧
        rits = rits1 ++ fit :: rits2 ∧ it ∉ its1 ++ its2 ∧ fit ∉ rits1 ++ rits2 ∧
        bimap.erase_left cl cr h b it = some (h1, nxt) ∧
        cursors_kept h h1 b (its1 ++ its2) (rits1 ++ rits2)) ∧
    (∀ its1 it its2, rits = its1 ++ it :: its2 →
      ∃ h1 nxt lits1 lits2 fit, iterator.flip h.base Tag.right_tag it = some fit ∧
        lits = lits1 ++ fit :: lits2 ∧ it ∉ its1 ++ its2 ∧ fit ∉ lits1 ++ lits2 ∧
        bimap.erase_right cl cr h b it = some (h1, nxt) ∧
        cursors_kept h h1 b (lits1 ++ lits2) (its1 ++ its2)) := by
  obtain ⟨tl, tr, hA⟩ := hwf
  rw [hA.links.left_range] at hl
  rw [hA.links.right_range] at hr
  have hl' := Option.some.inj hl
  have hr' := Option.some.inj hr
  have hndl := hA.links.left_inv.nodup
  have hndr := hA.links.right_inv.nodup
  have hnot : ∀ (tag : Tag) (n : Nat) (a c : List Nat), (a ++ n :: c).Nodup →
      Ptr.elem tag n ∉ (a ++ c).map (Ptr.elem tag) := by
    intro tag n a c hnd hm
    obtain ⟨k, hk, e⟩ := List.mem_map.1 hm
    simp only [Ptr.elem.injEq, true_and] at e
    subst e
    have h1 : k ∉ a := fun hm => (List.nodup_append.1 hnd).2.2 hm (by simp)
    have h2 : k ∉ c := (List.nodup_cons.1 (List.nodup_append.1 hnd).2.1).1
    rcases List.mem_append.1 hk with hk | hk
    · exact h1 hk
    · exact h2 hk
  constructor
  · intro its1 it its2 hcut
    rw [← hl'] at hcut
    obtain ⟨l1, n, l2, hsl, rfl, rfl, rfl⟩ := map_elem_split hcut
    have hnl : n ∈ tl.toList := by rw [hsl]; simp
    obtain ⟨r1, r2, hsr⟩ := mem_split (hA.same.mem_iff.1 hnl)
    obtain ⟨h1, he, hA1, hlv, hrv, -⟩ := hA.erase_left n l1 l2 hsl
    refine ⟨h1, _, r1.map (Ptr.elem Tag.right_tag), r2.map (Ptr.elem Tag.right_tag), _,
      hA.links.flip_left hnl, ?_, ?_, ?_, he, ?_⟩
    · rw [← hr', hsr]; simp
    · rw [← List.map_append]
      exact hnot _ n l1 l2 (hsl ▸ hndl)
    · rw [← List.map_append]
      exact hnot _ n r1 r2 (hsr ▸ hndr)
    · rw [← List.map_append, ← List.map_append]
      exact hA.cursors_kept_erase n l1 l2 r1 r2 hsl hsr hA1 hlv hrv
  · intro its1 it its2 hcut
    rw [← hr'] at hcut
    obtain ⟨r1, n, r2, hsr, rfl, rfl, rfl⟩ := map_elem_split hcut
    have hnr : n ∈ tr.toList := by rw [hsr]; simp
    obtain ⟨l1, l2, hsl⟩ := mem_split (hA.same.mem_iff.2 hnr)
    obtain ⟨h1, he, hA1, hlv, hrv, -⟩ := hA.erase_right n r1 r2 hsr
    refine ⟨h1, _, l1.map (Ptr.elem Tag.left_tag), l2.map (Ptr.elem Tag.left_tag), _,
      hA.links.flip_right hnr, ?_, ?_, ?_, he, ?_⟩
    · rw [← hl', hsl]; simp
    · rw [← List.map_append]
      exact hnot _ n r1 r2 (hsr ▸ hndr)
    · rw [← List.map_append]
      exact hnot _ n l1 l2 (hsl ▸ hndl)
    · rw [← List.map_append, ← List.map_append]
      exact hA.cursors_kept_erase n l1 l2 r1 r2 hsl hsr hA1 hlv hrv

/-- C23 at a concrete input: the cursors of the bimap holding `(3, 0)`, `(5, 50)`,
`(9, 20)` around an erasure. -/
theorem erase_keeps_other_cursors_witness :
    (∀ its1 it its2,
      [Ptr.elem Tag.left_tag 1, Ptr.elem Tag.left_tag 0, Ptr.elem Tag.left_tag 2]
        = its1 ++ it :: its2 →
      ∃ h1 nxt rits1 rits2 fit, iterator.flip demo3.base Tag.left_tag it = some fit ∧
        [Ptr.elem Tag.right_tag 1, Ptr.elem Tag.right_tag 2, Ptr.elem Tag.right_tag 0]
          = rits1 ++ fit :: rits2 ∧ it ∉ its1 ++ its2 ∧ fit ∉ rits1 ++ rits2 ∧
        bimap.erase_left nat_less nat_less demo3 0 it = some (h1, nxt) ∧
        cursors_kept demo3 h1 0 (its1 ++ its2) (rits1 ++ rits2)) ∧
    (∀ its1 it its2,
      [Ptr.elem Tag.right_tag 1, Ptr.elem Tag.right_tag 2, Ptr.elem Tag.right_tag 0]
        = its1 ++ it :: its2 →
      ∃ h1 nxt lits1 lits2 fit, iterator.flip demo3.base Tag.right_tag it = some fit ∧
        [Ptr.elem Tag.left_tag 1, Ptr.elem Tag.left_tag 0, Ptr.elem Tag.left_tag 2]
          = lits1 ++ fit :: lits2 ∧ it ∉ its1 ++ its2 ∧ fit ∉ lits1 ++ lits2 ∧
        bimap.erase_right nat_less nat_less demo3 0 it = some (h1, nxt) ∧
        cursors_kept demo3 h1 0 (lits1 ++ lits2) (its1 ++ its2)) :=
  erase_keeps_other_cursors demo3_wf
    [Ptr.elem Tag.left_tag 1, Ptr.elem Tag.left_tag 0, Ptr.elem Tag.left_tag 2]
    [Ptr.elem Tag.right_tag 1, Ptr.elem Tag.right_tag 2, Ptr.elem Tag.right_tag 0]
    demo3_left_range demo3_right_range

end bimap

namespace details

variable {T : Type}

/-! ## The max-heap property on priorities -/

theorem Shape.prior_le_of_forall {prior : Nat → Nat} {bound : Nat} :
    ∀ (t : Shape), (∀ k ∈ t.toList, prior k ≤ bound) → t.prior_le prior bound
  | Shape.nil, _ => trivial
  | Shape.node _ n _, h => h n (by simp [Shape.toList])

theorem HeapOrd.all_le {prior : Nat → Nat} {bound : Nat} :
    ∀ (t : Shape), HeapOrd prior t → t.prior_le prior bound → ∀ k ∈ t.toList, prior k ≤ bound
  | Shape.nil, _, _, k, hk => by simp [Shape.toList] at hk
  | Shape.node l n r, ⟨hl, hr, hL, hR⟩, hb, k, hk => by
    simp only [Shape.toList, List.mem_append, List.mem_cons] at hk
    have hb' : prior n ≤ bound := hb
    rcases hk with hk | rfl | hk
    · exact le_trans (HeapOrd.all_le l hL hl k hk) hb'
    · exact hb'
    · exact le_trans (HeapOrd.all_le r hR hr k hk) hb'

theorem HeapOrd.root_max {prior : Nat → Nat} {l r : Shape} {n : Nat}
    (h : HeapOrd prior (Shape.node l n r)) : ∀ k ∈ (Shape.node l n r).toList, prior k ≤ prior n :=
  HeapOrd.all_le _ h (Nat.le_refl (prior n))

theorem Shape.prior_le_congr {p1 p2 : Nat → Nat} {bound : Nat} :
    ∀ (t : Shape), (∀ k ∈ t.toList, p2 k = p1 k) → t.prior_le p1 bound → t.prior_le p2 bound
  | Shape.nil, _, _ => trivial
  | Shape.node _ n _, hf, h => by
    have e : p2 n = p1 n := hf n (by simp [Shape.toList])
    simp only [Shape.prior_le] at h ⊢
    omega

theorem HeapOrd.congr_prior {p1 p2 : Nat → Nat} :
    ∀ (t : Shape), (∀ k ∈ t.toList, p2 k = p1 k) → HeapOrd p1 t → HeapOrd p2 t
  | Shape.nil, _, _ => trivial
  | Shape.node l n r, hf, ⟨hl, hr, hL, hR⟩ => by
    have e : p2 n = p1 n := hf n (by simp [Shape.toList])
    have hfl : ∀ k ∈ l.toList, p2 k = p1 k := fun k hk => hf k (by simp [Shape.toList, hk])
    have hfr : ∀ k ∈ r.toList, p2 k = p1 k := fun k hk => hf k (by simp [Shape.toList, hk])
    refine ⟨?_, ?_, HeapOrd.congr_prior l hfl hL, HeapOrd.congr_prior r hfr hR⟩
    · rw [e]; exact Shape.prior_le_congr l hfl hl
    · rw [e]; exact Shape.prior_le_congr r hfr hr

theorem Shape.prior_le_merge (prior : Nat → Nat) (bound : Nat) (a b : Shape)
    (ha : a.prior_le prior bound) (hb : b.prior_le prior bound) :
    (Shape.merge prior a b).prior_le prior bound := by
  cases a with
  | nil => simpa [Shape.merge] using hb
  | node l1 n1 r1 =>
    cases b with
    | nil => simpa [Shape.merge] using ha
    | node l2 n2 r2 =>
      rw [Shape.merge]
      split
      · exact ha
      · exact hb

theorem HeapOrd.of_merge (prior : Nat → Nat) (a b : Shape) :
    HeapOrd prior a → HeapOrd prior b → HeapOrd prior (Shape.merge prior a b) := by
  induction a, b using Shape.merge.induct prior with
  | case1 t2 => intro _ h; simpa [Shape.merge] using h
  | case2 l1 n1 r1 => intro h _; simpa [Shape.merge] using h
  | case3 l1 n1 r1 l2 n2 r2 h ih =>
    intro ha hb
    rw [Shape.merge, if_pos h]
    obtain ⟨hl, hr, hL, hR⟩ := ha
    refine ⟨hl, ?_, hL, ih hR hb⟩
    exact Shape.prior_le_merge prior _ _ _ hr (Nat.le_of_lt h)
  | case4 l1 n1 r1 l2 n2 r2 h ih =>
    intro ha hb
    rw [Shape.merge, if_neg h]
    obtain ⟨hl, hr, hL, hR⟩ := hb
    refine ⟨?_, hr, ih ha hL, hR⟩
    exact Shape.prior_le_merge prior _ _ _ (Nat.le_of_not_lt h) hl

theorem Shape.mem_split_left (lt : Nat → Bool) (t : Shape) {k : Nat}
    (h : k ∈ (Shape.split lt t).1.toList) : k ∈ t.toList := by
  rw [← Shape.toList_split lt t]; exact List.mem_append_left _ h

theorem Shape.mem_split_right (lt : Nat → Bool) (t : Shape) {k : Nat}
    (h : k ∈ (Shape.split lt t).2.toList) : k ∈ t.toList := by
  rw [← Shape.toList_split lt t]; exact List.mem_append_right _ h

theorem HeapOrd.of_split (prior : Nat → Nat) (lt : Nat → Bool) :
    ∀ (t : Shape), HeapOrd prior t →
      HeapOrd prior (Shape.split lt t).1 ∧ HeapOrd prior (Shape.split lt t).2
  | Shape.nil, _ => ⟨trivial, trivial⟩
  | Shape.node l n r, h => by
    have hmax := h.root_max
    obtain ⟨hl, hr, hL, hR⟩ := h
    have ihl := HeapOrd.of_split prior lt l hL
    have ihr := HeapOrd.of_split prior lt r hR
    by_cases hn : lt n = true
    · simp only [Shape.split, hn, if_true]
      refine ⟨⟨hl, ?_, hL, ihr.1⟩, ihr.2⟩
      exact Shape.prior_le_of_forall _ fun k hk =>
        hmax k (by simp [Shape.toList, Shape.mem_split_left lt r hk])
    · simp only [Shape.split, hn, if_false]
      refine ⟨ihl.1, ⟨?_, hr, ihl.2, hR⟩⟩
      exact Shape.prior_le_of_forall _ fun k hk =>
        hmax k (by simp [Shape.toList, Shape.mem_split_right lt l hk])

theorem HeapOrd.of_insert (prior : Nat → Nat) (lt : Nat → Bool) (t : Shape) (n : Nat)
    (h : HeapOrd prior t) : HeapOrd prior (Shape.insert prior lt t n) := by
  rw [Shape.insert_eq]
  have hs := HeapOrd.of_split prior lt t h
  refine HeapOrd.of_merge prior _ _ (HeapOrd.of_merge prior _ _ hs.1 ?_) hs.2
  exact ⟨trivial, trivial, trivial, trivial⟩

theorem Shape.mem_erase_subset (prior : Nat → Nat) (n : Nat) :
    ∀ (t : Shape) (k : Nat), k ∈ (Shape.erase prior n t).toList → k ∈ t.toList
  | Shape.nil, k, hk => by simp [Shape.erase, Shape.toList] at hk
  | Shape.node l j r, k, hk => by
    by_cases hj : j = n
    · simp only [Shape.erase, hj, if_true, Shape.toList_merge, List.mem_append] at hk
      simp only [Shape.toList, List.mem_append, List.mem_cons]
      tauto
    · simp only [Shape.erase, hj, if_false, Shape.toList, List.mem_append, List.mem_cons] at hk
      simp only [Shape.toList, List.mem_append, List.mem_cons]
      rcases hk with hk | rfl | hk
      · exact Or.inl (Shape.mem_erase_subset prior n l k hk)
      · exact Or.inr (Or.inl rfl)
      · exact Or.inr (Or.inr (Shape.mem_erase_subset prior n r k hk))

theorem HeapOrd.of_erase (prior : Nat → Nat) (n : Nat) :
    ∀ (t : Shape), HeapOrd prior t → HeapOrd prior (Shape.erase prior n t)
  | Shape.nil, _ => trivial
  | Shape.node l j r, h => by
    have hmax := h.root_max
    obtain ⟨hl, hr, hL, hR⟩ := h
    by_cases hj : j = n
    · simp only [Shape.erase, hj, if_true]
      exact HeapOrd.of_merge prior l r hL hR
    · simp only [Shape.erase, hj, if_false]
      refine ⟨?_, ?_, HeapOrd.of_erase prior n l hL, HeapOrd.of_erase prior n r hR⟩
      · exact Shape.prior_le_of_forall _ fun k hk =>
          hmax k (by simp [Shape.toList, Shape.mem_erase_subset prior n l k hk])
      · exact Shape.prior_le_of_forall _ fun k hk =>
          hmax k (by simp [Shape.toList, Shape.mem_erase_subset prior n r k hk])

/-- In linked memory the max-heap property reads: a node whose parent link is an element has
a priority of at most that of the element, which is a node of the tree. -/
theorem Linked.par_prior {m : Mem} {tag : Tag} {prior : Nat → Nat} :
    ∀ (t : Shape) (q : Ptr), Linked m tag t q → HeapOrd prior t → t.toList.Nodup →
      ∀ k ∈ t.toList, ((m (Ptr.elem tag k)).par = q ∧ t.root tag = Ptr.elem tag k) ∨
        ∃ j ∈ t.toList, (m (Ptr.elem tag k)).par = Ptr.elem tag j ∧ prior k ≤ prior j
  | Shape.nil, _, _, _, _, k, hk => by simp [Shape.toList] at hk
  | Shape.node l n r, q, ⟨hp, hl, hr, hL, hR⟩, ⟨hpl, hpr, hHL, hHR⟩, hnd, k, hk => by
    obtain ⟨hndl, hndr, -, -, -⟩ := nodup_node hnd
    simp only [Shape.toList, List.mem_append, List.mem_cons] at hk
    rcases hk with hk | rfl | hk
    · right
      rcases Linked.par_prior l _ hL hHL hndl k hk with ⟨h1, h2⟩ | ⟨j, hj, h1, h2⟩
      · refine ⟨n, by simp [Shape.toList], h1, ?_⟩
        cases l with
        | nil => simp [Shape.toList] at hk
        | node ll ln lr =>
          simp only [Shape.root, Ptr.elem.injEq, true_and] at h2
          subst h2
          exact hpl
      · exact ⟨j, by simp [Shape.toList, hj], h1, h2⟩
    · exact Or.inl ⟨hp, rfl⟩
    · right
      rcases Linked.par_prior r _ hR hHR hndr k hk with ⟨h1, h2⟩ | ⟨j, hj, h1, h2⟩
      · refine ⟨n, by simp [Shape.toList], h1, ?_⟩
        cases r with
        | nil => simp [Shape.toList] at hk
        | node rl rn rr =>
          simp only [Shape.root, Ptr.elem.injEq, true_and] at h2
          subst h2
          exact hpr
      · exact ⟨j, by simp [Shape.toList, hj], h1, h2⟩

end details

namespace bimap

open details

variable {L R : Type} {cl : L → L → Bool} {cr : R → R → Bool}

/-! ## Priorities under the bimap operations -/

/-- The call `insert` leaves the priorities of the allocated nodes as they are. -/
theorem insert_prior_frame {h h1 : Heap L R} {b : Nat} {l : L} {r : R} {it : Ptr}
    (hop : bimap.insert cl cr h b l r = some (h1, it)) (k : Nat) (hk : k < h.next) :
    h1.lprior k = h.lprior k ∧ h1.rprior k = h.rprior k := by
  unfold bimap.insert at hop
  simp only [Option.bind_eq_some] at hop
  obtain ⟨fl, -, hop⟩ := hop
  split at hop
  · cases hop; exact ⟨rfl, rfl⟩
  · simp only [Option.bind_eq_some] at hop
    obtain ⟨fr, -, hop⟩ := hop
    split at hop
    · cases hop; exact ⟨rfl, rfl⟩
    · simp only [Option.bind_eq_some] at hop
      obtain ⟨a, -, c, -, hop⟩ := hop
      cases hop
      simp [bimap.new_node, Function.update, Nat.ne_of_lt hk]

/-- The call `at_left_or_default` leaves the priorities of the allocated nodes as they are. -/
theorem at_left_or_default_prior_frame [Inhabited R] {h h1 : Heap L R} {b : Nat} {key : L}
    {v : R} (hop : bimap.at_left_or_default cl cr h b key = some (h1, v)) (k : Nat)
    (hk : k < h.next) : h1.lprior k = h.lprior k ∧ h1.rprior k = h.rprior k := by
  unfold bimap.at_left_or_default at hop
  simp only [Option.bind_eq_some] at hop
  obtain ⟨lit, -, hop⟩ := hop
  split at hop
  · simp only [Option.bind_eq_some] at hop
    obtain ⟨_, -, _, -, hop⟩ := hop
    cases hop; exact ⟨rfl, rfl⟩
  · simp only [Option.bind_eq_some] at hop
    obtain ⟨rit, -, hop⟩ := hop
    split at hop
    · simp only [Option.bind_eq_some] at hop
      obtain ⟨_, -, _, -, _, -, _, -, _, -, hop⟩ := hop
      cases hop; exact ⟨rfl, rfl⟩
    · simp only [Option.bind_eq_some] at hop
      obtain ⟨a, ha, _, -, _, -, hop⟩ := hop
      cases hop
      exact insert_prior_frame ha k hk

/-- The call `at_right_or_default` leaves the priorities of the allocated nodes as they
are. -/
theorem at_right_or_default_prior_frame [Inhabited L] {h h1 : Heap L R} {b : Nat} {key : R}
    {v : L} (hop : bimap.at_right_or_default cl cr h b key = some (h1, v)) (k : Nat)
    (hk : k < h.next) : h1.lprior k = h.lprior k ∧ h1.rprior k = h.rprior k := by
  unfold bimap.at_right_or_default at hop
  simp only [Option.bind_eq_some] at hop
  obtain ⟨rit, -, hop⟩ := hop
  split at hop
  · simp only [Option.bind_eq_some] at hop
    obtain ⟨_, -, _, -, hop⟩ := hop
    cases hop; exact ⟨rfl, rfl⟩
  · simp only [Option.bind_eq_some] at hop
    obtain ⟨lit, -, hop⟩ := hop
    split at hop
    · simp only [Option.bind_eq_some] at hop
      obtain ⟨_, -, _, -, _, -, _, -, _, -, hop⟩ := hop
      cases hop; exact ⟨rfl, rfl⟩
    · simp only [Option.bind_eq_some] at hop
      obtain ⟨a, ha, _, -, hop⟩ := hop
      cases hop
      exact insert_prior_frame ha k hk

/-- Both trees of the bimap object `b` are max-heaps on the priorities of their link
roles. -/
theorem Abs.heap_insert {h h1 : Heap L R} {b : Nat} {tl tr : Shape}
    (hA : Abs cl cr h b tl tr) (hfr : ∀ k, k < h.next → h1.lprior k = h.lprior k ∧
      h1.rprior k = h.rprior k) (hl : HeapOrd h.lprior tl) (hr : HeapOrd h.rprior tr)
    (ltl ltr : Nat → Bool) (n : Nat) :
    HeapOrd h1.lprior (Shape.insert h1.lprior ltl tl n) ∧
      HeapOrd h1.rprior (Shape.insert h1.rprior ltr tr n) :=
  ⟨HeapOrd.of_insert _ _ _ _
      (HeapOrd.congr_prior tl (fun k hk => (hfr k (hA.links.left_alloc k hk)).1) hl),
    HeapOrd.of_insert _ _ _ _
      (HeapOrd.congr_prior tr (fun k hk => (hfr k (hA.links.right_alloc k hk)).2) hr)⟩

end bimap

namespace bimap

open details

variable {L R : Type} {cl : L → L → Bool} {cr : R → R → Bool}

/-- The bimap object `b` is well formed and both of its trees are max-heaps on the priorities
of their link roles. -/
theorem Abs.erase_left_loop_heap {b : Nat} : ∀ (l2 : List Nat) (fuel : Nat) (h : Heap L R)
    (tl tr : Shape) (l1 l3 : List Nat), Abs cl cr h b tl tr → HeapOrd h.lprior tl →
    HeapOrd h.rprior tr → tl.toList = l1 ++ l2 ++ l3 → l2.length < fuel →
    ∃ h1 tl1 tr1, bimap.erase_left_loop cl cr b fuel h
        (first_or Tag.left_tag (end_left b) (l2 ++ l3))
        (first_or Tag.left_tag (end_left b) l3)
        = some (h1, first_or Tag.left_tag (end_left b) l3) ∧
      Abs cl cr h1 b tl1 tr1 ∧ HeapOrd h1.lprior tl1 ∧ HeapOrd h1.rprior tr1 := by
  intro l2
  induction l2 with
  | nil =>
    intro fuel h tl tr l1 l3 hA hHl hHr hsplit hlen
    obtain ⟨f1, rfl⟩ : ∃ f1, fuel = f1 + 1 := ⟨fuel - 1, by simp at hlen; omega⟩
    refine ⟨h, tl, tr, ?_, hA, hHl, hHr⟩
    simp [bimap.erase_left_loop]
  | cons x l2 ih =>
    intro fuel h tl tr l1 l3 hA hHl hHr hsplit hlen
    obtain ⟨f1, rfl⟩ : ∃ f1, fuel = f1 + 1 := ⟨fuel - 1, by simp at hlen; omega⟩
    have hsplit' : tl.toList = l1 ++ x :: (l2 ++ l3) := by simpa using hsplit
    have hnd := hA.links.left_inv.nodup
    rw [hsplit'] at hnd
    have hx1 : x ∉ l1 := fun hm => (List.nodup_append.1 hnd).2.2 hm (by simp)
    have hx23 : x ∉ l2 ++ l3 := (List.nodup_cons.1 (List.nodup_append.1 hnd).2.1).1
    have hx3 : x ∉ l3 := fun hm => hx23 (List.mem_append_right _ hm)
    have hV := hA.links.left_visits
    rw [hsplit'] at hV
    have hinc := Visits.incr_mem l1 hV
    obtain ⟨h1, he, hA1, -, -, hlp, hrp, -, -⟩ := hA.erase_left x l1 (l2 ++ l3) hsplit'
    have hl1 : (Shape.erase h.lprior x tl).toList = l1 ++ l2 ++ l3 := by
      rw [Shape.toList_erase _ _ _ hA.links.left_inv.nodup, hsplit', erase_middle hx1,
        List.append_assoc]
    obtain ⟨h2, tl2, tr2, hloop, hA2, hHl2, hHr2⟩ :=
      ih f1 h1 _ _ l1 l3 hA1 (hlp ▸ HeapOrd.of_erase h.lprior x tl hHl)
        (hrp ▸ HeapOrd.of_erase h.rprior x tr hHr) hl1 (by simp at hlen; omega)
    refine ⟨h2, tl2, tr2, ?_, hA2, hHl2, hHr2⟩
    have hne : Ptr.elem Tag.left_tag x ≠ first_or Tag.left_tag (end_left b) l3 :=
      first_or_ne_elem hx3
    have h0 : first_or Tag.left_tag (end_left b) (x :: l2 ++ l3) = Ptr.elem Tag.left_tag x :=
      rfl
    rw [h0]
    simp only [bimap.erase_left_loop, hne, if_false, hinc, Option.some_bind, he]
    exact hloop

theorem Abs.erase_right_loop_heap {b : Nat} : ∀ (l2 : List Nat) (fuel : Nat) (h : Heap L R)
    (tl tr : Shape) (l1 l3 : List Nat), Abs cl cr h b tl tr → HeapOrd h.lprior tl →
    HeapOrd h.rprior tr → tr.toList = l1 ++ l2 ++ l3 → l2.length < fuel →
    ∃ h1 tl1 tr1, bimap.erase_right_loop cl cr b fuel h
        (first_or Tag.right_tag (end_right b) (l2 ++ l3))
        (first_or Tag.right_tag (end_right b) l3)
        = some (h1, first_or Tag.right_tag (end_right b) l3) ∧
      Abs cl cr h1 b tl1 tr1 ∧ HeapOrd h1.lprior tl1 ∧ HeapOrd h1.rprior tr1 := by
  intro l2
  induction l2 with
  | nil =>
    intro fuel h tl tr l1 l3 hA hHl hHr hsplit hlen
    obtain ⟨f1, rfl⟩ : ∃ f1, fuel = f1 + 1 := ⟨fuel - 1, by simp at hlen; omega⟩
    refine ⟨h, tl, tr, ?_, hA, hHl, hHr⟩
    simp [bimap.erase_right_loop]
  | cons x l2 ih =>
    intro fuel h tl tr l1 l3 hA hHl hHr hsplit hlen
    obtain ⟨f1, rfl⟩ : ∃ f1, fuel = f1 + 1 := ⟨fuel - 1, by simp at hlen; omega⟩
    have hsplit' : tr.toList = l1 ++ x :: (l2 ++ l3) := by simpa using hsplit
    have hnd := hA.links.right_inv.nodup
    rw [hsplit'] at hnd
    have hx1 : x ∉ l1 := fun hm => (List.nodup_append.1 hnd).2.2 hm (by simp)
    have hx23 : x ∉ l2 ++ l3 := (List.nodup_cons.1 (List.nodup_append.1 hnd).2.1).1
    have hx3 : x ∉ l3 := fun hm => hx23 (List.mem_append_right _ hm)
    have hV := hA.links.right_visits
    rw [hsplit'] at hV
    have hinc := Visits.incr_mem l1 hV
    obtain ⟨h1, he, hA1, -, -, hlp, hrp, -, -⟩ := hA.erase_right x l1 (l2 ++ l3) hsplit'
    have hl1 : (Shape.erase h.rprior x tr).toList = l1 ++ l2 ++ l3 := by
      rw [Shape.toList_erase _ _ _ hA.links.right_inv.nodup, hsplit', erase_middle hx1,
        List.append_assoc]
    obtain ⟨h2, tl2, tr2, hloop, hA2, hHl2, hHr2⟩ :=
      ih f1 h1 _ _ l1 l3 hA1 (hlp ▸ HeapOrd.of_erase h.lprior x tl hHl)
        (hrp ▸ HeapOrd.of_erase h.rprior x tr hHr) hl1 (by simp at hlen; omega)
    refine ⟨h2, tl2, tr2, ?_, hA2, hHl2, hHr2⟩
    have hne : Ptr.elem Tag.right_tag x ≠ first_or Tag.right_tag (end_right b) l3 :=
      first_or_ne_elem hx3
    have h0 : first_or Tag.right_tag (end_right b) (x :: l2 ++ l3)
        = Ptr.elem Tag.right_tag x := rfl
    rw [h0]
    simp only [bimap.erase_right_loop, hne, if_false, hinc, Option.some_bind, he]
    exact hloop

theorem Abs.erase_left_range_heap {h : Heap L R} {b : Nat} {tl tr : Shape}
    (hA : Abs cl cr h b tl tr) (hHl : HeapOrd h.lprior tl) (hHr : HeapOrd h.rprior tr)
    {first last : Ptr}
    (hv : valid_range (tl.toList.map (Ptr.elem Tag.left_tag)) (end_left b) first last) :
    ∃ h1 tl1 tr1, bimap.erase_left_range cl cr h b first last = some (h1, last) ∧
      Abs cl cr h1 b tl1 tr1 ∧ HeapOrd h1.lprior tl1 ∧ HeapOrd h1.rprior tr1 := by
  obtain ⟨l1, l2, l3, hsplit, rfl, rfl⟩ := valid_range_nodes hv
  have hsz := hA.links.left_size
  rw [← Shape.length_toList, hsplit] at hsz
  exact hA.erase_left_loop_heap l2 h.fuel h tl tr l1 l3 hHl hHr hsplit
    (by simp only [Heap.fuel]; simp only [List.length_append] at hsz; omega)

theorem Abs.erase_right_range_heap {h : Heap L R} {b : Nat} {tl tr : Shape}
    (hA : Abs cl cr h b tl tr) (hHl : HeapOrd h.lprior tl) (hHr : HeapOrd h.rprior tr)
    {first last : Ptr}
    (hv : valid_range (tr.toList.map (Ptr.elem Tag.right_tag)) (end_right b) first last) :
    ∃ h1 tl1 tr1, bimap.erase_right_range cl cr h b first last = some (h1, last) ∧
      Abs cl cr h1 b tl1 tr1 ∧ HeapOrd h1.lprior tl1 ∧ HeapOrd h1.rprior tr1 := by
  obtain ⟨l1, l2, l3, hsplit, rfl, rfl⟩ := valid_range_nodes hv
  have hsz := hA.links.right_size
  rw [← Shape.length_toList, hsplit] at hsz
  exact hA.erase_right_loop_heap l2 h.fuel h tl tr l1 l3 hHl hHr hsplit
    (by simp only [Heap.fuel]; simp only [List.length_append] at hsz; omega)

/-- Every reachable state of a bimap is well formed with two trees that are max-heaps on the
priorities. -/
theorem Reachable.heap_ord [Inhabited L] [Inhabited R] (hcl : StrictWeakOrder cl)
    (hcr : StrictWeakOrder cr) {b : Nat} {h : Heap L R} (hR : Reachable cl cr b h) :
    ∃ tl tr, Abs cl cr h b tl tr ∧ HeapOrd h.lprior tl ∧ HeapOrd h.rprior tr := by
  induction hR with
  | ctor h0 => exact ⟨_, _, Abs.of_ctor h0 b, trivial, trivial⟩
  | @insert h h1 it l r _ hop ih =>
    obtain ⟨tl, tr, hA, hHl, hHr⟩ := ih
    have hfr := fun k hk => insert_prior_frame hop k hk
    by_cases hl : ∃ k ∈ tl.toList, equiv cl (h.lval k) l = true
    · obtain ⟨k, hk, he⟩ := hl
      rw [hA.insert_dup_left hcl l r hk he] at hop
      simp only [Option.some.injEq, Prod.mk.injEq] at hop
      exact hop.1 ▸ ⟨tl, tr, hA, hHl, hHr⟩
    · by_cases hr : ∃ k ∈ tr.toList, equiv cr (h.rval k) r = true
      · obtain ⟨k, hk, he⟩ := hr
        rw [hA.insert_dup_right hcl hcr l r hk he] at hop
        simp only [Option.some.injEq, Prod.mk.injEq] at hop
        exact hop.1 ▸ ⟨tl, tr, hA, hHl, hHr⟩
      · obtain ⟨h2, hi, hA2, -⟩ := hA.insert_fresh hcl hcr l r
          (fun k hk => by simpa using fun e => hl ⟨k, hk, e⟩)
          (fun k hk => by simpa using fun e => hr ⟨k, hk, e⟩)
        rw [hi] at hop
        simp only [Option.some.injEq, Prod.mk.injEq] at hop
        obtain ⟨rfl, -⟩ := hop
        have hH := hA.heap_insert hfr hHl hHr (fun k => cl (h2.lval k) l)
          (fun k => cr (h2.rval k) r) h.next
        exact ⟨_, _, hA2, hH.1, hH.2⟩
  | @erase_left h h1 its it nxt _ hrange hit hop ih =>
    obtain ⟨tl, tr, hA, hHl, hHr⟩ := ih
    rw [hA.links.left_range] at hrange
    simp only [Option.some.injEq] at hrange
    rw [← hrange] at hit
    obtain ⟨n, hn, rfl⟩ := List.mem_map.1 hit
    obtain ⟨l1, l2, hsplit⟩ := mem_split hn
    obtain ⟨h2, he, hA2, -, -, hlp, hrp, -⟩ := hA.erase_left n l1 l2 hsplit
    rw [he] at hop
    simp only [Option.some.injEq, Prod.mk.injEq] at hop
    obtain ⟨rfl, -⟩ := hop
    exact ⟨_, _, hA2, (by rw [hlp]; exact HeapOrd.of_erase h.lprior n tl hHl), (by rw [hrp]; exact HeapOrd.of_erase h.rprior n tr hHr)⟩
  | @erase_right h h1 its it nxt _ hrange hit hop ih =>
    obtain ⟨tl, tr, hA, hHl, hHr⟩ := ih
    rw [hA.links.right_range] at hrange
    simp only [Option.some.injEq] at hrange
    rw [← hrange] at hit
    obtain ⟨n, hn, rfl⟩ := List.mem_map.1 hit
    obtain ⟨l1, l2, hsplit⟩ := mem_split hn
    obtain ⟨h2, he, hA2, -, -, hlp, hrp, -⟩ := hA.erase_right n l1 l2 hsplit
    rw [he] at hop
    simp only [Option.some.injEq, Prod.mk.injEq] at hop
    obtain ⟨rfl, -⟩ := hop
    exact ⟨_, _, hA2, (by rw [hlp]; exact HeapOrd.of_erase h.lprior n tl hHl), (by rw [hrp]; exact HeapOrd.of_erase h.rprior n tr hHr)⟩
  | @erase_left_key h h1 found l _ hop ih =>
    obtain ⟨tl, tr, hA, hHl, hHr⟩ := ih
    by_cases hl : ∃ k ∈ tl.toList, equiv cl (h.lval k) l = true
    · obtain ⟨k, hk, he⟩ := hl
      obtain ⟨h2, hi, hA2, -, -, hlp, hrp, -⟩ := hA.erase_left_key_present hcl l hk he
      rw [hi] at hop
      simp only [Option.some.injEq, Prod.mk.injEq] at hop
      obtain ⟨rfl, -⟩ := hop
      exact ⟨_, _, hA2, (by rw [hlp]; exact HeapOrd.of_erase h.lprior k tl hHl), (by rw [hrp]; exact HeapOrd.of_erase h.rprior k tr hHr)⟩
    · rw [hA.erase_left_key_absent hcl l
        (fun k hk => by simpa using fun e => hl ⟨k, hk, e⟩)] at hop
      simp only [Option.some.injEq, Prod.mk.injEq] at hop
      exact hop.1 ▸ ⟨tl, tr, hA, hHl, hHr⟩
  | @erase_right_key h h1 found r _ hop ih =>
    obtain ⟨tl, tr, hA, hHl, hHr⟩ := ih
    by_cases hr : ∃ k ∈ tr.toList, equiv cr (h.rval k) r = true
    · obtain ⟨k, hk, he⟩ := hr
      obtain ⟨h2, hi, hA2, -, -, hlp, hrp, -⟩ := hA.erase_right_key_present hcr r hk he
      rw [hi] at hop
      simp only [Option.some.injEq, Prod.mk.injEq] at hop
      obtain ⟨rfl, -⟩ := hop
      exact ⟨_, _, hA2, (by rw [hlp]; exact HeapOrd.of_erase h.lprior k tl hHl), (by rw [hrp]; exact HeapOrd.of_erase h.rprior k tr hHr)⟩
    · rw [hA.erase_right_key_absent hcr r
        (fun k hk => by simpa using fun e => hr ⟨k, hk, e⟩)] at hop
      simp only [Option.some.injEq, Prod.mk.injEq] at hop
      exact hop.1 ▸ ⟨tl, tr, hA, hHl, hHr⟩
  | @erase_left_range h h1 its first last it _ hrange hv hop ih =>
    obtain ⟨tl, tr, hA, hHl, hHr⟩ := ih
    rw [hA.links.left_range] at hrange
    simp only [Option.some.injEq] at hrange
    rw [← hrange] at hv
    obtain ⟨h2, tl2, tr2, he, hA2⟩ := hA.erase_left_range_heap hHl hHr hv
    rw [he] at hop
    simp only [Option.some.injEq, Prod.mk.injEq] at hop
    exact hop.1 ▸ ⟨_, _, hA2⟩
  | @erase_right_range h h1 its first last it _ hrange hv hop ih =>
    obtain ⟨tl, tr, hA, hHl, hHr⟩ := ih
    rw [hA.links.right_range] at hrange
    simp only [Option.some.injEq] at hrange
    rw [← hrange] at hv
    obtain ⟨h2, tl2, tr2, he, hA2⟩ := hA.erase_right_range_heap hHl hHr hv
    rw [he] at hop
    simp only [Option.some.injEq, Prod.mk.injEq] at hop
    exact hop.1 ▸ ⟨_, _, hA2⟩
  | @at_left_or_default h h1 v key _ hop ih =>
    obtain ⟨tl, tr, hA, hHl, hHr⟩ := ih
    have hfr := fun k hk => at_left_or_default_prior_frame hop k hk
    by_cases hl : ∃ k ∈ tl.toList, equiv cl (h.lval k) key = true
    · obtain ⟨k, hk, he⟩ := hl
      rw [hA.at_left_or_default_present hcl key hk he] at hop
      simp only [Option.some.injEq, Prod.mk.injEq] at hop
      exact hop.1 ▸ ⟨tl, tr, hA, hHl, hHr⟩
    · have hl' : ∀ k ∈ tl.toList, equiv cl (h.lval k) key = false :=
        fun k hk => by simpa using fun e => hl ⟨k, hk, e⟩
      by_cases hr : ∃ k ∈ tr.toList, equiv cr (h.rval k) default = true
      · obtain ⟨k, hk, he⟩ := hr
        obtain ⟨h2, hi, hA2, -, -, hlp, hrp, -⟩ :=
          hA.at_left_or_default_reuse hcl hcr key hl' hk he
        rw [hi] at hop
        simp only [Option.some.injEq, Prod.mk.injEq] at hop
        obtain ⟨rfl, -⟩ := hop
        exact ⟨_, _, hA2, (by rw [hlp]; exact HeapOrd.of_insert h.lprior _ _ _ (HeapOrd.of_erase h.lprior k tl hHl)),
          (by rw [hrp]; exact hHr)⟩
      · obtain ⟨h2, hi, hA2, -⟩ := hA.at_left_or_default_fresh hcl hcr key hl'
          (fun k hk => by simpa using fun e => hr ⟨k, hk, e⟩)
        rw [hi] at hop
        simp only [Option.some.injEq, Prod.mk.injEq] at hop
        obtain ⟨rfl, -⟩ := hop
        have hH := hA.heap_insert hfr hHl hHr (fun k => cl (h2.lval k) key)
          (fun k => cr (h2.rval k) default) h.next
        exact ⟨_, _, hA2, hH.1, hH.2⟩
  | @at_right_or_default h h1 v key _ hop ih =>
    obtain ⟨tl, tr, hA, hHl, hHr⟩ := ih
    have hfr := fun k hk => at_right_or_default_prior_frame hop k hk
    by_cases hr : ∃ k ∈ tr.toList, equiv cr (h.rval k) key = true
    · obtain ⟨k, hk, he⟩ := hr
      rw [hA.at_right_or_default_present hcr key hk he] at hop
      simp only [Option.some.injEq, Prod.mk.injEq] at hop
      exact hop.1 ▸ ⟨tl, tr, hA, hHl, hHr⟩
    · have hr' : ∀ k ∈ tr.toList, equiv cr (h.rval k) key = false :=
        fun k hk => by simpa using fun e => hr ⟨k, hk, e⟩
      by_cases hl : ∃ k ∈ tl.toList, equiv cl (h.lval k) default = true
      · obtain ⟨k, hk, he⟩ := hl
        obtain ⟨h2, hi, hA2, -, -, hlp, hrp, -⟩ :=
          hA.at_right_or_default_reuse hcl hcr key hr' hk he
        rw [hi] at hop
        simp only [Option.some.injEq, Prod.mk.injEq] at hop
        obtain ⟨rfl, -⟩ := hop
        exact ⟨_, _, hA2, (by rw [hlp]; exact hHl),
          (by rw [hrp]; exact HeapOrd.of_insert h.rprior _ _ _ (HeapOrd.of_erase h.rprior k tr hHr))⟩
      · obtain ⟨h2, hi, hA2, -⟩ := hA.at_right_or_default_fresh hcl hcr key hr'
          (fun k hk => by simpa using fun e => hl ⟨k, hk, e⟩)
        rw [hi] at hop
        simp only [Option.some.injEq, Prod.mk.injEq] at hop
        obtain ⟨rfl, -⟩ := hop
        have hH := hA.heap_insert hfr hHl hHr (fun k => cl (h2.lval k) default)
          (fun k => cr (h2.rval k) key) h.next
        exact ⟨_, _, hA2, hH.1, hH.2⟩

end bimap

namespace bimap

open details

variable {L R : Type} {cl : L → L → Bool} {cr : R → R → Bool}

/-- C25: in every state reached from a constructed bimap by `insert`, `erase_left` and
`erase_right` (by iterator, by key or by range), `at_left_or_default` and
`at_right_or_default` calls, every node of the left tree (every position `it` of the left
iteration, the element of role left of a node `k`) either is the root (its parent link is
the sentinel, whose left link is `it`) or has as parent the left element of a node `j` of the
tree with `prior k ≤ prior j` for the priorities of the left role; and the same holds in the
right tree for the priorities of the right role. -/
theorem children_below_parents [Inhabited L] [Inhabited R] (hcl : StrictWeakOrder cl)
    (hcr : StrictWeakOrder cr) {b : Nat} {h : Heap L R} (hR : Reachable cl cr b h) :
    ∃ lits rits, left_range h b = some lits ∧ right_range h b = some rits ∧
      (∀ it ∈ lits, ∃ k, it = Ptr.elem Tag.left_tag k ∧
        (((h.base it).par = end_left b ∧ (h.base (end_left b)).left = it) ∨
          ∃ j, (h.base it).par = Ptr.elem Tag.left_tag j ∧ Ptr.elem Tag.left_tag j ∈ lits ∧
            h.lprior k ≤ h.lprior j)) ∧
      (∀ it ∈ rits, ∃ k, it = Ptr.elem Tag.right_tag k ∧
        (((h.base it).par = end_right b ∧ (h.base (end_right b)).left = it) ∨
          ∃ j, (h.base it).par = Ptr.elem Tag.right_tag j ∧ Ptr.elem Tag.right_tag j ∈ rits ∧
            h.rprior k ≤ h.rprior j)) := by
  obtain ⟨tl, tr, hA, hHl, hHr⟩ := hR.heap_ord hcl hcr
  refine ⟨_, _, hA.links.left_range, hA.links.right_range, ?_, ?_⟩
  · intro it hit
    obtain ⟨k, hk, rfl⟩ := List.mem_map.1 hit
    refine ⟨k, rfl, ?_⟩
    have hI := hA.links.left_inv
    rcases Linked.par_prior tl _ hI.linked hHl hI.nodup k hk with ⟨h1, h2⟩ | ⟨j, hj, h1, h2⟩
    · exact Or.inl ⟨h1, hI.fake_left.trans h2⟩
    · exact Or.inr ⟨j, h1, List.mem_map.2 ⟨j, hj, rfl⟩, h2⟩
  · intro it hit
    obtain ⟨k, hk, rfl⟩ := List.mem_map.1 hit
    refine ⟨k, rfl, ?_⟩
    have hI := hA.links.right_inv
    rcases Linked.par_prior tr _ hI.linked hHr hI.nodup k hk with ⟨h1, h2⟩ | ⟨j, hj, h1, h2⟩
    · exact Or.inl ⟨h1, hI.fake_left.trans h2⟩
    · exact Or.inr ⟨j, h1, List.mem_map.2 ⟨j, hj, rfl⟩, h2⟩

/-- C25 at a concrete input: the bimap holding `(3, 0)`, `(5, 50)`, `(9, 20)`. -/
theorem children_below_parents_witness :
    ∃ lits rits, left_range demo3 0 = some lits ∧ right_range demo3 0 = some rits ∧
      (∀ it ∈ lits, ∃ k, it = Ptr.elem Tag.left_tag k ∧
        (((demo3.base it).par = end_left 0 ∧ (demo3.base (end_left 0)).left = it) ∨
          ∃ j, (demo3.base it).par = Ptr.elem Tag.left_tag j ∧
            Ptr.elem Tag.left_tag j ∈ lits ∧ demo3.lprior k ≤ demo3.lprior j)) ∧
      (∀ it ∈ rits, ∃ k, it = Ptr.elem Tag.right_tag k ∧
        (((demo3.base it).par = end_right 0 ∧ (demo3.base (end_right 0)).left = it) ∨
          ∃ j, (demo3.base it).par = Ptr.elem Tag.right_tag j ∧
            Ptr.elem Tag.right_tag j ∈ rits ∧ demo3.rprior k ≤ demo3.rprior j)) :=
  children_below_parents nat_less_swo nat_less_swo demo3_reachable

end bimap

namespace details

variable {T : Type}

/-! ## The contracts of `split` and `merge` -/

theorem sorted_nodup {c : T → T → Bool} (hc : StrictWeakOrder c) {key : Nat → T}
    {l : List Nat} (hs : l.Pairwise (fun i j => c (key i) (key j) = true)) : l.Nodup := by
  refine hs.imp ?_
  intro a b hab e
  subst e
  rw [hc.irrefl] at hab
  exact Bool.false_ne_true hab

theorem filter_append_cut {α : Type} (p : α → Bool) (l1 l2 : List α)
    (h1 : ∀ a ∈ l1, p a = true) (h2 : ∀ a ∈ l2, p a = false) :
    (l1 ++ l2).filter p = l1 ∧ (l1 ++ l2).filter (fun a => !p a) = l2 := by
  constructor
  · rw [List.filter_append, List.filter_eq_self.2 h1, List.filter_eq_nil_iff.2, List.append_nil]
    intro a ha
    simp [h2 a ha]
  · rw [List.filter_append, List.filter_eq_nil_iff.2, List.filter_eq_self.2, List.nil_append]
    · intro a ha
      simp [h2 a ha]
    · intro a ha
      simp [h1 a ha]

/-- C27: for a subtree `a` whose links are those of a search tree (`LinkedU`, keys
increasing along the in-order sequence) and every key `x`, the call `split(x, a)` returns,
with enough fuel for the height of the tree, the roots of two trees `sa` and `sb` linked in
the memory after the call: `sa` holds exactly the nodes of `a` with key less than `x` and
`sb` exactly those with key not less than `x`, in the order of `a`; the in-order sequence of
`sa` followed by that of `sb` is the in-order sequence of `a` (no node lost, none twice);
`sa` and `sb` are search trees; if `a` is a max-heap on the priorities, so are `sa` and `sb`;
and no cell other than those of nodes of `a` is written. -/
theorem split_partitions {t : treap T} (hc : StrictWeakOrder t.cmp) (x : T) (fuel : Nat)
    (a : Shape) (m : Mem) (hL : LinkedU m t.tag a)
    (hs : a.toList.Pairwise (fun i j => t.cmp (t.val i) (t.val j) = true))
    (hsz : a.size < fuel) :
    ∃ m1 sa sb, t.split x fuel m (a.root t.tag) = some (m1, sa.root t.tag, sb.root t.tag) ∧
      LinkedU m1 t.tag sa ∧ LinkedU m1 t.tag sb ∧
      sa.toList = a.toList.filter (fun k => t.cmp (t.val k) x) ∧
      sb.toList = a.toList.filter (fun k => !t.cmp (t.val k) x) ∧
      sa.toList ++ sb.toList = a.toList ∧ (sa.toList ++ sb.toList).Nodup ∧
      sa.toList.Pairwise (fun i j => t.cmp (t.val i) (t.val j) = true) ∧
      sb.toList.Pairwise (fun i j => t.cmp (t.val i) (t.val j) = true) ∧
      (HeapOrd t.prior a → HeapOrd t.prior sa ∧ HeapOrd t.prior sb) ∧
      (∀ p, (∀ k ∈ a.toList, p ≠ Ptr.elem t.tag k) → m1 p = m p) := by
  have hnd := sorted_nodup hc hs
  obtain ⟨m1, h1, h2, h3, h4⟩ := split_spec t x fuel a m hL hnd hsz
  have happ := Shape.toList_split (fun n => t.cmp (t.val n) x) a
  have hkeys := Shape.split_keys hc x a hs
  have hcut := filter_append_cut (fun k => t.cmp (t.val k) x) _ _ hkeys.1 hkeys.2
  rw [happ] at hcut
  have hs' := hs
  rw [← happ] at hs'
  refine ⟨m1, _, _, h1, h2, h3, hcut.1.symm, hcut.2.symm, happ, happ ▸ hnd,
    (List.pairwise_append.1 hs').1, (List.pairwise_append.1 hs').2.1,
    fun hH => HeapOrd.of_split t.prior _ a hH, h4⟩

/-- C28: for two trees `a` and `b` linked in memory, each a search tree and a max-heap on the
priorities, with every key of `a` less than every key of `b`, the call `merge(a, b)` returns,
with enough fuel, the root of a tree `c` linked in the memory after the call whose in-order
sequence is that of `a` followed by that of `b`; `c` is a search tree and a max-heap; when
both trees are non-empty the root of `c` is the root of `a` if its priority is strictly
greater than that of the root of `b`, and the root of `b` otherwise; when one of the trees is
empty, the call writes nothing and returns the root of the other. -/
theorem merge_concatenates {t : treap T} (hc : StrictWeakOrder t.cmp) (fuel : Nat)
    (a b : Shape) (m : Mem) (hLa : LinkedU m t.tag a) (hLb : LinkedU m t.tag b)
    (hsa : a.toList.Pairwise (fun i j => t.cmp (t.val i) (t.val j) = true))
    (hsb : b.toList.Pairwise (fun i j => t.cmp (t.val i) (t.val j) = true))
    (hab : ∀ i ∈ a.toList, ∀ j ∈ b.toList, t.cmp (t.val i) (t.val j) = true)
    (hHa : HeapOrd t.prior a) (hHb : HeapOrd t.prior b) (hsz : a.size + b.size < fuel) :
    ∃ m1 c, t.merge fuel m (a.root t.tag) (b.root t.tag) = some (m1, c.root t.tag) ∧
      LinkedU m1 t.tag c ∧ c.toList = a.toList ++ b.toList ∧
      c.toList.Pairwise (fun i j => t.cmp (t.val i) (t.val j) = true) ∧
      HeapOrd t.prior c ∧
      (∀ l1 n1 r1 l2 n2 r2, a = Shape.node l1 n1 r1 → b = Shape.node l2 n2 r2 →
        c.root t.tag = if t.prior n1 > t.prior n2 then Ptr.elem t.tag n1
          else Ptr.elem t.tag n2) ∧
      (a = Shape.nil → m1 = m ∧ c = b) ∧ (b = Shape.nil → m1 = m ∧ c = a) ∧
      (∀ p, (∀ k ∈ a.toList ++ b.toList, p ≠ Ptr.elem t.tag k) → m1 p = m p) := by
  have hsab : (a.toList ++ b.toList).Pairwise (fun i j => t.cmp (t.val i) (t.val j) = true) :=
    List.pairwise_append.2 ⟨hsa, hsb, hab⟩
  have hnd := sorted_nodup hc hsab
  obtain ⟨m1, h1, h2, h3⟩ := merge_spec t fuel a b m hLa hLb hnd hsz
  obtain ⟨f1, rfl⟩ : ∃ f1, fuel = f1 + 1 := ⟨fuel - 1, by omega⟩
  refine ⟨m1, Shape.merge t.prior a b, h1, h2, Shape.toList_merge _ _ _, ?_,
    HeapOrd.of_merge _ _ _ hHa hHb, ?_, ?_, ?_, h3⟩
  · rw [Shape.toList_merge]; exact hsab
  · rintro l1 n1 r1 l2 n2 r2 rfl rfl
    rw [Shape.merge]
    split <;> rfl
  · rintro rfl
    simp only [treap.merge, Shape.root, if_true, Option.some.injEq, Prod.mk.injEq] at h1
    exact ⟨h1.1.symm, by simp [Shape.merge]⟩
  · rintro rfl
    refine ⟨?_, by cases a <;> simp [Shape.merge]⟩
    cases a with
    | nil =>
      simp only [treap.merge, Shape.root, if_true, Option.some.injEq, Prod.mk.injEq] at h1
      exact h1.1.symm
    | node l n r =>
      simp only [treap.merge, Shape.root, if_true, if_false, Option.some.injEq,
        Prod.mk.injEq, reduceCtorEq] at h1
      exact h1.1.symm

end details

namespace bimap

open details

theorem demo3_left_inv :
    TreapInv (left_treap nat_less demo3 0) demo3.base
      (Shape.node Shape.nil 1 (Shape.node (Shape.node Shape.nil 0 Shape.nil) 2 Shape.nil)) :=
  ⟨by decide, by decide,
    ⟨by decide, by decide, by decide, trivial,
      ⟨by decide, by decide, by decide, ⟨by decide, by decide, by decide, trivial, trivial⟩,
        trivial⟩⟩,
    by decide, by decide⟩

/-- C27 at a concrete input: the left tree of the bimap holding `(3, 0)`, `(5, 50)`,
`(9, 20)` split at the key `6`. -/
theorem split_partitions_witness :
    ∃ m1 sa sb, (left_treap nat_less demo3 0).split 6 5 demo3.base
        ((Shape.node Shape.nil 1
          (Shape.node (Shape.node Shape.nil 0 Shape.nil) 2 Shape.nil)).root
            (left_treap nat_less demo3 0).tag)
        = some (m1, sa.root (left_treap nat_less demo3 0).tag,
            sb.root (left_treap nat_less demo3 0).tag) ∧
      LinkedU m1 (left_treap nat_less demo3 0).tag sa ∧
      LinkedU m1 (left_treap nat_less demo3 0).tag sb ∧
      sa.toList = (Shape.node Shape.nil 1
          (Shape.node (Shape.node Shape.nil 0 Shape.nil) 2 Shape.nil)).toList.filter
        (fun k => (left_treap nat_less demo3 0).cmp ((left_treap nat_less demo3 0).val k) 6) ∧
      sb.toList = (Shape.node Shape.nil 1
          (Shape.node (Shape.node Shape.nil 0 Shape.nil) 2 Shape.nil)).toList.filter
        (fun k => !(left_treap nat_less demo3 0).cmp ((left_treap nat_less demo3 0).val k) 6) ∧
      sa.toList ++ sb.toList = (Shape.node Shape.nil 1
          (Shape.node (Shape.node Shape.nil 0 Shape.nil) 2 Shape.nil)).toList ∧
      (sa.toList ++ sb.toList).Nodup ∧
      sa.toList.Pairwise (fun i j => (left_treap nat_less demo3 0).cmp
        ((left_treap nat_less demo3 0).val i) ((left_treap nat_less demo3 0).val j) = true) ∧
      sb.toList.Pairwise (fun i j => (left_treap nat_less demo3 0).cmp
        ((left_treap nat_less demo3 0).val i) ((left_treap nat_less demo3 0).val j) = true) ∧
      (HeapOrd (left_treap nat_less demo3 0).prior (Shape.node Shape.nil 1
          (Shape.node (Shape.node Shape.nil 0 Shape.nil) 2 Shape.nil)) →
        HeapOrd (left_treap nat_less demo3 0).prior sa ∧
          HeapOrd (left_treap nat_less demo3 0).prior sb) ∧
      (∀ p, (∀ k ∈ (Shape.node Shape.nil 1
          (Shape.node (Shape.node Shape.nil 0 Shape.nil) 2 Shape.nil)).toList,
        p ≠ Ptr.elem (left_treap nat_less demo3 0).tag k) → m1 p = demo3.base p) :=
  split_partitions nat_less_swo 6 5 _ demo3.base demo3_left_inv.linked.toU
    demo3_left_inv.sorted (by decide)

end bimap

namespace bimap

open details

theorem duo3_left_linked_0 :
    LinkedU duo3.base Tag.left_tag (Shape.node (Shape.node Shape.nil 0 Shape.nil) 1 Shape.nil) :=
  ⟨by decide, by decide, ⟨by decide, by decide, by decide, trivial, trivial⟩, trivial⟩

theorem duo3_left_linked_1 :
    LinkedU duo3.base Tag.left_tag (Shape.node Shape.nil 2 Shape.nil) :=
  ⟨by decide, by decide, trivial, trivial⟩

/-- C28 at a concrete input: the left trees of two bimaps in one memory, the first holding
the keys `1` and `2`, the second the key `5`. -/
theorem merge_concatenates_witness :
    ∃ m1 c, (left_treap nat_less duo3 0).merge 4 duo3.base
        ((Shape.node (Shape.node Shape.nil 0 Shape.nil) 1 Shape.nil).root
          (left_treap nat_less duo3 0).tag)
        ((Shape.node Shape.nil 2 Shape.nil).root (left_treap nat_less duo3 0).tag)
        = some (m1, c.root (left_treap nat_less duo3 0).tag) ∧
      LinkedU m1 (left_treap nat_less duo3 0).tag c ∧
      c.toList = (Shape.node (Shape.node Shape.nil 0 Shape.nil) 1 Shape.nil).toList
        ++ (Shape.node Shape.nil 2 Shape.nil).toList ∧
      c.toList.Pairwise (fun i j => (left_treap nat_less duo3 0).cmp
        ((left_treap nat_less duo3 0).val i) ((left_treap nat_less duo3 0).val j) = true) ∧
      HeapOrd (left_treap nat_less duo3 0).prior c ∧
      (∀ l1 n1 r1 l2 n2 r2,
        Shape.node (Shape.node Shape.nil 0 Shape.nil) 1 Shape.nil = Shape.node l1 n1 r1 →
        Shape.node Shape.nil 2 Shape.nil = Shape.node l2 n2 r2 →
        c.root (left_treap nat_less duo3 0).tag
          = if (left_treap nat_less duo3 0).prior n1 > (left_treap nat_less duo3 0).prior n2
            then Ptr.elem (left_treap nat_less duo3 0).tag n1
            else Ptr.elem (left_treap nat_less duo3 0).tag n2) ∧
      (Shape.node (Shape.node Shape.nil 0 Shape.nil) 1 Shape.nil = Shape.nil →
        m1 = duo3.base ∧ c = Shape.node Shape.nil 2 Shape.nil) ∧
      (Shape.node Shape.nil 2 Shape.nil = Shape.nil →
        m1 = duo3.base ∧ c = Shape.node (Shape.node Shape.nil 0 Shape.nil) 1 Shape.nil) ∧
      (∀ p, (∀ k ∈ (Shape.node (Shape.node Shape.nil 0 Shape.nil) 1 Shape.nil).toList
          ++ (Shape.node Shape.nil 2 Shape.nil).toList,
        p ≠ Ptr.elem (left_treap nat_less duo3 0).tag k) → m1 p = duo3.base p) :=
  merge_concatenates nat_less_swo 4 _ _ duo3.base duo3_left_linked_0 duo3_left_linked_1
    (by decide) (by decide) (by decide)
    ⟨show duo3.lprior 0 ≤ duo3.lprior 1 from by decide, trivial,
      ⟨trivial, trivial, trivial, trivial⟩, trivial⟩
    ⟨trivial, trivial, trivial, trivial⟩ (by decide)

end bimap

namespace details

variable {T : Type}

/-! ## Consistent links -/

theorem Linked.root_par {m : Mem} {tag : Tag} : ∀ {t : Shape} {q : Ptr},
    Linked m tag t q → t.root tag ≠ Ptr.null → (m (t.root tag)).par = q
  | Shape.nil, _, _, h => absurd rfl h
  | Shape.node _ _ _, _, ⟨hp, _⟩, _ => hp

theorem Linked.children_par {m : Mem} {tag : Tag} : ∀ (t : Shape) (q : Ptr),
    Linked m tag t q → ∀ k ∈ t.toList,
      ((m (Ptr.elem tag k)).left ≠ Ptr.null →
        (m (m (Ptr.elem tag k)).left).par = Ptr.elem tag k) ∧
      ((m (Ptr.elem tag k)).right ≠ Ptr.null →
        (m (m (Ptr.elem tag k)).right).par = Ptr.elem tag k)
  | Shape.nil, _, _, k, hk => by simp [Shape.toList] at hk
  | Shape.node l n r, q, ⟨_, hl, hr, hL, hR⟩, k, hk => by
    simp only [Shape.toList, List.mem_append, List.mem_cons] at hk
    rcases hk with hk | rfl | hk
    · exact Linked.children_par l _ hL k hk
    · constructor
      · rw [hl]; exact fun hne => hL.root_par hne
      · rw [hr]; exact fun hne => hR.root_par hne
    · exact Linked.children_par r _ hR k hk

theorem links_consistent_of_linked {t : treap T} {m : Mem} {tr : Shape}
    (hfp : (m t.fake).par = Ptr.null) (hfl : (m t.fake).left = tr.root t.tag)
    (hL : Linked m t.tag tr t.fake) : links_consistent t m tr.toList := by
  refine ⟨hfp, ?_, Linked.children_par tr _ hL⟩
  rw [hfl]
  exact fun hne => hL.root_par hne

/-- C30: take a treap with consistent links: the sentinel has no parent, its left link is
the root of a tree `tr` of distinct nodes, and every node of `tr` points to the roots of its
subtrees and to its parent, the root to the sentinel (`Linked`); this makes the links
consistent as read off the memory (`links_consistent`: the root and the children of every
node point back).  Then `insert(node)` of a node that is not in the tree and has no children
returns, and `erase(node)` of a node of the tree (the sentinel's right link is not that
node) returns, and afterwards the links are consistent again for a tree `tr1` holding the
node as well (`insert`), or the other nodes of `tr` in their order (`erase`): the sentinel
has no parent, its left link is the root of `tr1`, the links spell out `tr1`, and the root
and the children of every node point back; the erased node has its three links cleared. -/
theorem links_stay_consistent {t : treap T} {m : Mem} {tr : Shape}
    (hfp : (m t.fake).par = Ptr.null) (hfl : (m t.fake).left = tr.root t.tag)
    (hL : Linked m t.tag tr t.fake) (hnd : tr.toList.Nodup) (fuel : Nat)
    (hsz : tr.size + 1 < fuel) :
    links_consistent t m tr.toList ∧
    (∀ n, n ∉ tr.toList → (m (Ptr.elem t.tag n)).left = Ptr.null →
      (m (Ptr.elem t.tag n)).right = Ptr.null →
      ∃ m1 tr1, t.insert fuel m (Ptr.elem t.tag n) = some (m1, Ptr.elem t.tag n) ∧
        tr1.toList.Perm (n :: tr.toList) ∧ (m1 t.fake).par = Ptr.null ∧
        (m1 t.fake).left = tr1.root t.tag ∧ Linked m1 t.tag tr1 t.fake ∧
        links_consistent t m1 tr1.toList) ∧
    (∀ n, n ∈ tr.toList → (m t.fake).right ≠ Ptr.elem t.tag n →
      ∃ m1 tr1, t.erase fuel m (Ptr.elem t.tag n) = some m1 ∧
        tr1.toList = tr.toList.erase n ∧ (m1 t.fake).par = Ptr.null ∧
        (m1 t.fake).left = tr1.root t.tag ∧ Linked m1 t.tag tr1 t.fake ∧
        links_consistent t m1 tr1.toList ∧
        m1 (Ptr.elem t.tag n) = ⟨Ptr.null, Ptr.null, Ptr.null⟩) := by
  refine ⟨links_consistent_of_linked hfp hfl hL, ?_, ?_⟩
  · intro n hn hnl hnr
    obtain ⟨m1, h1, h2, h3, -, h5, -⟩ := insert_links t fuel m tr n hfl hL hnd hn hnl hnr hsz
    have hp : (m1 t.fake).par = Ptr.null := h3.trans hfp
    exact ⟨m1, _, h1, Shape.insert_perm _ _ _ _, hp, h2, h5,
      links_consistent_of_linked hp h2 h5⟩
  · intro n hn hright
    obtain ⟨m1, h1, h2, h3, -, h5⟩ := erase_links t n fuel tr t.fake m true hL hnd hn
      (by omega) t.fake_ne_null (fun k _ => t.fake_ne_elem _ _) (by simp [hfl, hright])
      (fun e => ⟨rfl, by rw [← hfl, e], rfl⟩)
    simp only [if_true] at h5
    have hp : (m1 t.fake).par = Ptr.null := by rw [h5]; exact hfp
    have hl : (m1 t.fake).left = (Shape.erase t.prior n tr).root t.tag := by rw [h5]
    exact ⟨m1, _, h1, Shape.toList_erase _ _ _ hnd, hp, hl, h2,
      links_consistent_of_linked hp hl h2, h3⟩

end details

namespace bimap

open details

theorem demo3_fresh_linked :
    Linked demo3_fresh.base Tag.left_tag
      (Shape.node Shape.nil 1 (Shape.node (Shape.node Shape.nil 0 Shape.nil) 2 Shape.nil))
      (Ptr.fake Tag.left_tag 0) :=
  ⟨by decide!, by decide!, by decide!, trivial,
    ⟨by decide!, by decide!, by decide!, ⟨by decide!, by decide!, by decide!, trivial, trivial⟩,
      trivial⟩⟩

/-- C30 at a concrete input: the left treap of the bimap holding `(3, 0)`, `(5, 50)`,
`(9, 20)`, with `insert` of the fresh node `3` (key `7`) and `erase` of the node `2`
(key `9`). -/
theorem links_stay_consistent_witness :
    links_consistent (left_treap nat_less demo3_fresh 0) demo3_fresh.base [1, 0, 2] ∧
    (∃ m1 tr1, (left_treap nat_less demo3_fresh 0).insert 5 demo3_fresh.base
        (Ptr.elem Tag.left_tag 3) = some (m1, Ptr.elem Tag.left_tag 3) ∧
      tr1.toList.Perm [3, 1, 0, 2] ∧ (m1 (Ptr.fake Tag.left_tag 0)).par = Ptr.null ∧
      (m1 (Ptr.fake Tag.left_tag 0)).left = tr1.root Tag.left_tag ∧
      Linked m1 Tag.left_tag tr1 (Ptr.fake Tag.left_tag 0) ∧
      links_consistent (left_treap nat_less demo3_fresh 0) m1 tr1.toList) ∧
    (∃ m1 tr1, (left_treap nat_less demo3_fresh 0).erase 5 demo3_fresh.base
        (Ptr.elem Tag.left_tag 2) = some m1 ∧
      tr1.toList = [1, 0] ∧ (m1 (Ptr.fake Tag.left_tag 0)).par = Ptr.null ∧
      (m1 (Ptr.fake Tag.left_tag 0)).left = tr1.root Tag.left_tag ∧
      Linked m1 Tag.left_tag tr1 (Ptr.fake Tag.left_tag 0) ∧
      links_consistent (left_treap nat_less demo3_fresh 0) m1 tr1.toList ∧
      m1 (Ptr.elem Tag.left_tag 2) = ⟨Ptr.null, Ptr.null, Ptr.null⟩) :=
  have hw := @links_stay_consistent Nat (left_treap nat_less demo3_fresh 0) demo3_fresh.base
    (Shape.node Shape.nil 1 (Shape.node (Shape.node Shape.nil 0 Shape.nil) 2 Shape.nil))
    (by decide!) (by decide!) demo3_fresh_linked (by decide!) 5 (by decide!)
  ⟨hw.1, hw.2.1 3 (by decide!) (by decide!) (by decide!), hw.2.2 2 (by decide!) (by decide!)⟩

end bimap

namespace details

variable {T : Type}

/-! ## The tree does not depend on the insertion order -/

theorem append_cons_cancel {x : Nat} : ∀ (l1 l2 r1 r2 : List Nat), x ∉ l1 → x ∉ l2 →
    l1 ++ x :: r1 = l2 ++ x :: r2 → l1 = l2 ∧ r1 = r2
  | [], [], _, _, _, _, h => by simpa using h
  | [], y :: l2, _, _, _, h2, h => by
    simp only [List.nil_append, List.cons_append, List.cons.injEq] at h
    exact absurd (h.1 ▸ List.mem_cons_self _ _) h2
  | y :: l1, [], _, _, h1, _, h => by
    simp only [List.nil_append, List.cons_append, List.cons.injEq] at h
    exact absurd (h.1 ▸ List.mem_cons_self _ _) h1
  | y :: l1, z :: l2, r1, r2, h1, h2, h => by
    simp only [List.cons_append, List.cons.injEq] at h
    have ih := append_cons_cancel l1 l2 r1 r2 (fun hm => h1 (List.mem_cons_of_mem _ hm))
      (fun hm => h2 (List.mem_cons_of_mem _ hm)) h.2
    exact ⟨by rw [h.1, ih.1], ih.2⟩

/-- A max-heap on pairwise distinct priorities is determined by its in-order sequence. -/
theorem treap_unique (prior : Nat → Nat) : ∀ (s1 s2 : Shape), s1.toList = s2.toList →
    s1.toList.Nodup → (∀ i ∈ s1.toList, ∀ j ∈ s1.toList, prior i = prior j → i = j) →
    HeapOrd prior s1 → HeapOrd prior s2 → s1 = s2
  | Shape.nil, Shape.nil, _, _, _, _, _ => rfl
  | Shape.nil, Shape.node _ _ _, h, _, _, _, _ => by simp [Shape.toList] at h
  | Shape.node _ _ _, Shape.nil, h, _, _, _, _ => by simp [Shape.toList] at h
  | Shape.node l1 n1 r1, Shape.node l2 n2 r2, he, hnd, hinj, h1, h2 => by
    have hm1 := h1.root_max
    have hm2 := h2.root_max
    have hn2 : n2 ∈ (Shape.node l1 n1 r1).toList := by rw [he]; simp [Shape.toList]
    have hn1 : n1 ∈ (Shape.node l2 n2 r2).toList := by rw [← he]; simp [Shape.toList]
    have hn1' : n1 ∈ (Shape.node l1 n1 r1).toList := by simp [Shape.toList]
    have hn : n1 = n2 := hinj n1 hn1' n2 hn2 (Nat.le_antisymm (hm2 n1 hn1) (hm1 n2 hn2))
    subst hn
    have hnd2 : (Shape.node l2 n1 r2).toList.Nodup := he ▸ hnd
    obtain ⟨hndl, hndr, hk1, -, -⟩ := nodup_node hnd
    obtain ⟨-, -, hk2, -, -⟩ := nodup_node hnd2
    simp only [Shape.toList] at he
    obtain ⟨el, er⟩ := append_cons_cancel _ _ _ _ hk1 hk2 he
    obtain ⟨-, -, hL1, hR1⟩ := h1
    obtain ⟨-, -, hL2, hR2⟩ := h2
    have hl := treap_unique prior l1 l2 el hndl
      (fun i hi j hj => hinj i (by simp [Shape.toList, hi]) j (by simp [Shape.toList, hj]))
      hL1 hL2
    have hr := treap_unique prior r1 r2 er hndr
      (fun i hi j hj => hinj i (by simp [Shape.toList, hi]) j (by simp [Shape.toList, hj]))
      hR1 hR2
    rw [hl, hr]

theorem cell_ext {a b : map_element_base} (hp : a.par = b.par) (hl : a.left = b.left)
    (hr : a.right = b.right) : a = b := by
  cases a; cases b; simp_all

/-- The links of a tree determine the cells of its nodes. -/
theorem Linked.cell_eq {m1 m2 : Mem} {tag : Tag} : ∀ (t : Shape) (q : Ptr),
    Linked m1 tag t q → Linked m2 tag t q →
    ∀ k ∈ t.toList, m1 (Ptr.elem tag k) = m2 (Ptr.elem tag k)
  | Shape.nil, _, _, _, k, hk => by simp [Shape.toList] at hk
  | Shape.node l n r, q, ⟨hp, hl, hr, hL, hR⟩, ⟨hp2, hl2, hr2, hL2, hR2⟩, k, hk => by
    simp only [Shape.toList, List.mem_append, List.mem_cons] at hk
    rcases hk with hk | rfl | hk
    · exact Linked.cell_eq l _ hL hL2 k hk
    · exact cell_ext (hp.trans hp2.symm) (hl.trans hl2.symm) (hr.trans hr2.symm)
    · exact Linked.cell_eq r _ hR hR2 k hk

/-- The calls `insert(node)` for a list of new nodes without children and with keys that are
pairwise not equivalent, and not equivalent to a key of the tree. -/
theorem insert_all_spec {t : treap T} (hc : StrictWeakOrder t.cmp) (fuel : Nat) :
    ∀ (ns : List Nat) (m : Mem) (tr : Shape), TreapInv t m tr → HeapOrd t.prior tr →
    ns.Nodup → (∀ n ∈ ns, n ∉ tr.toList) →
    (∀ n ∈ ns, (m (Ptr.elem t.tag n)).left = Ptr.null ∧
      (m (Ptr.elem t.tag n)).right = Ptr.null) →
    (∀ i ∈ tr.toList ++ ns, ∀ j ∈ tr.toList ++ ns, i ≠ j →
      equiv t.cmp (t.val i) (t.val j) = false) →
    tr.size + ns.length < fuel →
    ∃ m1 tr1, t.insert_all fuel m ns = some m1 ∧ TreapInv t m1 tr1 ∧ HeapOrd t.prior tr1 ∧
      tr1.toList.Perm (tr.toList ++ ns) ∧ (m1 t.fake).right = (m t.fake).right ∧
      (∀ p, p ≠ t.fake → (∀ k ∈ tr.toList ++ ns, p ≠ Ptr.elem t.tag k) → m1 p = m p)
  | [], m, tr, hI, hH, _, _, _, _, _ =>
    ⟨m, tr, rfl, hI, hH, by simp, rfl, fun _ _ _ => rfl⟩
  | n :: ns, m, tr, hI, hH, hnd, hnew, hblank, hkeys, hsz => by
    have hn : n ∉ tr.toList := hnew n (List.mem_cons_self _ _)
    have hnns : n ∉ ns := (List.nodup_cons.1 hnd).1
    obtain ⟨m1, h1, hI1, hr1, hf1⟩ := hI.insert_inv hc n fuel hn
      (hblank n (List.mem_cons_self _ _)).1 (hblank n (List.mem_cons_self _ _)).2
      (fun k hk => hkeys k (by simp [hk]) n (by simp) (fun e => hn (e ▸ hk)))
      (by simp only [List.length_cons] at hsz; omega)
    have hperm := Shape.insert_perm t.prior (fun k => t.cmp (t.val k) (t.val n)) tr n
    have hmem : ∀ k, k ∈ (Shape.insert t.prior (fun k => t.cmp (t.val k) (t.val n)) tr n).toList
        ↔ k = n ∨ k ∈ tr.toList := fun k => Shape.mem_insert _ _ _ _ _
    have hsize : (Shape.insert t.prior (fun k => t.cmp (t.val k) (t.val n)) tr n).size
        = tr.size + 1 := by
      rw [← Shape.length_toList, hperm.length_eq, List.length_cons, Shape.length_toList]
    obtain ⟨m2, tr2, h2, hI2, hH2, hp2, hr2, hf2⟩ := insert_all_spec hc fuel ns m1 _ hI1
      (HeapOrd.of_insert _ _ _ _ hH) (List.nodup_cons.1 hnd).2
      (fun k hk hm => by
        rcases (hmem k).1 hm with e | hm
        · exact hnns (e ▸ hk)
        · exact hnew k (List.mem_cons_of_mem _ hk) hm)
      (fun k hk => by
        have hkn : k ≠ n := fun e => hnns (e ▸ hk)
        rw [hf1 (Ptr.elem t.tag k) (fun e => t.fake_ne_elem _ _ e.symm) (fun j hj e => by
          simp only [Ptr.elem.injEq, true_and] at e
          subst e
          rcases List.mem_cons.1 hj with e | hj
          · exact hkn e
          · exact hnew k (List.mem_cons_of_mem _ hk) hj)]
        exact hblank k (List.mem_cons_of_mem _ hk))
      (fun i hi j hj hij => by
        refine hkeys i ?_ j ?_ hij
        · rcases List.mem_append.1 hi with hi | hi
          · rcases (hmem i).1 hi with e | hi
            · simp [e]
            · simp [hi]
          · simp [hi]
        · rcases List.mem_append.1 hj with hj | hj
          · rcases (hmem j).1 hj with e | hj
            · simp [e]
            · simp [hj]
          · simp [hj])
      (by rw [hsize]; simp only [List.length_cons] at hsz; omega)
    refine ⟨m2, tr2, ?_, hI2, hH2, ?_, hr2.trans hr1, ?_⟩
    · simp only [treap.insert_all, h1, Option.some_bind]
      exact h2
    · refine hp2.trans ?_
      refine (List.Perm.append_right ns hperm).trans ?_
      simp only [List.cons_append]
      exact List.perm_middle.symm
    · intro p hpf hp
      rw [hf2 p hpf (fun k hk => ?_), hf1 p hpf (fun k hk => ?_)]
      · exact hp k (by
          rcases List.mem_cons.1 hk with e | hk
          · simp [e]
          · simp [hk])
      · refine hp k ?_
        rcases List.mem_append.1 hk with hk | hk
        · rcases (hmem k).1 hk with e | hk
          · simp [e]
          · simp [hk]
        · simp [hk]

end details

namespace details

variable {T : Type}

/-- C29: take an empty treap (the sentinel has neither a parent nor a left link) and a finite
set of nodes, given as a list `ns` without repetition, that have no children, pairwise not
equivalent keys and pairwise distinct priorities.  Inserting the nodes in the order `ns` and
inserting them in any other order `ns1` (a permutation of `ns`) both return, with enough fuel,
and yield the same memory `m1`, hence the same root and the same parent and child links for
every node; the tree `tr` built holds exactly the nodes of `ns`, is a search tree on the keys
and a max-heap on the priorities, and is the only tree on these nodes that is both. -/
theorem insertion_order_irrelevant {t : treap T} (hc : StrictWeakOrder t.cmp) (m : Mem)
    (ns ns1 : List Nat) (fuel : Nat) (hpar : (m t.fake).par = Ptr.null)
    (hleft : (m t.fake).left = Ptr.null) (hnd : ns.Nodup) (hperm : ns1.Perm ns)
    (hblank : ∀ n ∈ ns, (m (Ptr.elem t.tag n)).left = Ptr.null ∧
      (m (Ptr.elem t.tag n)).right = Ptr.null)
    (hkeys : ∀ i ∈ ns, ∀ j ∈ ns, i ≠ j → equiv t.cmp (t.val i) (t.val j) = false)
    (hprior : ∀ i ∈ ns, ∀ j ∈ ns, i ≠ j → t.prior i ≠ t.prior j)
    (hfuel : ns.length < fuel) :
    ∃ m1 tr, t.insert_all fuel m ns = some m1 ∧ t.insert_all fuel m ns1 = some m1 ∧
      TreapInv t m1 tr ∧ HeapOrd t.prior tr ∧ tr.toList.Perm ns ∧
      (∀ tr1 : Shape, tr1.toList.Perm ns →
        tr1.toList.Pairwise (fun i j => t.cmp (t.val i) (t.val j) = true) →
        HeapOrd t.prior tr1 → tr1 = tr) := by
  have hI0 : TreapInv t m Shape.nil :=
    ⟨hpar, hleft, trivial, List.nodup_nil, List.Pairwise.nil⟩
  obtain ⟨m1, tr, h1, hI1, hH1, hp1, hr1, hf1⟩ := insert_all_spec hc fuel ns m Shape.nil hI0
    trivial hnd (fun _ _ hm => by simp [Shape.toList] at hm) hblank
    (fun i hi j hj => hkeys i (by simpa [Shape.toList] using hi) j
      (by simpa [Shape.toList] using hj))
    (by simpa [Shape.size] using hfuel)
  obtain ⟨m2, tr2, h2, hI2, hH2, hp2, hr2, hf2⟩ := insert_all_spec hc fuel ns1 m Shape.nil hI0
    trivial (hperm.nodup_iff.2 hnd) (fun _ _ hm => by simp [Shape.toList] at hm)
    (fun n hn => hblank n (hperm.subset hn))
    (fun i hi j hj => hkeys i (hperm.subset (by simpa [Shape.toList] using hi)) j
      (hperm.subset (by simpa [Shape.toList] using hj)))
    (by simpa [Shape.size, hperm.length_eq] using hfuel)
  simp only [Shape.toList, List.nil_append] at hp1 hp2 hf1 hf2
  have huniq : ∀ tr1 : Shape, tr1.toList.Perm ns →
      tr1.toList.Pairwise (fun i j => t.cmp (t.val i) (t.val j) = true) →
      HeapOrd t.prior tr1 → tr1 = tr := by
    intro tr1 hp hs hH
    have hl : tr1.toList = tr.toList :=
      bimap.sorted_perm_eq (fun i j : Nat => t.cmp (t.val i) (t.val j) = true)
        (fun a b hab hba => bimap.swo_asymm hc _ _ hab hba) (hp.trans hp1.symm) hs hI1.sorted
    refine treap_unique t.prior tr1 tr hl (hl ▸ hI1.nodup) ?_ hH hH1
    intro i hi j hj he
    by_contra hne
    exact hprior i (hp.subset hi) j (hp.subset hj) hne he
  have htr : tr2 = tr := huniq tr2 (hp2.trans hperm) hI2.sorted hH2
  subst htr
  have hmem : m2 = m1 := by
    funext p
    by_cases hpf : p = t.fake
    · subst hpf
      exact cell_ext (hI2.fake_par.trans hI1.fake_par.symm)
        (hI2.fake_left.trans hI1.fake_left.symm) (hr2.trans hr1.symm)
    · by_cases hpe : ∃ k ∈ ns, p = Ptr.elem t.tag k
      · obtain ⟨k, hk, rfl⟩ := hpe
        exact Linked.cell_eq tr2 _ hI2.linked hI1.linked k (hp1.symm.subset hk)
      · rw [hf2 p hpf (fun k hk e => hpe ⟨k, hperm.subset hk, e⟩),
          hf1 p hpf (fun k hk e => hpe ⟨k, hk, e⟩)]
  rw [hmem] at h2
  exact ⟨m1, tr2, h1, h2, hI1, hH1, hp1, huniq⟩

end details

namespace bimap

open details

/-- C29 at a concrete input: the nodes with the keys `5`, `3`, `9` inserted into the empty
left treap in the orders `0, 1, 2` and `2, 0, 1`. -/
theorem insertion_order_irrelevant_witness :
    ∃ m1 tr, (left_treap nat_less trio 0).insert_all 4 trio.base [0, 1, 2] = some m1 ∧
      (left_treap nat_less trio 0).insert_all 4 trio.base [2, 0, 1] = some m1 ∧
      TreapInv (left_treap nat_less trio 0) m1 tr ∧
      HeapOrd (left_treap nat_less trio 0).prior tr ∧ tr.toList.Perm [0, 1, 2] ∧
      (∀ tr1 : Shape, tr1.toList.Perm [0, 1, 2] →
        tr1.toList.Pairwise (fun i j => (left_treap nat_less trio 0).cmp
          ((left_treap nat_less trio 0).val i) ((left_treap nat_less trio 0).val j) = true) →
        HeapOrd (left_treap nat_less trio 0).prior tr1 → tr1 = tr) :=
  insertion_order_irrelevant nat_less_swo trio.base [0, 1, 2] [2, 0, 1] 4 (by decide!)
    (by decide!) (by decide) (by decide) (by decide!) (by decide!) (by decide!) (by decide)

end bimap

namespace details

variable {T : Type}

/-! ## The height of a treap as a function of its priorities -/

end details

namespace details

open Finset

/-! ## Counting over all assignments of the priorities -/

end details

namespace details

open Finset

end details

namespace details

open Finset

end details

namespace details

open Finset

end details

namespace details

variable {T : Type}

/-! ## The recursion depth of the treap operations is bounded by the height -/

end details

namespace details

variable {T : Type}

end details

namespace details

open Finset

variable {T : Type}

/-! ## The expected height of a treap -/

end details

namespace bimap

open details Finset

end bimap

namespace details

/-! ## Two well-formed bimaps share no node -/

/-- Following the parent links from a node of a linked tree leads, through nodes of the
tree, to the parent of the root. -/
theorem Linked.climb {m : Mem} {tag : Tag} : ∀ (t : Shape) (q : Ptr), Linked m tag t q →
    ∀ k ∈ t.toList, ∃ n, (fun p => (m p).par)^[n + 1] (Ptr.elem tag k) = q ∧
      ∀ i, i ≤ n → ∃ j ∈ t.toList, (fun p => (m p).par)^[i] (Ptr.elem tag k) = Ptr.elem tag j
  | Shape.nil, _, _, k, hk => by simp [Shape.toList] at hk
  | Shape.node l n r, q, ⟨hp, _, _, hL, hR⟩, k, hk => by
    simp only [Shape.toList, List.mem_append, List.mem_cons] at hk
    have ihl := Linked.climb l _ hL k
    have ihr := Linked.climb r _ hR k
    have up : ∀ (s : Shape), (∀ j ∈ s.toList, j ∈ (Shape.node l n r).toList) →
        (∃ c, (fun p => (m p).par)^[c + 1] (Ptr.elem tag k) = Ptr.elem tag n ∧
          ∀ i, i ≤ c → ∃ j ∈ s.toList,
            (fun p => (m p).par)^[i] (Ptr.elem tag k) = Ptr.elem tag j) →
        ∃ c, (fun p => (m p).par)^[c + 1] (Ptr.elem tag k) = q ∧
          ∀ i, i ≤ c → ∃ j ∈ (Shape.node l n r).toList,
            (fun p => (m p).par)^[i] (Ptr.elem tag k) = Ptr.elem tag j := by
      rintro s hsub ⟨c, hc, hi⟩
      refine ⟨c + 1, ?_, ?_⟩
      · rw [Function.iterate_succ_apply', hc]
        exact hp
      · intro i hi1
        rcases Nat.lt_or_ge i (c + 1) with h | h
        · obtain ⟨j, hj, e⟩ := hi i (by omega)
          exact ⟨j, hsub j hj, e⟩
        · have : i = c + 1 := by omega
          subst this
          exact ⟨n, by simp [Shape.toList], hc⟩
    rcases hk with hk | rfl | hk
    · exact up l (fun j hj => by simp [Shape.toList, hj]) (ihl hk)
    · refine ⟨0, hp, ?_⟩
      intro i hi
      have : i = 0 := by omega
      subst this
      exact ⟨k, by simp [Shape.toList], rfl⟩
    · exact up r (fun j hj => by simp [Shape.toList, hj]) (ihr hk)

/-- Trees linked below two different sentinels have no node in common. -/
theorem Linked.disjoint {m : Mem} {tag : Tag} {ta tb : Shape} {a b : Nat}
    (ha : Linked m tag ta (Ptr.fake tag a)) (hb : Linked m tag tb (Ptr.fake tag b))
    (hab : a ≠ b) : ∀ k ∈ ta.toList, k ∉ tb.toList := by
  intro k hka hkb
  obtain ⟨na, ea, ia⟩ := Linked.climb ta _ ha k hka
  obtain ⟨nb, eb, ib⟩ := Linked.climb tb _ hb k hkb
  rcases Nat.lt_trichotomy na nb with h | h | h
  · obtain ⟨j, -, e⟩ := ib (na + 1) (by omega)
    rw [ea] at e
    exact Ptr.noConfusion e
  · subst h
    rw [ea] at eb
    simp only [Ptr.fake.injEq, true_and] at eb
    exact hab eb
  · obtain ⟨j, -, e⟩ := ia (nb + 1) (by omega)
    rw [eb] at e
    exact Ptr.noConfusion e

end details

namespace bimap

open details

variable {L R : Type} {cl : L → L → Bool} {cr : R → R → Bool}

theorem Abs.nodes_disjoint {h : Heap L R} {a b : Nat} {tla tra tlb trb : Shape}
    (hAa : Abs cl cr h a tla tra) (hAb : Abs cl cr h b tlb trb) (hab : a ≠ b) :
    ∀ k ∈ tla.toList, k ∉ tlb.toList :=
  Linked.disjoint hAa.links.left_inv.linked hAb.links.left_inv.linked hab

end bimap

namespace details

/-! ## What `swap` writes -/

theorem Mem.write_null {m m1 : Mem} {p : Ptr} {e : map_element_base}
    (h : m.write p e = some m1) : m1 Ptr.null = m Ptr.null := by
  cases p with
  | null => simp [Mem.write] at h
  | fake tag b =>
    simp only [Mem.write, Option.some.injEq] at h
    subst h
    simp [Function.update]
  | elem tag n =>
    simp only [Mem.write, Option.some.injEq] at h
    subst h
    simp [Function.update]

theorem Mem.swap_right_null {m m1 : Mem} {p q : Ptr} (h : m.swap_right p q = some m1) :
    m1 Ptr.null = m Ptr.null := by
  simp only [Mem.swap_right, Option.bind_eq_some, Mem.set_right] at h
  obtain ⟨_, _, _, _, m0, h0, h1⟩ := h
  rw [Mem.write_null h1, Mem.write_null h0]

theorem Mem.swap_left_null {m m1 : Mem} {p q : Ptr} (h : m.swap_left p q = some m1) :
    m1 Ptr.null = m Ptr.null := by
  simp only [Mem.swap_left, Option.bind_eq_some, Mem.set_left] at h
  obtain ⟨_, _, _, _, m0, h0, h1⟩ := h
  rw [Mem.write_null h1, Mem.write_null h0]

theorem swap_fake_null {m m1 : Mem} {a b : Ptr} (h : treap.swap_fake m a b = some m1) :
    m1 Ptr.null = m Ptr.null := by
  simp only [treap.swap_fake, Option.bind_eq_some] at h
  obtain ⟨ma, ha, mb, hb, mc, hc, md, hd, he⟩ := h
  have e1 := Mem.swap_right_null ha
  have e2 := Mem.swap_right_null hb
  have e3 := Mem.swap_left_null hc
  have e4 : md Ptr.null = mc Ptr.null := by
    split at hd
    · exact Mem.write_null hd
    · simp only [Option.some.injEq] at hd
      rw [hd]
  have e5 : m1 Ptr.null = md Ptr.null := by
    split at he
    · exact Mem.write_null he
    · simp only [Option.some.injEq] at he
      rw [he]
  rw [e5, e4, e3, e2, e1]

end details

namespace bimap

open details

variable {L R : Type} {cl : L → L → Bool} {cr : R → R → Bool}

theorem swap_fields {h h1 : Heap L R} {a b : Nat} (hsw : bimap.swap h a b = some h1) :
    h1.lval = h.lval ∧ h1.lprior = h.lprior ∧ h1.rval = h.rval ∧ h1.rprior = h.rprior ∧
      h1.next = h.next ∧ h1.rnd = h.rnd ∧ h1.drawn = h.drawn ∧
      h1.sz = Function.update (Function.update h.sz a (h.sz b)) b (h.sz a) ∧
      ∃ m1, treap.swap h.base Tag.left_tag a b = some m1 ∧
        treap.swap m1 Tag.right_tag a b = some h1.base := by
  simp only [bimap.swap, Option.bind_eq_some, Option.some.injEq] at hsw
  obtain ⟨m1, hm1, m2, hm2, rfl⟩ := hsw
  exact ⟨rfl, rfl, rfl, rfl, rfl, rfl, rfl, rfl, m1, hm1, hm2⟩

end bimap

namespace bimap

open details

variable {L R : Type} {cl : L → L → Bool} {cr : R → R → Bool}

/-- `swap` of two different well-formed bimaps leaves the cells of all nodes that belong to
neither of them, and the null cell, as they are. -/
theorem Abs.swap_elems {h h1 : Heap L R} {a b : Nat} {tla tra tlb trb : Shape}
    (hAa : Abs cl cr h a tla tra) (hAb : Abs cl cr h b tlb trb) (hab : a ≠ b)
    (hsw : bimap.swap h a b = some h1) :
    h1.base Ptr.null = h.base Ptr.null ∧
    ∀ tag k, k ∉ tla.toList → k ∉ tlb.toList →
      h1.base (Ptr.elem tag k) = h.base (Ptr.elem tag k) := by
  have hdisj := hAa.nodes_disjoint hAb hab
  have hba : b ≠ a := fun e => hab e.symm
  have hdr : ∀ k ∈ tra.toList, k ∉ trb.toList := fun k hk hm =>
    hdisj k (hAa.same.mem_iff.2 hk) (hAb.same.mem_iff.2 hm)
  have lal : (h.base (Ptr.fake Tag.left_tag a)).left = tla.root Tag.left_tag :=
    hAa.links.left_inv.fake_left
  have lbl : (h.base (Ptr.fake Tag.left_tag b)).left = tlb.root Tag.left_tag :=
    hAb.links.left_inv.fake_left
  have par : (h.base (Ptr.fake Tag.right_tag a)).par = Ptr.null :=
    hAa.links.right_inv.fake_par
  have pbr : (h.base (Ptr.fake Tag.right_tag b)).par = Ptr.null :=
    hAb.links.right_inv.fake_par
  have lar : (h.base (Ptr.fake Tag.right_tag a)).left = tra.root Tag.right_tag :=
    hAa.links.right_inv.fake_left
  have lbr : (h.base (Ptr.fake Tag.right_tag b)).left = trb.root Tag.right_tag :=
    hAb.links.right_inv.fake_left
  have ral : (h.base (Ptr.fake Tag.left_tag a)).right = Ptr.fake Tag.right_tag a :=
    hAa.links.left_cross
  have rbl : (h.base (Ptr.fake Tag.left_tag b)).right = Ptr.fake Tag.right_tag b :=
    hAb.links.left_cross
  have rar : (h.base (Ptr.fake Tag.right_tag a)).right = Ptr.fake Tag.left_tag a :=
    hAa.links.right_cross
  have rbr : (h.base (Ptr.fake Tag.right_tag b)).right = Ptr.fake Tag.left_tag b :=
    hAb.links.right_cross
  obtain ⟨m1, hs1, -, -, h1ar, h1br, -, -, h1f⟩ :=
    swap_fake_spec h.base Tag.left_tag Tag.right_tag a b a b (tla.root Tag.left_tag)
      (tlb.root Tag.left_tag) hab hab (by simp) ral rbl lal lbl (root_cases_elem _ _)
      (root_cases_elem _ _) (root_ne_of_disjoint _ hdisj)
  rw [par, lar, rbr] at h1ar
  rw [pbr, lbr, rar] at h1br
  obtain ⟨m2, hs2, -, -, -, -, -, -, h2f⟩ :=
    swap_fake_spec m1 Tag.right_tag Tag.left_tag a b b a (tra.root Tag.right_tag)
      (trb.root Tag.right_tag) hab hba (by simp) (by rw [h1ar]) (by rw [h1br])
      (by rw [h1ar]) (by rw [h1br]) (root_cases_elem _ _) (root_cases_elem _ _)
      (root_ne_of_disjoint _ hdr)
  obtain ⟨-, -, -, -, -, -, -, -, m1', hm1', hm2'⟩ := swap_fields hsw
  have e1 : m1' = m1 := by
    have := hm1'.symm.trans hs1
    exact Option.some.inj this
  subst e1
  have e2 : h1.base = m2 := Option.some.inj (hm2'.symm.trans hs2)
  rw [e2]
  constructor
  · rw [swap_fake_null hs2, swap_fake_null hs1]
  · intro tag k hka hkb
    have hka' : k ∉ tra.toList := fun hm => hka (hAa.same.mem_iff.2 hm)
    have hkb' : k ∉ trb.toList := fun hm => hkb (hAb.same.mem_iff.2 hm)
    rw [h2f _ (by simp) (by simp) (by simp) (by simp) (elem_ne_root hka')
      (elem_ne_root hkb'),
      h1f _ (by simp) (by simp) (by simp) (by simp) (elem_ne_root hka) (elem_ne_root hkb)]

theorem Links.fake_cells {h : Heap L R} {b : Nat} {tl tr : Shape}
    (hA : Links cl cr h b tl tr) :
    h.base (Ptr.fake Tag.left_tag b)
        = ⟨Ptr.null, tl.root Tag.left_tag, Ptr.fake Tag.right_tag b⟩ ∧
      h.base (Ptr.fake Tag.right_tag b)
        = ⟨Ptr.null, tr.root Tag.right_tag, Ptr.fake Tag.left_tag b⟩ :=
  ⟨cell_ext hA.left_inv.fake_par hA.left_inv.fake_left hA.left_cross,
    cell_ext hA.right_inv.fake_par hA.right_inv.fake_left hA.right_cross⟩

/-- Two states in which the object `b` is well formed with the same trees agree on the cells
of its sentinels and of its nodes. -/
theorem Abs.same_cells {h h1 : Heap L R} {b : Nat} {tl tr : Shape}
    (hA : Abs cl cr h b tl tr) (hA1 : Abs cl cr h1 b tl tr) :
    (∀ tag, h1.base (Ptr.fake tag b) = h.base (Ptr.fake tag b)) ∧
    ∀ tag k, k ∈ tl.toList → h1.base (Ptr.elem tag k) = h.base (Ptr.elem tag k) := by
  constructor
  · intro tag
    cases tag with
    | left_tag => rw [hA1.links.fake_cells.1, hA.links.fake_cells.1]
    | right_tag => rw [hA1.links.fake_cells.2, hA.links.fake_cells.2]
  · intro tag k hk
    cases tag with
    | left_tag =>
      exact Linked.cell_eq tl _ hA1.links.left_inv.linked hA.links.left_inv.linked k hk
    | right_tag =>
      exact Linked.cell_eq tr _ hA1.links.right_inv.linked hA.links.right_inv.linked k
        (hA.same.mem_iff.1 hk)

theorem Heap.eq_of_fields {h h1 : Heap L R} (e1 : h1.base = h.base) (e2 : h1.lval = h.lval)
    (e3 : h1.lprior = h.lprior) (e4 : h1.rval = h.rval) (e5 : h1.rprior = h.rprior)
    (e6 : h1.sz = h.sz) (e7 : h1.next = h.next) (e8 : h1.rnd = h.rnd)
    (e9 : h1.drawn = h.drawn) : h1 = h := by
  cases h; cases h1; simp_all

/-- Swapping two different well-formed bimaps twice restores the state. -/
theorem Abs.swap_twice {h h1 : Heap L R} {a b : Nat} {tla tra tlb trb : Shape}
    (hAa : Abs cl cr h a tla tra) (hAb : Abs cl cr h b tlb trb) (hab : a ≠ b)
    (hsw : bimap.swap h a b = some h1) : bimap.swap h1 a b = some h := by
  have hdisj := hAa.nodes_disjoint hAb hab
  obtain ⟨h1', hsw', hA1a, hA1b, -, -, -, hO1⟩ := hAa.swap_distinct hAb hab hdisj
  have e : h1' = h1 := Option.some.inj (hsw'.symm.trans hsw)
  subst e
  have hdisj1 := hA1a.nodes_disjoint hA1b hab
  obtain ⟨h2, hsw2, hA2a, hA2b, -, -, -, hO2⟩ := hA1a.swap_distinct hA1b hab hdisj1
  obtain ⟨f1, f2, f3, f4, f5, f6, f7, f8, -⟩ := swap_fields hsw'
  obtain ⟨g1, g2, g3, g4, g5, g6, g7, g8, -⟩ := swap_fields hsw2
  obtain ⟨n1, k1⟩ := hAa.swap_elems hAb hab hsw'
  obtain ⟨n2, k2⟩ := hA1a.swap_elems hA1b hab hsw2
  rw [hsw2]
  congr 1
  refine Heap.eq_of_fields ?_ (g1.trans f1) (g2.trans f2) (g3.trans f3) (g4.trans f4) ?_
    (g5.trans f5) (g6.trans f6) (g7.trans f7)
  · funext p
    cases p with
    | null => rw [n2, n1]
    | fake tag c =>
      by_cases hca : c = a
      · subst hca
        exact (hAa.same_cells hA2a).1 tag
      · by_cases hcb : c = b
        · subst hcb
          exact (hAb.same_cells hA2b).1 tag
        · rw [hO2.fake tag c (by simp [hca, hcb]), hO1.fake tag c (by simp [hca, hcb])]
    | elem tag k =>
      by_cases hka : k ∈ tla.toList
      · exact (hAa.same_cells hA2a).2 tag k hka
      · by_cases hkb : k ∈ tlb.toList
        · exact (hAb.same_cells hA2b).2 tag k hkb
        · rw [k2 tag k hkb hka, k1 tag k hka hkb]
  · rw [g8, f8]
    funext c
    by_cases hcb : c = b
    · subst hcb
      simp [Function.update, hab]
    · by_cases hca : c = a
      · subst hca
        simp [Function.update, hcb]
      · simp [Function.update, hca, hcb]

end bimap

namespace bimap

open details

variable {L R : Type} {cl : L → L → Bool} {cr : R → R → Bool}

/-- C31: for two different well-formed bimaps `a` and `b`, the call `a.swap(b)` returns and
leaves both well formed; afterwards `a` holds the former pairs of `b` in both orders and its
size, `b` holds the former pairs and size of `a`; the iteration over `a` from `begin` to its
own `end` visits exactly the former iterators of `b`, the iteration over `b` those of `a`,
on the left and on the right, and no iterator of the one is visited by the other; a second
`a.swap(b)` returns the state before the first. -/
theorem swap_exchanges_contents {h : Heap L R} {a b : Nat} (hwa : WF cl cr h a)
    (hwb : WF cl cr h b) (hab : a ≠ b) :
    ∃ h1, bimap.swap h a b = some h1 ∧ WF cl cr h1 a ∧ WF cl cr h1 b ∧
      left_pairs h1 a = left_pairs h b ∧ right_pairs h1 a = right_pairs h b ∧
      size h1 a = size h b ∧
      left_pairs h1 b = left_pairs h a ∧ right_pairs h1 b = right_pairs h a ∧
      size h1 b = size h a ∧
      (∃ la lb ra rb, left_range h1 a = some la ∧ left_range h b = some la ∧
        left_range h1 b = some lb ∧ left_range h a = some lb ∧
        right_range h1 a = some ra ∧ right_range h b = some ra ∧
        right_range h1 b = some rb ∧ right_range h a = some rb ∧
        (∀ it ∈ la, it ∉ lb) ∧ (∀ it ∈ ra, it ∉ rb)) ∧
      bimap.swap h1 a b = some h := by
  obtain ⟨tla, tra, hAa⟩ := hwa
  obtain ⟨tlb, trb, hAb⟩ := hwb
  have hdisj := hAa.nodes_disjoint hAb hab
  have hdr : ∀ k ∈ trb.toList, k ∉ tra.toList := fun k hk hm =>
    hdisj k (hAa.same.mem_iff.2 hm) (hAb.same.mem_iff.2 hk)
  obtain ⟨h1, hsw, hA1a, hA1b, hlv, hrv, -, -⟩ := hAa.swap_distinct hAb hab hdisj
  have hcnt : ∀ {h2 : Heap L R} {c : Nat} {tl tr : Shape} (hA : Abs cl cr h2 c tl tr),
      size h2 c = tl.toList.length := fun hA => hA.count
  refine ⟨h1, hsw, ⟨_, _, hA1a⟩, ⟨_, _, hA1b⟩, ?_, ?_, ?_, ?_, ?_, ?_, ?_,
    hAa.swap_twice hAb hab hsw⟩
  · rw [hA1a.links.left_pairs, hAb.links.left_pairs, hlv, hrv]
  · rw [hA1a.links.right_pairs, hAb.links.right_pairs, hlv, hrv]
  · rw [hcnt hA1a, hcnt hAb]
  · rw [hA1b.links.left_pairs, hAa.links.left_pairs, hlv, hrv]
  · rw [hA1b.links.right_pairs, hAa.links.right_pairs, hlv, hrv]
  · rw [hcnt hA1b, hcnt hAa]
  · refine ⟨_, _, _, _, hA1a.links.left_range, hAb.links.left_range, hA1b.links.left_range,
      hAa.links.left_range, hA1a.links.right_range, hAb.links.right_range,
      hA1b.links.right_range, hAa.links.right_range, ?_, ?_⟩
    · intro it hit hit2
      obtain ⟨k, hk, rfl⟩ := List.mem_map.1 hit
      obtain ⟨j, hj, e⟩ := List.mem_map.1 hit2
      simp only [Ptr.elem.injEq, true_and] at e
      exact hdisj j hj (e ▸ hk)
    · intro it hit hit2
      obtain ⟨k, hk, rfl⟩ := List.mem_map.1 hit
      obtain ⟨j, hj, e⟩ := List.mem_map.1 hit2
      simp only [Ptr.elem.injEq, true_and] at e
      exact hdr k hk (e ▸ hj)

/-- C31 at a concrete input: the bimap `0` holding `(1, 10)`, `(2, 20)` and the bimap `1`
holding `(5, 50)`. -/
theorem swap_exchanges_contents_witness :
    ∃ h1, bimap.swap duo3 0 1 = some h1 ∧ WF nat_less nat_less h1 0 ∧
      WF nat_less nat_less h1 1 ∧
      left_pairs h1 0 = left_pairs duo3 1 ∧ right_pairs h1 0 = right_pairs duo3 1 ∧
      size h1 0 = size duo3 1 ∧
      left_pairs h1 1 = left_pairs duo3 0 ∧ right_pairs h1 1 = right_pairs duo3 0 ∧
      size h1 1 = size duo3 0 ∧
      (∃ la lb ra rb, left_range h1 0 = some la ∧ left_range duo3 1 = some la ∧
        left_range h1 1 = some lb ∧ left_range duo3 0 = some lb ∧
        right_range h1 0 = some ra ∧ right_range duo3 1 = some ra ∧
        right_range h1 1 = some rb ∧ right_range duo3 0 = some rb ∧
        (∀ it ∈ la, it ∉ lb) ∧ (∀ it ∈ ra, it ∉ rb)) ∧
      bimap.swap h1 0 1 = some duo3 :=
  swap_exchanges_contents (duo3_sys.wf_of_mem (by decide)) (duo3_sys.wf_of_mem (by decide))
    (by decide)

end bimap

namespace details

variable {T : Type}

/-! ## Bounds and lookup -/

theorem cut_unique {α : Type} (p : α → Bool) {a1 b1 a2 b2 : List α}
    (e : a1 ++ b1 = a2 ++ b2) (h1 : ∀ x ∈ a1, p x = true) (h2 : ∀ x ∈ b1, p x = false)
    (h3 : ∀ x ∈ a2, p x = true) (h4 : ∀ x ∈ b2, p x = false) : a1 = a2 ∧ b1 = b2 := by
  have c1 := filter_append_cut p a1 b1 h1 h2
  have c2 := filter_append_cut p a2 b2 h3 h4
  rw [e] at c1
  exact ⟨c1.1.symm.trans c2.1, c1.2.symm.trans c2.2⟩

/-- With a node `n` whose key is equivalent to `x` in the tree, `lower_bound(x)` is that
node and `upper_bound(x)` is the node after it in key order, or the sentinel. -/
theorem TreapInv.bounds_present {t : treap T} {m : Mem} {tr : Shape} (hI : TreapInv t m tr)
    (hc : StrictWeakOrder t.cmp) (x : T) (fuel : Nat) (hsz : tr.size < fuel) {n : Nat}
    (hn : n ∈ tr.toList) (he : equiv t.cmp (t.val n) x = true) :
    ∃ p s, tr.toList = p ++ n :: s ∧ t.lower_bound fuel m x = some (Ptr.elem t.tag n) ∧
      t.upper_bound fuel m x = some (first_or t.tag t.fake s) := by
  obtain ⟨p, s, hsplit⟩ := bimap.mem_split hn
  have hs := hI.sorted
  rw [hsplit] at hs
  have hp : ∀ v ∈ p, t.cmp (t.val v) (t.val n) = true := fun v hv =>
    (List.pairwise_append.1 hs).2.2 v hv n (List.mem_cons_self _ _)
  have hsn : ∀ v ∈ s, t.cmp (t.val n) (t.val v) = true := fun v hv =>
    (List.pairwise_cons.1 (List.pairwise_append.1 hs).2.1).1 v hv
  simp only [equiv, Bool.and_eq_true, Bool.not_eq_true'] at he
  obtain ⟨he1, he2⟩ := he
  have hpx : ∀ v ∈ p, t.cmp (t.val v) x = true := by
    intro v hv
    rcases hc.weak _ _ x (hp v hv) with h | h
    · exact h
    · rw [he2] at h; exact absurd h Bool.false_ne_true
  have hsx : ∀ v ∈ s, t.cmp (t.val v) x = false := by
    intro v hv
    rw [Bool.eq_false_iff]
    intro h
    have := hc.trans _ _ _ (hsn v hv) h
    rw [he1] at this
    exact Bool.false_ne_true this
  have hxs : ∀ v ∈ s, t.cmp x (t.val v) = true := by
    intro v hv
    rcases hc.weak _ _ x (hsn v hv) with h | h
    · rw [he1] at h; exact absurd h Bool.false_ne_true
    · exact h
  have hxp : ∀ v ∈ p, t.cmp x (t.val v) = false := by
    intro v hv
    rw [Bool.eq_false_iff]
    intro h
    exact bimap.swo_asymm hc _ _ h (hpx v hv)
  refine ⟨p, s, hsplit, ?_, ?_⟩
  · obtain ⟨l1, l2, h0, h1, h2, h3⟩ := hI.lower_bound hc x fuel hsz
    rw [hsplit] at h0
    have := cut_unique (fun i => t.cmp (t.val i) x) h0.symm h1 h2 hpx (by
      intro v hv
      rcases List.mem_cons.1 hv with rfl | hv
      · exact he1
      · exact hsx v hv)
    rw [h3, this.2]
    rfl
  · obtain ⟨l1, l2, h0, h1, h2, h3⟩ := hI.upper_bound hc x fuel hsz
    rw [hsplit, show p ++ n :: s = (p ++ [n]) ++ s by simp] at h0
    have := cut_unique (fun i => !t.cmp x (t.val i)) h0.symm (fun v hv => by simp [h1 v hv])
      (fun v hv => by simp [h2 v hv])
      (by
        intro v hv
        rcases List.mem_append.1 hv with hv | hv
        · simp [hxp v hv]
        · simp only [List.mem_singleton] at hv
          subst hv
          simp [he2])
      (fun v hv => by simp [hxs v hv])
    rw [h3, this.2]

/-- With no key equivalent to `x` in the tree, `lower_bound(x)` and `upper_bound(x)` return
the same node or sentinel. -/
theorem TreapInv.bounds_absent {t : treap T} {m : Mem} {tr : Shape} (hI : TreapInv t m tr)
    (hc : StrictWeakOrder t.cmp) (x : T) (fuel : Nat) (hsz : tr.size < fuel)
    (hno : ∀ k ∈ tr.toList, equiv t.cmp (t.val k) x = false) :
    ∃ l2, t.lower_bound fuel m x = some (first_or t.tag t.fake l2) ∧
      t.upper_bound fuel m x = some (first_or t.tag t.fake l2) := by
  obtain ⟨l1, l2, h0, h1, h2, h3⟩ := hI.lower_bound hc x fuel hsz
  obtain ⟨u1, u2, g0, g1, g2, g3⟩ := hI.upper_bound hc x fuel hsz
  have key : ∀ v ∈ tr.toList, t.cmp (t.val v) x = !t.cmp x (t.val v) := by
    intro v hv
    have := hno v hv
    simp only [equiv] at this
    cases h1 : t.cmp (t.val v) x <;> cases h2 : t.cmp x (t.val v) <;> simp_all
    exact bimap.swo_asymm hc _ _ h1 h2
  have := cut_unique (fun i => t.cmp (t.val i) x) (h0.symm.trans g0) h1 h2
    (fun v hv => by
      show t.cmp (t.val v) x = true
      rw [key v (g0 ▸ List.mem_append_left _ hv), g1 v hv]; rfl)
    (fun v hv => by
      show t.cmp (t.val v) x = false
      rw [key v (g0 ▸ List.mem_append_right _ hv), g2 v hv]; rfl)
  exact ⟨l2, h3, by rw [g3, this.2]⟩

end details

namespace bimap

open details

variable {L R : Type} {cl : L → L → Bool} {cr : R → R → Bool}

/-- C32: on a well-formed bimap with left iterators `lits` and a key `k`: if an element of
the left order is equivalent to `k`, then `find_left(k)` is a non-end iterator `it` of the
bimap, `lower_bound_left(k) == it` and `upper_bound_left(k)` is what `++it` yields; if no
element is equivalent to `k`, then `find_left(k) == end_left()` and `lower_bound_left(k)`
and `upper_bound_left(k)` return the same iterator.  The same holds of the right iterators
`rits`, `find_right`, `lower_bound_right` and `upper_bound_right`. -/
theorem bounds_agree_with_find (hcl : StrictWeakOrder cl) (hcr : StrictWeakOrder cr)
    {h : Heap L R} {b : Nat} (hwf : WF cl cr h b) (lits rits : List Ptr)
    (hl : left_range h b = some lits) (hr : right_range h b = some rits) :
    (∀ k : L,
      ((∃ it ∈ lits, ∃ v, deref_left h it = some v ∧ equiv cl v k = true) →
        ∃ it ∈ lits, ∃ nxt, find_left cl h b k = some it ∧ it ≠ end_left b ∧
          lower_bound_left cl h b k = some it ∧
          iterator.incr h.base h.fuel it = some nxt ∧
          upper_bound_left cl h b k = some nxt) ∧
      ((∀ it ∈ lits, ∀ v, deref_left h it = some v → equiv cl v k = false) →
        find_left cl h b k = some (end_left b) ∧
        ∃ it, lower_bound_left cl h b k = some it ∧ upper_bound_left cl h b k = some it)) ∧
    (∀ k : R,
      ((∃ it ∈ rits, ∃ v, deref_right h it = some v ∧ equiv cr v k = true) →
        ∃ it ∈ rits, ∃ nxt, find_right cr h b k = some it ∧ it ≠ end_right b ∧
          lower_bound_right cr h b k = some it ∧
          iterator.incr h.base h.fuel it = some nxt ∧
          upper_bound_right cr h b k = some nxt) ∧
      ((∀ it ∈ rits, ∀ v, deref_right h it = some v → equiv cr v k = false) →
        find_right cr h b k = some (end_right b) ∧
        ∃ it, lower_bound_right cr h b k = some it ∧ upper_bound_right cr h b k = some it)) := by
  obtain ⟨tl, tr, hA⟩ := hwf
  rw [hA.links.left_range] at hl
  rw [hA.links.right_range] at hr
  have hl' := (Option.some.inj hl).symm
  have hr' := (Option.some.inj hr).symm
  have hszl := hA.links.left_size
  have hszr := hA.links.right_size
  subst hl' hr'
  constructor
  · intro k
    constructor
    · rintro ⟨it, hit, v, hv, he⟩
      obtain ⟨n, hn, rfl⟩ := List.mem_map.1 hit
      simp only [deref_left, Option.some.injEq] at hv
      subst hv
      rcases hA.links.find_left_cases hcl k with ⟨-, -, h3⟩ | ⟨j, hj, -, h2, h3⟩
      · rw [h3 n hn] at he; exact absurd he Bool.false_ne_true
      · have hjn : j = n := hA.links.left_unique hcl hj hn h3 he
        subst hjn
        obtain ⟨p, s, hsplit, hlow, hup⟩ := hA.links.left_inv.bounds_present hcl k h.fuel
          (by simp only [Heap.fuel]; omega) hj he
        have hV := hA.links.left_visits
        rw [hsplit] at hV
        exact ⟨_, hit, _, h2, by simp [end_left], hlow, Visits.incr_mem p hV, hup⟩
    · intro hno
      have hno' : ∀ j ∈ tl.toList, equiv cl (h.lval j) k = false := fun j hj =>
        hno _ (List.mem_map.2 ⟨j, hj, rfl⟩) _ rfl
      rcases hA.links.find_left_cases hcl k with ⟨-, h2, -⟩ | ⟨j, hj, -, -, h3⟩
      · obtain ⟨l2, e1, e2⟩ := hA.links.left_inv.bounds_absent hcl k h.fuel
          (by simp only [Heap.fuel]; omega) hno'
        exact ⟨h2, _, e1, e2⟩
      · rw [hno' j hj] at h3; exact absurd h3 Bool.false_ne_true
  · intro k
    constructor
    · rintro ⟨it, hit, v, hv, he⟩
      obtain ⟨n, hn, rfl⟩ := List.mem_map.1 hit
      simp only [deref_right, Option.some.injEq] at hv
      subst hv
      rcases hA.links.find_right_cases hcr k with ⟨-, -, h3⟩ | ⟨j, hj, -, h2, h3⟩
      · rw [h3 n hn] at he; exact absurd he Bool.false_ne_true
      · have hjn : j = n := hA.links.right_unique hcr hj hn h3 he
        subst hjn
        obtain ⟨p, s, hsplit, hlow, hup⟩ := hA.links.right_inv.bounds_present hcr k h.fuel
          (by simp only [Heap.fuel]; omega) hj he
        have hV := hA.links.right_visits
        rw [hsplit] at hV
        exact ⟨_, hit, _, h2, by simp [end_right], hlow, Visits.incr_mem p hV, hup⟩
    · intro hno
      have hno' : ∀ j ∈ tr.toList, equiv cr (h.rval j) k = false := fun j hj =>
        hno _ (List.mem_map.2 ⟨j, hj, rfl⟩) _ rfl
      rcases hA.links.find_right_cases hcr k with ⟨-, h2, -⟩ | ⟨j, hj, -, -, h3⟩
      · obtain ⟨l2, e1, e2⟩ := hA.links.right_inv.bounds_absent hcr k h.fuel
          (by simp only [Heap.fuel]; omega) hno'
        exact ⟨h2, _, e1, e2⟩
      · rw [hno' j hj] at h3; exact absurd h3 Bool.false_ne_true

/-- C32 at a concrete input: the bimap holding `(3, 0)`, `(5, 50)`, `(9, 20)`. -/
theorem bounds_agree_with_find_witness :
    (∀ k : Nat,
      ((∃ it ∈ [Ptr.elem Tag.left_tag 1, Ptr.elem Tag.left_tag 0, Ptr.elem Tag.left_tag 2],
          ∃ v, deref_left demo3 it = some v ∧ equiv nat_less v k = true) →
        ∃ it ∈ [Ptr.elem Tag.left_tag 1, Ptr.elem Tag.left_tag 0, Ptr.elem Tag.left_tag 2],
          ∃ nxt, find_left nat_less demo3 0 k = some it ∧ it ≠ end_left 0 ∧
          lower_bound_left nat_less demo3 0 k = some it ∧
          iterator.incr demo3.base demo3.fuel it = some nxt ∧
          upper_bound_left nat_less demo3 0 k = some nxt) ∧
      ((∀ it ∈ [Ptr.elem Tag.left_tag 1, Ptr.elem Tag.left_tag 0, Ptr.elem Tag.left_tag 2],
          ∀ v, deref_left demo3 it = some v → equiv nat_less v k = false) →
        find_left nat_less demo3 0 k = some (end_left 0) ∧
        ∃ it, lower_bound_left nat_less demo3 0 k = some it ∧
          upper_bound_left nat_less demo3 0 k = some it)) ∧
    (∀ k : Nat,
      ((∃ it ∈ [Ptr.elem Tag.right_tag 1, Ptr.elem Tag.right_tag 2, Ptr.elem Tag.right_tag 0],
          ∃ v, deref_right demo3 it = some v ∧ equiv nat_less v k = true) →
        ∃ it ∈ [Ptr.elem Tag.right_tag 1, Ptr.elem Tag.right_tag 2, Ptr.elem Tag.right_tag 0],
          ∃ nxt, find_right nat_less demo3 0 k = some it ∧ it ≠ end_right 0 ∧
          lower_bound_right nat_less demo3 0 k = some it ∧
          iterator.incr demo3.base demo3.fuel it = some nxt ∧
          upper_bound_right nat_less demo3 0 k = some nxt) ∧
      ((∀ it ∈ [Ptr.elem Tag.right_tag 1, Ptr.elem Tag.right_tag 2, Ptr.elem Tag.right_tag 0],
          ∀ v, deref_right demo3 it = some v → equiv nat_less v k = false) →
        find_right nat_less demo3 0 k = some (end_right 0) ∧
        ∃ it, lower_bound_right nat_less demo3 0 k = some it ∧
          upper_bound_right nat_less demo3 0 k = some it)) :=
  bounds_agree_with_find nat_less_swo nat_less_swo demo3_wf _ _ demo3_left_range
    demo3_right_range

end bimap

namespace details

theorem Shape.toList_erase_insert (prior prior1 : Nat → Nat) (lt : Nat → Bool) (t : Shape)
    (n : Nat) (hnd : t.toList.Nodup) (hn : n ∉ t.toList) :
    (Shape.erase prior1 n (Shape.insert prior lt t n)).toList = t.toList := by
  rw [Shape.toList_erase _ _ _ (Shape.insert_nodup _ _ _ _ hnd hn), Shape.toList_insert,
    bimap.erase_middle (fun hm => hn (Shape.mem_split_left lt t hm)), Shape.toList_split]

end details

namespace bimap

open details

variable {L R : Type} {cl : L → L → Bool} {cr : R → R → Bool}

/-- A successful `insert(l, r)` followed by `erase_left(l)` or by `erase_right(r)`: the
bimap has trees on its former nodes in their former orders, the former values and size, and
everything outside the object is as before. -/
theorem Abs.insert_erase {h : Heap L R} {b : Nat} {tl tr : Shape} (hA : Abs cl cr h b tl tr)
    (hcl : StrictWeakOrder cl) (hcr : StrictWeakOrder cr) (l : L) (r : R)
    (hl : ∀ k ∈ tl.toList, equiv cl (h.lval k) l = false)
    (hr : ∀ k ∈ tr.toList, equiv cr (h.rval k) r = false) :
    ∃ h1, bimap.insert cl cr h b l r = some (h1, Ptr.elem Tag.left_tag h.next) ∧
      (∃ h2 tl2 tr2, bimap.erase_left_key cl cr h1 b l = some (h2, true) ∧
        Abs cl cr h2 b tl2 tr2 ∧ tl2.toList = tl.toList ∧ tr2.toList = tr.toList ∧
        (∀ k, k < h.next → h2.lval k = h.lval k ∧ h2.rval k = h.rval k) ∧
        h2.sz b = h.sz b ∧ Outside h h2 [b] tl.toList) ∧
      (∃ h2 tl2 tr2, bimap.erase_right_key cl cr h1 b r = some (h2, true) ∧
        Abs cl cr h2 b tl2 tr2 ∧ tl2.toList = tl.toList ∧ tr2.toList = tr.toList ∧
        (∀ k, k < h.next → h2.lval k = h.lval k ∧ h2.rval k = h.rval k) ∧
        h2.sz b = h.sz b ∧ Outside h h2 [b] tl.toList) := by
  obtain ⟨h1, hi, hA1, hlv, hrv, hnx, hsz, hO1⟩ := hA.insert_out hcl hcr l r hl hr
  have hnl : h.next ∉ tl.toList := fun hm => Nat.lt_irrefl _ (hA.links.left_alloc _ hm)
  have hnr : h.next ∉ tr.toList := fun hm => Nat.lt_irrefl _ (hA.links.right_alloc _ hm)
  have hml : h.next ∈ (Shape.insert h1.lprior (fun k => cl (h1.lval k) l) tl h.next).toList :=
    (Shape.mem_insert _ _ _ _ _).2 (Or.inl rfl)
  have hmr : h.next ∈ (Shape.insert h1.rprior (fun k => cr (h1.rval k) r) tr h.next).toList :=
    (Shape.mem_insert _ _ _ _ _).2 (Or.inl rfl)
  have hvals : ∀ (h2 : Heap L R), h2.lval = h1.lval → h2.rval = h1.rval →
      ∀ k, k < h.next → h2.lval k = h.lval k ∧ h2.rval k = h.rval k := by
    intro h2 e1 e2 k hk
    rw [e1, e2, hlv, hrv]
    simp [Function.update, Nat.ne_of_lt hk]
  have hown : ∀ k ∈ (Shape.insert h1.lprior (fun k => cl (h1.lval k) l) tl h.next).toList,
      k ∈ tl.toList ∨ h.next ≤ k := by
    intro k hk
    rcases (Shape.mem_insert _ _ _ _ _).1 hk with rfl | hk
    · exact Or.inr (Nat.le_refl _)
    · exact Or.inl hk
  have hsz2 : ∀ (h2 : Heap L R), h2.sz = Function.update h1.sz b (h1.sz b - 1) →
      h2.sz b = h.sz b := by
    intro h2 e
    rw [e, hsz]
    simp
  refine ⟨h1, hi, ?_, ?_⟩
  · have hx : equiv cl (h1.lval h.next) l = true := by
      rw [hlv]; simp [equiv_self hcl]
    obtain ⟨h2, he, hA2, e1, e2, e3, e4, -, e6⟩ := hA1.erase_left_key_present hcl l hml hx
    obtain ⟨l1, l2, hsplit⟩ := mem_split hml
    obtain ⟨h2', he', -, hO2⟩ := hA1.erase_left_out h.next l1 l2 hsplit
    obtain ⟨h2'', he'', -⟩ := hA1.erase_left h.next l1 l2 hsplit
    have e22 : h2' = h2'' := by
      have := he'.symm.trans he''
      simpa using this
    have e21 : h2'' = h2 := by
      rcases hA1.links.find_left_cases hcl l with ⟨-, -, h3⟩ | ⟨k, hk, -, hf, h3⟩
      · rw [h3 _ hml] at hx; exact absurd hx Bool.false_ne_true
      · have hkn : k = h.next := hA1.links.left_unique hcl hk hml h3 hx
        subst hkn
        simp only [bimap.erase_left_key, hf, Option.some_bind, end_left, reduceCtorEq,
          if_false, he'', Option.some.injEq, Prod.mk.injEq, and_true] at he
        exact he
    rw [e22, e21] at hO2
    refine ⟨h2, _, _, he, hA2, ?_, ?_, hvals h2 e1 e2, hsz2 h2 e6, hO1.trans hO2 hown⟩
    · exact Shape.toList_erase_insert _ _ _ _ _ hA.links.left_inv.nodup hnl
    · exact Shape.toList_erase_insert _ _ _ _ _ hA.links.right_inv.nodup hnr
  · have hx : equiv cr (h1.rval h.next) r = true := by
      rw [hrv]; simp [equiv_self hcr]
    obtain ⟨h2, he, hA2, e1, e2, e3, e4, -, e6⟩ := hA1.erase_right_key_present hcr r hmr hx
    obtain ⟨l1, l2, hsplit⟩ := mem_split hmr
    obtain ⟨h2', he', -, hO2⟩ := hA1.erase_right_out h.next l1 l2 hsplit
    obtain ⟨h2'', he'', -⟩ := hA1.erase_right h.next l1 l2 hsplit
    have e22 : h2' = h2'' := by
      have := he'.symm.trans he''
      simpa using this
    have e21 : h2'' = h2 := by
      rcases hA1.links.find_right_cases hcr r with ⟨-, -, h3⟩ | ⟨k, hk, -, hf, h3⟩
      · rw [h3 _ hmr] at hx; exact absurd hx Bool.false_ne_true
      · have hkn : k = h.next := hA1.links.right_unique hcr hk hmr h3 hx
        subst hkn
        simp only [bimap.erase_right_key, hf, Option.some_bind, end_right, reduceCtorEq,
          if_false, he'', Option.some.injEq, Prod.mk.injEq, and_true] at he
        exact he
    rw [e22, e21] at hO2
    refine ⟨h2, _, _, he, hA2, ?_, ?_, hvals h2 e1 e2, hsz2 h2 e6, hO1.trans hO2 hown⟩
    · exact Shape.toList_erase_insert _ _ _ _ _ hA.links.left_inv.nodup hnl
    · exact Shape.toList_erase_insert _ _ _ _ _ hA.links.right_inv.nodup hnr

end bimap

namespace bimap

open details

variable {L R : Type} {cl : L → L → Bool} {cr : R → R → Bool}

/-- Two bimaps of one state with equal sizes and equal left-order sequences of pairs compare
equal. -/
theorem Abs.op_eq_of_pairs (hcl : StrictWeakOrder cl) (hcr : StrictWeakOrder cr)
    {h : Heap L R} {a b : Nat} {tla tra tlb trb : Shape} (hAa : Abs cl cr h a tla tra)
    (hAb : Abs cl cr h b tlb trb) (hsz : size h a = size h b)
    (hp : left_pairs h a = left_pairs h b) : bimap.op_eq cl cr h a b = some true := by
  obtain ⟨r, hr, hiff⟩ := hAa.op_eq hAb
  rw [hAa.links.left_pairs, hAb.links.left_pairs] at hp
  have hr1 : r = true := by
    refine hiff.2 ⟨hsz, ?_⟩
    rw [← Option.some.inj hp]
    exact List.forall₂_same.2 fun p _ => ⟨equiv_self hcl _, equiv_self hcr _⟩
  rw [hr, hr1]

/-- The observable form of `Abs.insert_erase`: after `insert(l, r)` and the erasure of `l` on
the left, or of `r` on the right, the bimap is well formed with its former sequences of pairs
and its former size, and everything outside it is as before. -/
theorem Abs.insert_erase_pairs {h : Heap L R} {b : Nat} {tl tr : Shape}
    (hA : Abs cl cr h b tl tr) (hcl : StrictWeakOrder cl) (hcr : StrictWeakOrder cr) (l : L)
    (r : R) (hl : ∀ k ∈ tl.toList, equiv cl (h.lval k) l = false)
    (hr : ∀ k ∈ tr.toList, equiv cr (h.rval k) r = false) :
    ∃ h1, bimap.insert cl cr h b l r = some (h1, Ptr.elem Tag.left_tag h.next) ∧
      (∃ h2, bimap.erase_left_key cl cr h1 b l = some (h2, true) ∧ WF cl cr h2 b ∧
        left_pairs h2 b = left_pairs h b ∧ right_pairs h2 b = right_pairs h b ∧
        size h2 b = size h b ∧ Outside h h2 [b] tl.toList) ∧
      (∃ h2, bimap.erase_right_key cl cr h1 b r = some (h2, true) ∧ WF cl cr h2 b ∧
        left_pairs h2 b = left_pairs h b ∧ right_pairs h2 b = right_pairs h b ∧
        size h2 b = size h b ∧ Outside h h2 [b] tl.toList) := by
  obtain ⟨h1, hi, ⟨h2, tl2, tr2, he, hA2, e1, e2, hv, hsz, hO⟩,
    ⟨h3, tl3, tr3, he3, hA3, e13, e23, hv3, hsz3, hO3⟩⟩ := hA.insert_erase hcl hcr l r hl hr
  have key : ∀ (h2 : Heap L R) (tl2 tr2 : Shape), Abs cl cr h2 b tl2 tr2 →
      tl2.toList = tl.toList → tr2.toList = tr.toList →
      (∀ k, k < h.next → h2.lval k = h.lval k ∧ h2.rval k = h.rval k) →
      left_pairs h2 b = left_pairs h b ∧ right_pairs h2 b = right_pairs h b := by
    intro h2 tl2 tr2 hA2 e1 e2 hv
    rw [hA2.links.left_pairs, hA2.links.right_pairs, hA.links.left_pairs,
      hA.links.right_pairs, e1, e2]
    refine ⟨congrArg some (List.map_congr_left fun k hk => ?_),
      congrArg some (List.map_congr_left fun k hk => ?_)⟩
    · rw [(hv k (hA.links.left_alloc k hk)).1, (hv k (hA.links.left_alloc k hk)).2]
    · rw [(hv k (hA.links.right_alloc k hk)).1, (hv k (hA.links.right_alloc k hk)).2]
  exact ⟨h1, hi,
    ⟨h2, he, ⟨_, _, hA2⟩, (key h2 tl2 tr2 hA2 e1 e2 hv).1, (key h2 tl2 tr2 hA2 e1 e2 hv).2,
      hsz, hO⟩,
    ⟨h3, he3, ⟨_, _, hA3⟩, (key h3 tl3 tr3 hA3 e13 e23 hv3).1,
      (key h3 tl3 tr3 hA3 e13 e23 hv3).2, hsz3, hO3⟩⟩

/-- C33: for a well-formed bimap `b` whose left values are all inequivalent to `l` and whose
right values are all inequivalent to `r`, `insert(l, r)` succeeds, and a following
`erase_left(l)`, or `erase_right(r)`, returns `true` and leaves `b` with the size, the
left-order sequence of pairs and the right-order sequence of pairs it had before the
insertion. When another object `c` is first constructed as a copy of `b`, the same two calls
on `b` leave `b` with its former size and sequences, and `b == c` and `c == b` are true. -/
theorem insert_then_erase_restores (hcl : StrictWeakOrder cl) (hcr : StrictWeakOrder cr)
    {h : Heap L R} {b c : Nat} (hwf : WF cl cr h b) (hcb : c ≠ b) (l : L) (r : R)
    {ps : List (L × R)} (hps : left_pairs h b = some ps)
    (hl : ∀ p ∈ ps, equiv cl p.1 l = false) (hr : ∀ p ∈ ps, equiv cr p.2 r = false) :
    (∃ h1 it, bimap.insert cl cr h b l r = some (h1, it) ∧ it ≠ end_left b ∧
      (∃ h2, bimap.erase_left_key cl cr h1 b l = some (h2, true) ∧
        left_pairs h2 b = left_pairs h b ∧ right_pairs h2 b = right_pairs h b ∧
        size h2 b = size h b) ∧
      (∃ h2, bimap.erase_right_key cl cr h1 b r = some (h2, true) ∧
        left_pairs h2 b = left_pairs h b ∧ right_pairs h2 b = right_pairs h b ∧
        size h2 b = size h b)) ∧
    (∃ h0 h1 it, bimap.copy_ctor cl cr h c b = some h0 ∧
      bimap.insert cl cr h0 b l r = some (h1, it) ∧ it ≠ end_left b ∧
      (∃ h2, bimap.erase_left_key cl cr h1 b l = some (h2, true) ∧
        left_pairs h2 b = left_pairs h b ∧ right_pairs h2 b = right_pairs h b ∧
        size h2 b = size h b ∧ bimap.op_eq cl cr h2 b c = some true ∧
        bimap.op_eq cl cr h2 c b = some true) ∧
      (∃ h2, bimap.erase_right_key cl cr h1 b r = some (h2, true) ∧
        left_pairs h2 b = left_pairs h b ∧ right_pairs h2 b = right_pairs h b ∧
        size h2 b = size h b ∧ bimap.op_eq cl cr h2 b c = some true ∧
        bimap.op_eq cl cr h2 c b = some true)) := by
  obtain ⟨tl, tr, hA⟩ := hwf
  have hl0 : ∀ k ∈ tl.toList, equiv cl (h.lval k) l = false :=
    hA.left_keys hps (P := fun p => equiv cl p.1 l = false) hl
  have hr0 : ∀ k ∈ tr.toList, equiv cr (h.rval k) r = false :=
    hA.right_keys hps (P := fun p => equiv cr p.2 r = false) hr
  refine ⟨?_, ?_⟩
  · obtain ⟨h1, hi, ⟨h2, he, -, p1, p2, p3, -⟩, ⟨h3, he3, -, q1, q2, q3, -⟩⟩ :=
      hA.insert_erase_pairs hcl hcr l r hl0 hr0
    exact ⟨h1, _, hi, by simp [end_left], ⟨h2, he, p1, p2, p3⟩, ⟨h3, he3, q1, q2, q3⟩⟩
  · obtain ⟨h0, tl1, tr1, hcopy, hAc, hfresh, hO0, c1, c2, c3⟩ :=
      Abs.copy_ctor hcl hcr (Ne.symm hcb) hA
    have hbc : b ∉ [c] := by simpa using Ne.symm hcb
    have hcb1 : c ∉ [b] := by simpa using hcb
    have hA0 : Abs cl cr h0 b tl tr := hA.outside hO0 hbc (fun _ _ => by simp)
    obtain ⟨b1, b2, -, -, b5⟩ := hA.outside_pairs hO0 hbc (fun _ _ => by simp)
    have hl1 : ∀ k ∈ tl.toList, equiv cl (h0.lval k) l = false := by
      intro k hk
      rw [hO0.lval k (by simp) (hA.links.left_alloc k hk)]
      exact hl0 k hk
    have hr1 : ∀ k ∈ tr.toList, equiv cr (h0.rval k) r = false := by
      intro k hk
      rw [hO0.rval k (by simp) (hA.links.right_alloc k hk)]
      exact hr0 k hk
    have hdis : ∀ k ∈ tl1.toList, k ∉ tl.toList := fun k hk hm =>
      Nat.lt_irrefl _ (Nat.lt_of_lt_of_le (hA.links.left_alloc k hm) (hfresh k hk))
    have fin : ∀ (h2 : Heap L R), WF cl cr h2 b → left_pairs h2 b = left_pairs h0 b →
        size h2 b = size h0 b → Outside h0 h2 [b] tl.toList →
        bimap.op_eq cl cr h2 b c = some true ∧ bimap.op_eq cl cr h2 c b = some true := by
      intro h2 hw p1 p3 hO
      obtain ⟨tl2, tr2, hA2⟩ := hw
      have hAc2 := hAc.outside hO hcb1 hdis
      obtain ⟨d1, -, -, -, d5⟩ := hAc.outside_pairs hO hcb1 hdis
      have es : size h2 b = size h2 c := by rw [p3, b5, d5, c3]
      have ep : left_pairs h2 b = left_pairs h2 c := by rw [p1, b1, d1, c1]
      exact ⟨Abs.op_eq_of_pairs hcl hcr hA2 hAc2 es ep,
        Abs.op_eq_of_pairs hcl hcr hAc2 hA2 es.symm ep.symm⟩
    obtain ⟨h1, hi, ⟨h2, he, w2, p1, p2, p3, hO2⟩, ⟨h3, he3, w3, q1, q2, q3, hO3⟩⟩ :=
      hA0.insert_erase_pairs hcl hcr l r hl1 hr1
    exact ⟨h0, h1, _, hcopy, hi, by simp [end_left],
      ⟨h2, he, p1.trans b1, p2.trans b2, p3.trans b5, fin h2 w2 p1 p3 hO2⟩,
      ⟨h3, he3, q1.trans b1, q2.trans b2, q3.trans b5, fin h3 w3 q1 q3 hO3⟩⟩

/-- C33 at a concrete input: the bimap holding `(3, 0)`, `(5, 50)`, `(9, 20)`, the pair
`(7, 70)` and a copy constructed as object 1. -/
theorem insert_then_erase_restores_witness :
    (∃ h1 it, bimap.insert nat_less nat_less demo3 0 7 70 = some (h1, it) ∧ it ≠ end_left 0 ∧
      (∃ h2, bimap.erase_left_key nat_less nat_less h1 0 7 = some (h2, true) ∧
        left_pairs h2 0 = left_pairs demo3 0 ∧ right_pairs h2 0 = right_pairs demo3 0 ∧
        size h2 0 = size demo3 0) ∧
      (∃ h2, bimap.erase_right_key nat_less nat_less h1 0 70 = some (h2, true) ∧
        left_pairs h2 0 = left_pairs demo3 0 ∧ right_pairs h2 0 = right_pairs demo3 0 ∧
        size h2 0 = size demo3 0)) ∧
    (∃ h0 h1 it, bimap.copy_ctor nat_less nat_less demo3 1 0 = some h0 ∧
      bimap.insert nat_less nat_less h0 0 7 70 = some (h1, it) ∧ it ≠ end_left 0 ∧
      (∃ h2, bimap.erase_left_key nat_less nat_less h1 0 7 = some (h2, true) ∧
        left_pairs h2 0 = left_pairs demo3 0 ∧ right_pairs h2 0 = right_pairs demo3 0 ∧
        size h2 0 = size demo3 0 ∧ bimap.op_eq nat_less nat_less h2 0 1 = some true ∧
        bimap.op_eq nat_less nat_less h2 1 0 = some true) ∧
      (∃ h2, bimap.erase_right_key nat_less nat_less h1 0 70 = some (h2, true) ∧
        left_pairs h2 0 = left_pairs demo3 0 ∧ right_pairs h2 0 = right_pairs demo3 0 ∧
        size h2 0 = size demo3 0 ∧ bimap.op_eq nat_less nat_less h2 0 1 = some true ∧
        bimap.op_eq nat_less nat_less h2 1 0 = some true)) :=
  insert_then_erase_restores nat_less_swo nat_less_swo demo3_wf (by decide) 7 70
    demo3_left_pairs (by decide) (by decide)

end bimap

/-! ## shared_ptr and weak_ptr: the counters count the live handles -/

namespace shared_ptr_details

theorem countP_erase_mem {α : Type} [DecidableEq α] (p : α → Bool) (l : List α) (x : α)
    (hx : x ∈ l) : (l.erase x).countP p + (if p x = true then 1 else 0) = l.countP p := by
  induction l with
  | nil => cases hx
  | cons y l ih =>
    by_cases hyx : y = x
    · subst hyx
      rw [List.erase_cons_head, List.countP_cons]
    · have hx1 : x ∈ l := by
        rcases List.mem_cons.1 hx with h | h
        · exact absurd h.symm hyx
        · exact h
      rw [List.erase_cons_tail (by simpa using hyx), List.countP_cons, List.countP_cons,
        ← ih hx1]
      omega

theorem size_incr_eq {x : Nat} (h : x + 1 < size_mod) : size_incr x = x + 1 := by
  unfold size_incr
  exact Nat.mod_eq_of_lt h

theorem size_decr_eq {x : Nat} (h0 : 0 < x) (h : x < size_mod) : size_decr x = x - 1 := by
  unfold size_decr
  have e : x + size_mod - 1 = (x - 1) + size_mod := by omega
  rw [e, Nat.add_mod_right]
  exact Nat.mod_eq_of_lt (by omega)

theorem Store.write_same (s : Store) (a : Nat) (cb : Option control_block) :
    (s.write a cb).blocks a = cb := by
  simp [Store.write]

theorem Store.write_other (s : Store) {a b : Nat} (cb : Option control_block) (hb : b ≠ a) :
    (s.write a cb).blocks b = s.blocks b := by
  simp [Store.write, Function.update, hb]

theorem Prog.shared_count_le (s : Prog) (a : Nat) : s.shared_count a ≤ s.shared.length :=
  List.countP_le_length _

theorem Prog.weak_count_le (s : Prog) (a : Nat) : s.weak_count a ≤ s.weak.length :=
  List.countP_le_length _

/-- A state whose store differs from the store of `s` at most in the block at `a`, with the
same records and the same `next`, and whose handles on other blocks are counted as in `s`:
the invariant holds as soon as it holds at `a`. -/
theorem Counted.congr {s s1 : Prog} (hc : Counted s) (a : Nat)
    (hbound : s1.shared.length + s1.weak.length < size_mod)
    (hblocks : ∀ b, b ≠ a → s1.store.blocks b = s.store.blocks b)
    (hnext : ∀ b, b ≠ a → (b < s1.store.next ↔ b < s.store.next))
    (hdd : ∀ b, b ≠ a → s1.store.data_deleted b = s.store.data_deleted b)
    (hbf : ∀ b, b ≠ a → s1.store.block_freed b = s.store.block_freed b)
    (hcs : ∀ b, b ≠ a → s1.shared_count b = s.shared_count b)
    (hcw : ∀ b, b ≠ a → s1.weak_count b = s.weak_count b)
    (hlive : ∀ cb, s1.store.blocks a = some cb →
      a < s1.store.next ∧ cb.strong_ref = s1.shared_count a ∧
      cb.weak_ref = s1.shared_count a + s1.weak_count a ∧ 0 < cb.weak_ref ∧
      s1.store.data_deleted a = (if s1.shared_count a = 0 then 1 else 0) ∧
      s1.store.block_freed a = 0)
    (hdead : s1.store.blocks a = none →
      s1.shared_count a = 0 ∧ s1.weak_count a = 0 ∧
      s1.store.data_deleted a = (if a < s1.store.next then 1 else 0) ∧
      s1.store.block_freed a = (if a < s1.store.next then 1 else 0)) :
    Counted s1 := by
  refine ⟨hbound, ?_, ?_⟩
  · intro b cb hb
    by_cases hba : b = a
    · subst hba; exact hlive cb hb
    · rw [hblocks b hba] at hb
      rw [hcs b hba, hcw b hba, hdd b hba, hbf b hba, hnext b hba]
      exact hc.live b cb hb
  · intro b hb
    by_cases hba : b = a
    · subst hba; exact hdead hb
    · rw [hblocks b hba] at hb
      rw [hcs b hba, hcw b hba, hdd b hba, hbf b hba]
      simp only [hnext b hba]
      exact hc.dead b hb

theorem count_cons_same {α : Type} (f : α → Option Nat) (x : α) (l : List α) (a : Nat)
    (hx : f x = some a) :
    (x :: l).countP (fun y => decide (f y = some a)) =
      l.countP (fun y => decide (f y = some a)) + 1 := by
  rw [List.countP_cons]
  simp [hx]

theorem count_cons_other {α : Type} (f : α → Option Nat) (x : α) (l : List α) (b : Nat)
    (hx : f x ≠ some b) :
    (x :: l).countP (fun y => decide (f y = some b)) =
      l.countP (fun y => decide (f y = some b)) := by
  rw [List.countP_cons]
  simp [hx]

theorem count_erase_same {α : Type} [DecidableEq α] (f : α → Option Nat) (x : α) (l : List α)
    (a : Nat) (hm : x ∈ l) (hx : f x = some a) :
    (l.erase x).countP (fun y => decide (f y = some a)) + 1 =
      l.countP (fun y => decide (f y = some a)) := by
  have h := countP_erase_mem (fun y => decide (f y = some a)) l x hm
  simpa [hx] using h

theorem count_erase_other {α : Type} [DecidableEq α] (f : α → Option Nat) (x : α) (l : List α)
    (b : Nat) (hm : x ∈ l) (hx : f x ≠ some b) :
    (l.erase x).countP (fun y => decide (f y = some b)) =
      l.countP (fun y => decide (f y = some b)) := by
  have h := countP_erase_mem (fun y => decide (f y = some b)) l x hm
  simpa [hx] using h

theorem count_pos_of_mem {α : Type} (f : α → Option Nat) (x : α) (l : List α) (a : Nat)
    (hm : x ∈ l) (hx : f x = some a) : 0 < l.countP (fun y => decide (f y = some a)) :=
  List.countP_pos_iff.2 ⟨x, hm, by simp [hx]⟩

end shared_ptr_details

namespace shared_ptr_details

theorem Grows.of_same {s s1 : Prog} (h1 : s1.store.next = s.store.next)
    (h2 : s1.store.data_deleted = s.store.data_deleted)
    (h3 : s1.store.block_freed = s.store.block_freed) : Grows s s1 := by
  refine ⟨by rw [h1], fun a => by rw [h2], fun a => by rw [h3], fun a h4 h5 => ?_⟩
  rw [h1] at h5
  exact absurd (Nat.lt_of_le_of_lt h4 h5) (Nat.lt_irrefl _)

theorem Counted.live_of_shared {s : Prog} (hc : Counted s) {x : shared_ptr} (hx : x ∈ s.shared)
    {a : Nat} (ha : x.block_ptr = some a) :
    ∃ cb, s.store.blocks a = some cb ∧ cb.strong_ref ≠ 0 := by
  have hpos : 0 < s.shared_count a := count_pos_of_mem (fun y : shared_ptr => y.block_ptr) x s.shared a hx ha
  cases hb : s.store.blocks a with
  | none => have := (hc.dead a hb).1; omega
  | some cb => have := (hc.live a cb hb).2.1; exact ⟨cb, rfl, by omega⟩

theorem Counted.live_of_weak {s : Prog} (hc : Counted s) {w : weak_ptr} (hw : w ∈ s.weak)
    {a : Nat} (ha : w.block_ptr = some a) : ∃ cb, s.store.blocks a = some cb := by
  have hpos : 0 < s.weak_count a := count_pos_of_mem (fun y : weak_ptr => y.block_ptr) w s.weak a hw ha
  cases hb : s.store.blocks a with
  | none => have := (hc.dead a hb).2.1; omega
  | some cb => exact ⟨cb, rfl⟩

/-- A handle without a block is added to the live `shared_ptr` handles. -/
theorem Counted.null_shared {s : Prog} (hc : Counted s) (hroom : s.room) (p : Option Nat) :
    Counted (Prog.mk s.store (shared_ptr.mk none p :: s.shared) s.weak) := by
  have hcs : ∀ b, (Prog.mk s.store (shared_ptr.mk none p :: s.shared) s.weak).shared_count b =
      s.shared_count b := fun b =>
    count_cons_other (fun y : shared_ptr => y.block_ptr) _ _ b (by simp)
  refine ⟨?_, fun a cb hb => ?_, fun a hb => ?_⟩
  · have := hroom
    simp only [Prog.room, List.length_cons] at this ⊢
    omega
  · rw [hcs]; exact hc.live a cb hb
  · rw [hcs]; exact hc.dead a hb

/-- A handle without a block is added to the live `weak_ptr` handles. -/
theorem Counted.null_weak {s : Prog} (hc : Counted s) (hroom : s.room) (p : Option Nat) :
    Counted (Prog.mk s.store s.shared (weak_ptr.mk none p :: s.weak)) := by
  have hcw : ∀ b, (Prog.mk s.store s.shared (weak_ptr.mk none p :: s.weak)).weak_count b =
      s.weak_count b := fun b =>
    count_cons_other (fun y : weak_ptr => y.block_ptr) _ _ b (by simp)
  refine ⟨?_, fun a cb hb => ?_, fun a hb => ?_⟩
  · have := hroom
    simp only [Prog.room, List.length_cons] at this ⊢
    omega
  · rw [hcw]; exact hc.live a cb hb
  · rw [hcw]; exact hc.dead a hb

/-- After `inc_strong()` on a block with a positive `strong_ref`, a new `shared_ptr` handle
on the block is alive. -/
theorem Counted.add_shared {s : Prog} (hc : Counted s) (hroom : s.room) {a : Nat}
    {cb : control_block} (hb : s.store.blocks a = some cb) (hpos : cb.strong_ref ≠ 0)
    (p : Option Nat) :
    Counted (Prog.mk
      (s.store.write a (some
        { strong_ref := size_incr cb.strong_ref,
          weak_ref := size_incr cb.weak_ref }))
      (shared_ptr.mk (some a) p :: s.shared) s.weak) := by
  obtain ⟨h1, h2, h3, h4, h5, h6⟩ := hc.live a cb hb
  have hle := s.shared_count_le a
  have hlw := s.weak_count_le a
  have hr := hroom
  have hcs : (Prog.mk (s.store.write a (some
        { strong_ref := size_incr cb.strong_ref,
          weak_ref := size_incr cb.weak_ref }))
      (shared_ptr.mk (some a) p :: s.shared) s.weak).shared_count a = s.shared_count a + 1 :=
    count_cons_same (fun y : shared_ptr => y.block_ptr) _ _ a rfl
  refine hc.congr a ?_ (fun b hba => Store.write_other _ _ hba) (fun b _ => Iff.rfl)
    (fun b _ => rfl) (fun b _ => rfl) (fun b hba => ?_) (fun b _ => rfl) ?_ ?_
  · simp only [Prog.room, List.length_cons] at hr ⊢
    omega
  · exact count_cons_other (fun y : shared_ptr => y.block_ptr) _ _ b
      (by simpa using Ne.symm hba)
  · intro cb1 hb1
    rw [show (Prog.mk (s.store.write a (some
        { strong_ref := size_incr cb.strong_ref,
          weak_ref := size_incr cb.weak_ref }))
      (shared_ptr.mk (some a) p :: s.shared) s.weak).store.blocks a = _ from
        Store.write_same _ _ _] at hb1
    cases hb1
    rw [hcs]
    simp only [Prog.room] at hr
    have e1 : size_incr cb.strong_ref = cb.strong_ref + 1 := size_incr_eq (by omega)
    have e2 : size_incr cb.weak_ref = cb.weak_ref + 1 := size_incr_eq (by omega)
    refine ⟨h1, ?_, ?_, ?_, ?_, h6⟩
    · show size_incr cb.strong_ref = _
      omega
    · show size_incr cb.weak_ref = _ + s.weak_count a
      omega
    · show 0 < size_incr cb.weak_ref
      omega
    · show s.store.data_deleted a = _
      rw [h5, if_neg (by omega), if_neg (by omega)]
  · intro hb1
    rw [show (Prog.mk (s.store.write a (some
        { strong_ref := size_incr cb.strong_ref,
          weak_ref := size_incr cb.weak_ref }))
      (shared_ptr.mk (some a) p :: s.shared) s.weak).store.blocks a = _ from
        Store.write_same _ _ _] at hb1
    cases hb1

/-- After `inc_weak()` on a block, a new `weak_ptr` handle on the block is alive. -/
theorem Counted.add_weak {s : Prog} (hc : Counted s) (hroom : s.room) {a : Nat}
    {cb : control_block} (hb : s.store.blocks a = some cb) (p : Option Nat) :
    Counted (Prog.mk
      (s.store.write a (some { cb with weak_ref := size_incr cb.weak_ref }))
      s.shared (weak_ptr.mk (some a) p :: s.weak)) := by
  obtain ⟨h1, h2, h3, h4, h5, h6⟩ := hc.live a cb hb
  have hle := s.shared_count_le a
  have hlw := s.weak_count_le a
  have hr := hroom
  have hcw : (Prog.mk
      (s.store.write a (some { cb with weak_ref := size_incr cb.weak_ref }))
      s.shared (weak_ptr.mk (some a) p :: s.weak)).weak_count a = s.weak_count a + 1 :=
    count_cons_same (fun y : weak_ptr => y.block_ptr) _ _ a rfl
  have hcs : (Prog.mk
      (s.store.write a (some { cb with weak_ref := size_incr cb.weak_ref }))
      s.shared (weak_ptr.mk (some a) p :: s.weak)).shared_count a = s.shared_count a := rfl
  refine hc.congr a ?_ (fun b hba => Store.write_other _ _ hba) (fun b _ => Iff.rfl)
    (fun b _ => rfl) (fun b _ => rfl) (fun b _ => rfl) (fun b hba => ?_) ?_ ?_
  · simp only [Prog.room, List.length_cons] at hr ⊢
    omega
  · exact count_cons_other (fun y : weak_ptr => y.block_ptr) _ _ b
      (by simpa using Ne.symm hba)
  · intro cb1 hb1
    rw [show (Prog.mk
      (s.store.write a (some { cb with weak_ref := size_incr cb.weak_ref }))
      s.shared (weak_ptr.mk (some a) p :: s.weak)).store.blocks a = _ from
        Store.write_same _ _ _] at hb1
    cases hb1
    rw [hcs, hcw]
    simp only [Prog.room] at hr
    have e2 : size_incr cb.weak_ref = cb.weak_ref + 1 := size_incr_eq (by omega)
    refine ⟨h1, h2, ?_, ?_, h5, h6⟩
    · show size_incr cb.weak_ref = _
      omega
    · show 0 < size_incr cb.weak_ref
      omega
  · intro hb1
    rw [show (Prog.mk
      (s.store.write a (some { cb with weak_ref := size_incr cb.weak_ref }))
      s.shared (weak_ptr.mk (some a) p :: s.weak)).store.blocks a = _ from
        Store.write_same _ _ _] at hb1
    cases hb1

end shared_ptr_details

namespace shared_ptr_details

/-- What `dec_weak()` does to a store, for a block whose `weak_ref` is positive: the last
reference frees the block, any other one is counted down. -/
theorem dec_weak_spec (s : Store) {a : Nat} {cb : control_block}
    (hb : s.blocks a = some cb) (hw : 0 < cb.weak_ref) (hlt : cb.weak_ref < size_mod) :
    ∃ st, control_block.dec_weak s a = some st ∧ st.next = s.next ∧
      st.data_deleted = s.data_deleted ∧
      (∀ b, b ≠ a → st.blocks b = s.blocks b ∧ st.block_freed b = s.block_freed b) ∧
      (cb.weak_ref = 1 → st.blocks a = none ∧ st.block_freed a = s.block_freed a + 1) ∧
      (cb.weak_ref ≠ 1 →
        st.blocks a = some { cb with weak_ref := cb.weak_ref - 1 } ∧
        st.block_freed a = s.block_freed a) := by
  have ew : size_decr cb.weak_ref = cb.weak_ref - 1 := size_decr_eq hw hlt
  unfold control_block.dec_weak
  rw [hb, Option.map_some']
  by_cases h1 : cb.weak_ref = 1
  · have h0 : size_decr cb.weak_ref = 0 := by omega
    rw [if_pos h0]
    refine ⟨_, rfl, rfl, rfl, fun b hba => ⟨?_, ?_⟩, fun _ => ⟨?_, ?_⟩,
      fun h => absurd h1 h⟩
    · exact Store.write_other _ _ hba
    · show Function.update s.block_freed a (s.block_freed a + 1) b = _
      rw [Function.update_noteq hba]
    · exact Store.write_same _ _ _
    · show Function.update s.block_freed a (s.block_freed a + 1) a = _
      rw [Function.update_same]
  · have h0 : ¬ size_decr cb.weak_ref = 0 := by omega
    rw [if_neg h0, ew]
    refine ⟨_, rfl, rfl, rfl, fun b hba => ⟨Store.write_other _ _ hba, rfl⟩,
      fun h => absurd h h1, fun _ => ⟨Store.write_same _ _ _, rfl⟩⟩

/-- What `dec_strong()` does to a store, for a block whose counters are positive: the
object is destroyed by the last strong reference, and `dec_weak()` follows. -/
theorem dec_strong_spec (s : Store) {a : Nat} {cb : control_block}
    (hb : s.blocks a = some cb) (hs : 0 < cb.strong_ref) (hslt : cb.strong_ref < size_mod)
    (hw : 0 < cb.weak_ref) (hlt : cb.weak_ref < size_mod) :
    ∃ st, control_block.dec_strong s a = some st ∧ st.next = s.next ∧
      (∀ b, b ≠ a → st.blocks b = s.blocks b ∧ st.data_deleted b = s.data_deleted b ∧
        st.block_freed b = s.block_freed b) ∧
      st.data_deleted a = s.data_deleted a + (if cb.strong_ref = 1 then 1 else 0) ∧
      (cb.weak_ref = 1 → st.blocks a = none ∧ st.block_freed a = s.block_freed a + 1) ∧
      (cb.weak_ref ≠ 1 →
        st.blocks a = some { strong_ref := cb.strong_ref - 1, weak_ref := cb.weak_ref - 1 } ∧
        st.block_freed a = s.block_freed a) := by
  have es : size_decr cb.strong_ref = cb.strong_ref - 1 := size_decr_eq hs hslt
  unfold control_block.dec_strong
  rw [hb, Option.some_bind, es]
  by_cases h1 : cb.strong_ref = 1
  · have h0 : cb.strong_ref - 1 = 0 := by omega
    rw [if_pos h0, if_pos h1]
    obtain ⟨st, hrun, hn, hdd, hoth, hlast, hmore⟩ :=
      @dec_weak_spec (control_block.delete_data
        (s.write a (some { cb with strong_ref := cb.strong_ref - 1 })) a) a
        { cb with strong_ref := cb.strong_ref - 1 } (Store.write_same _ _ _) hw hlt
    refine ⟨st, hrun, hn, fun b hba => ⟨?_, ?_, ?_⟩, ?_, fun h => ?_, fun h => ?_⟩
    · rw [(hoth b hba).1]; exact Store.write_other _ _ hba
    · rw [hdd]
      show Function.update s.data_deleted a (s.data_deleted a + 1) b = _
      rw [Function.update_noteq hba]
    · rw [(hoth b hba).2]; rfl
    · rw [hdd]
      show Function.update s.data_deleted a (s.data_deleted a + 1) a = _
      rw [Function.update_same]
    · exact hlast h
    · exact hmore h
  · have h0 : ¬ cb.strong_ref - 1 = 0 := by omega
    rw [if_neg h0, if_neg h1]
    obtain ⟨st, hrun, hn, hdd, hoth, hlast, hmore⟩ :=
      @dec_weak_spec (s.write a (some { cb with strong_ref := cb.strong_ref - 1 })) a
        { cb with strong_ref := cb.strong_ref - 1 } (Store.write_same _ _ _) hw hlt
    refine ⟨st, hrun, hn, fun b hba => ⟨?_, ?_, ?_⟩, ?_, fun h => ?_, fun h => ?_⟩
    · rw [(hoth b hba).1]; exact Store.write_other _ _ hba
    · rw [hdd]; rfl
    · rw [(hoth b hba).2]; rfl
    · rw [hdd]; rfl
    · exact hlast h
    · exact hmore h

/-- The invariant after a change of the block at `a` that leaves `next` as it is; the store
and the handles of the new state are given apart. -/
theorem Counted.at_block {s : Prog} (hc : Counted s) (a : Nat) (st : Store)
    (sh : List shared_ptr) (wk : List weak_ptr) (hbound : sh.length + wk.length < size_mod)
    (hblocks : ∀ b, b ≠ a → st.blocks b = s.store.blocks b) (hnext : st.next = s.store.next)
    (hdd : ∀ b, b ≠ a → st.data_deleted b = s.store.data_deleted b)
    (hbf : ∀ b, b ≠ a → st.block_freed b = s.store.block_freed b)
    (hcs : ∀ b, b ≠ a → (Prog.mk st sh wk).shared_count b = s.shared_count b)
    (hcw : ∀ b, b ≠ a → (Prog.mk st sh wk).weak_count b = s.weak_count b)
    (hlive : ∀ cb, st.blocks a = some cb →
      a < s.store.next ∧ cb.strong_ref = (Prog.mk st sh wk).shared_count a ∧
      cb.weak_ref = (Prog.mk st sh wk).shared_count a + (Prog.mk st sh wk).weak_count a ∧
      0 < cb.weak_ref ∧
      st.data_deleted a = (if (Prog.mk st sh wk).shared_count a = 0 then 1 else 0) ∧
      st.block_freed a = 0)
    (hdead : st.blocks a = none →
      (Prog.mk st sh wk).shared_count a = 0 ∧ (Prog.mk st sh wk).weak_count a = 0 ∧
      st.data_deleted a = (if a < s.store.next then 1 else 0) ∧
      st.block_freed a = (if a < s.store.next then 1 else 0)) :
    Counted (Prog.mk st sh wk) := by
  refine hc.congr a hbound hblocks (fun b _ => ?_) hdd hbf hcs hcw ?_ ?_
  · show b < st.next ↔ _
    rw [hnext]
  · intro cb hb
    show a < st.next ∧ _
    rw [hnext]
    exact hlive cb hb
  · intro hb
    show _ ∧ _ ∧ _ = (if a < st.next then 1 else 0) ∧ _ = (if a < st.next then 1 else 0)
    rw [hnext]
    exact hdead hb


end shared_ptr_details

namespace shared_ptr_details

theorem inc_strong_of (s : Store) {a : Nat} {cb : control_block} (hb : s.blocks a = some cb) :
    control_block.inc_strong s a = some (s.write a (some
      { strong_ref := size_incr cb.strong_ref, weak_ref := size_incr cb.weak_ref })) := by
  unfold control_block.inc_strong
  rw [hb]
  rfl

theorem inc_weak_of (s : Store) {a : Nat} {cb : control_block} (hb : s.blocks a = some cb) :
    control_block.inc_weak s a = some (s.write a (some
      { cb with weak_ref := size_incr cb.weak_ref })) := by
  unfold control_block.inc_weak
  rw [hb]
  rfl

/-- The destructor of a live `shared_ptr` handle runs without a fault and keeps the
invariant. -/
theorem Counted.destroy_shared {s : Prog} (hc : Counted s) {x : shared_ptr}
    (hx : x ∈ s.shared) : ∃ s1, s.destroy_shared x = some s1 ∧ Counted s1 ∧ Grows s s1 := by
  have hbd := hc.bound
  have hlen : (s.shared.erase x).length + s.weak.length < size_mod := by
    rw [List.length_erase_of_mem hx]; omega
  cases hxb : x.block_ptr with
  | none =>
    refine ⟨Prog.mk s.store (s.shared.erase x) s.weak, ?_, ?_, Grows.of_same rfl rfl rfl⟩
    · simp only [Prog.destroy_shared, shared_ptr.dtor, hxb, Option.map_some']
    · have hcs : ∀ b, (Prog.mk s.store (s.shared.erase x) s.weak).shared_count b =
          s.shared_count b := fun b =>
        count_erase_other (fun y : shared_ptr => y.block_ptr) x s.shared b hx
          (by show x.block_ptr ≠ some b; rw [hxb]; exact fun h => nomatch h)
      exact ⟨hlen, fun a cb hb => by rw [hcs]; exact hc.live a cb hb,
        fun a hb => by rw [hcs]; exact hc.dead a hb⟩
  | some a =>
    obtain ⟨cb, hb, hpos⟩ := hc.live_of_shared hx hxb
    obtain ⟨h1, h2, h3, h4, h5, h6⟩ := hc.live a cb hb
    have hle := s.shared_count_le a
    have hlw := s.weak_count_le a
    obtain ⟨st, hrun, hn, hoth, hdd, hlast, hmore⟩ :=
      dec_strong_spec s.store hb (by omega) (by omega) h4 (by omega)
    have hcs0 : (Prog.mk st (s.shared.erase x) s.weak).shared_count a + 1 =
        s.shared_count a :=
      count_erase_same (fun y : shared_ptr => y.block_ptr) x s.shared a hx hxb
    have hcs1 : (Prog.mk st (s.shared.erase x) s.weak).shared_count a =
        s.shared_count a - 1 := by omega
    have hcw1 : (Prog.mk st (s.shared.erase x) s.weak).weak_count a = s.weak_count a := rfl
    have hcso : ∀ b, b ≠ a → (Prog.mk st (s.shared.erase x) s.weak).shared_count b =
        s.shared_count b := fun b hba =>
      count_erase_other (fun y : shared_ptr => y.block_ptr) x s.shared b hx
        (by show x.block_ptr ≠ some b; rw [hxb]; simpa using Ne.symm hba)
    refine ⟨Prog.mk st (s.shared.erase x) s.weak, ?_, ?_, ?_⟩
    · simp only [Prog.destroy_shared, shared_ptr.dtor, hxb, hrun, Option.map_some']
    · refine hc.at_block a st _ _ hlen (fun b hba => (hoth b hba).1) hn
        (fun b hba => (hoth b hba).2.1) (fun b hba => (hoth b hba).2.2) hcso
        (fun b _ => rfl) ?_ ?_
      · intro cb1 hb1
        rw [hcs1, hcw1]
        by_cases hw1 : cb.weak_ref = 1
        · rw [(hlast hw1).1] at hb1
          exact nomatch hb1
        · rw [(hmore hw1).1] at hb1
          have e := (Option.some.inj hb1).symm
          subst e
          refine ⟨h1, ?_, ?_, ?_, ?_, ?_⟩
          · show cb.strong_ref - 1 = _
            omega
          · show cb.weak_ref - 1 = _
            omega
          · show 0 < cb.weak_ref - 1
            omega
          · rw [hdd, h5]
            split_ifs <;> omega
          · rw [(hmore hw1).2]
            exact h6
      · intro hb1
        rw [hcs1, hcw1]
        have hw1 : cb.weak_ref = 1 := by
          by_contra hne
          rw [(hmore hne).1] at hb1
          exact nomatch hb1
        refine ⟨by omega, by omega, ?_, ?_⟩
        · rw [hdd, h5, if_pos h1]
          split_ifs <;> omega
        · rw [(hlast hw1).2, h6, if_pos h1]
    · refine ⟨Nat.le_of_eq hn.symm, fun b => ?_, fun b => ?_, fun b h7 h8 => ?_⟩
      · by_cases hba : b = a
        · subst hba
          show _ ≤ st.data_deleted b
          rw [hdd]
          omega
        · exact Nat.le_of_eq (hoth b hba).2.1.symm
      · by_cases hba : b = a
        · subst hba
          show _ ≤ st.block_freed b
          by_cases hw1 : cb.weak_ref = 1
          · rw [(hlast hw1).2]; omega
          · rw [(hmore hw1).2]
        · exact Nat.le_of_eq (hoth b hba).2.2.symm
      · have h9 : b < s.store.next := by
          have : b < st.next := h8
          omega
        omega

/-- The destructor of a live `weak_ptr` handle runs without a fault and keeps the
invariant. -/
theorem Counted.destroy_weak {s : Prog} (hc : Counted s) {w : weak_ptr}
    (hw : w ∈ s.weak) : ∃ s1, s.destroy_weak w = some s1 ∧ Counted s1 ∧ Grows s s1 := by
  have hbd := hc.bound
  have hlen : s.shared.length + (s.weak.erase w).length < size_mod := by
    rw [List.length_erase_of_mem hw]; omega
  cases hwb : w.block_ptr with
  | none =>
    refine ⟨Prog.mk s.store s.shared (s.weak.erase w), ?_, ?_, Grows.of_same rfl rfl rfl⟩
    · simp only [Prog.destroy_weak, weak_ptr.dtor, hwb, Option.map_some']
    · have hcw : ∀ b, (Prog.mk s.store s.shared (s.weak.erase w)).weak_count b =
          s.weak_count b := fun b =>
        count_erase_other (fun y : weak_ptr => y.block_ptr) w s.weak b hw
          (by show w.block_ptr ≠ some b; rw [hwb]; exact fun h => nomatch h)
      exact ⟨hlen, fun a cb hb => by rw [hcw]; exact hc.live a cb hb,
        fun a hb => by rw [hcw]; exact hc.dead a hb⟩
  | some a =>
    obtain ⟨cb, hb⟩ := hc.live_of_weak hw hwb
    obtain ⟨h1, h2, h3, h4, h5, h6⟩ := hc.live a cb hb
    have hle := s.shared_count_le a
    have hlw := s.weak_count_le a
    obtain ⟨st, hrun, hn, hdd, hoth, hlast, hmore⟩ :=
      dec_weak_spec s.store hb h4 (by omega)
    have hcw0 : (Prog.mk st s.shared (s.weak.erase w)).weak_count a + 1 = s.weak_count a :=
      count_erase_same (fun y : weak_ptr => y.block_ptr) w s.weak a hw hwb
    have hcw1 : (Prog.mk st s.shared (s.weak.erase w)).weak_count a = s.weak_count a - 1 := by
      omega
    have hcs1 : (Prog.mk st s.shared (s.weak.erase w)).shared_count a = s.shared_count a := rfl
    have hcwo : ∀ b, b ≠ a → (Prog.mk st s.shared (s.weak.erase w)).weak_count b =
        s.weak_count b := fun b hba =>
      count_erase_other (fun y : weak_ptr => y.block_ptr) w s.weak b hw
        (by show w.block_ptr ≠ some b; rw [hwb]; simpa using Ne.symm hba)
    refine ⟨Prog.mk st s.shared (s.weak.erase w), ?_, ?_, ?_⟩
    · simp only [Prog.destroy_weak, weak_ptr.dtor, hwb, hrun, Option.map_some']
    · refine hc.at_block a st _ _ hlen (fun b hba => (hoth b hba).1) hn
        (fun b _ => by rw [hdd]) (fun b hba => (hoth b hba).2) (fun b _ => rfl) hcwo ?_ ?_
      · intro cb1 hb1
        rw [hcs1, hcw1]
        by_cases hw1 : cb.weak_ref = 1
        · rw [(hlast hw1).1] at hb1
          exact nomatch hb1
        · rw [(hmore hw1).1] at hb1
          have e := (Option.some.inj hb1).symm
          subst e
          refine ⟨h1, h2, ?_, ?_, ?_, ?_⟩
          · show cb.weak_ref - 1 = _
            omega
          · show 0 < cb.weak_ref - 1
            omega
          · rw [hdd, h5]
          · rw [(hmore hw1).2]
            exact h6
      · intro hb1
        rw [hcs1, hcw1]
        have hw1 : cb.weak_ref = 1 := by
          by_contra hne
          rw [(hmore hne).1] at hb1
          exact nomatch hb1
        refine ⟨by omega, by omega, ?_, ?_⟩
        · rw [hdd, h5, if_pos h1, if_pos (by omega)]
        · rw [(hlast hw1).2, h6, if_pos h1]
    · refine ⟨Nat.le_of_eq hn.symm, fun b => ?_, fun b => ?_, fun b h7 h8 => ?_⟩
      · show _ ≤ st.data_deleted b
        rw [hdd]
      · by_cases hba : b = a
        · subst hba
          show _ ≤ st.block_freed b
          by_cases hw1 : cb.weak_ref = 1
          · rw [(hlast hw1).2]; omega
          · rw [(hmore hw1).2]
        · exact Nat.le_of_eq (hoth b hba).2.symm
      · have h9 : b < s.store.next := by
          have : b < st.next := h8
          omega
        omega

end shared_ptr_details

namespace shared_ptr_details

theorem one_lt_size_mod : 0 + 1 < size_mod := by
  unfold size_mod
  omega

/-- A new block is allocated at `next` with both counters 1, and its first handle is
alive. -/
theorem Counted.create {s : Prog} (hc : Counted s) (hroom : s.room) (p : Option Nat) :
    ∃ st, control_block.create s.store = some (st, s.store.next) ∧
      Counted (Prog.mk st (shared_ptr.mk (some s.store.next) p :: s.shared) s.weak) ∧
      Grows s (Prog.mk st (shared_ptr.mk (some s.store.next) p :: s.shared) s.weak) := by
  have hnone : s.store.blocks s.store.next = none := by
    cases hb : s.store.blocks s.store.next with
    | none => rfl
    | some cb => exact absurd (hc.live _ cb hb).1 (Nat.lt_irrefl _)
  obtain ⟨d1, d2, d3, d4⟩ := hc.dead _ hnone
  rw [if_neg (Nat.lt_irrefl _)] at d3 d4
  have hrun : control_block.create s.store = some
      (Store.write s.store.alloc s.store.next (some { strong_ref := 1, weak_ref := 1 }), s.store.next) := by
    unfold control_block.create
    rw [@inc_strong_of s.store.alloc s.store.next { strong_ref := 0, weak_ref := 0 }
        (Function.update_same _ _ _), size_incr_eq one_lt_size_mod]
    rfl
  have hcs : (Prog.mk (Store.write s.store.alloc s.store.next (some { strong_ref := 1, weak_ref := 1 }))
      (shared_ptr.mk (some s.store.next) p :: s.shared) s.weak).shared_count s.store.next =
      s.shared_count s.store.next + 1 :=
    count_cons_same (fun y : shared_ptr => y.block_ptr) _ _ _ rfl
  refine ⟨_, hrun, ?_, ?_⟩
  · refine hc.congr s.store.next ?_ (fun b hba => ?_) (fun b hba => ?_) (fun b _ => rfl)
      (fun b _ => rfl) (fun b hba => ?_) (fun b _ => rfl) ?_ ?_
    · have hr := hroom
      simp only [Prog.room, List.length_cons] at hr ⊢
      omega
    · show (Store.write _ _ _).blocks b = _
      rw [Store.write_other _ _ hba]
      exact Function.update_noteq hba _ _
    · show b < s.store.next + 1 ↔ _
      omega
    · exact count_cons_other (fun y : shared_ptr => y.block_ptr) _ _ b
        (by simpa using Ne.symm hba)
    · intro cb1 hb1
      rw [show (Prog.mk (Store.write s.store.alloc s.store.next (some { strong_ref := 1, weak_ref := 1 }))
        (shared_ptr.mk (some s.store.next) p :: s.shared) s.weak).store.blocks s.store.next =
          _ from Store.write_same _ _ _] at hb1
      have e := (Option.some.inj hb1).symm
      subst e
      rw [hcs]
      refine ⟨?_, ?_, ?_, ?_, ?_, ?_⟩
      · show s.store.next < s.store.next + 1
        omega
      · show 1 = _
        omega
      · show 1 = _ + s.weak_count s.store.next
        omega
      · show 0 < 1
        omega
      · show s.store.data_deleted s.store.next = _
        rw [d3, if_neg (by omega)]
      · exact d4
    · intro hb1
      rw [show (Prog.mk (Store.write s.store.alloc s.store.next (some { strong_ref := 1, weak_ref := 1 }))
        (shared_ptr.mk (some s.store.next) p :: s.shared) s.weak).store.blocks s.store.next =
          _ from Store.write_same _ _ _] at hb1
      exact nomatch hb1
  · refine ⟨Nat.le_succ _, fun b => Nat.le_refl _, fun b => Nat.le_refl _, fun b h7 h8 => ?_⟩
    have h9 : b < s.store.next + 1 := h8
    have e : b = s.store.next := by omega
    subst e
    rw [hcs]
    omega

/-- Every step from a state with the invariant, with a live handle as its argument, can
be taken, and leads to a state with the invariant. -/
theorem Counted.copy_shared {s : Prog} (hc : Counted s) (hroom : s.room) {x : shared_ptr}
    (hx : x ∈ s.shared) : ∃ s1, s.copy_shared x = some s1 ∧ Counted s1 ∧ Grows s s1 := by
  cases hxb : x.block_ptr with
  | none =>
    refine ⟨_, ?_, hc.null_shared hroom x.ptr, Grows.of_same rfl rfl rfl⟩
    simp only [Prog.copy_shared, shared_ptr.copy_ctor, shared_ptr.inc, hxb, Option.map_some']
  | some a =>
    obtain ⟨cb, hb, hpos⟩ := hc.live_of_shared hx hxb
    refine ⟨_, ?_, hc.add_shared hroom hb hpos x.ptr, Grows.of_same rfl rfl rfl⟩
    simp only [Prog.copy_shared, shared_ptr.copy_ctor, shared_ptr.inc, hxb,
      inc_strong_of _ hb, Option.map_some']

theorem Counted.weak_of_shared {s : Prog} (hc : Counted s) (hroom : s.room) {x : shared_ptr}
    (hx : x ∈ s.shared) : ∃ s1, s.weak_of_shared x = some s1 ∧ Counted s1 ∧ Grows s s1 := by
  cases hxb : x.block_ptr with
  | none =>
    refine ⟨_, ?_, hc.null_weak hroom x.ptr, Grows.of_same rfl rfl rfl⟩
    simp only [Prog.weak_of_shared, weak_ptr.ctor_shared, weak_ptr.inc, hxb, Option.map_some']
  | some a =>
    obtain ⟨cb, hb, hpos⟩ := hc.live_of_shared hx hxb
    refine ⟨_, ?_, hc.add_weak hroom hb x.ptr, Grows.of_same rfl rfl rfl⟩
    simp only [Prog.weak_of_shared, weak_ptr.ctor_shared, weak_ptr.inc, hxb,
      inc_weak_of _ hb, Option.map_some']

theorem Counted.copy_weak {s : Prog} (hc : Counted s) (hroom : s.room) {w : weak_ptr}
    (hw : w ∈ s.weak) : ∃ s1, s.copy_weak w = some s1 ∧ Counted s1 ∧ Grows s s1 := by
  cases hwb : w.block_ptr with
  | none =>
    refine ⟨_, ?_, hc.null_weak hroom w.ptr, Grows.of_same rfl rfl rfl⟩
    simp only [Prog.copy_weak, weak_ptr.copy_ctor, weak_ptr.inc, hwb, Option.map_some']
  | some a =>
    obtain ⟨cb, hb⟩ := hc.live_of_weak hw hwb
    refine ⟨_, ?_, hc.add_weak hroom hb w.ptr, Grows.of_same rfl rfl rfl⟩
    simp only [Prog.copy_weak, weak_ptr.copy_ctor, weak_ptr.inc, hwb,
      inc_weak_of _ hb, Option.map_some']

/-- The call of `lock()` on a live `weak_ptr` handle returns: the empty handle when the
handle has no block or `strong_ref` is 0, and a handle on the block otherwise. -/
theorem Counted.lock_result {s : Prog} (hc : Counted s) {w : weak_ptr} (hw : w ∈ s.weak) :
    (w.block_ptr = none ∧ weak_ptr.lock s.store w = some (s.store, shared_ptr.ctor_default)) ∨
    (∃ a cb, w.block_ptr = some a ∧ s.store.blocks a = some cb ∧ cb.strong_ref = 0 ∧
      weak_ptr.lock s.store w = some (s.store, shared_ptr.ctor_default)) ∨
    (∃ a cb, w.block_ptr = some a ∧ s.store.blocks a = some cb ∧ cb.strong_ref ≠ 0 ∧
      weak_ptr.lock s.store w = some (s.store.write a (some
        { strong_ref := size_incr cb.strong_ref, weak_ref := size_incr cb.weak_ref }),
        shared_ptr.mk (some a) w.ptr)) := by
  cases hwb : w.block_ptr with
  | none =>
    refine Or.inl ⟨rfl, ?_⟩
    simp only [weak_ptr.lock, hwb]
  | some a =>
    obtain ⟨cb, hb⟩ := hc.live_of_weak hw hwb
    by_cases h0 : cb.strong_ref = 0
    · refine Or.inr (Or.inl ⟨a, cb, rfl, hb, h0, ?_⟩)
      simp only [weak_ptr.lock, hwb, hb, Option.some_bind, if_pos h0]
    · refine Or.inr (Or.inr ⟨a, cb, rfl, hb, h0, ?_⟩)
      simp only [weak_ptr.lock, hwb, hb, Option.some_bind, if_neg h0, inc_strong_of _ hb,
        Option.map_some']

theorem Counted.lock {s : Prog} (hc : Counted s) (hroom : s.room) {w : weak_ptr}
    (hw : w ∈ s.weak) : ∃ s1, s.lock w = some s1 ∧ Counted s1 ∧ Grows s s1 := by
  rcases hc.lock_result hw with ⟨-, hl⟩ | ⟨a, cb, -, -, -, hl⟩ | ⟨a, cb, -, hb, h0, hl⟩
  · refine ⟨_, ?_, hc.null_shared hroom none, Grows.of_same rfl rfl rfl⟩
    simp only [Prog.lock, hl, Option.map_some']
    rfl
  · refine ⟨_, ?_, hc.null_shared hroom none, Grows.of_same rfl rfl rfl⟩
    simp only [Prog.lock, hl, Option.map_some']
    rfl
  · refine ⟨_, ?_, hc.add_shared hroom hb h0 w.ptr, Grows.of_same rfl rfl rfl⟩
    simp only [Prog.lock, hl, Option.map_some']

theorem Counted.ctor_ptr {s : Prog} (hc : Counted s) (hroom : s.room) (p : Nat) :
    ∃ s1, s.ctor_ptr p = some s1 ∧ Counted s1 ∧ Grows s s1 := by
  obtain ⟨st, hrun, hc1, hg⟩ := hc.create hroom (some p)
  refine ⟨_, ?_, hc1, hg⟩
  simp only [Prog.ctor_ptr, shared_ptr.ctor_ptr, hrun, Option.map_some']

theorem Counted.make_shared {s : Prog} (hc : Counted s) (hroom : s.room) :
    ∃ s1, s.make_shared = some s1 ∧ Counted s1 ∧ Grows s s1 := by
  obtain ⟨st, hrun, hc1, hg⟩ := hc.create hroom (some s.store.next)
  refine ⟨_, ?_, hc1, hg⟩
  simp only [Prog.make_shared, shared_ptr.make_shared, hrun, Option.map_some']

theorem Counted.init : Counted Prog.init := by
  refine ⟨?_, fun a cb hb => (nomatch hb), fun a _ => ⟨rfl, rfl, ?_, ?_⟩⟩
  · show 0 + 0 < size_mod
    unfold size_mod
    omega
  · show (0 : Nat) = if a < 0 then 1 else 0
    rw [if_neg (Nat.not_lt_zero a)]
  · show (0 : Nat) = if a < 0 then 1 else 0
    rw [if_neg (Nat.not_lt_zero a)]

theorem Step.counted {s s1 : Prog} (hc : Counted s) (hs : Step s s1) :
    Counted s1 ∧ Grows s s1 := by
  cases hs with
  | shared_default hroom => exact ⟨hc.null_shared hroom none, Grows.of_same rfl rfl rfl⟩
  | weak_default hroom => exact ⟨hc.null_weak hroom none, Grows.of_same rfl rfl rfl⟩
  | ctor_ptr p hroom h =>
    obtain ⟨s2, h2, hc2, hg⟩ := hc.ctor_ptr hroom p
    cases h.symm.trans h2
    exact ⟨hc2, hg⟩
  | make_shared hroom h =>
    obtain ⟨s2, h2, hc2, hg⟩ := hc.make_shared hroom
    cases h.symm.trans h2
    exact ⟨hc2, hg⟩
  | copy_shared x hroom hx h =>
    obtain ⟨s2, h2, hc2, hg⟩ := hc.copy_shared hroom hx
    cases h.symm.trans h2
    exact ⟨hc2, hg⟩
  | destroy_shared x hx h =>
    obtain ⟨s2, h2, hc2, hg⟩ := hc.destroy_shared hx
    cases h.symm.trans h2
    exact ⟨hc2, hg⟩
  | weak_of_shared x hroom hx h =>
    obtain ⟨s2, h2, hc2, hg⟩ := hc.weak_of_shared hroom hx
    cases h.symm.trans h2
    exact ⟨hc2, hg⟩
  | copy_weak w hroom hw h =>
    obtain ⟨s2, h2, hc2, hg⟩ := hc.copy_weak hroom hw
    cases h.symm.trans h2
    exact ⟨hc2, hg⟩
  | lock w hroom hw h =>
    obtain ⟨s2, h2, hc2, hg⟩ := hc.lock hroom hw
    cases h.symm.trans h2
    exact ⟨hc2, hg⟩
  | destroy_weak w hw h =>
    obtain ⟨s2, h2, hc2, hg⟩ := hc.destroy_weak hw
    cases h.symm.trans h2
    exact ⟨hc2, hg⟩

theorem Reach.invariant {s : Prog} (hr : Reach s) : Counted s := by
  induction hr with
  | init => exact Counted.init
  | step _ hs ih => exact (Step.counted ih hs).1

end shared_ptr_details

namespace shared_ptr_details

/-- The changes of the two records in one step, read off from the invariant before and
after it. -/
theorem Grows.records {s s1 : Prog} (hc : Counted s) (hc1 : Counted s1) (hg : Grows s s1)
    (a : Nat) :
    s1.store.data_deleted a = s.store.data_deleted a +
      (if 0 < s.shared_count a ∧ s1.shared_count a = 0 then 1 else 0) ∧
    s1.store.block_freed a = s.store.block_freed a +
      (if 0 < s.shared_count a + s.weak_count a ∧ s1.shared_count a + s1.weak_count a = 0
        then 1 else 0) := by
  have hn := hg.next
  have hd := hg.data_deleted a
  have hf := hg.block_freed a
  have hfr : a < s.store.next ∨ ¬ a < s1.store.next ∨ 0 < s1.shared_count a := by
    by_cases h1 : a < s.store.next
    · exact Or.inl h1
    · by_cases h2 : a < s1.store.next
      · exact Or.inr (Or.inr (hg.fresh a (by omega) h2))
      · exact Or.inr (Or.inl h2)
  cases hb : s.store.blocks a with
  | none =>
    obtain ⟨d1, d2, d3, d4⟩ := hc.dead a hb
    cases hb1 : s1.store.blocks a with
    | none =>
      obtain ⟨e1, e2, e3, e4⟩ := hc1.dead a hb1
      refine ⟨?_, ?_⟩ <;> split_ifs at d3 d4 e3 e4 ⊢ <;> omega
    | some cb1 =>
      obtain ⟨e1, e2, e3, e4, e5, e6⟩ := hc1.live a cb1 hb1
      refine ⟨?_, ?_⟩ <;> split_ifs at d3 d4 e5 ⊢ <;> omega
  | some cb =>
    obtain ⟨l1, l2, l3, l4, l5, l6⟩ := hc.live a cb hb
    cases hb1 : s1.store.blocks a with
    | none =>
      obtain ⟨e1, e2, e3, e4⟩ := hc1.dead a hb1
      refine ⟨?_, ?_⟩ <;> split_ifs at l5 e3 e4 ⊢ <;> omega
    | some cb1 =>
      obtain ⟨e1, e2, e3, e4, e5, e6⟩ := hc1.live a cb1 hb1
      refine ⟨?_, ?_⟩ <;> split_ifs at l5 e5 ⊢ <;> omega

/-- C34: in every state reached from the initial one by creating, copying, locking and
destroying `shared_ptr` and `weak_ptr` handles, for every control block: `strong_ref` is
the number of live `shared_ptr` handles on the block, which is what `use_count()` returns
for each of them; `weak_ref` is the number of live handles on the block of both kinds, so
`strong_ref ≤ weak_ref`; the object of a block that has been allocated has been destroyed
once if no `shared_ptr` handle on it is alive and not at all otherwise, and a step destroys
it exactly if it takes the number of these handles from a positive value to 0; the block is
allocated exactly while a handle on it is alive, it has been freed once if none is and not
at all otherwise, and a step frees it exactly if it takes the number of handles from a
positive value to 0; `lock()` on a live `weak_ptr` handle returns, and the result is the
empty `shared_ptr` exactly if the handle has no block or `strong_ref` is 0; and the
destructors and copy operations on live handles return as well. -/
theorem counters_match_live_handles {s : Prog} (hr : Reach s) :
    (∀ a cb, s.store.blocks a = some cb →
      cb.strong_ref = s.shared_count a ∧
      cb.weak_ref = s.shared_count a + s.weak_count a ∧ cb.strong_ref ≤ cb.weak_ref) ∧
    (∀ x ∈ s.shared, ∀ a, x.block_ptr = some a →
      shared_ptr.use_count s.store x = some (s.shared_count a)) ∧
    (∀ a, a < s.store.next →
      s.store.data_deleted a = (if s.shared_count a = 0 then 1 else 0) ∧
      s.store.block_freed a = (if s.shared_count a + s.weak_count a = 0 then 1 else 0) ∧
      (s.store.blocks a = none ↔ s.shared_count a + s.weak_count a = 0)) ∧
    (∀ a, s.store.next ≤ a →
      s.store.data_deleted a = 0 ∧ s.store.block_freed a = 0 ∧ s.store.blocks a = none) ∧
    (∀ s1, Step s s1 → ∀ a,
      s1.store.data_deleted a = s.store.data_deleted a +
        (if 0 < s.shared_count a ∧ s1.shared_count a = 0 then 1 else 0) ∧
      s1.store.block_freed a = s.store.block_freed a +
        (if 0 < s.shared_count a + s.weak_count a ∧ s1.shared_count a + s1.weak_count a = 0
          then 1 else 0)) ∧
    (∀ w ∈ s.weak, ∃ st r, weak_ptr.lock s.store w = some (st, r) ∧
      (r = shared_ptr.ctor_default ↔
        w.block_ptr = none ∨
        ∃ a cb, w.block_ptr = some a ∧ s.store.blocks a = some cb ∧ cb.strong_ref = 0)) ∧
    (∀ x ∈ s.shared, (∃ s1, s.destroy_shared x = some s1) ∧
      (s.room → (∃ s1, s.copy_shared x = some s1) ∧ ∃ s1, s.weak_of_shared x = some s1)) ∧
    (∀ w ∈ s.weak, (∃ s1, s.destroy_weak w = some s1) ∧
      (s.room → (∃ s1, s.copy_weak w = some s1) ∧ ∃ s1, s.lock w = some s1)) := by
  have hc := hr.invariant
  refine ⟨fun a cb hb => ?_, fun x hx a ha => ?_, fun a ha => ?_, fun a ha => ?_,
    fun s1 hs a => ?_, fun w hw => ?_, fun x hx => ?_, fun w hw => ?_⟩
  · obtain ⟨-, l2, l3, -, -, -⟩ := hc.live a cb hb
    exact ⟨l2, l3, by omega⟩
  · obtain ⟨cb, hb, -⟩ := hc.live_of_shared hx ha
    simp only [shared_ptr.use_count, ha, hb, Option.map_some', (hc.live a cb hb).2.1]
  · cases hb : s.store.blocks a with
    | none =>
      obtain ⟨d1, d2, d3, d4⟩ := hc.dead a hb
      rw [d3, d4, d1, d2, if_pos ha]
      simp
    | some cb =>
      obtain ⟨-, l2, l3, l4, l5, l6⟩ := hc.live a cb hb
      refine ⟨l5, ?_, ?_⟩
      · rw [l6, if_neg (by omega)]
      · constructor
        · intro h; exact nomatch h
        · intro h; omega
  · cases hb : s.store.blocks a with
    | none =>
      obtain ⟨-, -, d3, d4⟩ := hc.dead a hb
      rw [d3, d4, if_neg (by omega)]
      exact ⟨rfl, rfl, rfl⟩
    | some cb =>
      have := (hc.live a cb hb).1
      omega
  · obtain ⟨hc1, hg⟩ := Step.counted hc hs
    exact hg.records hc hc1 a
  · rcases hc.lock_result hw with ⟨hn, hl⟩ | ⟨a, cb, ha, hb, h0, hl⟩ | ⟨a, cb, ha, hb, h0, hl⟩
    · exact ⟨_, _, hl, fun _ => Or.inl hn, fun _ => rfl⟩
    · exact ⟨_, _, hl, fun _ => Or.inr ⟨a, cb, ha, hb, h0⟩, fun _ => rfl⟩
    · refine ⟨_, _, hl, fun h => ?_, fun h => ?_⟩
      · exact nomatch h
      · rcases h with h | ⟨a1, cb1, ha1, hb1, h1⟩
        · rw [ha] at h; exact nomatch h
        · rw [ha] at ha1
          cases ha1
          rw [hb] at hb1
          cases hb1
          exact absurd h1 h0
  · refine ⟨?_, fun hroom => ⟨?_, ?_⟩⟩
    · obtain ⟨s1, h1, -⟩ := hc.destroy_shared hx
      exact ⟨s1, h1⟩
    · obtain ⟨s1, h1, -⟩ := hc.copy_shared hroom hx
      exact ⟨s1, h1⟩
    · obtain ⟨s1, h1, -⟩ := hc.weak_of_shared hroom hx
      exact ⟨s1, h1⟩
  · refine ⟨?_, fun hroom => ⟨?_, ?_⟩⟩
    · obtain ⟨s1, h1, -⟩ := hc.destroy_weak hw
      exact ⟨s1, h1⟩
    · obtain ⟨s1, h1, -⟩ := hc.copy_weak hroom hw
      exact ⟨s1, h1⟩
    · obtain ⟨s1, h1, -⟩ := hc.lock hroom hw
      exact ⟨s1, h1⟩

end shared_ptr_details

namespace shared_ptr_details

theorem sp_demo4_reach : Reach sp_demo4 :=
  Reach.step
    (Reach.step
      (Reach.step
        (Reach.step Reach.init
          (Step.ctor_ptr 7 (by decide) (show Prog.init.ctor_ptr 7 = some sp_demo1 from rfl)))
        (Step.copy_shared sp_handle (by decide) (by decide)
          (show sp_demo1.copy_shared sp_handle = some sp_demo2 from rfl)))
      (Step.weak_of_shared sp_handle (by decide) (by decide)
        (show sp_demo2.weak_of_shared sp_handle = some sp_demo3 from rfl)))
    (Step.destroy_shared sp_handle (by decide)
      (show sp_demo3.destroy_shared sp_handle = some sp_demo4 from rfl))

/-- C34 at a concrete input: the state after `shared_ptr<T> p(ptr)`, a copy of `p`, a
`weak_ptr` made from `p` and the destruction of the copy. -/
theorem counters_match_live_handles_witness :
    Reach sp_demo4 ∧
    (∀ a cb, sp_demo4.store.blocks a = some cb →
      cb.strong_ref = sp_demo4.shared_count a ∧
      cb.weak_ref = sp_demo4.shared_count a + sp_demo4.weak_count a ∧
      cb.strong_ref ≤ cb.weak_ref) ∧
    (∀ x ∈ sp_demo4.shared, ∀ a, x.block_ptr = some a →
      shared_ptr.use_count sp_demo4.store x = some (sp_demo4.shared_count a)) ∧
    (∀ a, a < sp_demo4.store.next →
      sp_demo4.store.data_deleted a = (if sp_demo4.shared_count a = 0 then 1 else 0) ∧
      sp_demo4.store.block_freed a =
        (if sp_demo4.shared_count a + sp_demo4.weak_count a = 0 then 1 else 0) ∧
      (sp_demo4.store.blocks a = none ↔
        sp_demo4.shared_count a + sp_demo4.weak_count a = 0)) ∧
    (∀ a, sp_demo4.store.next ≤ a →
      sp_demo4.store.data_deleted a = 0 ∧ sp_demo4.store.block_freed a = 0 ∧
      sp_demo4.store.blocks a = none) ∧
    (∀ s1, Step sp_demo4 s1 → ∀ a,
      s1.store.data_deleted a = sp_demo4.store.data_deleted a +
        (if 0 < sp_demo4.shared_count a ∧ s1.shared_count a = 0 then 1 else 0) ∧
      s1.store.block_freed a = sp_demo4.store.block_freed a +
        (if 0 < sp_demo4.shared_count a + sp_demo4.weak_count a ∧
            s1.shared_count a + s1.weak_count a = 0
          then 1 else 0)) ∧
    (∀ w ∈ sp_demo4.weak, ∃ st r, weak_ptr.lock sp_demo4.store w = some (st, r) ∧
      (r = shared_ptr.ctor_default ↔
        w.block_ptr = none ∨
        ∃ a cb, w.block_ptr = some a ∧ sp_demo4.store.blocks a = some cb ∧
          cb.strong_ref = 0)) ∧
    (∀ x ∈ sp_demo4.shared, (∃ s1, sp_demo4.destroy_shared x = some s1) ∧
      (sp_demo4.room →
        (∃ s1, sp_demo4.copy_shared x = some s1) ∧
        ∃ s1, sp_demo4.weak_of_shared x = some s1)) ∧
    (∀ w ∈ sp_demo4.weak, (∃ s1, sp_demo4.destroy_weak w = some s1) ∧
      (sp_demo4.room →
        (∃ s1, sp_demo4.copy_weak w = some s1) ∧ ∃ s1, sp_demo4.lock w = some s1)) :=
  ⟨sp_demo4_reach, counters_match_live_handles sp_demo4_reach⟩

end shared_ptr_details

/-! ## variant: copy assignment from a valueless variant -/

namespace details

theorem at_impl_range_lt {n i : Nat} (h : i < n) :
    at_impl (List.range n) i = Except.ok i := by
  unfold at_impl
  rw [List.getElem?_range h]

theorem at_impl_range_ge {n i : Nat} (h : n ≤ i) :
    at_impl (List.range n) i = Except.error (Fault.out_of_bounds n i) := by
  unfold at_impl
  rw [List.getElem?_eq_none (by rw [List.length_range]; exact h), List.length_range]

end details

namespace variant

open details

theorem valueless_of_npos {w : variant} (hw : w.ind = variant_npos) :
    w.valueless_by_exception = true := by
  unfold valueless_by_exception index
  rw [hw]
  exact beq_self_eq_true _

theorem not_valueless_of_lt {ts : Alternatives} {v : variant} (hv : v.ind < ts.size)
    (hn : ts.size ≤ variant_npos) : v.valueless_by_exception = false := by
  unfold valueless_by_exception index
  exact beq_false_of_ne (by omega)

theorem destroy_of_lt {ts : Alternatives} {v : variant} (hv : v.ind < ts.size)
    (hn : ts.size ≤ variant_npos) :
    v.destroy_internal_value ts = Except.ok { ind := v.ind, val := none } := by
  unfold destroy_internal_value visit_index fmatrix_index index
  rw [if_pos (by omega), at_impl_range_lt hv]
  rfl

/-- C35, where the code departs from it: for a variant `v` that holds an alternative and a
valueless variant `w`, the copy assignment `v = w` destroys the alternative of `v` and makes
`v` valueless, and then does not return: it goes on to `details::visit_index` on `w`, which
subscripts the table of `sizeof...(Ts)` entries with `variant_npos`. The move assignment
returns at this point and leaves `v` valueless. -/
theorem copy_assign_visits_valueless (ts : Alternatives) (v w : variant)
    (hv : v.ind < ts.size) (hn : ts.size ≤ variant_npos) (hw : w.ind = variant_npos) :
    v.destroy_internal_value ts = Except.ok { ind := v.ind, val := none } ∧
    v.copy_assign ts w =
      copy_assign_visit ts (make_valueless { ind := v.ind, val := none }) w ∧
    v.copy_assign ts w = Except.error (Fault.out_of_bounds ts.size variant_npos) ∧
    v.move_assign ts w = Except.ok { ind := variant_npos, val := none } := by
  have h1 := valueless_of_npos hw
  have h2 := not_valueless_of_lt hv hn
  have h3 := destroy_of_lt hv hn
  have h4 : v.copy_assign ts w =
      copy_assign_visit ts (make_valueless { ind := v.ind, val := none }) w := by
    unfold copy_assign
    rw [h1, h2, h3]
    rfl
  refine ⟨h3, h4, ?_, ?_⟩
  · rw [h4]
    unfold copy_assign_visit visit_index fmatrix_index index
    rw [hw, at_impl_range_ge hn]
    rfl
  · unfold move_assign
    rw [h1, h2, h3]
    rfl

/-- C35 at a concrete input: a `variant` of two alternatives that holds its alternative 0,
and a valueless one. -/
theorem copy_assign_visits_valueless_witness :
    demo_holding.destroy_internal_value demo_alternatives =
      Except.ok { ind := demo_holding.ind, val := none } ∧
    demo_holding.copy_assign demo_alternatives demo_valueless =
      copy_assign_visit demo_alternatives
        (make_valueless { ind := demo_holding.ind, val := none }) demo_valueless ∧
    demo_holding.copy_assign demo_alternatives demo_valueless =
      Except.error (Fault.out_of_bounds demo_alternatives.size variant_npos) ∧
    demo_holding.move_assign demo_alternatives demo_valueless =
      Except.ok { ind := variant_npos, val := none } :=
  copy_assign_visits_valueless demo_alternatives demo_holding demo_valueless (by decide)
    (by decide) rfl

end variant

/-! ## Priorities that tie: the nodes with the largest priority form a chain -/

namespace details

variable {T : Type}

end details

/-! ## Counting the outcomes of the draws of priorities -/

namespace details

end details

/-! ## The expected height when priorities are drawn from the values of `uint32_t` -/

namespace details

variable {T : Type}

end details
